import Mathlib

/-! fastllm: tensor storage and quantization codec.

A shallow embedding of `include/fastllm.h` and `src/fastllm.cpp`.

* `int` values are `Int`; `uint64_t` values are `Nat` kept below `2 ^ 64`, every
  operation on them reduced modulo `2 ^ 64` (`mulU64`, `subU64`, `addU64`); the
  conversions between the two are `toU64` and `toInt32`.
* A call that can end in `ErrorInFastLLM`, or whose behaviour C++ leaves
  undefined, returns `Except Fault _`.
* A host buffer is its size in bytes and its content, `none` for a byte that
  was never written.
* A finite `float` or `double` is the rational number it denotes; every
  operation rounds to the format and is `none` when the result is not finite.
-/

namespace fastllm

/-! ## Machine integers and failures -/

/-- How a call can end without a result. -/
inductive Fault where
  /-- `ErrorInFastLLM`, or an `AssertInFastLLM` whose condition is false. -/
  | fatal
  /-- Behaviour that C++ leaves undefined: an access outside a vector or
  buffer, a division by zero, an overflowing `int` product. -/
  | undefined
  /-- A floating-point value that is not a finite number, or the conversion of
  one to an integer: outside the arithmetic of this development. -/
  | nonfinite
  deriving DecidableEq, Repr

/-- Modelled from the spec: `ErrorInFastLLM` is declared in `utils.h`, which is
not among the sources; section 7 of the specification makes every signalled
error fatal to the current call, so the call ends here. -/
def ErrorInFastLLM {α : Type} : Except Fault α := .error .fatal

/-- Modelled from the spec: `AssertInFastLLM(condition, message)` is declared in
`utils.h`, which is not among the sources; a false condition is an
`ErrorInFastLLM`. -/
def AssertInFastLLM (condition : Bool) : Except Fault Unit :=
  if condition then .ok () else ErrorInFastLLM

/-- The fault a call ended with, if it did. -/
def faultOf {α : Type} : Except Fault α → Option Fault
  | .error f => some f
  | .ok _ => none

/-- The number of `uint64_t` values, `2 ^ 64`. -/
def U64 : Nat := 2 ^ 64

/-- Conversion of an `int` to `uint64_t` (a negative value wraps). -/
def toU64 (i : Int) : Nat := (i % (2 ^ 64 : Int)).toNat

/-- Product of two `uint64_t`. -/
def mulU64 (a b : Nat) : Nat := (a * b) % U64

/-- Sum of two `uint64_t`. -/
def addU64 (a b : Nat) : Nat := (a + b) % U64

/-- Difference of two `uint64_t` (both below `2 ^ 64`). -/
def subU64 (a b : Nat) : Nat := (a + U64 - b) % U64

/-- Conversion of a `uint64_t` to `int`: the low 32 bits, two's complement. -/
def toInt32 (n : Nat) : Int :=
  if n % 2 ^ 32 < 2 ^ 31 then ((n % 2 ^ 32 : Nat) : Int) else ((n % 2 ^ 32 : Nat) : Int) - 2 ^ 32

/-- An `int` value. -/
def IsInt32 (i : Int) : Prop := -(2 ^ 31 : Int) ≤ i ∧ i < 2 ^ 31

instance (i : Int) : Decidable (IsInt32 i) := by unfold IsInt32; infer_instance

/-! ## The tensor -/

/-- The enumeration `DataType`. -/
inductive DataType where
  | FLOAT32 | BFLOAT16 | INT16 | INT8 | INT4 | INT2 | BIT | FLOAT16 | INT32PARAM
  deriving DecidableEq, Repr

/-- The enumeration `DataDevice`. -/
inductive DataDevice where
  | CPU | CUDA
  deriving DecidableEq, Repr

/-- A buffer obtained from `new uint8_t[size]`: `byte p` is the content of byte
`p`, `none` while the byte has not been written. -/
structure Buffer where
  size : Nat
  byte : Nat → Option Nat

/-- The fields of `struct Data` that shape, reservation and the host buffer use. -/
structure Data where
  dataType : DataType
  unitSize : Int
  unitSizeDiv : Int
  dims : List Int
  strides : List Nat
  expansionSize : Nat
  expansionBytes : Nat
  expansionDims : List Int
  cpuData : Option Buffer
  dataDevice : DataDevice

/-- The state left by the default member initialisers (`Data ()`); `unitSize`
has no initialiser in the header and is written by `UpdateUnitSize` before any
use. -/
def Data.init : Data :=
  { dataType := .FLOAT32, unitSize := 0, unitSizeDiv := 1, dims := [], strides := [],
    expansionSize := 0, expansionBytes := 0, expansionDims := [], cpuData := none,
    dataDevice := .CPU }

/-- `Data::UpdateUnitSize`. -/
def UpdateUnitSize (d : Data) : Data :=
  match d.dataType with
  | .FLOAT32 => { d with unitSize := 4, unitSizeDiv := 1 }
  | .BFLOAT16 | .INT16 | .FLOAT16 => { d with unitSize := 2, unitSizeDiv := 1 }
  | .INT8 => { d with unitSize := 1, unitSizeDiv := 1 }
  | .INT4 => { d with unitSize := 1, unitSizeDiv := 2 }
  | .INT2 => { d with unitSize := 1, unitSizeDiv := 4 }
  | .BIT => { d with unitSize := 1, unitSizeDiv := 8 }
  | .INT32PARAM => { d with unitSize := 4, unitSizeDiv := 1 }

/-- The stride loop of `Resize` and `Expansion` over the extents `ext`:
`strides[last] = 1`, `strides[i] = ext[i + 1] * strides[i + 1]` in `uint64_t`. -/
def strideList : List Int → List Nat
  | [] => []
  | [_] => [1]
  | _ :: e :: es => mulU64 (toU64 e) ((strideList (e :: es)).headD 1) :: strideList (e :: es)

/-- `Data::Resize`. With no reservation the strides are rebuilt; `strides.back()`
on an empty shape is undefined. -/
def Resize (d : Data) (dims : List Int) : Except Fault Data :=
  let d1 := UpdateUnitSize { d with dims := dims }
  if d1.expansionDims.length = 0 then
    if dims.length = 0 then .error .undefined
    else .ok { d1 with strides := strideList dims }
  else .ok d1

/-- The constructor `Data (DataType type)`. -/
def Data.ofType (type : DataType) : Data :=
  UpdateUnitSize { Data.init with dataType := type }

/-- The constructor `Data (DataType type, const std::vector <int> &dims)`. -/
def Data.ofTypeDims (type : DataType) (dims : List Int) : Except Fault Data :=
  Resize { Data.init with dataType := type } dims

/-- Element `i` of a vector, undefined outside it. -/
def at? {α : Type} (xs : List α) (i : Nat) : Except Fault α :=
  match xs[i]? with
  | some x => .ok x
  | none => .error .undefined

/-- `Data::Count`. The comparisons of the `int` index with `size()` are
unsigned. -/
def Count (d : Data) (i : Int) : Except Fault Nat :=
  if d.dims.length ≤ toU64 i then .ok 1
  else if 0 ≤ i - 1 ∧ toU64 (i - 1) < d.strides.length then at? d.strides (toU64 (i - 1))
  else do
    let di ← at? d.dims (toU64 i)
    let si ← at? d.strides (toU64 i)
    .ok (mulU64 (toU64 di) si)

/-- `Data::GetBytes`. -/
def GetBytes (d : Data) : Except Fault Nat := do
  let s0 ← at? d.strides 0
  let d0 ← at? d.dims 0
  if toU64 d.unitSizeDiv = 0 then .error .undefined
  else
    .ok (addU64 (subU64 (mulU64 (mulU64 s0 (toU64 d0)) (toU64 d.unitSize)) 1
      / toU64 d.unitSizeDiv) 1)

/-- The loop `for (int i : dims) old *= i` of `Reshape`. -/
def prodU64 (dims : List Int) : Nat :=
  dims.foldl (fun acc i => mulU64 acc (toU64 i)) 1

/-- The scanning loop of `Reshape` from position `i` on: `index` is the
position of the placeholder found so far (`-1` for none), `mul` the product of
the entries that are not negative; a second negative entry is an error. -/
def reshapeScan : List Int → Int → Int → Nat → Except Fault (Int × Nat)
  | [], _, index, mul => .ok (index, mul)
  | x :: xs, i, index, mul =>
    if x < 0 then
      if index = -1 then reshapeScan xs (i + 1) i mul
      else ErrorInFastLLM
    else reshapeScan xs (i + 1) index (mulU64 mul (toU64 x))

/-- `Data::Reshape`. -/
def Reshape (d : Data) (dims : List Int) : Except Fault Data := do
  let old := prodU64 d.dims
  let (index, mul) ← reshapeScan dims 0 (-1) 1
  if index = -1 then
    AssertInFastLLM (mul == old)
    Resize d dims
  else
    AssertInFastLLM (mul != 0)
    AssertInFastLLM (old % mul == 0)
    Resize d (dims.set index.toNat (toInt32 (old / mul)))

/-- The tensor that `Data (type, dims)` builds for a non-empty shape. -/
def Data.shaped (type : DataType) (dims : List Int) : Data :=
  { UpdateUnitSize { Data.init with dataType := type, dims := dims } with
    strides := strideList dims }

/-! ## The host buffer -/

/-- A buffer holding the given bytes. -/
def Buffer.ofList (l : List Nat) : Buffer := { size := l.length, byte := fun p => l[p]? }

/-- The result of `new uint8_t[size]`: no byte written yet. -/
def Buffer.fresh (size : Nat) : Buffer := { size := size, byte := fun _ => none }

/-- The call `memcpy (dst + dOff, src + sOff, n)`: undefined unless both ranges
lie inside their buffers. -/
def memcpy (dst : Buffer) (dOff : Int) (src : Buffer) (sOff : Int) (n : Nat) :
    Except Fault Buffer :=
  if 0 ≤ dOff ∧ dOff.toNat + n ≤ dst.size ∧ 0 ≤ sOff ∧ sOff.toNat + n ≤ src.size then
    .ok { dst with
      byte := fun p =>
        if dOff.toNat ≤ p ∧ p < dOff.toNat + n then src.byte (p - dOff.toNat + sOff.toNat)
        else dst.byte p }
  else .error .undefined

/-- Product of two `int`: an overflow is undefined. -/
def mulInt (a b : Int) : Except Fault Int :=
  if IsInt32 (a * b) then .ok (a * b) else .error .undefined

/-- Sum of two `int`: an overflow is undefined. -/
def addInt (a b : Int) : Except Fault Int :=
  if IsInt32 (a + b) then .ok (a + b) else .error .undefined

/-- `Data::MallocSpace` in a build without `USE_CUDA`. -/
def MallocSpace (d : Data) (size : Nat) : Except Fault Data :=
  if toU64 d.unitSizeDiv = 0 then .error .undefined
  else
    let bytes := addU64 (subU64 (mulU64 size (toU64 d.unitSize)) 1 / toU64 d.unitSizeDiv) 1
    match d.dataDevice with
    | .CPU =>
      .ok { d with expansionSize := size, expansionBytes := bytes,
                   cpuData := some (Buffer.fresh bytes) }
    | .CUDA => ErrorInFastLLM

/-- `Data::FreeSpace` in a build without `USE_CUDA`; the pointer `cpuData`
dangles after `delete[]`, here it holds no buffer. -/
def FreeSpace (d : Data) : Except Fault Data :=
  match d.dataDevice with
  | .CPU => .ok { d with expansionSize := 0, expansionBytes := 0, cpuData := none }
  | .CUDA => ErrorInFastLLM

/-- `Data::Allocate ()`. -/
def Allocate (d : Data) : Except Fault Data := do
  let c ← Count d 0
  if c > d.expansionSize then
    let d1 ← FreeSpace d
    let c1 ← Count d1 0
    MallocSpace d1 c1
  else .ok d

/-- The assertion loop of `Expansion`: every requested extent is `-1` or at
least the current one. -/
def expansionCheck : List Int → List Int → Except Fault Unit
  | r :: rs, c :: cs => do
    AssertInFastLLM (r == -1 || decide (r ≥ c))
    expansionCheck rs cs
  | _, _ => .ok ()

/-- The assertions that open the second part of `Expansion`: the request has
the rank of the shape and every requested extent is `-1` or at least the
current one. They read the tensor and assign no member. -/
def expansionValidate (d : Data) (dims : List Int) : Except Fault Unit := do
  AssertInFastLLM (dims.length == d.dims.length)
  expansionCheck dims d.dims

/-- The search loop of `Expansion` from position `i` on: the first axis whose
current extent is below the requested one, `-1` if there is none. -/
def expansionAxis : List Int → List Int → Int → Int
  | c :: cs, r :: rs, i => if c < r then i else expansionAxis cs rs (i + 1)
  | _, _, _ => -1

/-- The copy loop of `Expansion`, `n` iterations from `o` on. -/
def expansionCopy (src : Buffer) (input0Stride input1Stride unitSize dimAxis inner : Int) :
    Nat → Int → Buffer → Except Fault Buffer
  | 0, _, dst => .ok dst
  | n + 1, o, dst => do
    let dOff ← mulInt (← mulInt o input0Stride) unitSize
    let sOff ← mulInt (← mulInt o input1Stride) unitSize
    let len ← mulInt (← mulInt dimAxis inner) unitSize
    let dst1 ← memcpy dst dOff src sOff (toU64 len)
    expansionCopy src input0Stride input1Stride unitSize dimAxis inner n (o + 1) dst1

/-- `Data::Expansion` in a build without `USE_CUDA`. -/
def Expansion (d : Data) (dims : List Int) : Except Fault Data :=
  if d.dims.length = 0 then
    if dims.length = 0 then .error .undefined
    else do
      let d1 := { d with strides := strideList dims, expansionDims := dims }
      let s0 ← at? d1.strides 0
      let d0 ← at? dims 0
      MallocSpace d1 (mulU64 s0 (toU64 d0))
  else do
    AssertInFastLLM (dims.length == d.dims.length)
    expansionCheck dims d.dims
    let axis := expansionAxis d.dims dims 0
    let _oldBytes ← GetBytes d
    let input1Stride := toInt32 (← Count d axis)
    let d1 := { d with strides := strideList (List.zipWith max d.dims dims),
                       expansionDims := dims }
    let s0 ← at? d1.strides 0
    let c0 ← at? d.dims 0
    let r0 ← at? dims 0
    let size := mulU64 s0 (toU64 (max c0 r0))
    if d1.expansionBytes ≠ 0 then
      match d1.dataDevice with
      | .CPU =>
        let d2 ← MallocSpace d1 size
        let cnt0 ← Count d2 0
        let cntAxis ← Count d2 axis
        if cntAxis = 0 then .error .undefined
        else
          let outer := toInt32 (cnt0 / cntAxis)
          let input0Stride := toInt32 cntAxis
          let inner := toInt32 (← at? d2.strides (toU64 axis))
          let dimAxis ← at? d2.dims (toU64 axis)
          match d.cpuData, d2.cpuData with
          | some old, some new =>
            let buf ← expansionCopy old input0Stride input1Stride d2.unitSize dimAxis inner
              outer.toNat 0 new
            .ok { d2 with cpuData := some buf }
          | _, _ => .error .undefined
      | .CUDA => ErrorInFastLLM
    else MallocSpace d1 size

/-! ## Addressing elements -/

/-- The element offset of a multi-index under the strides: the sum of
`index[j] * strides[j]`. -/
def offsetOf (strides : List Nat) (index : List Nat) : Nat :=
  (List.zipWith (fun i s => i * s) index strides).sum

/-- The multi-index lies within the shape. -/
def InShape (index : List Nat) (dims : List Int) : Prop :=
  List.Forall₂ (fun (i : Nat) (n : Int) => (i : Int) < n) index dims

/-- Byte `k` of the element at a multi-index of a host tensor of a whole-byte
kind: `none` if there is no buffer, `some none` if the byte was never written. -/
def elementByte (d : Data) (index : List Nat) (k : Nat) : Option (Option Nat) :=
  d.cpuData.map (fun b => b.byte (offsetOf d.strides index * d.unitSize.toNat + k))

/-- A shape given by natural numbers, as the `int` vector the code holds. -/
def castDims (l : List Nat) : List Int := List.map (fun (n : Nat) => (n : Int)) l

/-- Row-major strides of natural-number extents, without wrapping: each stride
is the product of the extents after it. -/
def natStrides : List Nat → List Nat
  | [] => []
  | _ :: xs => xs.prod :: natStrides xs

/-- The position of a multi-index in row-major order among the axes `pre`. -/
def outerIndex : List Nat → List Nat → Nat
  | _ :: ps, i :: is => i * ps.prod + outerIndex ps is
  | _, _ => 0

/-- A tensor of a whole-byte element kind whose `unitSize` and `unitSizeDiv`
are those of its kind. -/
def WholeByte (d : Data) : Prop :=
  UpdateUnitSize d = d ∧ d.unitSizeDiv = 1

/-- A request entry that does not raise its axis: `-1` or the current extent. -/
def Unchanged (r : Int) (c : Nat) : Prop := r = -1 ∨ r = (c : Int)

/-- The value of `Count (axis)` for the axis after `pre`, in a layout whose
logical extent on that axis is `a` and whose strides are built from the extent
`e`, with `P` elements per index of the axis: `Count (0)` multiplies the
logical extent, every other `Count (axis)` is the stride before the axis. -/
def sliceSpan (pre : List Nat) (a e P : Nat) : Nat :=
  if pre = [] then a * P else e * P

/-- The tensor `Data (type, dims)` after `Allocate ()`, its buffer filled with
the given bytes. -/
def Data.filled (type : DataType) (dims : List Int) (bytes : List Nat) : Data :=
  { Data.shaped type dims with
    expansionSize := prodU64 dims, expansionBytes := bytes.length,
    cpuData := some (Buffer.ofList bytes) }

/-- The tensor after the caller has written the given bytes to the start of
its host buffer. -/
def Data.written (d : Data) (bytes : List Nat) : Data :=
  { d with
    cpuData := d.cpuData.map fun b =>
      { b with byte := fun p => if p < bytes.length ∧ p < b.size then bytes[p]? else b.byte p } }

/-- The setting of a reservation that grows one axis: a materialized host
tensor `d` of a whole-byte kind with buffer `buf`, of shape `pre ++ a :: post`
without a zero extent, whose strides are built from the extents
`pre ++ a' :: post` (`a'` is the extent reserved so far on the axis; it does not
enter the strides when the axis is the first), whose buffer holds the elements
of these extents; a request `rpre ++ b :: rpost` that raises the axis to `b`
and leaves every other axis (`-1` or the current extent); the old and the new
layout below `2 ^ 31` bytes and the rank below `2 ^ 31`, so that the `int`
variables of the copy loop hold their values. -/
structure RaisesOneAxis (d : Data) (buf : Buffer) (pre post : List Nat) (a a' b : Nat)
    (rpre rpost : List Int) : Prop where
  wholeByte : WholeByte d
  host : d.dataDevice = .CPU
  buffer : d.cpuData = some buf
  materialized : d.expansionBytes ≠ 0
  dims_eq : d.dims = castDims (pre ++ a :: post)
  strides_eq : d.strides = strideList (castDims (pre ++ a' :: post))
  rank_lt : (pre ++ a :: post).length < 2 ^ 31
  extents_pos : ∀ y ∈ pre ++ a :: post, 0 < y
  reserved : a ≤ a'
  reserved_first : pre = [] → a' = a
  raised : a < b
  before : List.Forall₂ Unchanged rpre pre
  after : List.Forall₂ Unchanged rpost post
  holds : (pre ++ a' :: post).prod * d.unitSize.toNat ≤ buf.size
  old_lt : (pre ++ a' :: post).prod * d.unitSize.toNat < 2 ^ 31
  new_lt : (pre ++ b :: post).prod * d.unitSize.toNat < 2 ^ 31

/-! ## Reference quantities of the specification -/

/-- The product of the extents, each converted to `uint64_t`, without wrapping. -/
def prodN (dims : List Int) : Nat := (dims.map toU64).prod

/-- Bits per element of an element kind. -/
def bitWidth : DataType → Nat
  | .FLOAT32 => 32
  | .BFLOAT16 | .INT16 | .FLOAT16 => 16
  | .INT8 => 8
  | .INT4 => 4
  | .INT2 => 2
  | .BIT => 1
  | .INT32PARAM => 32

/-- The reference byte count of the specification for `e` elements of a kind:
`ceil (e * b / 8)`. -/
def referenceBytes (kind : DataType) (e : Nat) : Nat := (e * bitWidth kind + 7) / 8

/-- The number of negative entries (placeholders) of a target shape. -/
def placeholders (dims : List Int) : Nat := dims.countP (fun x => decide (x < 0))

/-- The product, in `uint64_t`, of the entries of a target shape that are not
negative. -/
def explicitProduct (dims : List Int) : Nat :=
  prodU64 (dims.filter (fun x => !decide (x < 0)))

end fastllm

namespace fastllm

/-! ## Floating point

A finite `float` or `double` is the rational number it denotes. Every
arithmetic operation rounds its exact result to the format, to nearest with
ties to even; a result that is not a finite number (overflow, division by
zero, an invalid operation) is `none`, and so is a conversion to `uint8_t`
whose value does not fit. Signed zeros are not distinguished. -/

/-- Rounding to the nearest integer, ties to the even one. -/
def roundHalfEven (q : ℚ) : ℤ :=
  if q - ⌊q⌋ < 1 / 2 then ⌊q⌋
  else if 1 / 2 < q - ⌊q⌋ then ⌊q⌋ + 1
  else if ⌊q⌋ % 2 = 0 then ⌊q⌋ else ⌊q⌋ + 1

/-- Rounding to the nearest integer, ties away from zero (`std::round`). -/
def roundHalfAway (q : ℚ) : ℤ :=
  if 0 ≤ q then ⌊q + 1 / 2⌋ else -⌊-q + 1 / 2⌋

/-- The exponent of the unit in the last place of `q` in a binary format with
`p` significant bits and least exponent `emin`. -/
def ulpExp (p : ℕ) (emin : ℤ) (q : ℚ) : ℤ := max (Int.log 2 |q| + 1 - p) emin

/-- Rounding to a binary format with `p` significant bits and least exponent
`emin`, exponent range unbounded above. -/
def roundTo (p : ℕ) (emin : ℤ) (q : ℚ) : ℚ :=
  roundHalfEven (q / 2 ^ ulpExp p emin q) * 2 ^ ulpExp p emin q

/-- The largest finite `float`, `(2 ^ 24 - 1) * 2 ^ 104`. -/
def maxF32 : ℚ := (2 ^ 24 - 1) * 2 ^ 104

/-- The largest finite `double`, `(2 ^ 53 - 1) * 2 ^ 971`. -/
def maxF64 : ℚ := (2 ^ 53 - 1) * 2 ^ 971

/-- The `float` nearest to an exact result, `none` on overflow. -/
def toF32 (q : ℚ) : Option ℚ :=
  if |roundTo 24 (-149) q| ≤ maxF32 then some (roundTo 24 (-149) q) else none

/-- The `double` nearest to an exact result, `none` on overflow. -/
def toF64 (q : ℚ) : Option ℚ :=
  if |roundTo 53 (-1074) q| ≤ maxF64 then some (roundTo 53 (-1074) q) else none

/-- Division of two `float`; a zero divisor gives an infinity or a NaN. -/
def divF32 (x y : ℚ) : Option ℚ := if y = 0 then none else toF32 (x / y)

/-- Sum of two `float`. -/
def addF32 (x y : ℚ) : Option ℚ := toF32 (x + y)

/-- Difference of two `float`. -/
def subF32 (x y : ℚ) : Option ℚ := toF32 (x - y)

/-- Product of two `float`. -/
def mulF32 (x y : ℚ) : Option ℚ := toF32 (x * y)

/-- Sum of two `double`. -/
def addF64 (x y : ℚ) : Option ℚ := toF64 (x + y)

/-- Conversion of a floating-point value to `uint8_t`: the value is truncated
toward zero; the behaviour is undefined unless the result is in `0 .. 255`. -/
def toUInt8 (q : ℚ) : Option ℕ :=
  if -1 < q ∧ q < 256 then some (if 0 ≤ q then ⌊q⌋.toNat else 0) else none

/-- `std::min (a, b)`, which is `(b < a) ? b : a`. -/
def stdMin (a b : ℚ) : ℚ := if b < a then b else a

/-- `std::max (a, b)`, which is `(a < b) ? b : a`. -/
def stdMax (a b : ℚ) : ℚ := if a < b then b else a

/-- The `int` expression `(1 << bit) - 1`, undefined unless `0 <= bit < 31`. -/
def shiftMask (bit : ℤ) : Option ℤ :=
  if 0 ≤ bit ∧ bit < 31 then some (2 ^ bit.toNat - 1) else none

/-- The fields of `struct LowBitConfig`. -/
structure LowBitConfig where
  bit : ℤ
  min : ℚ
  max : ℚ
  zeroPoint : ℕ
  scale : ℚ
  deriving DecidableEq

/-- `LowBitConfig::Reset` on a config holding `min`, `max`, `bit`, which is
what the constructor `LowBitConfig (min, max, bit)` does. -/
def LowBitConfig.Reset (min max : ℚ) (bit : ℤ) : Option LowBitConfig := do
  let min := stdMin min 0
  let max := stdMax max 0
  let qmin : ℚ := 0
  let qmax ← (← shiftMask bit).cast |> toF32
  let scale ← divF32 (← subF32 max min) (← subF32 qmax qmin)
  let initial_zero_point ← subF32 qmin (← divF32 min scale)
  let zeroPoint ←
    if initial_zero_point < qmin then toUInt8 qmin
    else if initial_zero_point > qmax then toUInt8 qmax
    else toUInt8 (roundHalfAway initial_zero_point)
  pure { bit := bit, min := min, max := max, zeroPoint := zeroPoint, scale := scale }

/-- `LowBitConfig::quantization`: the quotient and the first sum are `float`
operations, the sum with `0.5` and the clamping are `double` operations. -/
def LowBitConfig.quantization (c : LowBitConfig) (realNumber : ℚ) : Option ℕ := do
  let qmax ← shiftMask c.bit
  let v ← addF32 (← divF32 realNumber c.scale) c.zeroPoint
  let w ← addF64 v (1 / 2)
  toUInt8 (stdMin (qmax : ℚ) (stdMax w 0))

/-- `LowBitConfig::invQuantization`. -/
def LowBitConfig.invQuantization (c : LowBitConfig) (qNumber : ℕ) : Option ℚ := do
  mulF32 c.scale (← subF32 qNumber c.zeroPoint)

/-- The config that `LowBitConfig (-1, 1, 8)` builds: the scale is the `float`
nearest to `2 / 255`, which is `8421505 / 2 ^ 30`. -/
def LowBitConfig.unitRange8 : LowBitConfig :=
  { bit := 8, min := -1, max := 1, zeroPoint := 127, scale := 8421505 / 1073741824 }

/-- The config of `LowBitConfig (-1, 1, 8)` with the field `bit` set to 4. -/
def LowBitConfig.unitRange8Bit4 : LowBitConfig := { LowBitConfig.unitRange8 with bit := 4 }

/-- The largest code of a bit width, `2 ^ bit - 1`. -/
def qmaxOf (bit : ℤ) : ℤ := 2 ^ bit.toNat - 1

/-- Clamping of an integer to the codes `0 .. 2 ^ bit - 1`. -/
def clampCode (bit : ℤ) (n : ℤ) : ℕ := (max 0 (min (qmaxOf bit) n)).toNat

/-- The `float` value of the expression `realNumber / scale + zeroPoint`. -/
def LowBitConfig.scaled (c : LowBitConfig) (realNumber : ℚ) : Option ℚ := do
  addF32 (← divF32 realNumber c.scale) c.zeroPoint

/-- The codec of the specification, section 4.2: the range is clamped so that
`min ≤ 0 ≤ max`, `qmax = 2 ^ b - 1`, `scale = (max - min) / qmax`, the candidate
zero point `-min / scale` is clamped to `[0, qmax]` and rounded to the nearest
integer, ties away from zero. The subtraction and the divisions are `float`
operations. -/
def LowBitConfig.ResetSpec (min max : ℚ) (bit : ℤ) : Option LowBitConfig := do
  let lo := Min.min min 0
  let hi := Max.max max 0
  let qmax : ℚ := qmaxOf bit
  let scale ← divF32 (← subF32 hi lo) qmax
  let candidate := -(← divF32 lo scale)
  let clamped := Max.max 0 (Min.min qmax candidate)
  pure { bit := bit, min := lo, max := hi, zeroPoint := (roundHalfAway clamped).toNat,
         scale := scale }

end fastllm

namespace fastllm

/-! ## Weight files

A file is the sequence of its bytes. The `int` and `float` members are
written and read in the byte order of the host, which is little-endian as in
the file format; `char` is signed. Writing never fails. -/

/-- The little-endian value of a sequence of bytes. -/
def leValue : List Nat → Nat
  | [] => 0
  | b :: bs => b + 256 * leValue bs

/-- The `n` little-endian bytes of a value. -/
def leBytes : Nat → Nat → List Nat
  | 0, _ => []
  | n + 1, v => v % 256 :: leBytes n (v / 256)

/-- The value of a 32-bit pattern read as a `float`: `none` for an infinity or
a NaN. -/
def decodeF32 (bits : Nat) : Option ℚ :=
  if bits / 2 ^ 23 % 256 = 255 then none
  else if bits / 2 ^ 23 % 256 = 0 then
    some ((if bits / 2 ^ 31 % 2 = 1 then -1 else 1) * ((bits % 2 ^ 23 : Nat) : ℚ) / 2 ^ 149)
  else
    some ((if bits / 2 ^ 31 % 2 = 1 then -1 else 1) * ((2 ^ 23 + bits % 2 ^ 23 : Nat) : ℚ)
      * 2 ^ (((bits / 2 ^ 23 % 256 : Nat) : Int) - 150))

/-- The 32-bit pattern of a finite `float`. -/
def encodeF32 (q : ℚ) : Nat :=
  if q = 0 then 0
  else
    (if q < 0 then 2 ^ 31 else 0) +
      (if Int.log 2 |q| < -126 then ⌊|q| * 2 ^ 149⌋.toNat
       else (Int.log 2 |q| + 127).toNat * 2 ^ 23
         + (⌊|q| / 2 ^ (Int.log 2 |q| - 23)⌋.toNat - 2 ^ 23))

/-- `struct FileBuffer`: the bytes of the file that are not read yet, and the
position of the next read (`ftell`). -/
structure FileBuffer where
  rest : List Nat
  pos : Nat

/-- The idiom `if (fread (v, 1, n, f) != n) ErrorInFastLLM (...)`. -/
def FileBuffer.read (f : FileBuffer) (n : Nat) : Except Fault (List Nat × FileBuffer) :=
  if n ≤ f.rest.length then .ok (f.rest.take n, { rest := f.rest.drop n, pos := f.pos + n })
  else ErrorInFastLLM

/-- `FileBuffer::ReadInt`. -/
def FileBuffer.ReadInt (f : FileBuffer) : Except Fault (Int × FileBuffer) := do
  let (v, f) ← f.read 4
  .ok (toInt32 (leValue v), f)

/-- `FileBuffer::ReadFloat`. -/
def FileBuffer.ReadFloat (f : FileBuffer) : Except Fault (ℚ × FileBuffer) := do
  let (v, f) ← f.read 4
  match decodeF32 (leValue v) with
  | some q => .ok (q, f)
  | none => .error .nonfinite

/-- `FileBuffer::ReadString`. The function returns the `char *` buffer `v`, and
the conversion to `std::string` ends at the first zero byte. A negative length
makes `new char[len + 5]` or `v[len] = 0` undefined. -/
def FileBuffer.ReadString (f : FileBuffer) : Except Fault (List Nat × FileBuffer) := do
  let (len, f) ← f.ReadInt
  if len < 0 then .error .undefined
  else
    let (v, f) ← f.read len.toNat
    .ok (v.takeWhile (fun c => c != 0), f)

/-- `FileBuffer::ReadBytes` into a host buffer. -/
def FileBuffer.ReadBytes (f : FileBuffer) (buffer : Option Buffer) (bytes : Nat) :
    Except Fault (Option Buffer × FileBuffer) :=
  match buffer with
  | none => if bytes = 0 then .ok (none, f) else .error .undefined
  | some b =>
    if b.size < bytes then .error .undefined
    else do
      let (v, f) ← f.read bytes
      .ok (some { b with byte := fun p => if p < bytes then v[p]? else b.byte p }, f)

/-- `fseek (f, n, SEEK_CUR)`. -/
def FileBuffer.seek (f : FileBuffer) (n : Nat) : FileBuffer :=
  { rest := f.rest.drop n, pos := f.pos + n }

/-- `FileWriter::WriteInt` on the bytes written so far. -/
def WriteInt (f : List Nat) (v : Int) : List Nat := f ++ leBytes 4 (toU64 v % 2 ^ 32)

/-- `FileWriter::WriteFloat`. -/
def WriteFloat (f : List Nat) (v : ℚ) : List Nat := f ++ leBytes 4 (encodeF32 v)

/-- `FileWriter::WriteString`: the length as `int`, then that many bytes. -/
def WriteString (f : List Nat) (s : List Nat) : Except Fault (List Nat) :=
  if s.length < 2 ^ 31 then .ok (WriteInt f (s.length : Int) ++ s) else .error .undefined

/-- The `n` bytes of a buffer from `off` on; a byte that was never written has
no value to read. -/
def Buffer.bytesFrom (b : Buffer) : Nat → Nat → Except Fault (List Nat)
  | _, 0 => .ok []
  | off, n + 1 =>
    match b.byte off with
    | some v => do
      let vs ← b.bytesFrom (off + 1) n
      .ok (v :: vs)
    | none => .error .undefined

/-- The bytes `off .. off + n - 1` of a host buffer; reading outside the
buffer, or a byte that was never written, is undefined. -/
def bytesAt (buffer : Option Buffer) (off n : Nat) : Except Fault (List Nat) :=
  match buffer with
  | none => if n = 0 then .ok [] else .error .undefined
  | some b => if b.size < off + n then .error .undefined else b.bytesFrom off n

/-- `FileWriter::WriteBytes` from a host buffer. -/
def WriteBytes (f : List Nat) (buffer : Option Buffer) (bytes : Nat) : Except Fault (List Nat) := do
  let v ← bytesAt buffer 0 bytes
  .ok (f ++ v)

/-- The enumeration `WeightType`. -/
inductive WeightType where
  | NONE | LINEAR | EMBEDDING
  deriving DecidableEq, Repr

/-- The integer of an enumerator of `DataType`. -/
def DataType.toInt : DataType → Int
  | .FLOAT32 => 0 | .BFLOAT16 => 1 | .INT16 => 2 | .INT8 => 3 | .INT4 => 4
  | .INT2 => 5 | .BIT => 6 | .FLOAT16 => 7 | .INT32PARAM => 100

/-- The cast `(DataType) tag`. A tag that is no enumerator leaves `unitSize`
without a value in `UpdateUnitSize`; the record is then undefined here. -/
def DataType.ofInt (tag : Int) : Except Fault DataType :=
  if tag = 0 then .ok .FLOAT32 else if tag = 1 then .ok .BFLOAT16
  else if tag = 2 then .ok .INT16 else if tag = 3 then .ok .INT8
  else if tag = 4 then .ok .INT4 else if tag = 5 then .ok .INT2
  else if tag = 6 then .ok .BIT else if tag = 7 then .ok .FLOAT16
  else if tag = 100 then .ok .INT32PARAM else .error .undefined

/-- `struct Data` with the members that the weight store reads and writes. -/
structure WeightData extends Data where
  weightType : WeightType := .NONE
  perChannelAxis : Int := -1
  perChannelsConfigs : List LowBitConfig := []
  scales : List ℚ := []
  zeros : List Int := []
  weightSum : List Int := []
  fileName : List Nat := []
  filePos : Int := 0

/-- The order of `std::string`: lexicographic on the bytes. -/
def bytesLt : List Nat → List Nat → Bool
  | _, [] => false
  | [], _ :: _ => true
  | a :: as, b :: bs => if a < b then true else if b < a then false else bytesLt as bs

/-- The assignment `m[key] = value` on a `std::map` with string keys, whose
entries are listed in key order. -/
def mapSet {V : Type} (m : List (List Nat × V)) (key : List Nat) (value : V) :
    List (List Nat × V) :=
  match m with
  | [] => [(key, value)]
  | (k, v) :: rest =>
    if bytesLt key k then (key, value) :: (k, v) :: rest
    else if bytesLt k key then (k, v) :: mapSet rest key value
    else (key, value) :: rest

/-- The assignment `m[key] = value` on a `std::unordered_map` with `int` keys.
The order of iteration is unspecified; here a new key comes first. -/
def unorderedSet {V : Type} (m : List (Int × V)) (key : Int) (value : V) : List (Int × V) :=
  if m.any (fun e => e.1 == key) then m.map (fun e => if e.1 == key then (key, value) else e)
  else (key, value) :: m

/-- The member `tokenToStringDict` of `struct Tokenizer`; the trie is the
concern of the tokenizer and is left out. -/
structure Tokenizer where
  tokenToStringDict : List (Int × List Nat)

/-- `Tokenizer::Insert`, as far as the table goes. -/
def Tokenizer.Insert (t : Tokenizer) (s : List Nat) (tokenId : Int) : Tokenizer :=
  { tokenToStringDict := unorderedSet t.tokenToStringDict tokenId s }

/-- `struct WeightMap`. -/
structure WeightMap where
  versionId : Int
  tokenizer : Tokenizer
  dicts : List (List Nat × List Nat)
  weight : List (List Nat × WeightData)
  embeddingNames : List (List Nat)

/-- A `for` loop over an `int` variable that starts at `j` and runs `n` times. -/
def forInt {σ : Type} (body : Int → σ → Except Fault σ) : Nat → Int → σ → Except Fault σ
  | 0, _, s => .ok s
  | n + 1, j, s => do
    let s ← body j s
    forInt body n (j + 1) s

/-- The conversion of a `char` to `int`. -/
def charToInt (c : Nat) : Int := if c < 128 then (c : Int) else (c : Int) - 256

/-- The conversion of an `int` to `char`, as a byte. -/
def intToChar (v : Int) : Nat := (v % 256).toNat

/-! ### Reference quantities of the weight file -/

/-- The extremes that a save worker finds for a row, given by its elements. -/
def foldExtremes (xs : List ℚ) : ℚ × ℚ :=
  xs.foldl (fun e x => (stdMin e.1 x, stdMax e.2 x)) (1000000000, -1000000000)

/-- Row `i` of a matrix with `m` columns whose elements are `x`, in row-major
order. -/
def rowOf (x : Nat → ℚ) (m i : Nat) : List ℚ := (List.range m).map (fun j => x (i * m + j))

/-- The 4-bit code at the flat index `p` of packed bytes: the high nibble of
byte `p / 2` when `p` is even, the low nibble when `p` is odd. -/
def nibbleAt (u8 : List Nat) (p : Nat) : Option Nat :=
  (u8[p / 2]?).map (fun b => if p % 2 = 0 then b / 16 else b % 16)

/-- The four bytes of an `int`. -/
def intBytes (v : Int) : List Nat := leBytes 4 (toU64 v % 2 ^ 32)

/-- The bytes of the name and the shape that open the record of a tensor. -/
def recordHead (name : List Nat) (dims : List Int) : List Nat :=
  intBytes (name.length : Int) ++ name ++ intBytes (dims.length : Int) ++ dims.flatMap intBytes

/-- The bytes of the elements of a FLOAT32 tensor of row-major layout, `[]`
where the host buffer does not hold them. -/
def floatBytes (d : WeightData) : List Nat :=
  match bytesAt d.cpuData 0 (prodN d.dims * 4) with
  | .ok l => l
  | .error _ => []

/-- The tensor that `LoadFromFile` builds, in normal mode, from a record with
the shape `dims`, the tag `FLOAT32` and the bytes `l`. -/
def loadedFloat32 (dims : List Int) (l : List Nat) : WeightData :=
  { toData :=
      { Data.shaped .FLOAT32 dims with
        expansionSize := prodN dims, expansionBytes := prodN dims * 4,
        cpuData := some { size := prodN dims * 4,
                          byte := fun p => if p < prodN dims * 4 then l[p]? else none } } }

/-- A tensor of no kind that holds `float` elements in row-major layout: the
element kind FLOAT32 with its unit size, a shape of at least one axis and of
positive extents, the row-major strides of the shape, a byte count below
`2 ^ 64`, and a host buffer whose bytes of the elements are all written. -/
structure PlainFloat32 (d : WeightData) : Prop where
  kind : d.weightType = .NONE
  float32 : d.dataType = .FLOAT32
  unit : d.unitSize = 4
  unitDiv : d.unitSizeDiv = 1
  shaped : d.dims ≠ []
  rank_lt : d.dims.length < 2 ^ 31
  extents : ∀ y ∈ d.dims, 0 < y ∧ y < 2 ^ 31
  row_major : d.strides = strideList d.dims
  fits : prodN d.dims * 4 < 2 ^ 64
  written : ∃ l, bytesAt d.cpuData 0 (prodN d.dims * 4) = .ok l

/-- A string that `WriteString` and `ReadString` carry: shorter than `2 ^ 31`
bytes and without a zero byte. -/
def PlainString (s : List Nat) : Prop := s.length < 2 ^ 31 ∧ ∀ c ∈ s, c ≠ 0

/-! ### Loading -/

/-- The loop of `LoadFromFile` that reads the key-value table. -/
def readDicts : Nat → List (List Nat × List Nat) → FileBuffer →
    Except Fault (List (List Nat × List Nat) × FileBuffer)
  | 0, dicts, f => .ok (dicts, f)
  | n + 1, dicts, f => do
    let (key, f) ← f.ReadString
    let (value, f) ← f.ReadString
    readDicts n (mapSet dicts key value) f

/-- The loop `x += buffer.ReadInt ()` over the characters of a token. -/
def readChars : Nat → List Nat → FileBuffer → Except Fault (List Nat × FileBuffer)
  | 0, x, f => .ok (x, f)
  | n + 1, x, f => do
    let (c, f) ← f.ReadInt
    readChars n (x ++ [intToChar c]) f

/-- The loop of `LoadFromFile` that reads the vocabulary. -/
def readVocab : Nat → Tokenizer → FileBuffer → Except Fault (Tokenizer × FileBuffer)
  | 0, t, f => .ok (t, f)
  | n + 1, t, f => do
    let (len, f) ← f.ReadInt
    let (x, f) ← readChars len.toNat [] f
    let (id, f) ← f.ReadInt
    readVocab n (t.Insert x id) f

/-- The loop of `LoadFromFile` that reads the shape of a tensor. -/
def readDims : Nat → List Int → FileBuffer → Except Fault (List Int × FileBuffer)
  | 0, dims, f => .ok (dims, f)
  | n + 1, dims, f => do
    let (x, f) ← f.ReadInt
    readDims n (dims ++ [x]) f

/-- The constructor `LowBitConfig (min, max, bit)` where the members are
finite numbers. -/
def LowBitConfig.make (min max : ℚ) (bit : ℤ) : Except Fault LowBitConfig :=
  match LowBitConfig.Reset min max bit with
  | some c => .ok c
  | none => .error .nonfinite

/-- The loop of `LoadFromFile` that reads the bounds of the channels and
builds their configs. -/
def readConfigs (bit : Int) : Nat → List LowBitConfig → FileBuffer →
    Except Fault (List LowBitConfig × FileBuffer)
  | 0, configs, f => .ok (configs, f)
  | n + 1, configs, f => do
    let (minValue, f) ← f.ReadFloat
    let (maxValue, f) ← f.ReadFloat
    let c ← LowBitConfig.make minValue maxValue bit
    readConfigs bit n (configs ++ [c]) f

/-- One round of the tensor loop of `LoadFromFile`: the record of one tensor.
`lowMemMode` is the global flag; a `std::length_error` from `resize` ends the
call as an error does. -/
def loadWeight (lowMemMode : Bool) (embeddingNames : List (List Nat)) (fileName : List Nat)
    (weight : List (List Nat × WeightData)) (f : FileBuffer) :
    Except Fault (List (List Nat × WeightData) × FileBuffer) := do
  let (name, f) ← f.ReadString
  let (dimsSize, f) ← f.ReadInt
  let (dims, f) ← readDims dimsSize.toNat [] f
  let (tag, f) ← f.ReadInt
  let dataType ← DataType.ofInt tag
  let d ← Data.ofTypeDims dataType dims
  if lowMemMode && decide (name ∈ embeddingNames) then
    if dataType = .FLOAT32 ∨ dataType = .BFLOAT16 ∨ dataType = .FLOAT16 then
      let bytes ← GetBytes d
      .ok (mapSet weight name { toData := d, fileName := fileName, filePos := f.pos },
        f.seek bytes)
    else ErrorInFastLLM
  else
    let d ← Allocate d
    if dataType = .FLOAT32 ∨ dataType = .BFLOAT16 ∨ dataType = .FLOAT16 then
      let bytes ← GetBytes d
      let (buf, f) ← f.ReadBytes d.cpuData bytes
      .ok (mapSet weight name { toData := { d with cpuData := buf } }, f)
    else if dataType = .INT8 ∨ dataType = .INT4 then
      let bit : Int := if dataType = .INT4 then 4 else 8
      let (perChannelAxis, f) ← f.ReadInt
      let k ← if perChannelAxis = -1 then .ok 1 else at? dims (toU64 perChannelAxis)
      if k < 0 then ErrorInFastLLM
      else
        let (configs, f) ← readConfigs bit k.toNat [] f
        let bytes ← GetBytes d
        let (buf, f) ← f.ReadBytes d.cpuData bytes
        .ok (mapSet weight name
          { toData := { d with cpuData := buf }, perChannelAxis := perChannelAxis,
            perChannelsConfigs := configs,
            zeros := configs.map (fun c => (c.zeroPoint : Int)),
            scales := configs.map (fun c => c.scale) }, f)
    else .ok (mapSet weight name { toData := d }, f)

/-- The tensor loop of `LoadFromFile`. -/
def loadWeights (lowMemMode : Bool) (embeddingNames : List (List Nat)) (fileName : List Nat) :
    Nat → List (List Nat × WeightData) → FileBuffer →
    Except Fault (List (List Nat × WeightData) × FileBuffer)
  | 0, weight, f => .ok (weight, f)
  | n + 1, weight, f => do
    let (weight, f) ← loadWeight lowMemMode embeddingNames fileName weight f
    loadWeights lowMemMode embeddingNames fileName n weight f

/-- `WeightMap::LoadFromFile` on the content of the file. -/
def LoadFromFile (w : WeightMap) (lowMemMode : Bool) (fileName : List Nat) (content : List Nat) :
    Except Fault WeightMap := do
  let f : FileBuffer := { rest := content, pos := 0 }
  let (versionId, f) ← f.ReadInt
  let (dicts, f) ←
    if versionId = 1 then do
      let (keyValueLen, f) ← f.ReadInt
      readDicts keyValueLen.toNat w.dicts f
    else .ok (w.dicts, f)
  let (vocabLen, f) ← f.ReadInt
  let (tokenizer, f) ← readVocab vocabLen.toNat w.tokenizer f
  let (len, f) ← f.ReadInt
  let (weight, _) ← loadWeights lowMemMode w.embeddingNames fileName len.toNat w.weight f
  .ok { w with versionId := versionId, dicts := dicts, tokenizer := tokenizer, weight := weight }

/-! ### Saving -/

/-- Element `i` of a vector indexed by an `int`, undefined outside it. -/
def setAt {α : Type} (xs : List α) (i : Int) (v : α) : Except Fault (List α) :=
  if 0 ≤ i ∧ i.toNat < xs.length then .ok (xs.set i.toNat v) else .error .undefined

/-- The element `((float *) cpuData)[index]`, a finite number. -/
def floatAt (buffer : Option Buffer) (index : Int) : Except Fault ℚ :=
  if index < 0 then .error .undefined
  else do
    let v ← bytesAt buffer (4 * index.toNat) 4
    match decodeF32 (leValue v) with
    | some q => .ok q
    | none => .error .nonfinite

/-- The code that `quantization` returns, where it is defined. -/
def LowBitConfig.code (c : LowBitConfig) (x : ℚ) : Except Fault Nat :=
  match c.quantization x with
  | some q => .ok q
  | none => .error .nonfinite

/-- The first loop over `j` of a save worker: the least and the greatest
element of row `i`, starting from `1e9` and `-1e9`. -/
def rowExtremes (buffer : Option Buffer) (m i : Int) : Except Fault (ℚ × ℚ) :=
  forInt (fun j (e : ℚ × ℚ) => do
      let x ← floatAt buffer (← addInt (← mulInt i m) j)
      .ok (stdMin e.1 x, stdMax e.2 x))
    m.toNat 0 (1000000000, -1000000000)

/-- The body of the loop over the rows of a save worker: the config of row `i`
and its codes, one per byte at 8 bits, two per byte at 4 bits. -/
def quantizeRow (bit : Int) (buffer : Option Buffer) (m i : Int)
    (s : List Nat × List (Option LowBitConfig)) :
    Except Fault (List Nat × List (Option LowBitConfig)) := do
  let (minValue, maxValue) ← rowExtremes buffer m i
  if bit = 8 then
    let c ← LowBitConfig.make minValue maxValue 8
    let configs ← setAt s.2 i (some c)
    let u8 ← forInt (fun j (u8 : List Nat) => do
        let p ← addInt (← mulInt i m) j
        let value ← c.code (← floatAt buffer p)
        setAt u8 p value)
      m.toNat 0 s.1
    .ok (u8, configs)
  else
    let c ← LowBitConfig.make minValue maxValue 4
    let configs ← setAt s.2 i (some c)
    let u8 ← forInt (fun j (u8 : List Nat) => do
        let p ← addInt (← mulInt i m) j
        let id := Int.tdiv p 2
        let value ← c.code (← floatAt buffer p)
        let old ← at? u8 (toU64 id)
        if Int.tmod p 2 ≠ 0 then setAt u8 id (((old &&& 0xF0) ||| value) % 256)
        else setAt u8 id (((old &&& 0xF) ||| (value * 16)) % 256))
      m.toNat 0 s.1
    .ok (u8, configs)

/-- The body of the loop that starts the eight save workers: worker `i` takes
the rows from `cur` to `cur + per`, the last one up to `k`; the state holds
`cur`, the output bytes and the configs. The worker is run when it is
created. -/
def workerRound (bit : Int) (buffer : Option Buffer) (k m : Int) (i : Int)
    (cs : Int × List Nat × List (Option LowBitConfig)) :
    Except Fault (Int × List Nat × List (Option LowBitConfig)) := do
  let stop := if i = 7 then k else cs.1 + Int.tdiv k 8
  let s ← forInt (quantizeRow bit buffer m) (stop - cs.1).toNat cs.1 cs.2
  .ok (stop, s)

/-- The eight save workers, run one after the other, in the order of their
creation. -/
def quantizeRows (bit : Int) (buffer : Option Buffer) (k m : Int)
    (s : List Nat × List (Option LowBitConfig)) :
    Except Fault (List Nat × List (Option LowBitConfig)) := do
  let (_, s) ← forInt (workerRound bit buffer k m) 8 0 (0, s)
  .ok s

/-- The loop that copies 16-bit words out of the buffer: word `i * 2 + 1` for
an embedding, which is the upper half of element `i`. -/
def upperHalves (buffer : Option Buffer) (len : Nat) : Except Fault (List Nat) :=
  forInt (fun i (uDatas : List Nat) => do
      let index ← addInt (← mulInt i 2) 1
      let v ← bytesAt buffer (2 * index.toNat) 2
      setAt uDatas i (leValue v))
    len 0 (List.replicate len 0)

/-- The loop that converts the elements to `fp16`; `float_to_half` is declared
in `utils.h`, which is not among the sources, and is a parameter here, from
the 32-bit pattern to the 16-bit one. -/
def halves (float_to_half : Nat → Nat) (buffer : Option Buffer) (len : Nat) :
    Except Fault (List Nat) :=
  forInt (fun i (uDatas : List Nat) => do
      let v ← bytesAt buffer (4 * i.toNat) 4
      setAt uDatas i (float_to_half (leValue v)))
    len 0 (List.replicate len 0)

/-- The loop that writes the bounds of the configs. -/
def writeBounds : List (Option LowBitConfig) → List Nat → Except Fault (List Nat)
  | [], f => .ok f
  | none :: _, _ => .error .undefined
  | some c :: cs, f => writeBounds cs (WriteFloat (WriteFloat f c.min) c.max)

/-- One round of the tensor loop of `SaveLowBitModel`: the record of one
tensor. `ToDevice (CPU)` returns at once in a build without `USE_CUDA`; a
`std::length_error` from `resize` ends the call as an error does. -/
def saveWeight (float_to_half : Nat → Nat) (bit : Int) (f : List Nat)
    (it : List Nat × WeightData) : Except Fault (List Nat) := do
  let f ← WriteString f it.1
  let data := it.2
  let f := WriteInt f (data.dims.length : Int)
  let f := data.dims.foldl WriteInt f
  match data.weightType with
  | .NONE =>
    let f := WriteInt f DataType.FLOAT32.toInt
    WriteBytes f data.cpuData (← GetBytes data.toData)
  | .EMBEDDING =>
    let f := WriteInt f DataType.BFLOAT16.toInt
    let len := toInt32 (← Count data.toData 0)
    if len < 0 then ErrorInFastLLM
    else
      let uDatas ← upperHalves data.cpuData len.toNat
      .ok (f ++ uDatas.flatMap (leBytes 2))
  | .LINEAR =>
    if bit = 16 then
      let f := WriteInt f DataType.FLOAT16.toInt
      let len := toInt32 (← Count data.toData 0)
      if len < 0 then ErrorInFastLLM
      else
        let uDatas ← halves float_to_half data.cpuData len.toNat
        .ok (f ++ uDatas.flatMap (leBytes 2))
    else
      let k ← at? data.dims 0
      let m ← at? data.dims 1
      if k < 0 then ErrorInFastLLM
      else
        let bytes ← mulInt k m
        let bytes ← if bit = 4 then (do .ok (Int.tdiv (← addInt (← mulInt k m) 1) 2)) else .ok bytes
        if bytes < 0 then ErrorInFastLLM
        else
          let (uDatas, configs) ← quantizeRows bit data.cpuData k m
            (List.replicate bytes.toNat 0, List.replicate k.toNat none)
          let f := WriteInt f (if bit = 8 then DataType.INT8.toInt else DataType.INT4.toInt)
          let f := WriteInt f 0
          let f ← writeBounds configs f
          .ok (f ++ uDatas)

/-- The loop that writes the key-value table. -/
def writeDicts : List (List Nat × List Nat) → List Nat → Except Fault (List Nat)
  | [], f => .ok f
  | it :: rest, f => do
    let f ← WriteString f it.1
    let f ← WriteString f it.2
    writeDicts rest f

/-- The loop that writes the vocabulary: the characters of each token as
`int`, then its id. -/
def writeVocab : List (Int × List Nat) → List Nat → List Nat
  | [], f => f
  | it :: rest, f =>
    let f := WriteInt f (it.2.length : Int)
    let f := it.2.foldl (fun f c => WriteInt f (charToInt c)) f
    writeVocab rest (WriteInt f it.1)

/-- The tensor loop of `SaveLowBitModel`. -/
def saveWeights (float_to_half : Nat → Nat) (bit : Int) :
    List (List Nat × WeightData) → List Nat → Except Fault (List Nat)
  | [], f => .ok f
  | it :: rest, f => do
    let f ← saveWeight float_to_half bit f it
    saveWeights float_to_half bit rest f

/-- `WeightMap::SaveLowBitModel`: the content of the file it writes. -/
def SaveLowBitModel (float_to_half : Nat → Nat) (w : WeightMap) (fileName : List Nat)
    (bit : Int) : Except Fault (List Nat) := do
  AssertInFastLLM (fileName != [])
  AssertInFastLLM (bit == 4 || bit == 8 || bit == 16)
  let f := WriteInt [] w.versionId
  let f ←
    if w.versionId = 1 then writeDicts w.dicts (WriteInt f (w.dicts.length : Int))
    else .ok f
  let f := WriteInt f (w.tokenizer.tokenToStringDict.length : Int)
  let f := writeVocab w.tokenizer.tokenToStringDict f
  let f := WriteInt f (w.weight.length : Int)
  saveWeights float_to_half bit w.weight f

/-! ### Example tensors -/

/-- An embedding tensor of shape `[2]` that holds `1.0` and `-1.0`. -/
def exampleEmbedding : WeightData :=
  { toData := Data.filled .FLOAT32 [2] [0, 0, 128, 63, 0, 0, 128, 191],
    weightType := .EMBEDDING }

/-- The 32-bit patterns of the elements of `exampleEmbedding`. -/
def examplePatterns (i : Nat) : Nat := if i = 0 then 1065353216 else 3212836864

/-- A tensor of the given kind and shape whose host buffer of `size` bytes
holds zeros. -/
def zeroTensor (kind : WeightType) (dims : List Int) (size : Nat) : WeightData :=
  { toData :=
      { Data.shaped .FLOAT32 dims with
        expansionSize := prodU64 dims, expansionBytes := size,
        cpuData := some { size := size, byte := fun _ => some 0 } },
    weightType := kind }

/-- A `WeightMap` before `LoadFromFile`: no entry in any table. The member
`versionId` has no initialiser; `LoadFromFile` assigns it before any use. -/
def WeightMap.empty : WeightMap :=
  { versionId := 0, tokenizer := { tokenToStringDict := [] }, dicts := [], weight := [],
    embeddingNames := [] }

/-- A tensor of no kind of shape `[2]` that holds `1.0` and `-1.0`. -/
def exampleNone : WeightData :=
  { toData := Data.filled .FLOAT32 [2] [0, 0, 128, 63, 0, 0, 128, 191] }

/-- A `WeightMap` with `versionId` 1, the token `hi` with id 5, the tensor
`exampleNone` under the name `w`, and one metadata entry: the key `k`, whose
value `a\0b` has a zero byte in the middle. -/
def exampleMap : WeightMap :=
  { versionId := 1, tokenizer := { tokenToStringDict := [(5, [104, 105])] },
    dicts := [([107], [97, 0, 98])], weight := [([119], exampleNone)], embeddingNames := [] }

/-- The file that `SaveLowBitModel` writes for `exampleMap`. -/
def exampleFile : List Nat :=
  [1, 0, 0, 0,
   1, 0, 0, 0,
   1, 0, 0, 0, 107,
   3, 0, 0, 0, 97, 0, 98,
   1, 0, 0, 0,
   2, 0, 0, 0, 104, 0, 0, 0, 105, 0, 0, 0, 5, 0, 0, 0,
   1, 0, 0, 0,
   1, 0, 0, 0, 119,
   1, 0, 0, 0, 2, 0, 0, 0,
   0, 0, 0, 0,
   0, 0, 128, 63, 0, 0, 128, 191]

end fastllm

namespace fastllm

/-! ## Copies between tensors, row sums and devices -/

/-- The tensor `Data (FLOAT32, {1, 3, 4})` after `Expansion ({1, 8, 4})`. -/
def exampleReserved : Except Fault Data :=
  (Data.ofTypeDims .FLOAT32 [1, 3, 4]).bind fun d => Expansion d [1, 8, 4]

/-- The call `std::memcpy (dst, src, n)` on two host pointers: undefined when
one of them is null or a range leaves its buffer. -/
def copyHost (dst src : Option Buffer) (n : Nat) : Except Fault (Option Buffer) :=
  match dst, src with
  | some b, some s => do
    let out ← memcpy b 0 s 0 n
    .ok (some out)
  | _, _ => .error .undefined

/-- The last statement of `CopyFrom`:
`std::memcpy (this->cpuData, ori.cpuData, this->GetBytes ())`. -/
def copyContent (d ori : Data) : Except Fault Data := do
  let n ← GetBytes d
  let buf ← copyHost d.cpuData ori.cpuData n
  .ok { d with cpuData := buf }

/-- `Data::CopyFrom`. With a source of no shape the buffer is deleted and the
pointer reset; `expansionSize` and `expansionBytes` are not assigned. -/
def CopyFrom (d ori : Data) : Except Fault Data :=
  if ori.dims ≠ d.dims ∨ d.cpuData.isNone then
    if ori.dims.length = 0 then
      .ok { UpdateUnitSize { d with dataType := ori.dataType } with dims := [], cpuData := none }
    else do
      let d1 ← Resize { d with dataType := ori.dataType } ori.dims
      let d2 ← Allocate d1
      copyContent d2 ori
  else copyContent d ori

/-- The INT8 tensor of shape `[2, 3]` that holds the bytes 1 to 6. -/
def exampleBytes : Data := Data.filled .INT8 [2, 3] [1, 2, 3, 4, 5, 6]

/-- The FLOAT32 tensor of the given shape, of six elements, whose 24 bytes
are 101 to 124. -/
def exampleFloats (dims : List Int) : Data :=
  Data.filled .FLOAT32 dims ((List.range 24).map fun (p : Nat) => 101 + p)

/-- The calls `Data a (FLOAT32, {2, 3}); a.Allocate (); a.CopyFrom (Data (FLOAT32));
a.Resize ({2}); a.Allocate ()`, and the tensor after the `CopyFrom`. -/
def exampleEmptied : Except Fault (Data × Data) := do
  let a ← Data.ofTypeDims .FLOAT32 [2, 3]
  let a ← Allocate a
  let b ← CopyFrom a (Data.ofType .FLOAT32)
  let c ← Resize b [2]
  let c ← Allocate c
  .ok (b, c)

/-- The invariant of the capacity: a tensor that records a capacity has a host
buffer of `expansionBytes` bytes. -/
def Backed (d : Data) : Prop :=
  0 < d.expansionSize → ∃ b, d.cpuData = some b ∧ b.size = d.expansionBytes

/-- The byte `cpuData[index]`: undefined without a buffer, outside it, or
where nothing was written. -/
def byteAt (buffer : Option Buffer) (index : Int) : Except Fault Nat :=
  match buffer with
  | none => .error .undefined
  | some b =>
    if 0 ≤ index ∧ index.toNat < b.size then
      match b.byte index.toNat with
      | some v => .ok v
      | none => .error .undefined
    else .error .undefined

/-- The statement `weightSum[i] += v`. -/
def addAt (ws : List Int) (i v : Int) : Except Fault (List Int) :=
  if 0 ≤ i ∧ i.toNat < ws.length then do
    let s ← addInt (ws.getD i.toNat 0) v
    .ok (ws.set i.toNat s)
  else .error .undefined

/-- A `for` loop over an `int` variable that starts at `j`, advances by 2 and
runs `n` times. -/
def forPairs {σ : Type} (body : Int → σ → Except Fault σ) : Nat → Int → σ → Except Fault σ
  | 0, _, s => .ok s
  | n + 1, j, s => do
    let s ← body j s
    forPairs body n (j + 2) s

/-- The loop over `j` of `CalcWeightSum` for row `i` of an INT8 tensor, in a
build without `__AVX__` and `__aarch64__`. -/
def sumRow8 (buffer : Option Buffer) (m i : Int) (ws : List Int) : Except Fault (List Int) :=
  forInt (fun j (ws : List Int) => do
      let b ← byteAt buffer (← addInt (← mulInt i m) j)
      addAt ws i b)
    m.toNat 0 ws

/-- The two loops over `j` of `CalcWeightSum` for row `i` of an INT4 tensor, in
a build without `__AVX__` and `__aarch64__`: the loop `for (; j + 1 < m; j += 2)`
runs `m / 2` times and adds both halves of byte `(i * m + j) / 2`, the loop
`for (; j < m; j++)` adds the remaining element. -/
def sumRow4 (buffer : Option Buffer) (m i : Int) (ws : List Int) : Except Fault (List Int) := do
  let pairs := (m / 2).toNat
  let ws ← forPairs (fun j (ws : List Int) => do
      let id := Int.tdiv (← addInt (← mulInt i m) j) 2
      let b ← byteAt buffer id
      addAt ws i (((b % 16 : Nat) : Int) + ((b / 16 : Nat) : Int)))
    pairs 0 ws
  forInt (fun j (ws : List Int) => do
      let p ← addInt (← mulInt i m) j
      let b ← byteAt buffer (Int.tdiv p 2)
      if Int.tmod p 2 ≠ 0 then addAt ws i ((b % 16 : Nat) : Int)
      else addAt ws i ((b / 16 : Nat) : Int))
    (m - 2 * (pairs : Int)).toNat (2 * (pairs : Int)) ws

/-- `Data::CalcWeightSum` in a build without `__AVX__` and `__aarch64__`; a
`std::length_error` from `resize` ends the call as an error does. -/
def CalcWeightSum (d : WeightData) : Except Fault WeightData :=
  if d.weightSum.length > 0 then .ok d
  else do
    let n ← at? d.dims 0
    let m ← at? d.dims 1
    if d.dataType = .INT8 then
      if n < 0 then ErrorInFastLLM
      else
        let ws ← forInt (sumRow8 d.cpuData m) n.toNat 0 (List.replicate n.toNat 0)
        .ok { d with weightSum := ws }
    else if d.dataType = .INT4 then
      if n < 0 then ErrorInFastLLM
      else
        let ws ← forInt (sumRow4 d.cpuData m) n.toNat 0 (List.replicate n.toNat 0)
        .ok { d with weightSum := ws }
    else .ok d

/-- The raw code at the flat index `p` of the bytes of a tensor: byte `p` for
INT8; for INT4 the high half of byte `p / 2` when `p` is even, the low half
when `p` is odd. -/
def rawCode (kind : DataType) (u8 : List Nat) (p : Nat) : Option Nat :=
  if kind = .INT4 then nibbleAt u8 p else u8[p]?

/-- The sum of the raw codes of row `i` of a tensor with rows of `m` elements,
0 for a code outside the bytes. -/
def rowCodeSum (kind : DataType) (u8 : List Nat) (m i : Nat) : Int :=
  ((List.range m).map fun (j : Nat) => (((rawCode kind u8 (i * m + j)).getD 0 : Nat) : Int)).sum

/-- The INT4 tensor of shape `[2, 3]` with the codes 0, 0, 1, 0, 2, 0, packed
in the bytes `0x00, 0x10, 0x20`. -/
def exampleNibbles : WeightData :=
  { toData := Data.filled .INT4 [2, 3] [0, 16, 32], weightType := .LINEAR }

/-! ## Devices -/

/-- Modelled from the spec: `FastllmCudaMalloc`, `FastllmCudaCopyFromHostToDevice`
and `FastllmCudaCopyFromDeviceToHost` are declared in `fastllm-cuda.cuh`, which
is not among the sources. They are parameters here: `β` is the content of a
block of device memory, `malloc n` a new block of `n` bytes, and the copies
return the written block or buffer. `FastllmCudaFree` has no result. -/
structure CudaApi (β : Type) where
  FastllmCudaMalloc : Nat → β
  FastllmCudaCopyFromHostToDevice : β → Buffer → Nat → Except Fault β
  FastllmCudaCopyFromDeviceToHost : Buffer → β → Nat → Except Fault Buffer

/-- Modelled from the spec: section 6 of the specification requires a tensor
moved to the accelerator and back to hold identical bytes, which is this law of
the device copies: `n` bytes copied from a host buffer to a new block and from
there to a host buffer arrive unchanged, and the rest of that buffer is left
as it was. -/
def CudaApi.Faithful {β : Type} (api : CudaApi β) : Prop :=
  ∀ (n : Nat) (host dst : Buffer), n ≤ host.size → n ≤ dst.size →
    ∃ dev out,
      api.FastllmCudaCopyFromHostToDevice (api.FastllmCudaMalloc n) host n = .ok dev
        ∧ api.FastllmCudaCopyFromDeviceToHost dst dev n = .ok out
        ∧ out.size = dst.size
        ∧ ∀ p, out.byte p = if p < n then host.byte p else dst.byte p

/-- Modelled from the spec: device memory that is a buffer of bytes, the copies
being `memcpy`. -/
def CudaApi.buffers : CudaApi Buffer :=
  { FastllmCudaMalloc := Buffer.fresh,
    FastllmCudaCopyFromHostToDevice := fun dev host n => memcpy dev 0 host 0 n,
    FastllmCudaCopyFromDeviceToHost := fun host dev n => memcpy host 0 dev 0 n }

/-- `struct Data` with the member `cudaData`, the block of device memory. -/
structure DeviceData (β : Type) extends Data where
  cudaData : Option β := none

/-- `Data::ToDevice (DataDevice device)`; `useCuda` tells whether the build
defines `USE_CUDA`. Copying from a null pointer is undefined. -/
def ToDevice {β : Type} (useCuda : Bool) (api : CudaApi β) (d : DeviceData β)
    (device : DataDevice) : Except Fault (DeviceData β) :=
  if d.dataType = .INT32PARAM then .ok d
  else if useCuda = false then .ok d
  else if d.dataDevice = device then .ok d
  else if d.expansionBytes ≠ 0 then
    match d.dataDevice, device with
    | .CPU, .CUDA =>
      match d.cpuData with
      | some host => do
        let dev ← api.FastllmCudaCopyFromHostToDevice (api.FastllmCudaMalloc d.expansionBytes)
          host d.expansionBytes
        .ok { d with cpuData := none, cudaData := some dev, dataDevice := device }
      | none => .error .undefined
    | .CUDA, .CPU =>
      match d.cudaData with
      | some dev => do
        let host ← api.FastllmCudaCopyFromDeviceToHost (Buffer.fresh d.expansionBytes)
          dev d.expansionBytes
        .ok { d with cpuData := some host, cudaData := none, dataDevice := device }
      | none => .error .undefined
    | _, _ => .ok { d with dataDevice := device }
  else .ok { d with dataDevice := device }

/-- The host tensor `exampleBytes` with no block of device memory. -/
def exampleHost : DeviceData Buffer := { toData := exampleBytes }

/-! ## Records of a weight file -/

/-- The bytes of the record of a tensor with the name `a`, the shape `[2]` and
the given tag, followed by the 8 bytes 1 to 8. -/
def exampleTagged (tag : Int) : List Nat :=
  recordHead [97] [2] ++ intBytes tag ++ [1, 2, 3, 4, 5, 6, 7, 8]

/-- The bytes of a file with `versionId` 0, no token and the one record
`exampleTagged tag`. -/
def exampleTaggedFile (tag : Int) : List Nat :=
  intBytes 0 ++ intBytes 0 ++ intBytes 1 ++ exampleTagged tag

/-- A `WeightMap` before `LoadFromFile` in which the name `a` is flagged as an
embedding. -/
def exampleFlagged : WeightMap := { WeightMap.empty with embeddingNames := [[97]] }

/-! ## Files that end early -/

/-- The file that ends `n` bytes after the position of the next read. -/
def FileBuffer.cut (f : FileBuffer) (n : Nat) : FileBuffer :=
  { rest := f.rest.take n, pos := f.pos }

/-- A reader for which an early end of the file is an error: whenever it
returns on a file, it has read some number `c` of the bytes that remained; on
the file that ends after `c` bytes or later it returns the same, and on the
file that ends before it ends in `ErrorInFastLLM`. -/
def Truncating {α : Type} (R : FileBuffer → Except Fault (α × FileBuffer)) : Prop :=
  ∀ f a f1, R f = .ok (a, f1) →
    ∃ c, c ≤ f.rest.length ∧ f1 = { rest := f.rest.drop c, pos := f.pos + c } ∧
      ∀ L, (c ≤ L → R (f.cut L) = .ok (a, f1.cut (L - c)))
        ∧ (L < c → R (f.cut L) = .error .fatal)

/-- The body of `LoadFromFile` on an open file, returning also the file as it
is left. -/
def loadFile (w : WeightMap) (lowMemMode : Bool) (fileName : List Nat) (f : FileBuffer) :
    Except Fault (WeightMap × FileBuffer) := do
  let (versionId, f) ← f.ReadInt
  let (dicts, f) ←
    if versionId = 1 then do
      let (keyValueLen, f) ← f.ReadInt
      readDicts keyValueLen.toNat w.dicts f
    else .ok (w.dicts, f)
  let (vocabLen, f) ← f.ReadInt
  let (tokenizer, f) ← readVocab vocabLen.toNat w.tokenizer f
  let (len, f) ← f.ReadInt
  let (weight, f) ← loadWeights lowMemMode w.embeddingNames fileName len.toNat w.weight f
  .ok ({ w with versionId := versionId, dicts := dicts, tokenizer := tokenizer,
                weight := weight }, f)

/-! ## The save workers -/

/-- The rows that worker `i` of the eight takes of a tensor of `k` rows: from
`cur = i * (k / 8)` to `end = cur + k / 8`, and to `end = k` for the last. -/
def workerRows (k i : Int) : List Int :=
  let per := Int.tdiv k 8
  let cur := i * per
  let stop := if i = 7 then k else cur + per
  (List.range (stop - cur).toNat).map fun (t : Nat) => cur + (t : Int)

/-- The indices of `u8` that the loop over `j` of a save worker assigns for row
`i`: `i * m + j` at 8 bits, `(i * m + j) / 2` at 4 bits. -/
def rowWrites (bit m i : Int) : List Int :=
  (List.range m.toNat).map fun (j : Nat) =>
    if bit = 8 then i * m + (j : Int) else Int.tdiv (i * m + (j : Int)) 2

/-- The indices of `u8` that worker `i` assigns. -/
def workerWrites (bit k m i : Int) : List Int :=
  (workerRows k i).flatMap (rowWrites bit m)

/-- One assignment `u8[id] = (u8[id] & keep) | bits` of a save worker at 4
bits: a load of the byte and a store of it with one half replaced. -/
structure Packing where
  id : Int
  keep : Nat
  bits : Nat
  deriving DecidableEq

/-- The assignments to `u8` of a save worker at 4 bits for row `i`, in the
order of the loop over `j`: `(u8[id] & 0xF0) | value` for an odd flat index,
`(u8[id] & 0xF) | (value << 4)` for an even one. -/
def rowPackings (buffer : Option Buffer) (m i : Int) : Except Fault (List Packing) := do
  let (minValue, maxValue) ← rowExtremes buffer m i
  let c ← LowBitConfig.make minValue maxValue 4
  forInt (fun j (ops : List Packing) => do
      let p ← addInt (← mulInt i m) j
      let value ← c.code (← floatAt buffer p)
      if Int.tmod p 2 ≠ 0 then .ok (ops ++ [{ id := Int.tdiv p 2, keep := 0xF0, bits := value }])
      else .ok (ops ++ [{ id := Int.tdiv p 2, keep := 0xF, bits := value * 16 }]))
    m.toNat 0 []

/-- The assignments to `u8` of worker `i` at 4 bits, row after row. -/
def workerPackings (buffer : Option Buffer) (k m i : Int) : Except Fault (List Packing) :=
  (workerRows k i).foldlM (fun ops row => do .ok (ops ++ (← rowPackings buffer m row))) []

/-- A save worker while it runs: the assignments it has still to do, and the
byte it has loaded for the first of them, if it has. -/
structure Worker where
  todo : List Packing
  loaded : Option Nat := none
  deriving DecidableEq

/-- One step of a worker on the shared bytes `u8`: the load of the byte of its
next assignment or, when the byte is loaded, the store. A worker that has
finished does nothing. -/
def Worker.step (t : Worker) (u8 : List Nat) : Except Fault (Worker × List Nat) :=
  match t.todo, t.loaded with
  | [], _ => .ok (t, u8)
  | op :: _, none => do
    let old ← at? u8 (toU64 op.id)
    .ok ({ t with loaded := some old }, u8)
  | op :: rest, some old => do
    let u8 ← setAt u8 op.id (((old &&& op.keep) ||| op.bits) % 256)
    .ok ({ todo := rest, loaded := none }, u8)

/-- The workers run as threads under a schedule: each entry names the worker
that takes the next step. -/
def runSchedule : List Nat → List Worker → List Nat → Except Fault (List Worker × List Nat)
  | [], ws, u8 => .ok (ws, u8)
  | i :: rest, ws, u8 => do
    let t ← at? ws i
    let (t, u8) ← t.step u8
    runSchedule rest (ws.set i t) u8

/-- A linear tensor of shape `[8, 1]` whose elements are all `1.0`. -/
def exampleOnes : WeightData :=
  { toData := Data.filled .FLOAT32 [8, 1]
      ((List.range 8).flatMap fun (_ : Nat) => [0, 0, 128, 63]),
    weightType := .LINEAR }

/-- The eight workers at 4 bits on `exampleOnes`, before they start. -/
def exampleWorkers : Except Fault (List Worker) :=
  (List.range 8).mapM fun (i : Nat) => do
    .ok { todo := ← workerPackings exampleOnes.cpuData 8 1 (i : Int) }

/-- The schedule in which each of the eight workers takes its two steps before
the next one starts. -/
def inTurn : List Nat := [0, 0, 1, 1, 2, 2, 3, 3, 4, 4, 5, 5, 6, 6, 7, 7]

/-- The schedule in which workers 0 and 1 both load before either stores. -/
def overlapped : List Nat := [0, 1, 0, 1, 2, 2, 3, 3, 4, 4, 5, 5, 6, 6, 7, 7]

end fastllm

namespace fastllm

/-! ## The penalty window -/

/-- The 32-bit pattern of `1.0f`. -/
def oneF32 : Nat := 1065353216

/-- The storage of `std::vector <float> (n, x)`: `n` times the four bytes of
the pattern `bits` of `x`. -/
def floatVector (n bits : Nat) : Buffer :=
  { size := 4 * n, byte := fun p => if p < 4 * n then (leBytes 4 bits)[p % 4]? else none }

/-- The constructor `Data (type, dims, data)`, `data` being the storage of the
vector: the tensor of the shape is allocated and, for FLOAT32, `GetBytes ()`
bytes are copied from the vector. -/
def Data.ofTypeDimsData (type : DataType) (dims : List Int) (data : Buffer) :
    Except Fault Data := do
  let d ← Data.ofTypeDims type dims
  let d ← Allocate d
  if type = .FLOAT32 then do
    let n ← GetBytes d
    let buf ← copyHost d.cpuData (some data) n
    .ok { d with cpuData := buf }
  else .ok d

/-- `struct TokenPenaltyManager`. The map `cnt` is the function from a key to
its value, `none` for a key that is absent; the queue `q` is the list of its
elements from the front to the back; the `float` member `value` is held as its
32-bit pattern, the code only copies it. -/
structure TokenPenaltyManager where
  penalty : Data
  cnt : Int → Option Int
  q : List Int
  vocabSize : Int
  lastN : Int
  value : Nat

/-- A manager as it is constructed: `penalty = Data ()`, an empty map and an
empty queue; `vocabSize`, `lastN` and `value` have no initialiser, `Init`
assigns them before any use. -/
def TokenPenaltyManager.new : TokenPenaltyManager :=
  { penalty := Data.init, cnt := fun _ => none, q := [], vocabSize := 0, lastN := 0, value := 0 }

/-- The value that `cnt[key]` refers to: `operator[]` enters the key with the
value 0 when it is absent. -/
def mapGet (cnt : Int → Option Int) (key : Int) : Int := (cnt key).getD 0

/-- The map after an assignment to `cnt[key]`. -/
def mapPut (cnt : Int → Option Int) (key value : Int) : Int → Option Int :=
  fun k => if k = key then some value else cnt k

/-- The map after `cnt.erase (key)`. -/
def mapErase (cnt : Int → Option Int) (key : Int) : Int → Option Int :=
  fun k => if k = key then none else cnt k

/-- The assignment `((float *) cpuData)[index] = x` with the pattern `bits` of
`x`: undefined on a null pointer and outside the buffer. -/
def storeFloat (buffer : Option Buffer) (index : Int) (bits : Nat) :
    Except Fault (Option Buffer) :=
  match buffer with
  | none => .error .undefined
  | some b =>
    if 0 ≤ index ∧ 4 * index.toNat + 4 ≤ b.size then
      .ok (some { b with
        byte := fun p =>
          if 4 * index.toNat ≤ p ∧ p < 4 * index.toNat + 4 then
            (leBytes 4 bits)[p - 4 * index.toNat]?
          else b.byte p })
    else .error .undefined

/-- `TokenPenaltyManager::Clear`. A negative `vocabSize` is a size above
`max_size ()` for the vector, whose constructor throws: the call ends as an
error does. -/
def TokenPenaltyManager.Clear (m : TokenPenaltyManager) : Except Fault TokenPenaltyManager := do
  let m := { m with cnt := fun _ => none, q := [] }
  if m.vocabSize < 0 then ErrorInFastLLM
  else do
    let ones ← Data.ofTypeDimsData .FLOAT32 [1, 1, m.vocabSize]
      (floatVector m.vocabSize.toNat oneF32)
    let penalty ← CopyFrom m.penalty ones
    .ok { m with penalty := penalty }

/-- `TokenPenaltyManager::Init`. -/
def TokenPenaltyManager.Init (m : TokenPenaltyManager) (vocabSize lastN : Int) (value : Nat) :
    Except Fault TokenPenaltyManager :=
  TokenPenaltyManager.Clear { m with vocabSize := vocabSize, lastN := lastN, value := value }

/-- The first statement of `InsertToken`: with `lastN` elements or more in the
queue (an unsigned comparison) the front element leaves; `q.front ()` on an
empty queue is undefined. -/
def TokenPenaltyManager.evict (m : TokenPenaltyManager) : Except Fault TokenPenaltyManager :=
  if toU64 m.lastN ≤ m.q.length then
    match m.q with
    | [] => .error .undefined
    | now :: rest => do
      let c ← addInt (mapGet m.cnt now) (-1)
      if c = 0 then do
        let buf ← storeFloat m.penalty.cpuData now oneF32
        .ok { m with
          cnt := mapErase m.cnt now, penalty := { m.penalty with cpuData := buf }, q := rest }
      else .ok { m with cnt := mapPut m.cnt now c, q := rest }
  else .ok m

/-- `TokenPenaltyManager::InsertToken`. -/
def TokenPenaltyManager.InsertToken (m : TokenPenaltyManager) (token : Int) :
    Except Fault TokenPenaltyManager := do
  let m ← m.evict
  let c ← addInt (mapGet m.cnt token) 1
  let m := { m with q := m.q ++ [token], cnt := mapPut m.cnt token c }
  if c = 1 then do
    let buf ← storeFloat m.penalty.cpuData token m.value
    .ok { m with penalty := { m.penalty with cpuData := buf } }
  else .ok m

/-- The calls `InsertToken (t)` for the tokens of a list, in order. -/
def TokenPenaltyManager.insertAll (m : TokenPenaltyManager) :
    List Int → Except Fault TokenPenaltyManager
  | [] => .ok m
  | t :: ts => do
    let m ← m.InsertToken t
    m.insertAll ts

/-- The calls `Init (vocabSize, lastN, value)` and then `InsertToken (t)` for
the tokens of a list, on a manager. -/
def TokenPenaltyManager.run (m : TokenPenaltyManager) (vocabSize lastN : Int) (value : Nat)
    (ts : List Int) : Except Fault TokenPenaltyManager := do
  let m ← m.Init vocabSize lastN value
  m.insertAll ts

/-- The penalty tensor of a manager between two calls: on the host, with no
reserved shape, and either without a buffer and without capacity, as `Data ()`
leaves it, or FLOAT32 of a shape `[1, 1, n]` with row-major strides and a
buffer for its capacity, which is at least `n` elements. -/
def Usable (d : Data) : Prop :=
  d.dataDevice = .CPU ∧ d.expansionDims = [] ∧
    ((d.cpuData = none ∧ d.expansionSize = 0) ∨
      ∃ (n : Nat) (b : Buffer), d.dataType = .FLOAT32 ∧ d.unitSize = 4 ∧ d.unitSizeDiv = 1
        ∧ d.dims = [1, 1, (n : Int)] ∧ d.strides = [n, n, 1] ∧ n ≤ d.expansionSize
        ∧ d.expansionSize < 2 ^ 31 ∧ d.cpuData = some b ∧ b.size = 4 * d.expansionSize)

/-- The state the penalty window is in after `Init (V, N, v)` and some calls of
`InsertToken`: at most `N` tokens below `V` in the queue, in `cnt` the number
of occurrences of each token of the queue and no other key, a penalty tensor
that another `Init` can use, and a host buffer of `V` elements that holds `v`
for a token of the queue and `1.0f` for any other. -/
structure PenaltyWindow (V N v : Nat) (m : TokenPenaltyManager) : Prop where
  lastN : m.lastN = (N : Int)
  value : m.value = v
  short : m.q.length ≤ N
  tokens : ∀ t ∈ m.q, 0 ≤ t ∧ t < (V : Int)
  counts : ∀ t, m.cnt t = if m.q.count t = 0 then none else some (m.q.count t : Int)
  tensor : Usable m.penalty
  buffer : ∃ b, m.penalty.cpuData = some b ∧ 4 * V ≤ b.size ∧
    ∀ t, t < V → ∀ k, k < 4 →
      b.byte (4 * t + k) = (leBytes 4 (if m.q.count (t : Int) = 0 then oneF32 else v))[k]?

end fastllm

namespace fastllm

/-! ## Wrapped products -/

theorem U64_pos : 0 < U64 := by unfold U64; positivity

theorem toU64_lt (i : Int) : toU64 i < U64 := by
  unfold toU64 U64
  have h : i % (2 ^ 64 : Int) < 2 ^ 64 := Int.emod_lt_of_pos _ (by norm_num)
  have h0 : 0 ≤ i % (2 ^ 64 : Int) := Int.emod_nonneg _ (by norm_num)
  omega

theorem toU64_of_nonneg {i : Int} (h0 : 0 ≤ i) (h1 : i < 2 ^ 64) : toU64 i = i.toNat := by
  unfold toU64
  rw [Int.emod_eq_of_lt h0 h1]

theorem toU64_natCast {n : Nat} (h : n < U64) : toU64 (n : Int) = n := by
  rw [toU64_of_nonneg (by positivity) (by unfold U64 at h; exact_mod_cast h)]
  simp

theorem foldl_mulU64_mod (l : List Int) (a : Nat) :
    l.foldl (fun acc i => mulU64 acc (toU64 i)) a % U64 = (a * prodN l) % U64 := by
  induction l generalizing a with
  | nil => simp [prodN]
  | cons x xs ih =>
    rw [List.foldl_cons, ih]
    simp only [prodN, List.map_cons, List.prod_cons, mulU64]
    rw [Nat.mod_mul_mod, Nat.mul_assoc]

theorem foldl_mulU64_lt (l : List Int) (a : Nat) (ha : a < U64) :
    l.foldl (fun acc i => mulU64 acc (toU64 i)) a < U64 := by
  induction l generalizing a with
  | nil => simpa using ha
  | cons x xs ih => exact ih _ (Nat.mod_lt _ U64_pos)

theorem one_lt_U64 : 1 < U64 := by unfold U64; norm_num

theorem prodU64_lt (l : List Int) : prodU64 l < U64 :=
  foldl_mulU64_lt l 1 one_lt_U64

theorem foldl_mulU64_eq (l : List Int) (a : Nat) (ha : a < U64) :
    l.foldl (fun acc i => mulU64 acc (toU64 i)) a = (a * prodN l) % U64 := by
  rw [← foldl_mulU64_mod, Nat.mod_eq_of_lt (foldl_mulU64_lt l a ha)]

theorem prodU64_eq (l : List Int) : prodU64 l = prodN l % U64 := by
  have h := foldl_mulU64_eq l 1 one_lt_U64
  simpa [prodU64] using h

theorem prodN_append (l₁ l₂ : List Int) : prodN (l₁ ++ l₂) = prodN l₁ * prodN l₂ := by
  simp [prodN]

theorem prodN_cons (x : Int) (l : List Int) : prodN (x :: l) = toU64 x * prodN l := by
  simp [prodN]

theorem strideList_headD (x : Int) (xs : List Int) :
    (strideList (x :: xs)).headD 1 = prodN xs % U64 := by
  induction xs generalizing x with
  | nil => simp [strideList, prodN, U64]
  | cons e es ih =>
    simp only [strideList, List.headD_cons, ih e, prodN, List.map_cons, List.prod_cons, mulU64]
    rw [Nat.mul_mod_mod]

theorem strideList_length (l : List Int) : (strideList l).length = l.length := by
  induction l with
  | nil => rfl
  | cons x xs ih =>
    cases xs with
    | nil => rfl
    | cons e es => simp only [strideList, List.length_cons] at ih ⊢; omega

theorem strideList_cons_eq (x : Int) (xs : List Int) :
    strideList (x :: xs) = (prodN xs % U64) :: (strideList (x :: xs)).tail := by
  have h := strideList_headD x xs
  have hl := strideList_length (x :: xs)
  cases hs : strideList (x :: xs) with
  | nil => rw [hs] at hl; simp at hl
  | cons s ss => rw [hs] at h; simp at h; simp [h]

/-! ## Byte count (C1) -/

theorem UpdateUnitSize_dims (d : Data) : (UpdateUnitSize d).dims = d.dims := by
  unfold UpdateUnitSize; cases d.dataType <;> rfl

theorem UpdateUnitSize_expansionDims (d : Data) :
    (UpdateUnitSize d).expansionDims = d.expansionDims := by
  unfold UpdateUnitSize; cases d.dataType <;> rfl

theorem UpdateUnitSize_strides (d : Data) : (UpdateUnitSize d).strides = d.strides := by
  unfold UpdateUnitSize; cases d.dataType <;> rfl

theorem UpdateUnitSize_cpuData (d : Data) : (UpdateUnitSize d).cpuData = d.cpuData := by
  unfold UpdateUnitSize; cases d.dataType <;> rfl

/-- With no reservation, `Resize` to a non-empty shape succeeds, stores the
shape and rebuilds the strides from it. -/
theorem Resize_ok_of_no_reservation (d : Data) (dims : List Int)
    (hres : d.expansionDims = []) (hne : dims ≠ []) :
    Resize d dims =
      .ok { UpdateUnitSize { d with dims := dims } with strides := strideList dims } := by
  unfold Resize
  have h1 : (UpdateUnitSize { d with dims := dims }).expansionDims.length = 0 := by
    rw [UpdateUnitSize_expansionDims]; simp [hres]
  have h2 : ¬ dims.length = 0 := by
    cases dims with
    | nil => exact absurd rfl hne
    | cons x xs => simp
  simp only [h1, h2, if_true, if_false]

/-- With a reservation, `Resize` stores the shape and leaves the strides. -/
theorem Resize_ok_of_reservation (d : Data) (dims : List Int)
    (hres : d.expansionDims ≠ []) :
    Resize d dims = .ok (UpdateUnitSize { d with dims := dims }) := by
  unfold Resize
  have h1 : ¬ (UpdateUnitSize { d with dims := dims }).expansionDims.length = 0 := by
    rw [UpdateUnitSize_expansionDims]
    cases h : d.expansionDims with
    | nil => exact absurd h hres
    | cons x xs => simp
  simp only [h1, if_false]

/-- The ceiling-division idiom of `GetBytes` on a positive count. -/
theorem bytes_idiom_of_pos (e k : Nat) (he : 1 ≤ e) (hlt : e < U64) :
    addU64 (subU64 e 1 / k) 1 = (e - 1) / k + 1 := by
  unfold addU64 subU64
  have h1 : (e + U64 - 1) % U64 = e - 1 := by
    have : e + U64 - 1 = (e - 1) + U64 := by omega
    rw [this, Nat.add_mod_right, Nat.mod_eq_of_lt (by omega)]
  rw [h1]
  have h2 : (e - 1) / k ≤ e - 1 := Nat.div_le_self _ _
  exact Nat.mod_eq_of_lt (by omega)

/-- For a positive element count `GetBytes` of a tensor of a kind of at most
eight bits, built by `Data (kind, dims)`, is the reference `ceil (e * b / 8)`
with `e` the (wrapped) product of the dims. -/
theorem GetBytes_eq_referenceBytes (kind : DataType) (dims : List Int)
    (hk : kind = .BIT ∨ kind = .INT2 ∨ kind = .INT4 ∨ kind = .INT8)
    (hne : dims ≠ []) (hpos : 1 ≤ prodU64 dims) :
    (Data.ofTypeDims kind dims >>= GetBytes) = .ok (referenceBytes kind (prodU64 dims)) := by
  obtain ⟨x, xs, rfl⟩ := List.exists_cons_of_ne_nil hne
  have hcount : mulU64 (prodN xs % U64) (toU64 x) = prodU64 (x :: xs) := by
    rw [prodU64_eq, prodN_cons, mulU64, Nat.mod_mul_mod, Nat.mul_comm]
  have hlt := prodU64_lt (x :: xs)
  unfold Data.ofTypeDims
  rw [Resize_ok_of_no_reservation _ _ rfl (by simp)]
  rw [strideList_cons_eq]
  rcases hk with rfl | rfl | rfl | rfl
  · have h8 : toU64 8 = 8 := by decide
    have h1 : toU64 1 = 1 := by decide
    simp only [bind, Except.bind, GetBytes, at?, UpdateUnitSize, Data.init,
      List.getElem?_cons_zero, h8, h1, hcount, referenceBytes, bitWidth]
    simp only [mulU64, Nat.mul_one, Nat.mod_eq_of_lt hlt]
    rw [if_neg (by norm_num), bytes_idiom_of_pos _ _ hpos hlt]
    congr 1; omega
  · have h8 : toU64 4 = 4 := by decide
    have h1 : toU64 1 = 1 := by decide
    simp only [bind, Except.bind, GetBytes, at?, UpdateUnitSize, Data.init,
      List.getElem?_cons_zero, h8, h1, hcount, referenceBytes, bitWidth]
    simp only [mulU64, Nat.mul_one, Nat.mod_eq_of_lt hlt]
    rw [if_neg (by norm_num), bytes_idiom_of_pos _ _ hpos hlt]
    congr 1; omega
  · have h8 : toU64 2 = 2 := by decide
    have h1 : toU64 1 = 1 := by decide
    simp only [bind, Except.bind, GetBytes, at?, UpdateUnitSize, Data.init,
      List.getElem?_cons_zero, h8, h1, hcount, referenceBytes, bitWidth]
    simp only [mulU64, Nat.mul_one, Nat.mod_eq_of_lt hlt]
    rw [if_neg (by norm_num), bytes_idiom_of_pos _ _ hpos hlt]
    congr 1; omega
  · have h1 : toU64 1 = 1 := by decide
    simp only [bind, Except.bind, GetBytes, at?, UpdateUnitSize, Data.init,
      List.getElem?_cons_zero, h1, hcount, referenceBytes, bitWidth]
    simp only [mulU64, Nat.mul_one, Nat.mod_eq_of_lt hlt]
    rw [if_neg (by norm_num), bytes_idiom_of_pos _ _ hpos hlt]
    congr 1; omega

theorem GetBytes_eq_referenceBytes_witness :
    (Data.ofTypeDims .INT4 [7] >>= GetBytes) = .ok (referenceBytes .INT4 (prodU64 [7])) :=
  GetBytes_eq_referenceBytes .INT4 [7] (by decide) (by decide) (by decide)

/-- C1 (defect): an INT4 tensor of zero elements reports `2 ^ 63` bytes where the
reference `ceil (e * b / 8)` is `0`: the subtraction `e * unitSize - 1` wraps
at `e = 0` and only a division by `1` wraps back. For INT2 and BIT the result
is `2 ^ 62` and `2 ^ 61`. -/
theorem GetBytes_zero_elements_subbyte :
    faultOf (Data.ofTypeDims .INT4 [0] >>= GetBytes) = none
    ∧ (Data.ofTypeDims .INT4 [0] >>= GetBytes).toOption = some (2 ^ 63)
    ∧ (Data.ofTypeDims .INT2 [0] >>= GetBytes).toOption = some (2 ^ 62)
    ∧ (Data.ofTypeDims .BIT [0] >>= GetBytes).toOption = some (2 ^ 61)
    ∧ (Data.ofTypeDims .INT8 [0] >>= GetBytes).toOption = some 0
    ∧ prodU64 [0] = 0 ∧ referenceBytes .INT4 0 = 0 := by
  decide

/-! ## Reshape (C2, C3) -/

theorem reshapeScan_of_nonneg (t : List Int) (i index : Int) (mul : Nat)
    (h : ∀ y ∈ t, 0 ≤ y) :
    reshapeScan t i index mul =
      .ok (index, t.foldl (fun acc x => mulU64 acc (toU64 x)) mul) := by
  induction t generalizing i mul with
  | nil => rfl
  | cons x xs ih =>
    have hx : ¬ x < 0 := not_lt.mpr (h x (by simp))
    simp only [reshapeScan, hx, if_false, List.foldl_cons]
    exact ih _ _ (fun y hy => h y (by simp [hy]))

theorem reshapeScan_of_found (t : List Int) (i index : Int) (mul : Nat)
    (hidx : index ≠ -1) (h : ∃ y ∈ t, y < 0) :
    reshapeScan t i index mul = .error .fatal := by
  induction t generalizing i mul with
  | nil => simp at h
  | cons x xs ih =>
    by_cases hx : x < 0
    · simp [reshapeScan, hx, hidx, ErrorInFastLLM]
    · simp only [reshapeScan, hx, if_false]
      apply ih
      obtain ⟨y, hy, hy0⟩ := h
      rcases List.mem_cons.mp hy with rfl | hy'
      · exact absurd hy0 hx
      · exact ⟨y, hy', hy0⟩

theorem reshapeScan_skip (pre : List Int) (x : Int) (rest : List Int) (i : Int) (mul : Nat)
    (hi : 0 ≤ i) (hpre : ∀ y ∈ pre, 0 ≤ y) (hx : x < 0) :
    reshapeScan (pre ++ x :: rest) i (-1) mul =
      reshapeScan rest (i + pre.length + 1) (i + pre.length)
        (pre.foldl (fun acc x => mulU64 acc (toU64 x)) mul) := by
  induction pre generalizing i mul with
  | nil => simp [reshapeScan, hx]
  | cons p ps ih =>
    have hp : ¬ p < 0 := not_lt.mpr (hpre p (by simp))
    simp only [List.cons_append, reshapeScan, hp, if_false, List.foldl_cons, List.append_eq]
    rw [ih (i + 1) _ (by omega) (fun y hy => hpre y (by simp [hy]))]
    simp only [List.length_cons, Nat.cast_add, Nat.cast_one]
    have e1 : i + 1 + (ps.length : Int) + 1 = i + ((ps.length : Int) + 1) + 1 := by ring
    have e2 : i + 1 + (ps.length : Int) = i + ((ps.length : Int) + 1) := by ring
    rw [e1, e2]

/-- The scan of a target with exactly one negative entry. -/
theorem reshapeScan_one (pre : List Int) (x : Int) (post : List Int)
    (hpre : ∀ y ∈ pre, 0 ≤ y) (hx : x < 0) (hpost : ∀ y ∈ post, 0 ≤ y) :
    reshapeScan (pre ++ x :: post) 0 (-1) 1 = .ok ((pre.length : Int), prodU64 (pre ++ post)) := by
  rw [reshapeScan_skip pre x post 0 1 (le_refl _) hpre hx, reshapeScan_of_nonneg _ _ _ _ hpost]
  simp [prodU64, List.foldl_append]

/-- The scan of a target with two negative entries or more. -/
theorem reshapeScan_two (pre : List Int) (x : Int) (rest : List Int)
    (hpre : ∀ y ∈ pre, 0 ≤ y) (hx : x < 0) (hrest : ∃ y ∈ rest, y < 0) :
    reshapeScan (pre ++ x :: rest) 0 (-1) 1 = .error .fatal := by
  rw [reshapeScan_skip pre x rest 0 1 (le_refl _) hpre hx]
  exact reshapeScan_of_found _ _ _ _ (by omega) hrest

/-- A list of integers has no negative entry, or splits at its first one. -/
theorem split_first_negative (t : List Int) :
    (∀ y ∈ t, 0 ≤ y) ∨
      ∃ pre x rest, t = pre ++ x :: rest ∧ (∀ y ∈ pre, 0 ≤ y) ∧ x < 0 := by
  induction t with
  | nil => left; simp
  | cons a as ih =>
    by_cases ha : a < 0
    · right; exact ⟨[], a, as, rfl, by simp, ha⟩
    · rcases ih with h | ⟨pre, x, rest, rfl, hpre, hx⟩
      · left
        intro y hy
        rcases List.mem_cons.mp hy with rfl | hy'
        · exact not_lt.mp ha
        · exact h y hy'
      · right
        refine ⟨a :: pre, x, rest, rfl, ?_, hx⟩
        intro y hy
        rcases List.mem_cons.mp hy with rfl | hy'
        · exact not_lt.mp ha
        · exact hpre y hy'

theorem placeholders_eq_zero_iff (t : List Int) :
    placeholders t = 0 ↔ ∀ y ∈ t, 0 ≤ y := by
  unfold placeholders
  rw [List.countP_eq_zero]
  simp

theorem placeholders_append (l₁ l₂ : List Int) :
    placeholders (l₁ ++ l₂) = placeholders l₁ + placeholders l₂ := by
  simp [placeholders, List.countP_append]

theorem placeholders_cons_neg (x : Int) (l : List Int) (hx : x < 0) :
    placeholders (x :: l) = placeholders l + 1 := by
  simp [placeholders, List.countP_cons, hx]

theorem filter_nonneg_of_nonneg (t : List Int) (h : ∀ y ∈ t, 0 ≤ y) :
    t.filter (fun x => !decide (x < 0)) = t := by
  rw [List.filter_eq_self]
  intro y hy
  simpa using h y hy

theorem explicitProduct_of_nonneg (t : List Int) (h : ∀ y ∈ t, 0 ≤ y) :
    explicitProduct t = prodU64 t := by
  unfold explicitProduct; rw [filter_nonneg_of_nonneg t h]

theorem explicitProduct_one (pre : List Int) (x : Int) (post : List Int)
    (hpre : ∀ y ∈ pre, 0 ≤ y) (hx : x < 0) (hpost : ∀ y ∈ post, 0 ≤ y) :
    explicitProduct (pre ++ x :: post) = prodU64 (pre ++ post) := by
  unfold explicitProduct
  rw [List.filter_append, List.filter_cons, filter_nonneg_of_nonneg pre hpre,
    filter_nonneg_of_nonneg post hpost]
  simp [hx]

/-- A target with exactly one negative entry, split at it. -/
theorem split_of_placeholders_one (t : List Int) (h : placeholders t = 1) :
    ∃ pre x post, t = pre ++ x :: post ∧ (∀ y ∈ pre, 0 ≤ y) ∧ x < 0 ∧ (∀ y ∈ post, 0 ≤ y) := by
  rcases split_first_negative t with h0 | ⟨pre, x, rest, rfl, hpre, hx⟩
  · rw [(placeholders_eq_zero_iff t).mpr h0] at h; omega
  · refine ⟨pre, x, rest, rfl, hpre, hx, ?_⟩
    rw [placeholders_append, placeholders_cons_neg _ _ hx,
      (placeholders_eq_zero_iff pre).mpr hpre] at h
    exact (placeholders_eq_zero_iff rest).mp (by omega)

/-- A target with two negative entries or more, split at the first. -/
theorem split_of_placeholders_two (t : List Int) (h : 2 ≤ placeholders t) :
    ∃ pre x rest, t = pre ++ x :: rest ∧ (∀ y ∈ pre, 0 ≤ y) ∧ x < 0 ∧ ∃ y ∈ rest, y < 0 := by
  rcases split_first_negative t with h0 | ⟨pre, x, rest, rfl, hpre, hx⟩
  · rw [(placeholders_eq_zero_iff t).mpr h0] at h; omega
  · refine ⟨pre, x, rest, rfl, hpre, hx, ?_⟩
    rw [placeholders_append, placeholders_cons_neg _ _ hx,
      (placeholders_eq_zero_iff pre).mpr hpre] at h
    by_contra hcon
    push_neg at hcon
    rw [(placeholders_eq_zero_iff rest).mpr hcon] at h
    omega

theorem set_at_split (pre : List Int) (x v : Int) (post : List Int) :
    (pre ++ x :: post).set pre.length v = pre ++ v :: post := by
  induction pre with
  | nil => rfl
  | cons p ps ih => simp [List.set, ih]

theorem toInt32_of_lt {n : Nat} (h : n < 2 ^ 31) : toInt32 n = (n : Int) := by
  unfold toInt32
  have h1 : n % 2 ^ 32 = n := Nat.mod_eq_of_lt (by omega)
  rw [h1, if_pos h]

/-- `Reshape` to a target without a negative entry. -/
theorem Reshape_of_nonneg (d : Data) (t : List Int) (h : ∀ y ∈ t, 0 ≤ y) :
    Reshape d t = if prodU64 t = prodU64 d.dims then Resize d t else .error .fatal := by
  unfold Reshape
  rw [reshapeScan_of_nonneg t 0 (-1) 1 h]
  by_cases hm : prodU64 t = prodU64 d.dims
  · have hm' : List.foldl (fun acc x => mulU64 acc (toU64 x)) 1 t = prodU64 d.dims := hm
    simp [AssertInFastLLM, hm', hm, bind, Except.bind]
  · have hm' : ¬ List.foldl (fun acc x => mulU64 acc (toU64 x)) 1 t = prodU64 d.dims := hm
    simp [AssertInFastLLM, ErrorInFastLLM, hm', hm, bind, Except.bind]

/-- `Reshape` to a target with exactly one negative entry. -/
theorem Reshape_of_one (d : Data) (pre : List Int) (x : Int) (post : List Int)
    (hpre : ∀ y ∈ pre, 0 ≤ y) (hx : x < 0) (hpost : ∀ y ∈ post, 0 ≤ y) :
    Reshape d (pre ++ x :: post) =
      if prodU64 (pre ++ post) = 0 then .error .fatal
      else if prodU64 d.dims % prodU64 (pre ++ post) = 0 then
        Resize d (pre ++ toInt32 (prodU64 d.dims / prodU64 (pre ++ post)) :: post)
      else .error .fatal := by
  unfold Reshape
  rw [reshapeScan_one pre x post hpre hx hpost]
  have hidx : ¬ ((pre.length : Int) = -1) := by omega
  by_cases hP : prodU64 (pre ++ post) = 0
  · simp [AssertInFastLLM, ErrorInFastLLM, hP, hidx, bind, Except.bind]
  · by_cases hD : prodU64 d.dims % prodU64 (pre ++ post) = 0
    · simp [AssertInFastLLM, hP, hD, hidx, bind, Except.bind, set_at_split]
    · simp [AssertInFastLLM, ErrorInFastLLM, hP, hD, hidx, bind, Except.bind]

/-- `Reshape` to a target with two negative entries or more. -/
theorem Reshape_of_two (d : Data) (pre : List Int) (x : Int) (rest : List Int)
    (hpre : ∀ y ∈ pre, 0 ≤ y) (hx : x < 0) (hrest : ∃ y ∈ rest, y < 0) :
    Reshape d (pre ++ x :: rest) = .error .fatal := by
  unfold Reshape
  rw [reshapeScan_two pre x rest hpre hx hrest]
  rfl

theorem Resize_nil_of_no_reservation (d : Data) (hres : d.expansionDims = []) :
    Resize d [] = .error .undefined := by
  unfold Resize
  have h1 : (UpdateUnitSize { d with dims := [] }).expansionDims.length = 0 := by
    rw [UpdateUnitSize_expansionDims]; simp [hres]
  simp only [h1, if_true, List.length_nil]

theorem Resize_dims_of_ok (d d' : Data) (t : List Int) (h : Resize d t = .ok d') :
    d'.dims = t := by
  by_cases hres : d.expansionDims = []
  · by_cases ht : t = []
    · subst ht
      rw [Resize_nil_of_no_reservation d hres] at h
      exact absurd h (by simp)
    · rw [Resize_ok_of_no_reservation d t hres ht] at h
      injection h with h; rw [← h]; exact UpdateUnitSize_dims _
  · rw [Resize_ok_of_reservation d t hres] at h
    injection h with h; rw [← h]; exact UpdateUnitSize_dims _

theorem Resize_ok_of_ne_nil (d : Data) (t : List Int) (h : t ≠ []) :
    ∃ d', Resize d t = .ok d' := by
  by_cases hres : d.expansionDims = []
  · exact ⟨_, Resize_ok_of_no_reservation d t hres h⟩
  · exact ⟨_, Resize_ok_of_reservation d t hres⟩

theorem prodU64_solved (pre post : List Int) (n : Nat)
    (hdiv : n % prodU64 (pre ++ post) = 0) (hn : n < U64)
    (hfit : n / prodU64 (pre ++ post) < 2 ^ 31) :
    prodU64 (pre ++ ((n / prodU64 (pre ++ post) : Nat) : Int) :: post) = n := by
  have hq : toU64 ((n / prodU64 (pre ++ post) : Nat) : Int) = n / prodU64 (pre ++ post) :=
    toU64_natCast (by unfold U64; omega)
  rw [prodU64_eq, prodN_append, prodN_cons, hq]
  have e : prodN pre * (n / prodU64 (pre ++ post) * prodN post)
      = (prodN pre * prodN post) * (n / prodU64 (pre ++ post)) := by ring
  rw [e, ← prodN_append, ← Nat.mod_mul_mod, ← prodU64_eq, Nat.mul_div_cancel' (Nat.dvd_of_mod_eq_zero hdiv)]
  exact Nat.mod_eq_of_lt hn

/-- C2 (amended): for a target with exactly one negative entry, whose other
entries have a non-zero product `P` (in `uint64_t`) that divides the element
count `N`, and whose quotient `N / P` is an `int` (below `2 ^ 31`), `Reshape`
succeeds, replaces the negative entry by `N / P`, keeps every other entry and
keeps the element count; and every `Reshape` that succeeds, without a
placeholder or with a solved placeholder below `2 ^ 31`, keeps the element
count. -/
theorem Reshape_solves_placeholder (d : Data) (pre post : List Int) (x : Int)
    (hpre : ∀ y ∈ pre, 0 ≤ y) (hx : x < 0) (hpost : ∀ y ∈ post, 0 ≤ y)
    (hP : prodU64 (pre ++ post) ≠ 0)
    (hdiv : prodU64 d.dims % prodU64 (pre ++ post) = 0)
    (hfit : prodU64 d.dims / prodU64 (pre ++ post) < 2 ^ 31) :
    (∃ d', Reshape d (pre ++ x :: post) = .ok d' ∧
        d'.dims = pre ++ ((prodU64 d.dims / prodU64 (pre ++ post) : Nat) : Int) :: post ∧
        prodU64 d'.dims = prodU64 d.dims) ∧
    (∀ (t : List Int) (d' : Data), Reshape d t = .ok d' →
        (placeholders t = 0 ∨ prodU64 d.dims / explicitProduct t < 2 ^ 31) →
        prodU64 d'.dims = prodU64 d.dims) := by
  constructor
  · rw [Reshape_of_one d pre x post hpre hx hpost, if_neg hP, if_pos hdiv, toInt32_of_lt hfit]
    obtain ⟨d', hd'⟩ := Resize_ok_of_ne_nil d
      (pre ++ ((prodU64 d.dims / prodU64 (pre ++ post) : Nat) : Int) :: post) (by simp)
    refine ⟨d', hd', Resize_dims_of_ok _ _ _ hd', ?_⟩
    rw [Resize_dims_of_ok _ _ _ hd']
    exact prodU64_solved pre post _ hdiv (prodU64_lt _) hfit
  · intro t d' hok hcase
    rcases split_first_negative t with h0 | ⟨p, y, rest, rfl, hp, hy⟩
    · rw [Reshape_of_nonneg d t h0] at hok
      split at hok
      · rename_i heq
        rw [Resize_dims_of_ok _ _ _ hok, heq]
      · exact absurd hok (by simp)
    · by_cases hrest : ∃ z ∈ rest, z < 0
      · rw [Reshape_of_two d p y rest hp hy hrest] at hok
        exact absurd hok (by simp)
      · push_neg at hrest
        have hph : placeholders (p ++ y :: rest) = 1 := by
          rw [placeholders_append, placeholders_cons_neg _ _ hy,
            (placeholders_eq_zero_iff p).mpr hp, (placeholders_eq_zero_iff rest).mpr hrest]
        have hfit' : prodU64 d.dims / prodU64 (p ++ rest) < 2 ^ 31 := by
          rcases hcase with h | h
          · omega
          · rwa [explicitProduct_one p y rest hp hy hrest] at h
        rw [Reshape_of_one d p y rest hp hy hrest] at hok
        split at hok
        · exact absurd hok (by simp)
        · split at hok
          · rename_i hdiv'
            rw [toInt32_of_lt hfit'] at hok
            rw [Resize_dims_of_ok _ _ _ hok]
            exact prodU64_solved p rest _ hdiv' (prodU64_lt _) hfit'
          · exact absurd hok (by simp)

theorem Reshape_solves_placeholder_witness :
    (∃ d', Reshape (Data.shaped .FLOAT32 [2, 3, 4]) ([] ++ (-1) :: [8]) = .ok d' ∧
      d'.dims = [] ++ ((prodU64 (Data.shaped .FLOAT32 [2, 3, 4]).dims
          / prodU64 ([] ++ [8]) : Nat) : Int) :: [8] ∧
      prodU64 d'.dims = prodU64 (Data.shaped .FLOAT32 [2, 3, 4]).dims) ∧
    (∀ (t : List Int) (d' : Data), Reshape (Data.shaped .FLOAT32 [2, 3, 4]) t = .ok d' →
      (placeholders t = 0
        ∨ prodU64 (Data.shaped .FLOAT32 [2, 3, 4]).dims / explicitProduct t < 2 ^ 31) →
      prodU64 d'.dims = prodU64 (Data.shaped .FLOAT32 [2, 3, 4]).dims) :=
  Reshape_solves_placeholder (Data.shaped .FLOAT32 [2, 3, 4]) [] [8] (-1) (by simp)
    (by decide) (by simp) (by decide) (by decide) (by decide)

/-- C2 as stated fails: a tensor of `2 ^ 32` elements reshaped to `[-1, 1]` gets
the shape `[0, 1]`, because the quotient `2 ^ 32` is stored in an `int`; its
element count becomes `0`. -/
theorem Reshape_placeholder_truncated :
    prodU64 [65536, 65536] = 2 ^ 32
    ∧ ((Data.ofTypeDims .FLOAT32 [65536, 65536] >>= fun d => Reshape d [-1, 1]).map
        (fun d => d.dims)).toOption = some [0, 1]
    ∧ prodU64 [0, 1] = 0 := by
  decide

/-- C3 (amended): `Reshape` signals an error if the target has more than one
negative entry; if the product of its entries that are not negative is zero,
unless the target has no negative entry and the element count is zero as well;
or if that product is not zero and does not divide the element count. -/
theorem Reshape_errors (d : Data) (t : List Int) :
    (2 ≤ placeholders t → Reshape d t = .error .fatal) ∧
    (explicitProduct t = 0 → ¬ (placeholders t = 0 ∧ prodU64 d.dims = 0) →
      Reshape d t = .error .fatal) ∧
    (explicitProduct t ≠ 0 → prodU64 d.dims % explicitProduct t ≠ 0 →
      Reshape d t = .error .fatal) := by
  have two : 2 ≤ placeholders t → Reshape d t = .error .fatal := by
    intro h
    obtain ⟨pre, x, rest, rfl, hpre, hx, hrest⟩ := split_of_placeholders_two t h
    exact Reshape_of_two d pre x rest hpre hx hrest
  refine ⟨two, ?_, ?_⟩
  · intro hP hnot
    rcases Nat.lt_or_ge (placeholders t) 2 with hlt | hge
    · rcases Nat.eq_zero_or_pos (placeholders t) with h0 | h1
      · have hnn := (placeholders_eq_zero_iff t).mp h0
        rw [explicitProduct_of_nonneg t hnn] at hP
        rw [Reshape_of_nonneg d t hnn, if_neg]
        intro heq
        exact hnot ⟨h0, by rw [← heq, hP]⟩
      · obtain ⟨pre, x, post, rfl, hpre, hx, hpost⟩ :=
          split_of_placeholders_one t (by omega)
        rw [explicitProduct_one pre x post hpre hx hpost] at hP
        rw [Reshape_of_one d pre x post hpre hx hpost, if_pos hP]
    · exact two hge
  · intro hP hnd
    rcases Nat.lt_or_ge (placeholders t) 2 with hlt | hge
    · rcases Nat.eq_zero_or_pos (placeholders t) with h0 | h1
      · have hnn := (placeholders_eq_zero_iff t).mp h0
        rw [explicitProduct_of_nonneg t hnn] at hP hnd
        rw [Reshape_of_nonneg d t hnn, if_neg]
        intro heq
        rw [heq, Nat.mod_self] at hnd
        exact hnd rfl
      · obtain ⟨pre, x, post, rfl, hpre, hx, hpost⟩ :=
          split_of_placeholders_one t (by omega)
        rw [explicitProduct_one pre x post hpre hx hpost] at hP hnd
        rw [Reshape_of_one d pre x post hpre hx hpost, if_neg hP, if_neg hnd]
    · exact two hge

/-- C3 as stated fails: a tensor of shape `[0, 3]` is reshaped to `[0, 5]`
without an error although the product of the target's entries is zero; the
zero test guards only the division that solves a placeholder. The witness of
the specification, `[2, 3, 4]` to `[5, -1]`, does fail. -/
theorem Reshape_zero_product_accepted :
    explicitProduct [0, 5] = 0
    ∧ faultOf (Data.ofTypeDims .FLOAT32 [0, 3] >>= fun d => Reshape d [0, 5]) = none
    ∧ ((Data.ofTypeDims .FLOAT32 [0, 3] >>= fun d => Reshape d [0, 5]).map
        (fun d => d.dims)).toOption = some [0, 5]
    ∧ faultOf (Data.ofTypeDims .FLOAT32 [2, 3, 4] >>= fun d => Reshape d [5, -1])
        = some .fatal := by
  decide

end fastllm

namespace fastllm

/-! ## Row-major addressing -/

theorem prodN_castDims (l : List Nat) (h : ∀ y ∈ l, y < U64) : prodN (castDims l) = l.prod := by
  induction l with
  | nil => rfl
  | cons x xs ih =>
    have hx : toU64 ((x : Nat) : Int) = x := toU64_natCast (h x (by simp))
    have := ih (fun y hy => h y (by simp [hy]))
    simp only [castDims, List.map_cons, prodN_cons, List.prod_cons, hx] at this ⊢
    rw [this]

theorem strideList_cons (x : Int) (xs : List Int) :
    strideList (x :: xs) = (prodN xs % U64) :: strideList xs := by
  cases xs with
  | nil => simp [strideList, prodN, U64]
  | cons e es =>
    have h := strideList_headD e es
    simp only [strideList, mulU64, h, prodN_cons]
    rw [Nat.mul_mod_mod]

theorem le_prod_of_mem {l : List Nat} (hpos : ∀ y ∈ l, 0 < y) {y : Nat} (hy : y ∈ l) :
    y ≤ l.prod := by
  induction l with
  | nil => simp at hy
  | cons x xs ih =>
    have hx : 0 < x := hpos x (by simp)
    have hxs : 0 < xs.prod := List.prod_pos (fun z hz => hpos z (by simp [hz]))
    rw [List.prod_cons]
    rcases List.mem_cons.mp hy with rfl | hy'
    · exact Nat.le_mul_of_pos_right _ hxs
    · exact le_trans (ih (fun z hz => hpos z (by simp [hz])) hy') (Nat.le_mul_of_pos_left _ hx)

/-- Without overflow the stride loop yields the products of the later extents. -/
theorem strideList_castDims (l : List Nat) (hpos : ∀ y ∈ l, 0 < y) (hlt : l.prod < U64) :
    strideList (castDims l) = natStrides l := by
  induction l with
  | nil => rfl
  | cons x xs ih =>
    have hx : 0 < x := hpos x (by simp)
    have hxs : ∀ y ∈ xs, 0 < y := fun y hy => hpos y (by simp [hy])
    have hle : xs.prod ≤ (x :: xs).prod := by
      rw [List.prod_cons]; exact Nat.le_mul_of_pos_left _ hx
    have hxlt : xs.prod < U64 := lt_of_le_of_lt hle hlt
    have hmem : ∀ y ∈ xs, y < U64 := fun y hy => lt_of_le_of_lt (le_prod_of_mem hxs hy) hxlt
    have e : castDims (x :: xs) = (x : Int) :: castDims xs := rfl
    rw [e, strideList_cons, ih hxs hxlt, prodN_castDims xs hmem, Nat.mod_eq_of_lt hxlt]
    rfl

theorem natStrides_length (l : List Nat) : (natStrides l).length = l.length := by
  induction l with
  | nil => rfl
  | cons x xs ih => simp [natStrides, ih]

theorem offsetOf_nil_left (s : List Nat) : offsetOf s [] = 0 := by
  simp [offsetOf]

theorem offsetOf_cons (s : Nat) (ss : List Nat) (i : Nat) (is : List Nat) :
    offsetOf (s :: ss) (i :: is) = i * s + offsetOf ss is := by
  simp [offsetOf]

/-- A multi-index within a shape addresses an offset below the element count. -/
theorem offsetOf_lt (xs is : List Nat) (h : List.Forall₂ (fun i x => i < x) is xs) :
    offsetOf (natStrides xs) is < xs.prod := by
  induction h with
  | nil => simp [offsetOf, natStrides]
  | @cons i x is xs hix _ ih =>
    rw [natStrides, offsetOf_cons, List.prod_cons]
    calc i * xs.prod + offsetOf (natStrides xs) is
        < i * xs.prod + xs.prod := by omega
      _ = (i + 1) * xs.prod := by ring
      _ ≤ x * xs.prod := Nat.mul_le_mul_right _ hix

theorem outerIndex_lt (ps is : List Nat) (h : List.Forall₂ (fun i x => i < x) is ps) :
    outerIndex ps is < ps.prod := by
  induction h with
  | nil => simp [outerIndex]
  | @cons i x is xs hix _ ih =>
    rw [outerIndex, List.prod_cons]
    calc i * xs.prod + outerIndex xs is
        < i * xs.prod + xs.prod := by omega
      _ = (i + 1) * xs.prod := by ring
      _ ≤ x * xs.prod := Nat.mul_le_mul_right _ hix

/-- The offset of a multi-index split at an axis: the outer position times the
span of one outer slice, plus the offset within the slice. The outer position
and the offset within the slice do not depend on the extent `e` of the axis. -/
theorem offsetOf_split (pre : List Nat) (e : Nat) (post ipre : List Nat) (i : Nat)
    (ipost : List Nat) (hlen : ipre.length = pre.length) :
    offsetOf (natStrides (pre ++ e :: post)) (ipre ++ i :: ipost) =
      outerIndex pre ipre * (e * post.prod)
        + (i * post.prod + offsetOf (natStrides post) ipost) := by
  induction pre generalizing ipre with
  | nil =>
    cases ipre with
    | nil => simp [natStrides, offsetOf_cons, outerIndex]
    | cons j js => simp at hlen
  | cons p ps ih =>
    cases ipre with
    | nil => simp at hlen
    | cons j js =>
      have hl : js.length = ps.length := by simpa using hlen
      have e1 : (p :: ps) ++ e :: post = p :: (ps ++ e :: post) := rfl
      have e2 : (j :: js) ++ i :: ipost = j :: (js ++ i :: ipost) := rfl
      rw [e1, e2, natStrides, offsetOf_cons, ih js hl, outerIndex, List.prod_append,
        List.prod_cons]
      ring

/-- A multi-index within a shape split at an axis. -/
theorem inShape_split (pre : List Nat) (a : Nat) (post : List Nat) (index : List Nat)
    (h : InShape index (castDims (pre ++ a :: post))) :
    ∃ ipre i ipost, index = ipre ++ i :: ipost ∧
      List.Forall₂ (fun i x => i < x) ipre pre ∧ i < a ∧
      List.Forall₂ (fun i x => i < x) ipost post := by
  induction pre generalizing index with
  | nil =>
    cases index with
    | nil => simp [InShape, castDims] at h
    | cons j js =>
      simp only [InShape, castDims, List.nil_append, List.map_cons,
        List.forall₂_cons] at h
      refine ⟨[], j, js, rfl, List.Forall₂.nil, by exact_mod_cast h.1, ?_⟩
      have h2 := h.2
      rw [List.forall₂_map_right_iff] at h2
      exact h2.imp (fun _ _ hab => by exact_mod_cast hab)
  | cons p ps ih =>
    cases index with
    | nil => simp [InShape, castDims] at h
    | cons j js =>
      simp only [InShape, castDims, List.cons_append, List.map_cons,
        List.forall₂_cons] at h
      obtain ⟨ipre, i, ipost, rfl, h1, h2, h3⟩ := ih js h.2
      exact ⟨j :: ipre, i, ipost, rfl, List.Forall₂.cons (by exact_mod_cast h.1) h1, h2, h3⟩

end fastllm

namespace fastllm

/-! ## The copy loop of `Expansion` -/

theorem mulInt_natCast (x y : Nat) (h : x * y < 2 ^ 31) :
    mulInt (x : Int) (y : Int) = .ok ((x * y : Nat) : Int) := by
  unfold mulInt IsInt32
  have h1 : ((x : Int) * (y : Int)) = ((x * y : Nat) : Int) := by push_cast; ring
  rw [h1]
  have h2 : -(2 ^ 31 : Int) ≤ ((x * y : Nat) : Int) := by
    have : (0 : Int) ≤ ((x * y : Nat) : Int) := Int.natCast_nonneg _
    omega
  have h3 : ((x * y : Nat) : Int) < 2 ^ 31 := by exact_mod_cast h
  rw [if_pos ⟨h2, h3⟩]

theorem memcpy_natCast (dst src : Buffer) (dOff sOff n : Nat)
    (hd : dOff + n ≤ dst.size) (hs : sOff + n ≤ src.size) :
    memcpy dst (dOff : Int) src (sOff : Int) n =
      .ok { dst with
        byte := fun p =>
          if dOff ≤ p ∧ p < dOff + n then src.byte (p - dOff + sOff) else dst.byte p } := by
  unfold memcpy
  have h1 : (0 : Int) ≤ (dOff : Int) := Int.natCast_nonneg _
  have h2 : (0 : Int) ≤ (sOff : Int) := Int.natCast_nonneg _
  simp only [Int.toNat_ofNat]
  rw [if_pos ⟨h1, hd, h2, hs⟩]

theorem expansionCopy_step (src dst dst1 : Buffer) (S0 S1 u a P o d0 dOff s0 sOff l0 len : Int)
    (n : Nat) (h1 : mulInt o S0 = .ok d0) (h2 : mulInt d0 u = .ok dOff)
    (h3 : mulInt o S1 = .ok s0) (h4 : mulInt s0 u = .ok sOff)
    (h5 : mulInt a P = .ok l0) (h6 : mulInt l0 u = .ok len)
    (h7 : memcpy dst dOff src sOff (toU64 len) = .ok dst1) :
    expansionCopy src S0 S1 u a P (n + 1) o dst = expansionCopy src S0 S1 u a P n (o + 1) dst1 := by
  rw [expansionCopy, h1]
  simp only [bind, Except.bind]
  rw [h2]
  simp only [bind, Except.bind]
  rw [h3]
  simp only [bind, Except.bind]
  rw [h4]
  simp only [bind, Except.bind]
  rw [h5]
  simp only [bind, Except.bind]
  rw [h6]
  simp only [bind, Except.bind]
  rw [h7]

/-- The copy loop moves `n` slices of `a * P` elements of `u` bytes, slice `o'`
from element offset `o' * S1` of the source to element offset `o' * S0` of the
destination, and leaves the bytes before the first slice. -/
theorem expansionCopy_spec (src : Buffer) (S0 S1 u a P : Nat) (n o : Nat) (dst : Buffer)
    (hu : 1 ≤ u) (h0 : a * P ≤ S0) (h1 : a * P ≤ S1)
    (hd : (o + n) * S0 * u ≤ dst.size) (hs : (o + n) * S1 * u ≤ src.size)
    (hd31 : (o + n) * S0 * u < 2 ^ 31) (hs31 : (o + n) * S1 * u < 2 ^ 31) :
    ∃ buf, expansionCopy src (S0 : Int) (S1 : Int) (u : Int) (a : Int) (P : Int) n (o : Int) dst
        = .ok buf ∧ buf.size = dst.size ∧
      (∀ p, p < o * S0 * u → buf.byte p = dst.byte p) ∧
      (∀ o', o ≤ o' → o' < o + n → ∀ t, t < a * P * u →
        buf.byte (o' * S0 * u + t) = src.byte (o' * S1 * u + t)) := by
  induction n generalizing o dst with
  | zero =>
    refine ⟨dst, rfl, rfl, fun p _ => rfl, ?_⟩
    intro o' h1 h2; omega
  | succ n ih =>
    have hS0u : S0 * u ≤ (o + (n + 1)) * S0 * u := by
      rw [Nat.mul_assoc]; exact Nat.le_mul_of_pos_left _ (by omega)
    have hS1u : S1 * u ≤ (o + (n + 1)) * S1 * u := by
      rw [Nat.mul_assoc]; exact Nat.le_mul_of_pos_left _ (by omega)
    have hoS0 : o * S0 * u + S0 * u ≤ (o + (n + 1)) * S0 * u := by
      have : (o + (n + 1)) * S0 * u = o * S0 * u + S0 * u + n * S0 * u := by ring
      omega
    have hoS1 : o * S1 * u + S1 * u ≤ (o + (n + 1)) * S1 * u := by
      have : (o + (n + 1)) * S1 * u = o * S1 * u + S1 * u + n * S1 * u := by ring
      omega
    have hlen0 : a * P * u ≤ S0 * u := Nat.mul_le_mul_right _ h0
    have hlen1 : a * P * u ≤ S1 * u := Nat.mul_le_mul_right _ h1
    have hle_u : ∀ x : Nat, x ≤ x * u := fun x => Nat.le_mul_of_pos_right _ (by omega)
    have e1 : mulInt (o : Int) (S0 : Int) = .ok ((o * S0 : Nat) : Int) :=
      mulInt_natCast _ _ (by have := hle_u (o * S0); omega)
    have e2 : mulInt ((o * S0 : Nat) : Int) (u : Int) = .ok ((o * S0 * u : Nat) : Int) :=
      mulInt_natCast _ _ (by omega)
    have e3 : mulInt (o : Int) (S1 : Int) = .ok ((o * S1 : Nat) : Int) :=
      mulInt_natCast _ _ (by have := hle_u (o * S1); omega)
    have e4 : mulInt ((o * S1 : Nat) : Int) (u : Int) = .ok ((o * S1 * u : Nat) : Int) :=
      mulInt_natCast _ _ (by omega)
    have e5 : mulInt (a : Int) (P : Int) = .ok ((a * P : Nat) : Int) :=
      mulInt_natCast _ _ (by have := hle_u (a * P); omega)
    have e6 : mulInt ((a * P : Nat) : Int) (u : Int) = .ok ((a * P * u : Nat) : Int) :=
      mulInt_natCast _ _ (by omega)
    have e7 : toU64 ((a * P * u : Nat) : Int) = a * P * u :=
      toU64_natCast (by unfold U64; omega)
    have e8 := memcpy_natCast dst src (o * S0 * u) (o * S1 * u) (a * P * u)
      (by omega) (by omega)
    have e9 : ((o : Int) + 1) = ((o + 1 : Nat) : Int) := by push_cast; ring
    obtain ⟨buf, hbuf, hsize, hframe, hcopy⟩ := ih (o + 1)
      { dst with
        byte := fun p =>
          if o * S0 * u ≤ p ∧ p < o * S0 * u + a * P * u then
            src.byte (p - o * S0 * u + o * S1 * u)
          else dst.byte p }
      (by have e : o + 1 + n = o + (n + 1) := by omega
          rw [e]; exact hd)
      (by have e : o + 1 + n = o + (n + 1) := by omega
          rw [e]; exact hs)
      (by have e : o + 1 + n = o + (n + 1) := by omega
          rw [e]; exact hd31)
      (by have e : o + 1 + n = o + (n + 1) := by omega
          rw [e]; exact hs31)
    refine ⟨buf, ?_, ?_, ?_, ?_⟩
    · rw [expansionCopy_step src dst _ _ _ _ _ _ _ _ _ _ _ _ _ n e1 e2 e3 e4 e5 e6
        (by rw [e7]; exact e8), e9]
      exact hbuf
    · rw [hsize]
    · intro p hp
      have hp' : p < (o + 1) * S0 * u := by
        have : (o + 1) * S0 * u = o * S0 * u + S0 * u := by ring
        omega
      rw [hframe p hp']
      have : ¬ (o * S0 * u ≤ p ∧ p < o * S0 * u + a * P * u) := by omega
      dsimp only
      rw [if_neg this]
    · intro o' ho1 ho2 t ht
      rcases Nat.eq_or_lt_of_le ho1 with heq | hlt
      · subst heq
        have hp' : o * S0 * u + t < (o + 1) * S0 * u := by
          have : (o + 1) * S0 * u = o * S0 * u + S0 * u := by ring
          omega
        rw [hframe _ hp']
        have hin : o * S0 * u ≤ o * S0 * u + t ∧ o * S0 * u + t < o * S0 * u + a * P * u := by
          omega
        dsimp only
        rw [if_pos hin]
        have e : o * S0 * u + t - o * S0 * u + o * S1 * u = o * S1 * u + t := by
          generalize o * S0 * u = x
          generalize o * S1 * u = y
          omega
        rw [e]
      · exact hcopy o' (by omega) (by omega) t ht

end fastllm

namespace fastllm

/-! ## Evaluating `Expansion` on a request that raises one axis -/

theorem natStrides_getElem? (l : List Nat) (j : Nat) (hj : j < l.length) :
    (natStrides l)[j]? = some (l.drop (j + 1)).prod := by
  induction l generalizing j with
  | nil => simp at hj
  | cons x xs ih =>
    cases j with
    | zero => simp [natStrides]
    | succ j =>
      have hj' : j < xs.length := by simpa using hj
      simp [natStrides, ih j hj']

theorem castDims_getElem? (l : List Nat) (j : Nat) :
    (castDims l)[j]? = (l[j]?).map (fun (n : Nat) => (n : Int)) := by
  unfold castDims
  rw [List.getElem?_map]

theorem castDims_length (l : List Nat) : (castDims l).length = l.length := by
  simp [castDims]

theorem castDims_append (l₁ l₂ : List Nat) :
    castDims (l₁ ++ l₂) = castDims l₁ ++ castDims l₂ := by
  simp [castDims]

theorem castDims_cons (x : Nat) (l : List Nat) :
    castDims (x :: l) = (x : Int) :: castDims l := rfl

theorem at?_eq_ok {α : Type} (xs : List α) (i : Nat) (x : α) (h : xs[i]? = some x) :
    at? xs i = .ok x := by
  unfold at?; rw [h]

theorem expansionCheck_unchanged (rs : List Int) (cs : List Nat) (r1 c1 : List Int)
    (h : List.Forall₂ Unchanged rs cs) :
    expansionCheck (rs ++ r1) (castDims cs ++ c1) = expansionCheck r1 c1 := by
  induction h with
  | nil => rfl
  | @cons r c rs cs hrc _ ih =>
    have hpass : (r == -1 || decide (r ≥ (c : Int))) = true := by
      rcases hrc with h | h
      · simp [h]
      · simp [h]
    show expansionCheck (r :: (rs ++ r1)) ((c : Int) :: (castDims cs ++ c1)) = _
    rw [expansionCheck, hpass]
    simp only [AssertInFastLLM, if_true, bind, Except.bind]
    exact ih

theorem expansionCheck_one_axis (rpre rpost : List Int) (pre post : List Nat) (a b : Nat)
    (hab : a < b) (hrpre : List.Forall₂ Unchanged rpre pre)
    (hrpost : List.Forall₂ Unchanged rpost post) :
    expansionCheck (rpre ++ (b : Int) :: rpost) (castDims (pre ++ a :: post)) = .ok () := by
  rw [castDims_append, expansionCheck_unchanged _ _ _ _ hrpre, castDims_cons]
  have hpass : (((b : Int) == -1) || decide ((b : Int) ≥ (a : Int))) = true := by
    have : (a : Int) ≤ (b : Int) := by exact_mod_cast hab.le
    simp [this]
  rw [expansionCheck, hpass]
  simp only [AssertInFastLLM, if_true, bind, Except.bind]
  have := expansionCheck_unchanged rpost post [] [] hrpost
  simp only [List.append_nil] at this
  rw [this]
  rfl

theorem expansionAxis_unchanged (rs : List Int) (cs : List Nat) (r1 c1 : List Int) (i : Int)
    (h : List.Forall₂ Unchanged rs cs) :
    expansionAxis (castDims cs ++ c1) (rs ++ r1) i = expansionAxis c1 r1 (i + cs.length) := by
  induction h generalizing i with
  | nil => simp [castDims]
  | @cons r c rs cs hrc _ ih =>
    have hno : ¬ ((c : Int) < r) := by
      rcases hrc with h | h
      · rw [h]; have : (0 : Int) ≤ (c : Int) := Int.natCast_nonneg _; omega
      · rw [h]; omega
    show expansionAxis ((c : Int) :: (castDims cs ++ c1)) (r :: (rs ++ r1)) i = _
    rw [expansionAxis, if_neg hno, ih]
    simp only [List.length_cons, Nat.cast_add, Nat.cast_one]
    congr 1; ring

theorem expansionAxis_one_axis (rpre rpost : List Int) (pre post : List Nat) (a b : Nat)
    (hab : a < b) (hrpre : List.Forall₂ Unchanged rpre pre) :
    expansionAxis (castDims (pre ++ a :: post)) (rpre ++ (b : Int) :: rpost) 0
      = (pre.length : Int) := by
  rw [castDims_append, expansionAxis_unchanged _ _ _ _ _ hrpre, castDims_cons]
  have : (a : Int) < (b : Int) := by exact_mod_cast hab
  rw [expansionAxis, if_pos this]
  simp

theorem zipWith_max_unchanged (rs : List Int) (cs : List Nat)
    (h : List.Forall₂ Unchanged rs cs) :
    List.zipWith max (castDims cs) rs = castDims cs := by
  induction h with
  | nil => rfl
  | @cons r c rs cs hrc _ ih =>
    have hmax : max (c : Int) r = (c : Int) := by
      rcases hrc with h | h
      · rw [h]; have : (0 : Int) ≤ (c : Int) := Int.natCast_nonneg _
        exact max_eq_left (by omega)
      · rw [h]; exact max_self _
    simp only [castDims_cons, List.zipWith_cons_cons, hmax, ih]

theorem zipWith_max_one_axis (rpre rpost : List Int) (pre post : List Nat) (a b : Nat)
    (hab : a < b) (hrpre : List.Forall₂ Unchanged rpre pre)
    (hrpost : List.Forall₂ Unchanged rpost post) :
    List.zipWith max (castDims (pre ++ a :: post)) (rpre ++ (b : Int) :: rpost)
      = castDims (pre ++ b :: post) := by
  have hl : (castDims pre).length = rpre.length := by
    rw [castDims_length]; exact hrpre.length_eq.symm
  have hmax : max (a : Int) (b : Int) = (b : Int) := max_eq_right (by exact_mod_cast hab.le)
  rw [castDims_append, List.zipWith_append _ _ _ _ _ hl, zipWith_max_unchanged _ _ hrpre,
    castDims_cons, List.zipWith_cons_cons, zipWith_max_unchanged _ _ hrpost, hmax,
    castDims_append, castDims_cons]

/-- `Expansion` of a materialized host tensor, step by step. -/
theorem Expansion_eval (d : Data) (dims : List Int) (axis : Int)
    (ob c1 s0 cnt0 cntAxis inner : Nat) (c0 r0 dimAxis : Int) (d2 : Data) (old new buf : Buffer)
    (hne : ¬ d.dims.length = 0) (hlen : dims.length = d.dims.length)
    (hcheck : expansionCheck dims d.dims = .ok ())
    (haxis : expansionAxis d.dims dims 0 = axis)
    (hgb : GetBytes d = .ok ob)
    (hc1 : Count d axis = .ok c1)
    (hs0 : at? (strideList (List.zipWith max d.dims dims)) 0 = .ok s0)
    (hc0 : at? d.dims 0 = .ok c0) (hr0 : at? dims 0 = .ok r0)
    (hmat : d.expansionBytes ≠ 0) (hdev : d.dataDevice = .CPU)
    (hm : MallocSpace { d with strides := strideList (List.zipWith max d.dims dims),
                               expansionDims := dims } (mulU64 s0 (toU64 (max c0 r0))) = .ok d2)
    (hcnt0 : Count d2 0 = .ok cnt0) (hcntAxis : Count d2 axis = .ok cntAxis)
    (hnz : ¬ cntAxis = 0)
    (hinner : at? d2.strides (toU64 axis) = .ok inner)
    (hdimAxis : at? d2.dims (toU64 axis) = .ok dimAxis)
    (hold : d.cpuData = some old) (hnew : d2.cpuData = some new)
    (hcopy : expansionCopy old (toInt32 cntAxis) (toInt32 c1) d2.unitSize dimAxis (toInt32 inner)
      (toInt32 (cnt0 / cntAxis)).toNat 0 new = .ok buf) :
    Expansion d dims = .ok { d2 with cpuData := some buf } := by
  unfold Expansion
  rw [if_neg hne]
  have hl : (dims.length == d.dims.length) = true := by simp [hlen]
  simp only [hl, AssertInFastLLM, if_true, bind, Except.bind, hcheck, haxis, hgb, hc1, hs0,
    hc0, hr0]
  rw [if_pos hmat]
  simp only [hdev] at hm
  simp only [hdev, hm, hcnt0, hcntAxis, bind, Except.bind]
  rw [if_neg hnz]
  simp only [hinner, hdimAxis, hold, hnew, hcopy, bind, Except.bind]

end fastllm

namespace fastllm

theorem toU64_one : toU64 1 = 1 := by decide

theorem toU64_zero : toU64 0 = 0 := by decide

theorem toU64_length {n : Nat} (h : n < 2 ^ 31) : toU64 (n : Int) = n :=
  toU64_natCast (by unfold U64; omega)

theorem mulU64_of_lt {x y : Nat} (h : x * y < U64) : mulU64 x y = x * y := by
  unfold mulU64; exact Nat.mod_eq_of_lt h

theorem lt_U64_of_lt {x : Nat} (h : x < 2 ^ 31) : x < U64 := by unfold U64; omega

/-- `GetBytes` returns on a tensor with a shape, strides and `unitSizeDiv = 1`. -/
theorem GetBytes_ok (d : Data) (hs : d.strides ≠ []) (hd : d.dims ≠ [])
    (hdiv : d.unitSizeDiv = 1) : ∃ ob, GetBytes d = .ok ob := by
  obtain ⟨s, ss, hs'⟩ := List.exists_cons_of_ne_nil hs
  obtain ⟨x, xs, hd'⟩ := List.exists_cons_of_ne_nil hd
  unfold GetBytes
  rw [hs', hd', hdiv, toU64_one]
  simp [at?, bind, Except.bind]

/-- `Count (0)`: the logical extent of axis 0 times its stride. -/
theorem Count_zero (x : Data) (pre post : List Nat) (a e : Nat)
    (hdims : x.dims = castDims (pre ++ a :: post))
    (hstr : x.strides = natStrides (pre ++ e :: post))
    (hlt : pre.prod * sliceSpan pre a e post.prod < 2 ^ 31)
    (hmem : ∀ y ∈ pre, y < 2 ^ 31) (ha : a < 2 ^ 31) :
    Count x 0 = .ok (pre.prod * sliceSpan pre a e post.prod) := by
  unfold Count
  rw [hdims, hstr, toU64_zero]
  have h1 : ¬ (castDims (pre ++ a :: post)).length ≤ 0 := by
    rw [castDims_length]; simp
  have h2 : ¬ ((0 : Int) ≤ 0 - 1 ∧ toU64 (0 - 1) < (natStrides (pre ++ e :: post)).length) := by
    intro h; omega
  rw [if_neg h1, if_neg h2]
  cases pre with
  | nil =>
    have hlt' : a * post.prod < 2 ^ 31 := by simpa [sliceSpan] using hlt
    simp only [List.nil_append, castDims_cons, natStrides, at?, List.getElem?_cons_zero,
      bind, Except.bind, toU64_natCast (lt_U64_of_lt ha), mulU64_of_lt (lt_U64_of_lt hlt'),
      sliceSpan, if_true, List.prod_nil, Nat.one_mul]
  | cons p ps =>
    have hp : p < 2 ^ 31 := hmem p (by simp)
    have hlt' : p * (ps ++ e :: post).prod < 2 ^ 31 := by
      simp only [sliceSpan, List.prod_cons, List.prod_append] at hlt ⊢
      rw [if_neg (by simp)] at hlt
      calc p * (ps.prod * (e * post.prod)) = p * ps.prod * (e * post.prod) := by ring
        _ < 2 ^ 31 := hlt
    have ed : castDims ((p :: ps) ++ a :: post) = (p : Int) :: castDims (ps ++ a :: post) := rfl
    have es : natStrides ((p :: ps) ++ e :: post)
        = (ps ++ e :: post).prod :: natStrides (ps ++ e :: post) := rfl
    rw [ed, es]
    simp only [at?, List.getElem?_cons_zero, bind, Except.bind,
      toU64_natCast (lt_U64_of_lt hp), mulU64_of_lt (lt_U64_of_lt hlt'), sliceSpan]
    rw [if_neg (by simp)]
    simp only [List.prod_cons, List.prod_append]
    congr 1; ring

/-- `Count (axis)` for the axis after `pre`. -/
theorem Count_axis (x : Data) (pre post : List Nat) (a e : Nat)
    (hdims : x.dims = castDims (pre ++ a :: post))
    (hstr : x.strides = natStrides (pre ++ e :: post))
    (hrank : (pre ++ a :: post).length < 2 ^ 31)
    (hlt : pre.prod * sliceSpan pre a e post.prod < 2 ^ 31)
    (hmem : ∀ y ∈ pre, y < 2 ^ 31) (ha : a < 2 ^ 31) :
    Count x (pre.length : Int) = .ok (sliceSpan pre a e post.prod) := by
  cases pre with
  | nil =>
    have h := Count_zero x [] post a e hdims hstr hlt hmem ha
    simpa using h
  | cons p ps =>
    unfold Count
    rw [hdims, hstr]
    have hk : (p :: ps).length < 2 ^ 31 := by
      have : (p :: ps).length ≤ ((p :: ps) ++ a :: post).length := by simp
      omega
    have e1 : toU64 (((p :: ps).length : Nat) : Int) = (p :: ps).length := toU64_length hk
    have e2 : (((p :: ps).length : Nat) : Int) - 1 = ((ps.length : Nat) : Int) := by
      simp
    have e3 : toU64 ((ps.length : Nat) : Int) = ps.length :=
      toU64_length (by simp at hk; omega)
    have h1 : ¬ (castDims ((p :: ps) ++ a :: post)).length ≤ (p :: ps).length := by
      rw [castDims_length]; simp
    have h2 : (0 : Int) ≤ ((ps.length : Nat) : Int) ∧
        ps.length < (natStrides ((p :: ps) ++ e :: post)).length := by
      refine ⟨Int.natCast_nonneg _, ?_⟩
      rw [natStrides_length]; simp; omega
    rw [e1, if_neg h1, e2, e3, if_pos h2]
    apply at?_eq_ok
    rw [natStrides_getElem? _ _ (by simp; omega)]
    have : List.drop (ps.length + 1) ((p :: ps) ++ e :: post) = e :: post := by
      simp
    rw [this, sliceSpan, if_neg (by simp), List.prod_cons]

end fastllm

namespace fastllm

/-- `MallocSpace` on the host for a whole-byte kind: a fresh buffer of
`size * unitSize` bytes. -/
theorem MallocSpace_host (d : Data) (size u : Nat) (hdev : d.dataDevice = .CPU)
    (hdiv : d.unitSizeDiv = 1) (hu : d.unitSize = (u : Int))
    (h1 : 1 ≤ size * u) (h31 : size * u < 2 ^ 31) :
    MallocSpace d size =
      .ok { d with expansionSize := size, expansionBytes := size * u,
                   cpuData := some (Buffer.fresh (size * u)) } := by
  have hu' : u < 2 ^ 31 := by
    rcases Nat.eq_zero_or_pos size with h | h
    · rw [h] at h1; omega
    · have : u ≤ size * u := Nat.le_mul_of_pos_left _ h
      omega
  have e1 : toU64 (u : Int) = u := toU64_natCast (lt_U64_of_lt hu')
  have e2 : mulU64 size u = size * u := mulU64_of_lt (lt_U64_of_lt h31)
  have e3 : addU64 (subU64 (size * u) 1 / 1) 1 = size * u := by
    rw [bytes_idiom_of_pos _ _ h1 (lt_U64_of_lt h31)]
    simp; omega
  unfold MallocSpace
  rw [hdiv, toU64_one, if_neg (by norm_num), hu, e1, e2, e3, hdev]

/-- A whole-byte kind has a `unitSize` of 1, 2 or 4. -/
theorem WholeByte.unitSize_cases {d : Data} (h : WholeByte d) :
    d.unitSize = 1 ∨ d.unitSize = 2 ∨ d.unitSize = 4 := by
  obtain ⟨h1, h2⟩ := h
  have hs : (UpdateUnitSize d).unitSize = d.unitSize := by rw [h1]
  have hd : (UpdateUnitSize d).unitSizeDiv = d.unitSizeDiv := by rw [h1]
  unfold UpdateUnitSize at hs hd
  cases hk : d.dataType <;> simp only [hk] at hs hd <;> simp_all

theorem WholeByte.exists_unit {d : Data} (h : WholeByte d) :
    ∃ u : Nat, d.unitSize = (u : Int) ∧ 1 ≤ u ∧ d.unitSize.toNat = u := by
  rcases h.unitSize_cases with h | h | h
  · exact ⟨1, by rw [h]; rfl, by norm_num, by rw [h]; rfl⟩
  · exact ⟨2, by rw [h]; rfl, by norm_num, by rw [h]; rfl⟩
  · exact ⟨4, by rw [h]; rfl, by norm_num, by rw [h]; rfl⟩

theorem sliceSpan_pos (pre : List Nat) (a e P : Nat) (ha : 0 < a) (he : 0 < e) (hP : 0 < P) :
    0 < sliceSpan pre a e P := by
  unfold sliceSpan; split <;> positivity

theorem sliceSpan_le (pre : List Nat) (a e P : Nat) (hae : a ≤ e) :
    sliceSpan pre a e P ≤ e * P := by
  unfold sliceSpan; split
  · exact Nat.mul_le_mul_right _ hae
  · exact le_refl _

theorem le_sliceSpan (pre : List Nat) (a e P : Nat) (hae : a ≤ e) :
    a * P ≤ sliceSpan pre a e P := by
  unfold sliceSpan; split
  · exact le_refl _
  · exact Nat.mul_le_mul_right _ hae

theorem outerIndex_mul_sliceSpan (pre ipre : List Nat) (a e P : Nat)
    (h : ipre.length = pre.length) :
    outerIndex pre ipre * sliceSpan pre a e P = outerIndex pre ipre * (e * P) := by
  cases pre with
  | nil =>
    cases ipre with
    | nil => simp [outerIndex]
    | cons j js => simp at h
  | cons p ps => simp [sliceSpan]

/-- The head entries `Expansion` reads for the size of the new buffer. -/
theorem expansion_heads (rpre rpost : List Int) (pre post : List Nat) (a b : Nat)
    (hab : a < b) (hrpre : List.Forall₂ Unchanged rpre pre)
    (hlt : (pre ++ b :: post).prod < 2 ^ 31) (hpos : ∀ y ∈ pre ++ b :: post, 0 < y) :
    ∃ (s0 : Nat) (c0 r0 : Int),
      at? (natStrides (pre ++ b :: post)) 0 = .ok s0 ∧
      at? (castDims (pre ++ a :: post)) 0 = .ok c0 ∧
      at? (rpre ++ (b : Int) :: rpost) 0 = .ok r0 ∧
      mulU64 s0 (toU64 (max c0 r0)) = (pre ++ b :: post).prod := by
  cases hrpre with
  | nil =>
    refine ⟨post.prod, (a : Int), (b : Int), by simp [at?, natStrides],
      by simp [at?, castDims], by simp [at?], ?_⟩
    have hmax : max (a : Int) (b : Int) = (b : Int) := max_eq_right (by exact_mod_cast hab.le)
    have hb : b < 2 ^ 31 := by
      have := le_prod_of_mem hpos (show b ∈ [] ++ b :: post by simp)
      omega
    rw [hmax, toU64_natCast (lt_U64_of_lt hb)]
    have e : post.prod * b = ([] ++ b :: post).prod := by simp [Nat.mul_comm]
    rw [mulU64_of_lt (by rw [e]; exact lt_U64_of_lt hlt), e]
  | @cons r p rs ps hrp hrs =>
    refine ⟨(ps ++ b :: post).prod, (p : Int), r, by simp [at?, natStrides],
      by simp [at?, castDims], by simp [at?], ?_⟩
    have hmax : max (p : Int) r = (p : Int) := by
      rcases hrp with h | h
      · rw [h]; have : (0 : Int) ≤ (p : Int) := Int.natCast_nonneg _
        exact max_eq_left (by omega)
      · rw [h]; exact max_self _
    have hp : p < 2 ^ 31 := by
      have := le_prod_of_mem hpos (show p ∈ (p :: ps) ++ b :: post by simp)
      omega
    rw [hmax, toU64_natCast (lt_U64_of_lt hp)]
    have e : (ps ++ b :: post).prod * p = ((p :: ps) ++ b :: post).prod := by
      simp [Nat.mul_comm]
    rw [mulU64_of_lt (by rw [e]; exact lt_U64_of_lt hlt), e]

/-- `Expansion` of a materialized host tensor of a whole-byte kind, on a request
that raises the axis after `pre` from the logical extent `a` to `b` and leaves
the other axes: the old strides are built from the extents `pre`, `a'`, `post`
(`a'` the extent reserved so far on the axis), the new ones from `pre`, `b`,
`post`, and every element within the logical shape is copied to its offset
under the new strides. -/
theorem Expansion_one_axis (d : Data) (buf : Buffer) (pre post : List Nat) (a a' b : Nat)
    (rpre rpost : List Int) (u : Nat)
    (hu : d.unitSize = (u : Int)) (hu1 : 1 ≤ u) (hdiv : d.unitSizeDiv = 1)
    (hdev : d.dataDevice = .CPU) (hbuf : d.cpuData = some buf) (hmat : d.expansionBytes ≠ 0)
    (hdims : d.dims = castDims (pre ++ a :: post))
    (hstr : d.strides = natStrides (pre ++ a' :: post))
    (hrank : (pre ++ a :: post).length < 2 ^ 31)
    (hpos : ∀ y ∈ pre ++ a :: post, 0 < y)
    (haa : a ≤ a') (hpre0 : pre = [] → a' = a) (hab : a < b)
    (hrpre : List.Forall₂ Unchanged rpre pre) (hrpost : List.Forall₂ Unchanged rpost post)
    (hold : (pre ++ a' :: post).prod * u ≤ buf.size)
    (hold31 : (pre ++ a' :: post).prod * u < 2 ^ 31)
    (hnew31 : (pre ++ b :: post).prod * u < 2 ^ 31) :
    ∃ buf', Expansion d (rpre ++ (b : Int) :: rpost) =
        .ok { d with strides := natStrides (pre ++ b :: post),
                     expansionDims := rpre ++ (b : Int) :: rpost,
                     expansionSize := (pre ++ b :: post).prod,
                     expansionBytes := (pre ++ b :: post).prod * u,
                     cpuData := some buf' } ∧
      buf'.size = (pre ++ b :: post).prod * u ∧
      ∀ ipre i ipost, List.Forall₂ (fun i x => i < x) ipre pre → i < a →
        List.Forall₂ (fun i x => i < x) ipost post → ∀ k, k < u →
        buf'.byte (offsetOf (natStrides (pre ++ b :: post)) (ipre ++ i :: ipost) * u + k)
          = buf.byte (offsetOf (natStrides (pre ++ a' :: post)) (ipre ++ i :: ipost) * u + k) := by
  -- positivity and sizes
  have hprepos : ∀ y ∈ pre, 0 < y := fun y hy => hpos y (by simp [hy])
  have hpostpos : ∀ y ∈ post, 0 < y := fun y hy => hpos y (by simp [hy])
  have ha0 : 0 < a := hpos a (by simp)
  have ha'0 : 0 < a' := by omega
  have hb0 : 0 < b := by omega
  have hA : 0 < pre.prod := List.prod_pos hprepos
  have hP : 0 < post.prod := List.prod_pos hpostpos
  have hnewpos : ∀ y ∈ pre ++ b :: post, 0 < y := by
    intro y hy
    rcases List.mem_append.mp hy with h | h
    · exact hprepos y h
    · rcases List.mem_cons.mp h with rfl | h
      · exact hb0
      · exact hpostpos y h
  have enew : (pre ++ b :: post).prod = pre.prod * (b * post.prod) := by
    simp [List.prod_append]
  have eold : (pre ++ a' :: post).prod = pre.prod * (a' * post.prod) := by
    simp [List.prod_append]
  have hle_u : ∀ x : Nat, x ≤ x * u := fun x => Nat.le_mul_of_pos_right _ (by omega)
  have hnew31' : pre.prod * (b * post.prod) < 2 ^ 31 := by
    have := hle_u (pre.prod * (b * post.prod)); rw [enew] at hnew31; omega
  have hold31' : pre.prod * (a' * post.prod) < 2 ^ 31 := by
    have := hle_u (pre.prod * (a' * post.prod)); rw [eold] at hold31; omega
  have hbP : b * post.prod ≤ pre.prod * (b * post.prod) := Nat.le_mul_of_pos_left _ hA
  have ha'P : a' * post.prod ≤ pre.prod * (a' * post.prod) := Nat.le_mul_of_pos_left _ hA
  have hA31 : pre.prod < 2 ^ 31 := by
    have : pre.prod ≤ pre.prod * (b * post.prod) := Nat.le_mul_of_pos_right _ (by positivity)
    omega
  have hmem : ∀ y ∈ pre, y < 2 ^ 31 := fun y hy =>
    lt_of_le_of_lt (le_prod_of_mem hprepos hy) hA31
  have ha31 : a < 2 ^ 31 := by
    have : a' ≤ a' * post.prod := Nat.le_mul_of_pos_right _ hP
    omega
  have hS1 : sliceSpan pre a a' post.prod = a' * post.prod := by
    unfold sliceSpan; split
    · rename_i h; rw [hpre0 h]
    · rfl
  have hS0le : sliceSpan pre a b post.prod ≤ b * post.prod := sliceSpan_le _ _ _ _ hab.le
  have hS0pos : 0 < sliceSpan pre a b post.prod := sliceSpan_pos _ _ _ _ ha0 hb0 hP
  have hAS0 : pre.prod * sliceSpan pre a b post.prod ≤ pre.prod * (b * post.prod) :=
    Nat.mul_le_mul_left _ hS0le
  -- the steps of the call
  have hne : ¬ d.dims.length = 0 := by rw [hdims, castDims_length]; simp
  have hlen : (rpre ++ (b : Int) :: rpost).length = d.dims.length := by
    rw [hdims, castDims_length]
    simp [hrpre.length_eq, hrpost.length_eq]
  have hcheck : expansionCheck (rpre ++ (b : Int) :: rpost) d.dims = .ok () := by
    rw [hdims]; exact expansionCheck_one_axis rpre rpost pre post a b hab hrpre hrpost
  have haxis : expansionAxis d.dims (rpre ++ (b : Int) :: rpost) 0 = (pre.length : Int) := by
    rw [hdims]; exact expansionAxis_one_axis rpre rpost pre post a b hab hrpre
  obtain ⟨ob, hgb⟩ := GetBytes_ok d (by rw [hstr]; cases pre <;> simp [natStrides])
    (by rw [hdims]; cases pre <;> simp [castDims]) hdiv
  have hc1 : Count d (pre.length : Int) = .ok (a' * post.prod) := by
    rw [← hS1]
    exact Count_axis d pre post a a' hdims hstr hrank (by rw [hS1]; exact hold31') hmem ha31
  have hzip : List.zipWith max d.dims (rpre ++ (b : Int) :: rpost)
      = castDims (pre ++ b :: post) := by
    rw [hdims]; exact zipWith_max_one_axis rpre rpost pre post a b hab hrpre hrpost
  have hsl : strideList (List.zipWith max d.dims (rpre ++ (b : Int) :: rpost))
      = natStrides (pre ++ b :: post) := by
    rw [hzip]
    exact strideList_castDims _ hnewpos (by rw [enew]; exact lt_U64_of_lt hnew31')
  obtain ⟨s0, c0, r0, hs0, hc0, hr0, hsize⟩ :=
    expansion_heads rpre rpost pre post a b hab hrpre (by rw [enew]; exact hnew31') hnewpos
  let d2 : Data :=
    { d with strides := natStrides (pre ++ b :: post),
             expansionDims := rpre ++ (b : Int) :: rpost,
             expansionSize := (pre ++ b :: post).prod,
             expansionBytes := (pre ++ b :: post).prod * u,
             cpuData := some (Buffer.fresh ((pre ++ b :: post).prod * u)) }
  have hm : MallocSpace { d with
        strides := strideList (List.zipWith max d.dims (rpre ++ (b : Int) :: rpost)),
        expansionDims := rpre ++ (b : Int) :: rpost } (mulU64 s0 (toU64 (max c0 r0)))
      = .ok d2 := by
    rw [hsl, hsize]
    exact MallocSpace_host
      { d with strides := natStrides (pre ++ b :: post),
               expansionDims := rpre ++ (b : Int) :: rpost }
      (pre ++ b :: post).prod u hdev hdiv hu
      (by rw [enew]; exact Nat.mul_pos (by positivity) (by omega)) hnew31
  have hd2dims : d2.dims = castDims (pre ++ a :: post) := hdims
  have hd2str : d2.strides = natStrides (pre ++ b :: post) := rfl
  have hcnt0 : Count d2 0 = .ok (pre.prod * sliceSpan pre a b post.prod) :=
    Count_zero d2 pre post a b hd2dims hd2str (by omega) hmem ha31
  have hcntAxis : Count d2 (pre.length : Int) = .ok (sliceSpan pre a b post.prod) :=
    Count_axis d2 pre post a b hd2dims hd2str hrank (by omega) hmem ha31
  have hk31 : pre.length < 2 ^ 31 := by
    have : pre.length ≤ (pre ++ a :: post).length := by simp
    omega
  have hinner : at? d2.strides (toU64 (pre.length : Int)) = .ok post.prod := by
    rw [toU64_length hk31, hd2str]
    apply at?_eq_ok
    rw [natStrides_getElem? _ _ (by simp)]
    simp
  have hdimAxis : at? d2.dims (toU64 (pre.length : Int)) = .ok (a : Int) := by
    rw [toU64_length hk31, hd2dims]
    apply at?_eq_ok
    rw [castDims_getElem?]
    have : (pre ++ a :: post)[pre.length]? = some a := by
      rw [List.getElem?_append_right (le_refl _)]
      simp
    rw [this]
    rfl
  have hquot : pre.prod * sliceSpan pre a b post.prod / sliceSpan pre a b post.prod
      = pre.prod := Nat.mul_div_cancel _ hS0pos
  have hto1 : toInt32 (sliceSpan pre a b post.prod) = ((sliceSpan pre a b post.prod : Nat) : Int) :=
    toInt32_of_lt (by omega)
  have hto2 : toInt32 (a' * post.prod) = ((a' * post.prod : Nat) : Int) :=
    toInt32_of_lt (by omega)
  have hto3 : toInt32 post.prod = ((post.prod : Nat) : Int) := by
    apply toInt32_of_lt
    have : post.prod ≤ b * post.prod := Nat.le_mul_of_pos_left _ hb0
    omega
  have hto4 : (toInt32 (pre.prod * sliceSpan pre a b post.prod / sliceSpan pre a b post.prod)).toNat
      = pre.prod := by
    rw [hquot, toInt32_of_lt hA31]
    exact Int.toNat_ofNat _
  obtain ⟨buf', hcopy, hsize', _, hbytes⟩ :=
    expansionCopy_spec buf (sliceSpan pre a b post.prod) (a' * post.prod) u a post.prod
      pre.prod 0 (Buffer.fresh ((pre ++ b :: post).prod * u)) hu1
      (le_sliceSpan _ _ _ _ hab.le) (Nat.mul_le_mul_right _ haa)
      (by
        rw [Nat.zero_add, enew]
        exact Nat.mul_le_mul_right _ hAS0)
      (by rw [Nat.zero_add, ← eold]; exact hold)
      (by
        rw [Nat.zero_add]
        have := Nat.mul_le_mul_right u hAS0
        rw [enew] at hnew31; omega)
      (by rw [Nat.zero_add, ← eold]; exact hold31)
  have hcopy' : expansionCopy buf (toInt32 (sliceSpan pre a b post.prod))
      (toInt32 (a' * post.prod)) d2.unitSize (a : Int) (toInt32 post.prod)
      (toInt32 (pre.prod * sliceSpan pre a b post.prod / sliceSpan pre a b post.prod)).toNat 0
      (Buffer.fresh ((pre ++ b :: post).prod * u)) = .ok buf' := by
    rw [hto1, hto2, hto3, hto4]
    have : d2.unitSize = (u : Int) := hu
    rw [this]
    exact hcopy
  refine ⟨buf', ?_, hsize', ?_⟩
  · rw [Expansion_eval d (rpre ++ (b : Int) :: rpost) (pre.length : Int) ob (a' * post.prod) s0
      (pre.prod * sliceSpan pre a b post.prod) (sliceSpan pre a b post.prod) post.prod c0 r0
      (a : Int) d2 buf (Buffer.fresh ((pre ++ b :: post).prod * u)) buf'
      hne hlen hcheck haxis hgb hc1 (by rw [hsl]; exact hs0) (by rw [hdims]; exact hc0) hr0
      hmat hdev hm hcnt0 hcntAxis (by omega) hinner hdimAxis hbuf rfl hcopy']
  · intro ipre i ipost hipre hi hipost k hk
    have hl : ipre.length = pre.length := hipre.length_eq
    have hO : outerIndex pre ipre < pre.prod := outerIndex_lt pre ipre hipre
    have hR : offsetOf (natStrides post) ipost < post.prod := offsetOf_lt post ipost hipost
    have hRlt : i * post.prod + offsetOf (natStrides post) ipost < a * post.prod := by
      calc i * post.prod + offsetOf (natStrides post) ipost
          < i * post.prod + post.prod := by omega
        _ = (i + 1) * post.prod := by ring
        _ ≤ a * post.prod := Nat.mul_le_mul_right _ hi
    rw [offsetOf_split pre b post ipre i ipost hl, offsetOf_split pre a' post ipre i ipost hl,
      ← outerIndex_mul_sliceSpan pre ipre a b post.prod hl]
    set O := outerIndex pre ipre
    set R := i * post.prod + offsetOf (natStrides post) ipost
    have ht : R * u + k < a * post.prod * u := by
      calc R * u + k < R * u + u := by omega
        _ = (R + 1) * u := by ring
        _ ≤ a * post.prod * u := Nat.mul_le_mul_right _ hRlt
    have e1 : (O * sliceSpan pre a b post.prod + R) * u + k
        = O * sliceSpan pre a b post.prod * u + (R * u + k) := by ring
    have e2 : (O * (a' * post.prod) + R) * u + k = O * (a' * post.prod) * u + (R * u + k) := by
      ring
    rw [e1, e2]
    exact hbytes O (Nat.zero_le _) (by omega) (R * u + k) ht

end fastllm

namespace fastllm

/-! ## Reservation keeps the content (C4, C5) -/

theorem UpdateUnitSize_unitSize_congr (x y : Data) (h : x.dataType = y.dataType) :
    (UpdateUnitSize x).unitSize = (UpdateUnitSize y).unitSize := by
  unfold UpdateUnitSize
  rw [h]
  cases y.dataType <;> rfl

/-- In the setting `RaisesOneAxis`, `Expansion` returns the tensor with the new
strides, the request as reserved shape and a buffer of the new capacity in
which every element within the logical shape has the bytes it had. -/
theorem Expansion_of_raisesOneAxis (d : Data) (buf : Buffer) (pre post : List Nat)
    (a a' b : Nat) (rpre rpost : List Int)
    (h : RaisesOneAxis d buf pre post a a' b rpre rpost) :
    ∃ d', Expansion d (rpre ++ (b : Int) :: rpost) = .ok d' ∧
      d'.dataType = d.dataType ∧ d'.unitSize = d.unitSize ∧ d'.dims = d.dims ∧
      d'.strides = strideList (castDims (pre ++ b :: post)) ∧
      d'.expansionDims = rpre ++ (b : Int) :: rpost ∧
      d'.expansionSize = (pre ++ b :: post).prod ∧
      (∃ buf', d'.cpuData = some buf' ∧
        buf'.size = (pre ++ b :: post).prod * d.unitSize.toNat) ∧
      ∀ index, InShape index d.dims → ∀ k, k < d.unitSize.toNat →
        elementByte d' index k = elementByte d index k := by
  obtain ⟨u, hu, hu1, hut⟩ := h.wholeByte.exists_unit
  have hpos := h.extents_pos
  have ha0 : 0 < a := hpos a (by simp)
  have hle_u : ∀ x : Nat, x ≤ x * u := fun x => Nat.le_mul_of_pos_right _ (by omega)
  have holdpos : ∀ y ∈ pre ++ a' :: post, 0 < y := by
    intro y hy
    rcases List.mem_append.mp hy with h1 | h1
    · exact hpos y (by simp [h1])
    · rcases List.mem_cons.mp h1 with rfl | h1
      · have := h.reserved; omega
      · exact hpos y (by simp [h1])
  have hnewpos : ∀ y ∈ pre ++ b :: post, 0 < y := by
    intro y hy
    rcases List.mem_append.mp hy with h1 | h1
    · exact hpos y (by simp [h1])
    · rcases List.mem_cons.mp h1 with rfl | h1
      · have := h.raised; omega
      · exact hpos y (by simp [h1])
  have hold31 := h.old_lt
  have hnew31 := h.new_lt
  have hholds := h.holds
  rw [hut] at hold31 hnew31 hholds
  have hstr : d.strides = natStrides (pre ++ a' :: post) := by
    rw [h.strides_eq]
    exact strideList_castDims _ holdpos
      (lt_U64_of_lt (by have := hle_u (pre ++ a' :: post).prod; omega))
  have hnewstr : strideList (castDims (pre ++ b :: post)) = natStrides (pre ++ b :: post) :=
    strideList_castDims _ hnewpos
      (lt_U64_of_lt (by have := hle_u (pre ++ b :: post).prod; omega))
  obtain ⟨buf', hexp, hsize, hbytes⟩ :=
    Expansion_one_axis d buf pre post a a' b rpre rpost u hu hu1 h.wholeByte.2 h.host h.buffer
      h.materialized h.dims_eq hstr h.rank_lt hpos h.reserved h.reserved_first h.raised
      h.before h.after hholds hold31 hnew31
  refine ⟨_, hexp, rfl, rfl, rfl, hnewstr.symm, rfl, rfl, ⟨buf', rfl, by rw [hut]; exact hsize⟩, ?_⟩
  intro index hin k hk
  rw [h.dims_eq] at hin
  obtain ⟨ipre, i, ipost, rfl, h1, h2, h3⟩ := inShape_split pre a post index hin
  rw [hut] at hk
  have := hbytes ipre i ipost h1 h2 h3 k hk
  simp only [elementByte, h.buffer, Option.map_some', hut, hstr]
  rw [this]

/-- C5 (amended): for a materialized host tensor of a whole-byte kind and an
accepted request that raises one axis and leaves the others (setting
`RaisesOneAxis`), `Expansion` returns, so every `memcpy` of the copy loop reads
inside the old buffer and writes inside the new one, and the content is copied
into the new strided layout: the strides are those of the raised extents, the
buffer has the new capacity, and every element at a logical index within the
current shape has, addressed through the new strides, the bytes it had
addressed through the old strides. -/
theorem Expansion_copies_content (d : Data) (buf : Buffer) (pre post : List Nat)
    (a a' b : Nat) (rpre rpost : List Int)
    (h : RaisesOneAxis d buf pre post a a' b rpre rpost) :
    ∃ d', Expansion d (rpre ++ (b : Int) :: rpost) = .ok d' ∧
      d'.dims = d.dims ∧
      d'.strides = strideList (castDims (pre ++ b :: post)) ∧
      (∃ buf', d'.cpuData = some buf' ∧
        buf'.size = (pre ++ b :: post).prod * d.unitSize.toNat) ∧
      ∀ index, InShape index d.dims → ∀ k, k < d.unitSize.toNat →
        elementByte d' index k = elementByte d index k := by
  obtain ⟨d', h1, _, _, h4, h5, _, _, h8, h9⟩ :=
    Expansion_of_raisesOneAxis d buf pre post a a' b rpre rpost h
  exact ⟨d', h1, h4, h5, h8, h9⟩

/-- C4 (amended): in the setting `RaisesOneAxis` (whole-byte kind, one axis
raised, the other extents unchanged, no zero extent, layouts below `2 ^ 31`
bytes) every element at a logical index within the old shape has, after
`Expansion`, the bytes it had, and keeps them through a following `Resize` to
any shape. -/
theorem Expansion_then_Resize_keeps_elements (d : Data) (buf : Buffer) (pre post : List Nat)
    (a a' b : Nat) (rpre rpost : List Int)
    (h : RaisesOneAxis d buf pre post a a' b rpre rpost) :
    ∃ d', Expansion d (rpre ++ (b : Int) :: rpost) = .ok d' ∧
      (∀ index, InShape index d.dims → ∀ k, k < d.unitSize.toNat →
        elementByte d' index k = elementByte d index k) ∧
      ∀ shape : List Int, ∃ d'', Resize d' shape = .ok d'' ∧ d''.dims = shape ∧
        ∀ index, InShape index d.dims → ∀ k, k < d.unitSize.toNat →
          elementByte d'' index k = elementByte d index k := by
  obtain ⟨d', h1, h2, h3, _, _, h6, _, _, h9⟩ :=
    Expansion_of_raisesOneAxis d buf pre post a a' b rpre rpost h
  refine ⟨d', h1, h9, ?_⟩
  intro shape
  have hres : d'.expansionDims ≠ [] := by rw [h6]; simp
  refine ⟨_, Resize_ok_of_reservation d' shape hres, UpdateUnitSize_dims _, ?_⟩
  intro index hin k hk
  rw [← h9 index hin k hk]
  have hus : (UpdateUnitSize { d' with dims := shape }).unitSize = d'.unitSize := by
    rw [UpdateUnitSize_unitSize_congr { d' with dims := shape } d (by exact h2), h.wholeByte.1, h3]
  simp only [elementByte, UpdateUnitSize_cpuData, UpdateUnitSize_strides, hus]

end fastllm

namespace fastllm

/-- The float tensor of shape `[1, 3, 4]` and the request `[1, 8, 4]`. -/
theorem raisesOneAxis_example :
    RaisesOneAxis (Data.filled .FLOAT32 [1, 3, 4] (List.range 48))
      (Buffer.ofList (List.range 48)) [1] [4] 3 3 8 [1] [4] where
  wholeByte := ⟨rfl, rfl⟩
  host := rfl
  buffer := rfl
  materialized := by decide
  dims_eq := by decide
  strides_eq := by decide
  rank_lt := by decide
  extents_pos := by decide
  reserved := by decide
  reserved_first := by decide
  raised := by decide
  before := List.Forall₂.cons (Or.inr rfl) List.Forall₂.nil
  after := List.Forall₂.cons (Or.inr rfl) List.Forall₂.nil
  holds := by decide
  old_lt := by decide
  new_lt := by decide

/-- The INT8 tensor of shape `[2, 3, 4]`, reserved to `[2, 5, 4]` before, and
the request `[-1, 8, -1]`. -/
theorem raisesOneAxis_example_reserved :
    RaisesOneAxis
      { Data.filled .INT8 [2, 3, 4] (List.range 40) with
        strides := [20, 4, 1], expansionDims := [2, 5, 4], expansionSize := 40 }
      (Buffer.ofList (List.range 40)) [2] [4] 3 5 8 [-1] [-1] where
  wholeByte := ⟨rfl, rfl⟩
  host := rfl
  buffer := rfl
  materialized := by decide
  dims_eq := by decide
  strides_eq := by decide
  rank_lt := by decide
  extents_pos := by decide
  reserved := by decide
  reserved_first := by decide
  raised := by decide
  before := List.Forall₂.cons (Or.inl rfl) List.Forall₂.nil
  after := List.Forall₂.cons (Or.inl rfl) List.Forall₂.nil
  holds := by decide
  old_lt := by decide
  new_lt := by decide

theorem Expansion_then_Resize_keeps_elements_witness :
    ∃ d', Expansion (Data.filled .FLOAT32 [1, 3, 4] (List.range 48))
        ([1] ++ ((8 : Nat) : Int) :: [4]) = .ok d' ∧
      (∀ index, InShape index (Data.filled .FLOAT32 [1, 3, 4] (List.range 48)).dims →
        ∀ k, k < (Data.filled .FLOAT32 [1, 3, 4] (List.range 48)).unitSize.toNat →
        elementByte d' index k
          = elementByte (Data.filled .FLOAT32 [1, 3, 4] (List.range 48)) index k) ∧
      ∀ shape : List Int, ∃ d'', Resize d' shape = .ok d'' ∧ d''.dims = shape ∧
        ∀ index, InShape index (Data.filled .FLOAT32 [1, 3, 4] (List.range 48)).dims →
          ∀ k, k < (Data.filled .FLOAT32 [1, 3, 4] (List.range 48)).unitSize.toNat →
          elementByte d'' index k
            = elementByte (Data.filled .FLOAT32 [1, 3, 4] (List.range 48)) index k :=
  Expansion_then_Resize_keeps_elements _ _ [1] [4] 3 3 8 [1] [4] raisesOneAxis_example

theorem Expansion_copies_content_witness :
    ∃ d', Expansion
        { Data.filled .INT8 [2, 3, 4] (List.range 40) with
          strides := [20, 4, 1], expansionDims := [2, 5, 4], expansionSize := 40 }
        ([-1] ++ ((8 : Nat) : Int) :: [-1]) = .ok d' ∧
      d'.dims = [2, 3, 4] ∧
      d'.strides = strideList (castDims ([2] ++ 8 :: [4])) ∧
      (∃ buf', d'.cpuData = some buf' ∧ buf'.size = ([2] ++ 8 :: [4]).prod * 1) ∧
      ∀ index, InShape index [2, 3, 4] → ∀ k, k < 1 →
        elementByte d' index k
          = elementByte { Data.filled .INT8 [2, 3, 4] (List.range 40) with
              strides := [20, 4, 1], expansionDims := [2, 5, 4], expansionSize := 40 } index k :=
  Expansion_copies_content _ _ [2] [4] 3 5 8 [-1] [-1] raisesOneAxis_example_reserved

/-- C4 as stated fails: a float tensor of shape `[2, 3]` with its 24 bytes
accepts the request `[2, 2 ^ 29]`, which raises one axis; the new layout has
`2 ^ 32` bytes and the `int` product `o * input0Stride * unitSize` of the copy
loop overflows at `o = 1`, so the second row is not copied. -/
theorem Expansion_int_offsets_overflow :
    faultOf (expansionCheck [2, 536870912]
        (Data.filled .FLOAT32 [2, 3] (List.range 24)).dims) = none
    ∧ faultOf (mulInt (1 * 536870912) 4) = some .undefined
    ∧ faultOf (Expansion (Data.filled .FLOAT32 [2, 3] (List.range 24)) [2, 536870912])
        = some .undefined := by
  decide

/-- C5 as stated fails. An INT4 tensor of shape `[1, 3, 4]` holds 6 bytes; on
the request `[1, 8, 4]` the copy loop reads `3 * 4 * unitSize = 12` bytes of
them. An INT8 tensor of shape `[2, 2, 2]` holds 8 bytes; on the request
`[2, 4, 4]`, which raises two axes, the loop reads bytes 4 to 11 of them. And
when the old buffer is large enough for these reads (allocated for `[4, 4, 4]`,
resized to `[2, 2, 2]`), the element at `[0, 1, 0]`, which held byte 2, holds
byte 4 after the call. -/
theorem Expansion_subbyte_and_two_axes :
    (Data.ofTypeDims .INT4 [1, 3, 4] >>= GetBytes).toOption = some 6
    ∧ faultOf (Expansion (Data.filled .INT4 [1, 3, 4] (List.range 6)) [1, 8, 4])
        = some .undefined
    ∧ faultOf (Expansion (Data.filled .INT8 [2, 2, 2] (List.range 8)) [2, 4, 4])
        = some .undefined
    ∧ ((Data.ofTypeDims .INT8 [4, 4, 4] >>= Allocate >>= fun d =>
          Resize (d.written (List.range 64)) [2, 2, 2]).map
        (fun d => elementByte d [0, 1, 0] 0)).toOption = some (some (some 2))
    ∧ ((Data.ofTypeDims .INT8 [4, 4, 4] >>= Allocate >>= fun d =>
          Resize (d.written (List.range 64)) [2, 2, 2] >>= fun d =>
          Expansion d [2, 4, 4]).map
        (fun d => elementByte d [0, 1, 0] 0)).toOption = some (some (some 4)) := by
  decide

end fastllm

namespace fastllm

/-! ## Strides after `Resize` -/

/-- The stride loop: the last stride is 1. -/
theorem strideList_last (ext : List Int) (i : Nat) (h : i + 1 = ext.length) :
    (strideList ext)[i]? = some 1 := by
  induction ext generalizing i with
  | nil => simp at h
  | cons x xs ih =>
    cases xs with
    | nil =>
      have : i = 0 := by simpa using h
      subst this
      rfl
    | cons e es =>
      cases i with
      | zero => simp at h
      | succ j =>
        rw [strideList_cons]
        simp only [List.getElem?_cons_succ]
        exact ih j (by simpa using h)

/-- The stride loop: each stride is the next extent times the next stride. -/
theorem strideList_step (ext : List Int) (i : Nat) (e : Int) (s : Nat)
    (he : ext[i + 1]? = some e) (hs : (strideList ext)[i + 1]? = some s) :
    (strideList ext)[i]? = some (mulU64 (toU64 e) s) := by
  induction ext generalizing i with
  | nil => simp at he
  | cons x xs ih =>
    cases xs with
    | nil => simp at he
    | cons y ys =>
      cases i with
      | zero =>
        simp only [List.getElem?_cons_succ, List.getElem?_cons_zero, zero_add] at he
        injection he with he
        subst he
        have e1 : strideList (x :: y :: ys)
            = mulU64 (toU64 y) ((strideList (y :: ys)).headD 1) :: strideList (y :: ys) := rfl
        rw [e1] at hs ⊢
        simp only [List.getElem?_cons_succ, List.getElem?_cons_zero, zero_add] at hs ⊢
        rw [strideList_cons] at hs ⊢
        simp only [List.getElem?_cons_zero] at hs
        injection hs with hs
        subst hs
        rfl
      | succ j =>
        rw [strideList_cons] at hs ⊢
        rw [List.getElem?_cons_succ] at he hs ⊢
        exact ih j he hs

/-- The strides depend on the extents after the first only. -/
theorem strideList_congr_tail (x y : Int) (xs : List Int) :
    strideList (x :: xs) = strideList (y :: xs) := by
  rw [strideList_cons, strideList_cons]

/-- `Count (0)` of a shaped tensor whose strides are built from its shape. -/
theorem Count_zero_row_major (d : Data) (hne : d.dims ≠ [])
    (hstr : d.strides = strideList d.dims) : Count d 0 = .ok (prodU64 d.dims) := by
  cases hd : d.dims with
  | nil => exact absurd hd hne
  | cons x xs =>
    unfold Count
    rw [hstr, hd, strideList_cons]
    have h0 : ¬ (x :: xs).length ≤ toU64 0 := by
      rw [toU64_zero]; simp
    rw [if_neg h0, if_neg (by omega)]
    rw [toU64_zero]
    simp only [at?, List.getElem?_cons_zero, bind, Except.bind]
    rw [prodU64_eq, prodN_cons]
    unfold mulU64
    rw [Nat.mul_mod, Nat.mod_mod, ← Nat.mul_mod]

theorem prodN_of_nonneg (l : List Int) (h : ∀ y ∈ l, 0 ≤ y ∧ y < 2 ^ 31) :
    prodN l = (l.map Int.toNat).prod := by
  induction l with
  | nil => rfl
  | cons x xs ih =>
    rw [prodN_cons, List.map_cons, List.prod_cons,
      ih (fun y hy => h y (List.mem_cons_of_mem _ hy))]
    have hx := h x (List.mem_cons_self _ _)
    rw [toU64_of_nonneg hx.1 (by omega)]

/-- C15 (amended): for every tensor without a reservation and every non-empty shape,
`Resize` sets `dims` to the shape and the strides to the row-major ones:
`strides[last] = 1`, `strides[i] = dims[i + 1] * strides[i + 1]` in `uint64_t`
for every `i < last`; `Count (0)` is then the product of `dims` in `uint64_t`,
which is the exact product when the extents are not negative and their
product is below `2 ^ 64`. -/
theorem Resize_row_major (d : Data) (dims : List Int) (hres : d.expansionDims = [])
    (hne : dims ≠ []) :
    ∃ d', Resize d dims = .ok d' ∧ d'.dims = dims ∧ d'.strides.length = dims.length ∧
      (∀ i, i + 1 = dims.length → d'.strides[i]? = some 1) ∧
      (∀ i e s, dims[i + 1]? = some e → d'.strides[i + 1]? = some s →
        d'.strides[i]? = some (mulU64 (toU64 e) s)) ∧
      Count d' 0 = .ok (prodU64 dims) ∧
      ((∀ y ∈ dims, 0 ≤ y ∧ y < 2 ^ 31) → (dims.map Int.toNat).prod < 2 ^ 64 →
        Count d' 0 = .ok (dims.map Int.toNat).prod) := by
  have hok := Resize_ok_of_no_reservation d dims hres hne
  have hdims : ({ UpdateUnitSize { d with dims := dims } with
      strides := strideList dims } : Data).dims = dims := UpdateUnitSize_dims _
  have hcount : Count { UpdateUnitSize { d with dims := dims } with strides := strideList dims } 0
      = .ok (prodU64 dims) := by
    have := Count_zero_row_major
      { UpdateUnitSize { d with dims := dims } with strides := strideList dims }
      (by rw [hdims]; exact hne) (by rw [hdims])
    rwa [hdims] at this
  refine ⟨_, hok, UpdateUnitSize_dims _, strideList_length dims,
    fun i hi => strideList_last dims i hi,
    fun i e s he hs => strideList_step dims i e s he hs, hcount, ?_⟩
  intro hnn hlt
  rw [hcount, prodU64_eq, prodN_of_nonneg dims hnn]
  congr 1
  exact Nat.mod_eq_of_lt (by unfold U64; exact hlt)

theorem Resize_row_major_witness :
    ∃ d', Resize (Data.ofType .FLOAT32) [2, 3, 4] = .ok d' ∧ d'.dims = [2, 3, 4] ∧
      d'.strides.length = [2, 3, 4].length ∧
      (∀ i, i + 1 = [2, 3, 4].length → d'.strides[i]? = some 1) ∧
      (∀ i e s, ([2, 3, 4] : List Int)[i + 1]? = some e → d'.strides[i + 1]? = some s →
        d'.strides[i]? = some (mulU64 (toU64 e) s)) ∧
      Count d' 0 = .ok (prodU64 [2, 3, 4]) ∧
      ((∀ y ∈ ([2, 3, 4] : List Int), 0 ≤ y ∧ y < 2 ^ 31) →
        (([2, 3, 4] : List Int).map Int.toNat).prod < 2 ^ 64 →
        Count d' 0 = .ok (([2, 3, 4] : List Int).map Int.toNat).prod) :=
  Resize_row_major (Data.ofType .FLOAT32) [2, 3, 4] rfl (by decide)

end fastllm

namespace fastllm

/-! ## What a call leaves when it returns -/

theorem bind_ok {α β : Type} {x : Except Fault α} {f : α → Except Fault β} {b : β}
    (h : (x >>= f) = .ok b) : ∃ a, x = .ok a ∧ f a = .ok b := by
  cases x with
  | error e => simp [bind, Except.bind] at h
  | ok a => exact ⟨a, rfl, h⟩

theorem MallocSpace_fields (d d' : Data) (size : Nat) (h : MallocSpace d size = .ok d') :
    d' = { d with expansionSize := size,
                  expansionBytes := addU64 (subU64 (mulU64 size (toU64 d.unitSize)) 1
                    / toU64 d.unitSizeDiv) 1,
                  cpuData := some (Buffer.fresh (addU64 (subU64 (mulU64 size (toU64 d.unitSize)) 1
                    / toU64 d.unitSizeDiv) 1)) } := by
  unfold MallocSpace at h
  split at h
  · exact absurd h (by simp)
  · split at h
    · injection h with h
      exact h.symm
    · exact absurd h (by simp [ErrorInFastLLM])

theorem MallocSpace_ok (d : Data) (size : Nat) (hdev : d.dataDevice = .CPU)
    (hdiv : toU64 d.unitSizeDiv ≠ 0) :
    MallocSpace d size = .ok
      { d with
        expansionSize := size,
        expansionBytes := addU64 (subU64 (mulU64 size (toU64 d.unitSize)) 1
          / toU64 d.unitSizeDiv) 1,
        cpuData := some (Buffer.fresh (addU64 (subU64 (mulU64 size (toU64 d.unitSize)) 1
          / toU64 d.unitSizeDiv) 1)) } := by
  unfold MallocSpace
  rw [if_neg hdiv]
  simp only [hdev]

/-- The head of the strides times the first extent is the product of the
extents, in `uint64_t`. -/
theorem head_mul_eq_prodU64 (x : Int) (xs : List Int) (y : Int) (s0 : Nat)
    (hs : at? (strideList (x :: xs)) 0 = .ok s0) :
    mulU64 s0 (toU64 y) = prodU64 (y :: xs) := by
  rw [strideList_cons] at hs
  simp only [at?, List.getElem?_cons_zero] at hs
  injection hs with hs
  subst hs
  rw [prodU64_eq, prodN_cons]
  unfold mulU64
  rw [Nat.mul_mod, Nat.mod_mod, ← Nat.mul_mod, Nat.mul_comm]

/-- What an accepted `Expansion` of a shaped tensor leaves: the shape, the
request as reserved shape, strides built from the per-axis maximum of the shape
and the request, and the product of these extents as capacity. -/
theorem Expansion_fields (d d' : Data) (r : List Int) (hne : d.dims ≠ [])
    (hok : Expansion d r = .ok d') :
    d'.dims = d.dims ∧ d'.expansionDims = r ∧
      d'.strides = strideList (List.zipWith max d.dims r) ∧
      d'.expansionSize = prodU64 (List.zipWith max d.dims r) ∧
      r.length = d.dims.length := by
  unfold Expansion at hok
  rw [if_neg (by simpa using hne)] at hok
  obtain ⟨_, h1, hok⟩ := bind_ok hok
  have hlen : r.length = d.dims.length := by
    unfold AssertInFastLLM at h1
    split at h1
    · rename_i hc; simpa using hc
    · exact absurd h1 (by simp [ErrorInFastLLM])
  obtain ⟨_, _, hok⟩ := bind_ok hok
  obtain ⟨_, _, hok⟩ := bind_ok hok
  obtain ⟨c1, _, hok⟩ := bind_ok hok
  obtain ⟨s0, hs0, hok⟩ := bind_ok hok
  obtain ⟨c0, hc0, hok⟩ := bind_ok hok
  obtain ⟨r0, hr0, hok⟩ := bind_ok hok
  -- the capacity
  have hcap : mulU64 s0 (toU64 (max c0 r0)) = prodU64 (List.zipWith max d.dims r) := by
    cases hd : d.dims with
    | nil => exact absurd hd hne
    | cons x xs =>
      cases hr : r with
      | nil => rw [hr, hd] at hlen; simp at hlen
      | cons y ys =>
        rw [hd] at hc0
        rw [hr] at hr0
        simp only [at?, List.getElem?_cons_zero] at hc0 hr0
        injection hc0 with hc0
        injection hr0 with hr0
        subst hc0 hr0
        have hs0' : at? (strideList (List.zipWith max d.dims r)) 0 = .ok s0 := hs0
        rw [hd, hr, List.zipWith_cons_cons] at hs0'
        rw [List.zipWith_cons_cons]
        exact head_mul_eq_prodU64 _ _ _ _ hs0'
  split at hok
  · split at hok
    · obtain ⟨d2, hd2, hok⟩ := bind_ok hok
      obtain ⟨cnt0, _, hok⟩ := bind_ok hok
      obtain ⟨cntAxis, _, hok⟩ := bind_ok hok
      split at hok
      · exact absurd hok (by simp)
      · obtain ⟨inner, _, hok⟩ := bind_ok hok
        obtain ⟨dimAxis, _, hok⟩ := bind_ok hok
        split at hok
        · obtain ⟨buf, _, hok⟩ := bind_ok hok
          injection hok with hok
          rw [← hok, MallocSpace_fields _ _ _ hd2]
          exact ⟨rfl, rfl, rfl, hcap, hlen⟩
        · exact absurd hok (by simp)
    · exact absurd hok (by simp [ErrorInFastLLM])
  · rw [MallocSpace_fields _ _ _ hok]
    exact ⟨rfl, rfl, rfl, hcap, hlen⟩

/-! ## Strides under a reservation (C16) -/

/-- C16 (amended): `Resize` on a tensor with an active reservation replaces the
shape and leaves the strides as they are. When the strides were built from the
extents `E` (after `Expansion (r)` on a shape `c`, `E[i] = max (c[i], r[i])`)
and the new shape has the rank of `E` and is within `E` on every axis after the
first, the strides are those of the per-axis maximum of the shape and `E`:
`strides[last] = 1`, `strides[i] = max (shape[i + 1], E[i + 1]) * strides[i + 1]`. -/
theorem Resize_keeps_reserved_strides (d : Data) (shape E : List Int)
    (hres : d.expansionDims ≠ []) (hstr : d.strides = strideList E)
    (hlen : shape.length = E.length)
    (hle : ∀ i s e, shape[i + 1]? = some s → E[i + 1]? = some e → s ≤ e) :
    ∃ d', Resize d shape = .ok d' ∧ d'.dims = shape ∧ d'.strides = d.strides ∧
      d'.expansionDims = d.expansionDims ∧
      (∀ i, i + 1 = shape.length → d'.strides[i]? = some 1) ∧
      (∀ i s e t, shape[i + 1]? = some s → E[i + 1]? = some e → d'.strides[i + 1]? = some t →
        d'.strides[i]? = some (mulU64 (toU64 (max s e)) t)) := by
  refine ⟨_, Resize_ok_of_reservation d shape hres, UpdateUnitSize_dims _,
    UpdateUnitSize_strides _, UpdateUnitSize_expansionDims _, ?_, ?_⟩
  · intro i hi
    rw [UpdateUnitSize_strides]
    show d.strides[i]? = some 1
    rw [hstr]
    exact strideList_last E i (by omega)
  · intro i s e t hs he ht
    rw [UpdateUnitSize_strides] at ht ⊢
    change d.strides[i + 1]? = some t at ht
    show d.strides[i]? = some (mulU64 (toU64 (max s e)) t)
    rw [hstr] at ht ⊢
    rw [max_eq_right (hle i s e hs he)]
    exact strideList_step E i e t he ht

end fastllm

namespace fastllm

theorem Resize_keeps_reserved_strides_witness :
    ∃ d', Resize { Data.filled .INT8 [1, 3, 4] (List.range 32) with
            strides := strideList [1, 8, 4], expansionDims := [1, 8, 4], expansionSize := 32 }
          [1, 5, 4] = .ok d' ∧
      d'.dims = [1, 5, 4] ∧ d'.strides = strideList [1, 8, 4] ∧
      d'.expansionDims = [1, 8, 4] ∧
      (∀ i, i + 1 = [1, 5, 4].length → d'.strides[i]? = some 1) ∧
      (∀ i s e t, ([1, 5, 4] : List Int)[i + 1]? = some s →
        ([1, 8, 4] : List Int)[i + 1]? = some e → d'.strides[i + 1]? = some t →
        d'.strides[i]? = some (mulU64 (toU64 (max s e)) t)) :=
  Resize_keeps_reserved_strides
    { Data.filled .INT8 [1, 3, 4] (List.range 32) with
      strides := strideList [1, 8, 4], expansionDims := [1, 8, 4], expansionSize := 32 }
    [1, 5, 4] [1, 8, 4] (by decide) rfl rfl
    (by
      intro i s e hs he
      match i, hs, he with
      | 0, hs, he =>
        simp only [List.getElem?_cons_succ, List.getElem?_cons_zero, zero_add] at hs he
        injection hs with hs; injection he with he; omega
      | 1, hs, he =>
        simp only [List.getElem?_cons_succ, List.getElem?_cons_zero] at hs he
        injection hs with hs; injection he with he; omega
      | n + 2, hs, _ => simp at hs)

/-- C16 as stated fails for a shape beyond the reservation: the tensor of shape
`[1, 3, 4]` reserved to `[1, 8, 4]` has the strides `[32, 4, 1]`; `Resize` to
`[1, 3, 6]` leaves them, while `max (6, 4) * strides[2]` is 6, not 4. -/
theorem Resize_beyond_reservation :
    ((Expansion (Data.filled .INT8 [1, 3, 4] (List.range 12)) [1, 8, 4] >>= fun d =>
        Resize d [1, 3, 6]).map
      (fun d => (d.dims, d.expansionDims, d.strides))).toOption
        = some ([1, 3, 6], [1, 8, 4], [32, 4, 1])
    ∧ mulU64 (toU64 (max 6 4)) 1 = 6 := by
  decide

/-! ## Allocation (C17) -/

theorem Count_zero_ok (d : Data) (hs : d.dims ≠ [] → d.strides ≠ []) :
    ∃ c, Count d 0 = .ok c := by
  unfold Count
  rw [toU64_zero]
  cases hd : d.dims with
  | nil => exact ⟨1, by simp⟩
  | cons x xs =>
    cases hst : d.strides with
    | nil => exact absurd hst (hs (by rw [hd]; simp))
    | cons s ss =>
      refine ⟨mulU64 (toU64 x) s, ?_⟩
      rw [if_neg (by simp), if_neg (by omega)]
      simp [at?, bind, Except.bind]

theorem Count_congr (d d' : Data) (i : Int) (h1 : d'.dims = d.dims) (h2 : d'.strides = d.strides) :
    Count d' i = Count d i := by
  unfold Count
  rw [h1, h2]

/-- `Count` reads the shape and the strides only. -/
theorem Count_capacity (d : Data) (a b : Nat) (buf : Option Buffer) (i : Int) :
    Count { d with expansionSize := a, expansionBytes := b, cpuData := buf } i = Count d i :=
  Count_congr _ _ i rfl rfl

/-- C17: for every host tensor, `Allocate ()` allocates a new buffer if and only
if `Count (0)` exceeds the capacity `expansionSize`: if it does, the tensor gets
a fresh buffer for `Count (0)` elements and that capacity; if it does not, the
tensor is unchanged. Afterwards the capacity is the maximum of the old capacity
and `Count (0)`, and a second `Allocate ()` changes nothing. -/
theorem Allocate_iff_exceeds (d : Data) (hdev : d.dataDevice = .CPU)
    (hdiv : toU64 d.unitSizeDiv ≠ 0) (hs : d.dims ≠ [] → d.strides ≠ []) :
    ∃ c, Count d 0 = .ok c ∧
      (d.expansionSize < c → ∃ d', Allocate d = .ok d' ∧ d'.expansionSize = c ∧
        d'.expansionBytes = addU64 (subU64 (mulU64 c (toU64 d.unitSize)) 1
          / toU64 d.unitSizeDiv) 1 ∧
        d'.cpuData = some (Buffer.fresh d'.expansionBytes) ∧
        d'.dims = d.dims ∧ d'.strides = d.strides) ∧
      (c ≤ d.expansionSize → Allocate d = .ok d) ∧
      ∃ d', Allocate d = .ok d' ∧ d'.expansionSize = max d.expansionSize c ∧
        Count d' 0 = .ok c ∧ Allocate d' = .ok d' := by
  obtain ⟨c, hc⟩ := Count_zero_ok d hs
  have hfree : FreeSpace d
      = .ok { d with expansionSize := 0, expansionBytes := 0, cpuData := none } := by
    unfold FreeSpace; simp only [hdev]
  have hgrow : d.expansionSize < c → Allocate d = .ok
      { d with
        expansionSize := c,
        expansionBytes := addU64 (subU64 (mulU64 c (toU64 d.unitSize)) 1
          / toU64 d.unitSizeDiv) 1,
        cpuData := some (Buffer.fresh (addU64 (subU64 (mulU64 c (toU64 d.unitSize)) 1
          / toU64 d.unitSizeDiv) 1)) } := by
    intro hlt
    unfold Allocate
    simp only [hc, bind, Except.bind]
    rw [if_pos hlt, hfree]
    simp only []
    rw [Count_capacity d 0 0 none 0, hc]
    simp only []
    exact MallocSpace_ok
      { d with expansionSize := 0, expansionBytes := 0, cpuData := none } c hdev hdiv
  have hkeep : c ≤ d.expansionSize → Allocate d = .ok d := by
    intro hle
    unfold Allocate
    simp only [hc, bind, Except.bind]
    rw [if_neg (by omega)]
  have hkeep' : ∀ x : Data, Count x 0 = .ok c → c ≤ x.expansionSize → Allocate x = .ok x := by
    intro x hx hle
    unfold Allocate
    simp only [hx, bind, Except.bind]
    rw [if_neg (by omega)]
  refine ⟨c, hc, ?_, hkeep, ?_⟩
  · intro hlt
    exact ⟨_, hgrow hlt, rfl, rfl, rfl, rfl, rfl⟩
  · rcases Nat.lt_or_ge d.expansionSize c with hlt | hge
    · refine ⟨_, hgrow hlt, ?_, ?_, ?_⟩
      · show c = max d.expansionSize c
        rw [max_eq_right hlt.le]
      · rw [Count_capacity d _ _ _ 0, hc]
      · exact hkeep' _ (by rw [Count_capacity d _ _ _ 0, hc]) (le_refl _)
    · exact ⟨d, hkeep hge, (max_eq_left hge).symm, hc, hkeep hge⟩

theorem Allocate_iff_exceeds_witness :
    ∃ c, Count (Data.shaped .FLOAT32 [2, 3]) 0 = .ok c ∧
      ((Data.shaped .FLOAT32 [2, 3]).expansionSize < c →
        ∃ d', Allocate (Data.shaped .FLOAT32 [2, 3]) = .ok d' ∧ d'.expansionSize = c ∧
        d'.expansionBytes
          = addU64 (subU64 (mulU64 c (toU64 (Data.shaped .FLOAT32 [2, 3]).unitSize)) 1
          / toU64 (Data.shaped .FLOAT32 [2, 3]).unitSizeDiv) 1 ∧
        d'.cpuData = some (Buffer.fresh d'.expansionBytes) ∧
        d'.dims = (Data.shaped .FLOAT32 [2, 3]).dims ∧
        d'.strides = (Data.shaped .FLOAT32 [2, 3]).strides) ∧
      (c ≤ (Data.shaped .FLOAT32 [2, 3]).expansionSize →
        Allocate (Data.shaped .FLOAT32 [2, 3]) = .ok (Data.shaped .FLOAT32 [2, 3])) ∧
      ∃ d', Allocate (Data.shaped .FLOAT32 [2, 3]) = .ok d' ∧
        d'.expansionSize = max (Data.shaped .FLOAT32 [2, 3]).expansionSize c ∧
        Count d' 0 = .ok c ∧ Allocate d' = .ok d' :=
  Allocate_iff_exceeds (Data.shaped .FLOAT32 [2, 3]) rfl (by decide) (by decide)

end fastllm

namespace fastllm

/-! ## The first reservation (C18) -/

/-- C18 (amended): for every host tensor without a shape and every non-empty
request `r`, `Expansion (r)` leaves the logical shape empty, sets the row-major
strides of `r`, records `r` as the reserved shape and allocates at once a fresh
buffer for the product of `r` (in `uint64_t`) elements, which becomes the
capacity. -/
theorem Expansion_first_reservation (d : Data) (r : List Int) (hd : d.dims = [])
    (hr : r ≠ []) (hdev : d.dataDevice = .CPU) (hdiv : toU64 d.unitSizeDiv ≠ 0) :
    ∃ d', Expansion d r = .ok d' ∧ d'.dims = [] ∧ d'.strides = strideList r ∧
      d'.expansionDims = r ∧ d'.expansionSize = prodU64 r ∧
      d'.expansionBytes = addU64 (subU64 (mulU64 (prodU64 r) (toU64 d.unitSize)) 1
        / toU64 d.unitSizeDiv) 1 ∧
      d'.cpuData = some (Buffer.fresh d'.expansionBytes) := by
  cases hrr : r with
  | nil => exact absurd hrr hr
  | cons x xs =>
    have hs0 : at? (strideList (x :: xs)) 0 = .ok (prodN xs % U64) := by
      rw [strideList_cons]; simp [at?]
    have hcap := head_mul_eq_prodU64 x xs x _ hs0
    unfold Expansion
    rw [if_pos (by rw [hd]; rfl), if_neg (by simp)]
    simp only [hs0, bind, Except.bind]
    have hx : at? (x :: xs) 0 = .ok x := by simp [at?]
    simp only [hx]
    rw [hcap]
    exact ⟨_, MallocSpace_ok { d with strides := strideList (x :: xs), expansionDims := x :: xs }
      _ hdev hdiv, hd, rfl, rfl, rfl, rfl, rfl⟩

theorem Expansion_first_reservation_witness :
    ∃ d', Expansion (Data.ofType .FLOAT32) [1, 8, 4] = .ok d' ∧ d'.dims = [] ∧
      d'.strides = strideList [1, 8, 4] ∧
      d'.expansionDims = [1, 8, 4] ∧ d'.expansionSize = prodU64 [1, 8, 4] ∧
      d'.expansionBytes
        = addU64 (subU64 (mulU64 (prodU64 [1, 8, 4]) (toU64 (Data.ofType .FLOAT32).unitSize)) 1
        / toU64 (Data.ofType .FLOAT32).unitSizeDiv) 1 ∧
      d'.cpuData = some (Buffer.fresh d'.expansionBytes) :=
  Expansion_first_reservation (Data.ofType .FLOAT32) [1, 8, 4] rfl (by decide) rfl (by decide)

/-- C18 as stated fails: `Expansion ({1, 8, 4})` on `Data (FLOAT32)` leaves `dims`
empty (the first branch assigns `strides` and `expansionDims` only), so
`Count (0)` is still 1 while the capacity is 32 elements in 128 bytes. -/
theorem Expansion_first_leaves_dims :
    ((Expansion (Data.ofType .FLOAT32) [1, 8, 4]).map
      (fun d => (d.dims, d.strides, d.expansionDims, d.expansionSize, d.expansionBytes))).toOption
        = some ([], [32, 4, 1], [1, 8, 4], 32, 128)
    ∧ ((Expansion (Data.ofType .FLOAT32) [1, 8, 4] >>= fun d => Count d 0)).toOption = some 1 := by
  decide

/-! ## Rejected requests (C19) -/

end fastllm

namespace fastllm

/-! ## Reserved extents over successive reservations (C20) -/

theorem prodN_mono (E E' : List Int) (h : List.Forall₂ (fun e x => 0 ≤ e ∧ e ≤ x) E E')
    (hlt : ∀ x ∈ E', x < 2 ^ 31) : prodN E ≤ prodN E' := by
  induction h with
  | nil => exact le_refl _
  | @cons e x es xs hex _ ih =>
    rw [prodN_cons, prodN_cons]
    have hx := hlt x (List.mem_cons_self _ _)
    have h1 : toU64 e ≤ toU64 x := by
      rw [toU64_of_nonneg hex.1 (by omega), toU64_of_nonneg (by omega) (by omega)]
      omega
    exact Nat.mul_le_mul h1 (ih (fun y hy => hlt y (List.mem_cons_of_mem _ hy)))

theorem forall₂_zipWith_max (E c r : List Int)
    (h : List.Forall₂ (fun e x => 0 ≤ e ∧ e ≤ x) E r) (hlen : r.length = c.length) :
    List.Forall₂ (fun e x => 0 ≤ e ∧ e ≤ x) E (List.zipWith max c r) := by
  induction h generalizing c with
  | nil =>
    cases c with
    | nil => exact List.Forall₂.nil
    | cons _ _ => simp at hlen
  | @cons e x es xs hex _ ih =>
    cases c with
    | nil => simp at hlen
    | cons y ys =>
      rw [List.zipWith_cons_cons]
      exact List.Forall₂.cons ⟨hex.1, le_trans hex.2 (le_max_right _ _)⟩
        (ih ys (by simpa using hlen))

/-- C20 (amended): an accepted `Expansion (r)` on a shaped tensor builds the
strides from the per-axis maximum of the logical shape and the request, and
makes the product of these extents the capacity; the extents reserved before
do not enter. So, when the strides and the capacity come from the extents `E`
and every requested extent is at least the one of `E`, no effective extent and
not the capacity decreases. -/
theorem Expansion_monotone_of_request (d d' : Data) (r E : List Int) (hne : d.dims ≠ [])
    (hok : Expansion d r = .ok d') (_hstr : d.strides = strideList E)
    (hcap : d.expansionSize = prodU64 E)
    (hE : List.Forall₂ (fun e x => 0 ≤ e ∧ e ≤ x) E r)
    (hint : ∀ x ∈ List.zipWith max d.dims r, x < 2 ^ 31)
    (hfit : prodN (List.zipWith max d.dims r) < U64) :
    d'.strides = strideList (List.zipWith max d.dims r) ∧
      d'.expansionSize = prodU64 (List.zipWith max d.dims r) ∧
      List.Forall₂ (fun e x => 0 ≤ e ∧ e ≤ x) E (List.zipWith max d.dims r) ∧
      d.expansionSize ≤ d'.expansionSize := by
  obtain ⟨_, _, hs, hc, hlen⟩ := Expansion_fields d d' r hne hok
  have hall := forall₂_zipWith_max E d.dims r hE hlen
  refine ⟨hs, hc, hall, ?_⟩
  rw [hcap, hc, prodU64_eq, prodU64_eq, Nat.mod_eq_of_lt hfit]
  exact le_trans (Nat.mod_le _ _) (prodN_mono _ _ hall hint)

theorem Expansion_monotone_of_request_witness :
    ∃ d', Expansion (Data.filled .FLOAT32 [1, 3, 4] (List.range 48))
        ([1] ++ ((8 : Nat) : Int) :: [4]) = .ok d' ∧
      d'.strides = strideList (List.zipWith max
        (Data.filled .FLOAT32 [1, 3, 4] (List.range 48)).dims ([1] ++ ((8 : Nat) : Int) :: [4])) ∧
      d'.expansionSize = prodU64 (List.zipWith max
        (Data.filled .FLOAT32 [1, 3, 4] (List.range 48)).dims ([1] ++ ((8 : Nat) : Int) :: [4])) ∧
      List.Forall₂ (fun e x => 0 ≤ e ∧ e ≤ x) [1, 3, 4] (List.zipWith max
        (Data.filled .FLOAT32 [1, 3, 4] (List.range 48)).dims ([1] ++ ((8 : Nat) : Int) :: [4])) ∧
      (Data.filled .FLOAT32 [1, 3, 4] (List.range 48)).expansionSize ≤ d'.expansionSize := by
  obtain ⟨d', hok, _⟩ := Expansion_of_raisesOneAxis _ _ _ _ _ _ _ _ _ raisesOneAxis_example
  exact ⟨d', hok, Expansion_monotone_of_request _ d' _ [1, 3, 4] (by decide) hok rfl (by decide)
    (List.Forall₂.cons (by decide) (List.Forall₂.cons (by decide)
      (List.Forall₂.cons (by decide) List.Forall₂.nil)))
    (by decide) (by decide)⟩

/-- C20 as stated fails: the tensor of shape `[1, 3, 4]` reserved to `[1, 8, 4]`
has the strides `[32, 4, 1]` and the capacity 32; the request `[1, 5, 4]` is
accepted (every entry is at least the logical extent) and leaves the strides
`[20, 4, 1]` and the capacity 20, and so does `[-1, 5, -1]`. -/
theorem Expansion_shrinks_reservation :
    ((Expansion (Data.filled .INT8 [1, 3, 4] (List.range 12)) [1, 8, 4]).map
      (fun d => (d.dims, d.strides, d.expansionSize))).toOption
        = some ([1, 3, 4], [32, 4, 1], 32)
    ∧ ((Expansion (Data.filled .INT8 [1, 3, 4] (List.range 12)) [1, 8, 4] >>= fun d =>
        Expansion d [1, 5, 4]).map
      (fun d => (d.dims, d.strides, d.expansionSize))).toOption
        = some ([1, 3, 4], [20, 4, 1], 20)
    ∧ ((Expansion (Data.filled .INT8 [1, 3, 4] (List.range 12)) [1, 8, 4] >>= fun d =>
        Expansion d [-1, 5, -1]).map
      (fun d => (d.dims, d.strides, d.expansionSize))).toOption
        = some ([1, 3, 4], [20, 4, 1], 20) := by
  decide

end fastllm

namespace fastllm

/-! ## Rounding to the nearest integer -/

theorem roundHalfEven_intCast (n : ℤ) : roundHalfEven (n : ℚ) = n := by
  unfold roundHalfEven
  rw [Int.floor_intCast, sub_self, if_pos (by norm_num)]

theorem roundHalfEven_cases (q : ℚ) :
    roundHalfEven q = ⌊q⌋ ∧ q - ⌊q⌋ ≤ 1 / 2 ∨ roundHalfEven q = ⌊q⌋ + 1 ∧ 1 / 2 ≤ q - ⌊q⌋ := by
  unfold roundHalfEven
  by_cases h1 : q - ⌊q⌋ < 1 / 2
  · left; rw [if_pos h1]; exact ⟨rfl, le_of_lt h1⟩
  · rw [if_neg h1]
    by_cases h2 : 1 / 2 < q - ⌊q⌋
    · right; rw [if_pos h2]; exact ⟨rfl, le_of_lt h2⟩
    · rw [if_neg h2]
      have h3 : q - ⌊q⌋ = 1 / 2 := le_antisymm (not_lt.mp h2) (not_lt.mp h1)
      by_cases h4 : ⌊q⌋ % 2 = 0
      · left; rw [if_pos h4]; exact ⟨rfl, le_of_eq h3⟩
      · right; rw [if_neg h4]; exact ⟨rfl, le_of_eq h3.symm⟩

/-- The rounded value is within one half of the argument. -/
theorem abs_roundHalfEven_sub_le (q : ℚ) : |(roundHalfEven q : ℚ) - q| ≤ 1 / 2 := by
  have h1 := Int.floor_le q
  have h2 := Int.lt_floor_add_one q
  rw [abs_le]
  rcases roundHalfEven_cases q with ⟨h, hf⟩ | ⟨h, hf⟩
  · rw [h]; constructor <;> linarith
  · rw [h]; push_cast; constructor <;> linarith

theorem roundHalfEven_mono {x y : ℚ} (h : x ≤ y) : roundHalfEven x ≤ roundHalfEven y := by
  have hfl : ⌊x⌋ ≤ ⌊y⌋ := Int.floor_mono h
  rcases lt_or_eq_of_le hfl with hlt | heq
  · have hx : roundHalfEven x ≤ ⌊x⌋ + 1 := by
      rcases roundHalfEven_cases x with ⟨h, _⟩ | ⟨h, _⟩ <;> omega
    have hy : ⌊y⌋ ≤ roundHalfEven y := by
      rcases roundHalfEven_cases y with ⟨h, _⟩ | ⟨h, _⟩ <;> omega
    omega
  · unfold roundHalfEven
    rw [← heq]
    have hfrac : x - ⌊x⌋ ≤ y - ⌊x⌋ := by linarith
    by_cases hy1 : y - (⌊x⌋ : ℚ) < 1 / 2
    · have hx1 : x - (⌊x⌋ : ℚ) < 1 / 2 := lt_of_le_of_lt hfrac hy1
      rw [if_pos hx1, if_pos hy1]
    · rw [if_neg hy1]
      by_cases hy2 : 1 / 2 < y - (⌊x⌋ : ℚ)
      · rw [if_pos hy2]
        split_ifs <;> omega
      · rw [if_neg hy2]
        have hy3 : y - (⌊x⌋ : ℚ) = 1 / 2 := le_antisymm (not_lt.mp hy2) (not_lt.mp hy1)
        by_cases hx1 : x - (⌊x⌋ : ℚ) < 1 / 2
        · rw [if_pos hx1]; split_ifs <;> omega
        · have hx3 : x - (⌊x⌋ : ℚ) = 1 / 2 := le_antisymm (by linarith) (not_lt.mp hx1)
          rw [if_neg hx1, if_neg (by rw [hx3]; exact lt_irrefl _)]

theorem roundHalfEven_neg (q : ℚ) : roundHalfEven (-q) = -roundHalfEven q := by
  by_cases hint : (⌊q⌋ : ℚ) = q
  · rw [← hint, ← Int.cast_neg, roundHalfEven_intCast, roundHalfEven_intCast]
  · have h1 := Int.floor_le q
    have h2 := Int.lt_floor_add_one q
    have hlt : (⌊q⌋ : ℚ) < q := lt_of_le_of_ne h1 hint
    have hfl : ⌊-q⌋ = -⌊q⌋ - 1 := by
      rw [Int.floor_eq_iff]; push_cast; constructor <;> linarith
    unfold roundHalfEven
    rw [hfl]
    push_cast
    by_cases c1 : q - (⌊q⌋ : ℚ) < 1 / 2
    · rw [if_pos c1, if_neg (by linarith), if_pos (by linarith)]; ring
    · rw [if_neg c1]
      by_cases c2 : 1 / 2 < q - (⌊q⌋ : ℚ)
      · rw [if_pos c2, if_pos (by linarith)]; ring
      · rw [if_neg c2, if_neg (by linarith), if_neg (by linarith)]
        by_cases c3 : ⌊q⌋ % 2 = 0
        · rw [if_pos c3, if_neg (by omega)]; ring
        · rw [if_neg c3, if_pos (by omega)]; ring

theorem roundHalfEven_nonneg {q : ℚ} (h : 0 ≤ q) : 0 ≤ roundHalfEven q := by
  have := roundHalfEven_mono h
  rwa [show (0 : ℚ) = ((0 : ℤ) : ℚ) by norm_num, roundHalfEven_intCast] at this

theorem roundHalfEven_le_of_le_int {q : ℚ} {n : ℤ} (h : q ≤ n) : roundHalfEven q ≤ n := by
  have := roundHalfEven_mono h
  rwa [roundHalfEven_intCast] at this

theorem le_roundHalfEven_of_int_le {q : ℚ} {n : ℤ} (h : (n : ℚ) ≤ q) : n ≤ roundHalfEven q := by
  have := roundHalfEven_mono h
  rwa [roundHalfEven_intCast] at this

end fastllm

namespace fastllm

/-! ## Rounding to a binary format -/

theorem two_zpow_pos (e : ℤ) : (0 : ℚ) < 2 ^ e := zpow_pos (by norm_num) e

theorem ulpExp_neg (p : ℕ) (emin : ℤ) (q : ℚ) : ulpExp p emin (-q) = ulpExp p emin q := by
  unfold ulpExp; rw [abs_neg]

theorem emin_le_ulpExp (p : ℕ) (emin : ℤ) (q : ℚ) : emin ≤ ulpExp p emin q :=
  le_max_right _ _

theorem roundTo_zero (p : ℕ) (emin : ℤ) : roundTo p emin 0 = 0 := by
  unfold roundTo
  rw [zero_div, show (0 : ℚ) = ((0 : ℤ) : ℚ) by norm_num, roundHalfEven_intCast]
  simp

theorem roundTo_neg (p : ℕ) (emin : ℤ) (q : ℚ) : roundTo p emin (-q) = -roundTo p emin q := by
  unfold roundTo
  rw [ulpExp_neg, neg_div, roundHalfEven_neg]
  push_cast; ring

theorem roundTo_nonneg (p : ℕ) (emin : ℤ) {q : ℚ} (h : 0 ≤ q) : 0 ≤ roundTo p emin q := by
  unfold roundTo
  have h1 : 0 ≤ q / 2 ^ ulpExp p emin q := div_nonneg h (two_zpow_pos _).le
  have h2 : (0 : ℚ) ≤ (roundHalfEven (q / 2 ^ ulpExp p emin q) : ℚ) := by
    exact_mod_cast roundHalfEven_nonneg h1
  exact mul_nonneg h2 (two_zpow_pos _).le

theorem roundTo_nonpos (p : ℕ) (emin : ℤ) {q : ℚ} (h : q ≤ 0) : roundTo p emin q ≤ 0 := by
  have := roundTo_nonneg p emin (neg_nonneg.mpr h)
  rw [roundTo_neg] at this
  linarith

/-- The logarithm of a positive number below `2 ^ n`. -/
theorem log_lt_of_lt_zpow {q : ℚ} {n : ℤ} (h0 : 0 < q) (h : q < 2 ^ n) : Int.log 2 q < n := by
  have := (Int.lt_zpow_iff_log_lt (R := ℚ) (b := 2) (by norm_num) h0).mp (by exact_mod_cast h)
  exact this

theorem le_log_of_zpow_le {q : ℚ} {n : ℤ} (h0 : 0 < q) (h : (2 : ℚ) ^ n ≤ q) :
    n ≤ Int.log 2 q := by
  have := (Int.zpow_le_iff_le_log (R := ℚ) (b := 2) (by norm_num) h0).mp (by exact_mod_cast h)
  exact this

theorem zpow_log_le {q : ℚ} (h0 : 0 < q) : (2 : ℚ) ^ Int.log 2 q ≤ q := by
  have := Int.zpow_log_le_self (R := ℚ) (b := 2) (by norm_num) h0
  exact_mod_cast this

theorem lt_zpow_log_succ (q : ℚ) : q < (2 : ℚ) ^ (Int.log 2 q + 1) := by
  have := Int.lt_zpow_succ_log_self (R := ℚ) (b := 2) (by norm_num) q
  exact_mod_cast this

/-- A number `m * 2 ^ k` with `|m| < 2 ^ p` and `emin ≤ k` is in the format. -/
theorem roundTo_exact (p : ℕ) (emin : ℤ) (m k : ℤ) (hm : |m| < 2 ^ p) (hk : emin ≤ k) :
    roundTo p emin ((m : ℚ) * 2 ^ k) = (m : ℚ) * 2 ^ k := by
  by_cases hm0 : m = 0
  · subst hm0; simp [roundTo_zero]
  have hq0 : 0 < |(m : ℚ) * 2 ^ k| := by
    rw [abs_pos]
    exact mul_ne_zero (by exact_mod_cast hm0) (two_zpow_pos k).ne'
  have hlt : |(m : ℚ) * 2 ^ k| < 2 ^ ((p : ℤ) + k) := by
    rw [abs_mul, abs_of_pos (two_zpow_pos k), zpow_add₀ (by norm_num : (2 : ℚ) ≠ 0)]
    apply mul_lt_mul_of_pos_right _ (two_zpow_pos k)
    have : |(m : ℚ)| = ((|m| : ℤ) : ℚ) := by push_cast; rfl
    rw [this, zpow_natCast]
    exact_mod_cast hm
  have hlog := log_lt_of_lt_zpow hq0 hlt
  have he : ulpExp p emin ((m : ℚ) * 2 ^ k) ≤ k := by
    unfold ulpExp
    exact max_le (by omega) hk
  unfold roundTo
  set e := ulpExp p emin ((m : ℚ) * 2 ^ k) with he_def
  obtain ⟨j, hj⟩ := Int.eq_ofNat_of_zero_le (sub_nonneg.mpr he)
  have hdiv : (m : ℚ) * 2 ^ k / 2 ^ e = ((m * 2 ^ j : ℤ) : ℚ) := by
    have hk' : k = e + j := by omega
    rw [hk', zpow_add₀ (by norm_num : (2 : ℚ) ≠ 0), zpow_natCast]
    push_cast
    field_simp
    ring
  rw [hdiv, roundHalfEven_intCast, ← hdiv]
  field_simp

/-- The rounded value is an integer of at most `p + 1` bits times the unit in
the last place. -/
theorem roundTo_eq_int_mul (p : ℕ) (emin : ℤ) (q : ℚ) :
    ∃ m : ℤ, roundTo p emin q = (m : ℚ) * 2 ^ ulpExp p emin q ∧ |m| ≤ 2 ^ p := by
  refine ⟨roundHalfEven (q / 2 ^ ulpExp p emin q), rfl, ?_⟩
  set e := ulpExp p emin q with he
  have hbound : |q| / 2 ^ e ≤ 2 ^ p := by
    rw [div_le_iff₀ (two_zpow_pos e)]
    have h1 : |q| < (2 : ℚ) ^ (Int.log 2 |q| + 1) := lt_zpow_log_succ _
    have h2 : Int.log 2 |q| + 1 ≤ (p : ℤ) + e := by
      have : Int.log 2 |q| + 1 - p ≤ e := le_max_left _ _
      omega
    have h3 : (2 : ℚ) ^ (Int.log 2 |q| + 1) ≤ 2 ^ ((p : ℤ) + e) :=
      zpow_le_zpow_right₀ (by norm_num) h2
    have h4 : (2 : ℚ) ^ ((p : ℤ) + e) = 2 ^ p * 2 ^ e := by
      rw [zpow_add₀ (by norm_num : (2 : ℚ) ≠ 0), zpow_natCast]
    rw [h4] at h3
    linarith
  have hup : q / 2 ^ e ≤ ((2 ^ p : ℤ) : ℚ) := by
    push_cast
    calc q / 2 ^ e ≤ |q| / 2 ^ e := div_le_div_of_nonneg_right (le_abs_self q) (two_zpow_pos e).le
      _ ≤ 2 ^ p := hbound
  have hlo : ((-(2 ^ p) : ℤ) : ℚ) ≤ q / 2 ^ e := by
    push_cast
    have : -(|q| / 2 ^ e) ≤ q / 2 ^ e := by
      rw [← neg_div]
      exact div_le_div_of_nonneg_right (neg_abs_le q) (two_zpow_pos e).le
    linarith
  rw [abs_le]
  exact ⟨le_roundHalfEven_of_int_le hlo, roundHalfEven_le_of_le_int hup⟩

theorem abs_roundTo_sub_le (p : ℕ) (emin : ℤ) (q : ℚ) :
    |roundTo p emin q - q| ≤ 2 ^ ulpExp p emin q / 2 := by
  unfold roundTo
  set e := ulpExp p emin q
  have h := abs_roundHalfEven_sub_le (q / 2 ^ e)
  have hpos := two_zpow_pos e
  have e1 : (roundHalfEven (q / 2 ^ e) : ℚ) * 2 ^ e - q
      = ((roundHalfEven (q / 2 ^ e) : ℚ) - q / 2 ^ e) * 2 ^ e := by
    field_simp
  rw [e1, abs_mul, abs_of_pos hpos]
  calc |(roundHalfEven (q / 2 ^ e) : ℚ) - q / 2 ^ e| * 2 ^ e ≤ 1 / 2 * 2 ^ e :=
        mul_le_mul_of_nonneg_right h hpos.le
    _ = 2 ^ e / 2 := by ring

end fastllm

namespace fastllm

theorem ulpExp_mono (p : ℕ) (emin : ℤ) {x y : ℚ} (hx : 0 < x) (h : x ≤ y) :
    ulpExp p emin x ≤ ulpExp p emin y := by
  unfold ulpExp
  have hy : 0 < y := lt_of_lt_of_le hx h
  rw [abs_of_pos hx, abs_of_pos hy]
  have := Int.log_mono_right (b := 2) hx h
  exact max_le_max (by omega) (le_refl _)

theorem roundTo_mono_pos (p : ℕ) (hp : 1 ≤ p) (emin : ℤ) {x y : ℚ} (hx : 0 < x) (h : x ≤ y) :
    roundTo p emin x ≤ roundTo p emin y := by
  have hy : 0 < y := lt_of_lt_of_le hx h
  have hexy := ulpExp_mono p emin hx h
  rcases eq_or_lt_of_le hexy with heq | hlt
  · unfold roundTo
    rw [heq]
    have hpos := two_zpow_pos (ulpExp p emin y)
    have hdiv : x / 2 ^ ulpExp p emin y ≤ y / 2 ^ ulpExp p emin y :=
      div_le_div_of_nonneg_right h hpos.le
    have hr : (roundHalfEven (x / 2 ^ ulpExp p emin y) : ℚ)
        ≤ (roundHalfEven (y / 2 ^ ulpExp p emin y) : ℚ) := by
      exact_mod_cast roundHalfEven_mono hdiv
    exact mul_le_mul_of_nonneg_right hr hpos.le
  · -- the arguments lie in different binades: a power of two separates the results
    have hey : ulpExp p emin y = Int.log 2 y + 1 - p := by
      have h1 : emin ≤ ulpExp p emin x := emin_le_ulpExp p emin x
      unfold ulpExp at hlt ⊢
      rw [abs_of_pos hy] at hlt ⊢
      rcases max_cases (Int.log 2 y + 1 - (p : ℤ)) emin with ⟨h2, _⟩ | ⟨h2, _⟩
      · exact h2
      · rw [h2] at hlt
        unfold ulpExp at h1
        omega
    have hex : Int.log 2 x + 1 - p ≤ ulpExp p emin x := by
      unfold ulpExp; rw [abs_of_pos hx]; exact le_max_left _ _
    -- the upper result is at least `2 ^ log y`
    have hb_le : (2 : ℚ) ^ Int.log 2 y ≤ roundTo p emin y := by
      unfold roundTo
      have hpos := two_zpow_pos (ulpExp p emin y)
      have h1 : (((2 : ℤ) ^ (p - 1) : ℤ) : ℚ) ≤ y / 2 ^ ulpExp p emin y := by
        rw [le_div_iff₀ hpos, hey]
        push_cast
        have e1 : (2 : ℚ) ^ (p - 1) * 2 ^ (Int.log 2 y + 1 - (p : ℤ)) = 2 ^ Int.log 2 y := by
          rw [← zpow_natCast, ← zpow_add₀ (by norm_num : (2 : ℚ) ≠ 0)]
          congr 1
          have : ((p - 1 : ℕ) : ℤ) = (p : ℤ) - 1 := by omega
          omega
        rw [e1]
        exact zpow_log_le hy
      have h2 : (((2 : ℤ) ^ (p - 1) : ℤ) : ℚ) ≤ (roundHalfEven (y / 2 ^ ulpExp p emin y) : ℚ) := by
        exact_mod_cast le_roundHalfEven_of_int_le h1
      have e2 : (2 : ℚ) ^ Int.log 2 y
          = (((2 : ℤ) ^ (p - 1) : ℤ) : ℚ) * 2 ^ ulpExp p emin y := by
        rw [hey]
        push_cast
        rw [← zpow_natCast, ← zpow_add₀ (by norm_num : (2 : ℚ) ≠ 0)]
        congr 1
        have : ((p - 1 : ℕ) : ℤ) = (p : ℤ) - 1 := by omega
        omega
      rw [e2]
      exact mul_le_mul_of_nonneg_right h2 hpos.le
    -- the lower result is at most `2 ^ log y`
    have hle_b : roundTo p emin x ≤ (2 : ℚ) ^ Int.log 2 y := by
      unfold roundTo
      have hpos := two_zpow_pos (ulpExp p emin x)
      have hgap : 0 ≤ Int.log 2 y - ulpExp p emin x := by omega
      obtain ⟨j, hj⟩ := Int.eq_ofNat_of_zero_le hgap
      have e3 : (2 : ℚ) ^ Int.log 2 y = (((2 : ℤ) ^ j : ℤ) : ℚ) * 2 ^ ulpExp p emin x := by
        push_cast
        rw [← zpow_natCast, ← zpow_add₀ (by norm_num : (2 : ℚ) ≠ 0)]
        congr 1
        omega
      have hxlt : x ≤ (2 : ℚ) ^ Int.log 2 y := by
        have h1 := lt_zpow_log_succ x
        have h2 : (2 : ℚ) ^ (Int.log 2 x + 1) ≤ 2 ^ Int.log 2 y :=
          zpow_le_zpow_right₀ (by norm_num) (by omega)
        linarith
      have h1 : x / 2 ^ ulpExp p emin x ≤ (((2 : ℤ) ^ j : ℤ) : ℚ) := by
        rw [div_le_iff₀ hpos, ← e3]
        exact hxlt
      have h2 : (roundHalfEven (x / 2 ^ ulpExp p emin x) : ℚ) ≤ (((2 : ℤ) ^ j : ℤ) : ℚ) := by
        exact_mod_cast roundHalfEven_le_of_le_int h1
      rw [e3]
      exact mul_le_mul_of_nonneg_right h2 hpos.le
    exact le_trans hle_b hb_le

/-- Rounding to a binary format is monotone. -/
theorem roundTo_mono (p : ℕ) (hp : 1 ≤ p) (emin : ℤ) {x y : ℚ} (h : x ≤ y) :
    roundTo p emin x ≤ roundTo p emin y := by
  rcases lt_trichotomy 0 x with hx | hx | hx
  · exact roundTo_mono_pos p hp emin hx h
  · rw [← hx, roundTo_zero]
    exact roundTo_nonneg p emin (by rw [hx]; exact h)
  · rcases le_or_lt 0 y with hy | hy
    · exact le_trans (roundTo_nonpos p emin hx.le) (roundTo_nonneg p emin hy)
    · have := roundTo_mono_pos p hp emin (neg_pos.mpr hy) (neg_le_neg h)
      rw [roundTo_neg, roundTo_neg] at this
      linarith

end fastllm

namespace fastllm

/-! ## The formats `float` and `double` -/

theorem maxF32_eq : maxF32 = ((2 ^ 24 - 1 : ℤ) : ℚ) * 2 ^ (104 : ℤ) := by
  unfold maxF32; norm_num

theorem maxF64_eq : maxF64 = ((2 ^ 53 - 1 : ℤ) : ℚ) * 2 ^ (971 : ℤ) := by
  unfold maxF64; norm_num

theorem maxF32_pos : 0 < maxF32 := by unfold maxF32; norm_num

theorem maxF64_pos : 0 < maxF64 := by unfold maxF64; norm_num

theorem roundTo_maxF32 : roundTo 24 (-149) maxF32 = maxF32 := by
  rw [maxF32_eq]
  exact roundTo_exact 24 (-149) _ _ (by norm_num) (by norm_num)

theorem roundTo_maxF64 : roundTo 53 (-1074) maxF64 = maxF64 := by
  rw [maxF64_eq]
  exact roundTo_exact 53 (-1074) _ _ (by norm_num) (by norm_num)

theorem abs_roundTo_le_of_abs_le (p : ℕ) (hp : 1 ≤ p) (emin : ℤ) {q B : ℚ}
    (hB : roundTo p emin B = B) (h : |q| ≤ B) : |roundTo p emin q| ≤ B := by
  rw [abs_le] at h ⊢
  constructor
  · have := roundTo_mono p hp emin h.1
    rwa [roundTo_neg, hB] at this
  · have := roundTo_mono p hp emin h.2
    rwa [hB] at this

/-- An exact result within the range of `float` rounds to a finite `float`. -/
theorem toF32_of_abs_le {q : ℚ} (h : |q| ≤ maxF32) :
    toF32 q = some (roundTo 24 (-149) q) := by
  unfold toF32
  rw [if_pos (abs_roundTo_le_of_abs_le 24 (by norm_num) (-149) roundTo_maxF32 h)]

theorem toF64_of_abs_le {q : ℚ} (h : |q| ≤ maxF64) :
    toF64 q = some (roundTo 53 (-1074) q) := by
  unfold toF64
  rw [if_pos (abs_roundTo_le_of_abs_le 53 (by norm_num) (-1074) roundTo_maxF64 h)]

theorem toF32_eq_some {q r : ℚ} (h : toF32 q = some r) :
    r = roundTo 24 (-149) q ∧ |r| ≤ maxF32 := by
  unfold toF32 at h
  split at h
  · rename_i hle
    injection h with h
    rw [← h]; exact ⟨rfl, hle⟩
  · exact absurd h (by simp)

theorem toF64_eq_some {q r : ℚ} (h : toF64 q = some r) :
    r = roundTo 53 (-1074) q ∧ |r| ≤ maxF64 := by
  unfold toF64 at h
  split at h
  · rename_i hle
    injection h with h
    rw [← h]; exact ⟨rfl, hle⟩
  · exact absurd h (by simp)

/-- A number `m * 2 ^ k` with `|m| < 2 ^ 24`, `-149 ≤ k`, within the range, is a
`float`. -/
theorem toF32_exact (m k : ℤ) (hm : |m| < 2 ^ 24) (hk : -149 ≤ k)
    (hle : |(m : ℚ) * 2 ^ k| ≤ maxF32) : toF32 ((m : ℚ) * 2 ^ k) = some ((m : ℚ) * 2 ^ k) := by
  rw [toF32_of_abs_le hle, roundTo_exact 24 (-149) m k hm hk]

theorem toF64_exact (m k : ℤ) (hm : |m| < 2 ^ 53) (hk : -1074 ≤ k)
    (hle : |(m : ℚ) * 2 ^ k| ≤ maxF64) : toF64 ((m : ℚ) * 2 ^ k) = some ((m : ℚ) * 2 ^ k) := by
  rw [toF64_of_abs_le hle, roundTo_exact 53 (-1074) m k hm hk]

/-- An integer below `2 ^ 24` in absolute value is a `float`. -/
theorem toF32_intCast (n : ℤ) (h : |n| < 2 ^ 24) : toF32 (n : ℚ) = some (n : ℚ) := by
  have := toF32_exact n 0 h (by norm_num) (by
    rw [zpow_zero, mul_one]
    have h1 : |(n : ℚ)| < 2 ^ 24 := by exact_mod_cast h
    unfold maxF32
    have : (2 : ℚ) ^ 24 ≤ (2 ^ 24 - 1) * 2 ^ 104 := by norm_num
    linarith)
  simpa using this

theorem toF32_zero : toF32 0 = some 0 := by
  have := toF32_intCast 0 (by norm_num)
  simpa using this

theorem roundTo_intCast (p : ℕ) (emin : ℤ) (hemin : emin ≤ 0) (n : ℤ) (h : |n| < 2 ^ p) :
    roundTo p emin (n : ℚ) = (n : ℚ) := by
  have := roundTo_exact p emin n 0 h hemin
  simpa using this

end fastllm

namespace fastllm

/-! ## The quantization codec -/

theorem qmaxOf_bounds {bit : ℤ} (h1 : 1 ≤ bit) (h8 : bit ≤ 8) :
    1 ≤ qmaxOf bit ∧ qmaxOf bit ≤ 255 := by
  unfold qmaxOf
  interval_cases bit <;> simp

theorem shiftMask_of_bit {bit : ℤ} (h1 : 1 ≤ bit) (h8 : bit ≤ 8) :
    shiftMask bit = some (qmaxOf bit) := by
  unfold shiftMask qmaxOf
  rw [if_pos ⟨by omega, by omega⟩]

theorem toF32_qmaxOf {bit : ℤ} (h1 : 1 ≤ bit) (h8 : bit ≤ 8) :
    toF32 ((qmaxOf bit : ℤ) : ℚ) = some ((qmaxOf bit : ℤ) : ℚ) := by
  obtain ⟨hlo, hhi⟩ := qmaxOf_bounds h1 h8
  exact toF32_intCast _ (by rw [abs_lt]; constructor <;> omega)

theorem roundHalfAway_intCast (n : ℤ) : roundHalfAway (n : ℚ) = n := by
  unfold roundHalfAway
  split
  · rw [Int.floor_eq_iff]; constructor <;> linarith
  · have : ⌊-(n : ℚ) + 1 / 2⌋ = -n := by
      rw [Int.floor_eq_iff]; push_cast; constructor <;> linarith
    rw [this, neg_neg]

theorem roundHalfAway_mono {x y : ℚ} (h : x ≤ y) : roundHalfAway x ≤ roundHalfAway y := by
  unfold roundHalfAway
  by_cases hx : 0 ≤ x
  · have hy : 0 ≤ y := le_trans hx h
    rw [if_pos hx, if_pos hy]
    exact Int.floor_mono (by linarith)
  · rw [if_neg hx]
    push_neg at hx
    have h1 : 0 ≤ ⌊-x + 1 / 2⌋ := Int.floor_nonneg.mpr (by linarith)
    by_cases hy : 0 ≤ y
    · rw [if_pos hy]
      have h2 : 0 ≤ ⌊y + 1 / 2⌋ := Int.floor_nonneg.mpr (by linarith)
      omega
    · rw [if_neg hy]
      have := Int.floor_mono (show -y + 1 / 2 ≤ -x + 1 / 2 by linarith)
      omega

theorem toUInt8_intCast (n : ℤ) (h0 : 0 ≤ n) (h : n ≤ 255) :
    toUInt8 (n : ℚ) = some n.toNat := by
  unfold toUInt8
  have h1 : (-1 : ℚ) < (n : ℚ) := by
    have : (0 : ℚ) ≤ (n : ℚ) := by exact_mod_cast h0
    linarith
  have h2 : (n : ℚ) < 256 := by
    have : (n : ℚ) ≤ 255 := by exact_mod_cast h
    linarith
  have h3 : (0 : ℚ) ≤ (n : ℚ) := by exact_mod_cast h0
  rw [if_pos ⟨h1, h2⟩, if_pos h3, Int.floor_intCast]

/-- `Reset` for a bit width in `1 .. 8`, the constant `qmax` evaluated. -/
theorem Reset_of_bit (min max : ℚ) {bit : ℤ} (h1 : 1 ≤ bit) (h8 : bit ≤ 8) :
    LowBitConfig.Reset min max bit =
      (subF32 (stdMax max 0) (stdMin min 0)).bind fun range =>
      (divF32 range (qmaxOf bit)).bind fun scale =>
      (divF32 (stdMin min 0) scale).bind fun t =>
      (subF32 0 t).bind fun izp =>
      (if izp < 0 then toUInt8 0
       else if izp > (qmaxOf bit : ℚ) then toUInt8 (qmaxOf bit : ℚ)
       else toUInt8 (roundHalfAway izp)).bind fun zeroPoint =>
      some { bit := bit, min := stdMin min 0, max := stdMax max 0, zeroPoint := zeroPoint,
             scale := scale } := by
  have hq : subF32 ((qmaxOf bit : ℤ) : ℚ) 0 = some ((qmaxOf bit : ℤ) : ℚ) := by
    unfold subF32; rw [sub_zero]; exact toF32_qmaxOf h1 h8
  unfold LowBitConfig.Reset
  simp only [bind, pure, shiftMask_of_bit h1 h8, Option.some_bind, toF32_qmaxOf h1 h8]
  cases subF32 (stdMax max 0) (stdMin min 0) with
  | none => rfl
  | some range =>
    simp only [Option.some_bind, hq]
    cases divF32 range ((qmaxOf bit : ℤ) : ℚ) with
    | none => rfl
    | some scale =>
      simp only [Option.some_bind]
      cases divF32 (stdMin min 0) scale with
      | none => rfl
      | some t =>
        simp only [Option.some_bind]
        cases subF32 0 t with
        | none => rfl
        | some izp =>
          simp only [Option.some_bind]
          split_ifs <;> rfl

end fastllm

namespace fastllm

/-- A rounded value is in the format: rounding it again changes nothing. -/
theorem roundTo_idem (p : ℕ) (hp : 1 ≤ p) (emin : ℤ) (q : ℚ) :
    roundTo p emin (roundTo p emin q) = roundTo p emin q := by
  obtain ⟨m, hm, hle⟩ := roundTo_eq_int_mul p emin q
  have he := emin_le_ulpExp p emin q
  rw [hm]
  rcases lt_or_eq_of_le hle with hlt | heq
  · exact roundTo_exact p emin m _ hlt he
  · -- the significand is `±2 ^ p`: the value is `±1 * 2 ^ (e + p)`
    have h1 : (1 : ℤ) < 2 ^ p := by
      calc (1 : ℤ) < 2 ^ 1 := by norm_num
        _ ≤ 2 ^ p := pow_le_pow_right₀ (by norm_num) hp
    rcases abs_eq (by positivity : (0 : ℤ) ≤ 2 ^ p) |>.mp heq with h | h
    · have e1 : (m : ℚ) * 2 ^ ulpExp p emin q
          = ((1 : ℤ) : ℚ) * 2 ^ (ulpExp p emin q + p) := by
        rw [h, zpow_add₀ (by norm_num : (2 : ℚ) ≠ 0), zpow_natCast]
        push_cast; ring
      rw [e1]
      exact roundTo_exact p emin 1 _ (by simpa using h1) (by omega)
    · have e1 : (m : ℚ) * 2 ^ ulpExp p emin q
          = ((-1 : ℤ) : ℚ) * 2 ^ (ulpExp p emin q + p) := by
        rw [h, zpow_add₀ (by norm_num : (2 : ℚ) ≠ 0), zpow_natCast]
        push_cast; ring
      rw [e1]
      exact roundTo_exact p emin (-1) _ (by simpa using h1) (by omega)

/-- A finite `float` is its own rounding. -/
theorem toF32_of_toF32 {q r : ℚ} (h : toF32 q = some r) : toF32 r = some r := by
  obtain ⟨h1, h2⟩ := toF32_eq_some h
  rw [toF32_of_abs_le h2, h1, roundTo_idem 24 (by norm_num)]

/-- The negation of a finite `float` is exact. -/
theorem toF32_neg_of_toF32 {q r : ℚ} (h : toF32 q = some r) : toF32 (-r) = some (-r) := by
  obtain ⟨h1, h2⟩ := toF32_eq_some h
  rw [toF32_of_abs_le (by rwa [abs_neg]), roundTo_neg, h1, roundTo_idem 24 (by norm_num)]

theorem stdMin_eq_min (a b : ℚ) : stdMin a b = min a b := by
  unfold stdMin
  split
  · rename_i h; exact (min_eq_right h.le).symm
  · rename_i h; exact (min_eq_left (not_lt.mp h)).symm

theorem stdMax_eq_max (a b : ℚ) : stdMax a b = max a b := by
  unfold stdMax
  split
  · rename_i h; exact (max_eq_right h.le).symm
  · rename_i h; exact (max_eq_left (not_lt.mp h)).symm

theorem roundHalfAway_zero : roundHalfAway 0 = 0 := by
  have := roundHalfAway_intCast 0
  simpa using this

/-- The zero point that `Reset` stores for a candidate `izp`: the candidate
clamped to `[0, qmax]` and rounded, ties away from zero; it is at most `qmax`. -/
theorem zeroPoint_branches {bit : ℤ} (h1 : 1 ≤ bit) (h8 : bit ≤ 8) (izp : ℚ) :
    (if izp < 0 then toUInt8 0
     else if izp > (qmaxOf bit : ℚ) then toUInt8 (qmaxOf bit : ℚ)
     else toUInt8 (roundHalfAway izp))
      = some (roundHalfAway (max 0 (min (qmaxOf bit : ℚ) izp))).toNat ∧
    ((roundHalfAway (max 0 (min (qmaxOf bit : ℚ) izp))).toNat : ℤ) ≤ qmaxOf bit := by
  obtain ⟨hlo, hhi⟩ := qmaxOf_bounds h1 h8
  have hq0 : (0 : ℚ) < (qmaxOf bit : ℚ) := by exact_mod_cast (by omega : (0 : ℤ) < qmaxOf bit)
  by_cases c1 : izp < 0
  · have e : max 0 (min (qmaxOf bit : ℚ) izp) = 0 := by
      rw [min_eq_right (by linarith), max_eq_left c1.le]
    rw [if_pos c1, e, roundHalfAway_zero]
    have := toUInt8_intCast 0 (le_refl _) (by norm_num)
    simp only [Int.cast_zero] at this
    exact ⟨this, by simp; omega⟩
  · rw [if_neg c1]
    push_neg at c1
    by_cases c2 : izp > (qmaxOf bit : ℚ)
    · have e : max 0 (min (qmaxOf bit : ℚ) izp) = (qmaxOf bit : ℚ) := by
        rw [min_eq_left c2.le, max_eq_right hq0.le]
      rw [if_pos c2, e, roundHalfAway_intCast]
      exact ⟨toUInt8_intCast _ (by omega) hhi, by rw [Int.toNat_of_nonneg (by omega)]⟩
    · rw [if_neg c2]
      push_neg at c2
      have e : max 0 (min (qmaxOf bit : ℚ) izp) = izp := by
        rw [min_eq_right c2, max_eq_right c1]
      rw [e]
      have r0 : 0 ≤ roundHalfAway izp := by
        have := roundHalfAway_mono c1
        rwa [roundHalfAway_zero] at this
      have r1 : roundHalfAway izp ≤ qmaxOf bit := by
        have := roundHalfAway_mono c2
        rwa [roundHalfAway_intCast] at this
      exact ⟨toUInt8_intCast _ r0 (by omega), by rw [Int.toNat_of_nonneg r0]; exact r1⟩

/-- The constructor builds the config of the specification. -/
theorem Reset_eq_spec (min max : ℚ) (bit : ℤ) (h1 : 1 ≤ bit) (h8 : bit ≤ 8) :
    LowBitConfig.Reset min max bit = LowBitConfig.ResetSpec min max bit := by
  rw [Reset_of_bit min max h1 h8]
  unfold LowBitConfig.ResetSpec
  simp only [bind, pure, stdMin_eq_min, stdMax_eq_max]
  cases subF32 (Max.max max 0) (Min.min min 0) with
  | none => rfl
  | some range =>
    simp only [Option.some_bind]
    cases divF32 range ((qmaxOf bit : ℤ) : ℚ) with
    | none => rfl
    | some scale =>
      simp only [Option.some_bind]
      cases ht : divF32 (Min.min min 0) scale with
      | none => rfl
      | some t =>
        simp only [Option.some_bind]
        have hneg : subF32 0 t = some (-t) := by
          unfold subF32
          rw [zero_sub]
          unfold divF32 at ht
          split at ht
          · exact absurd ht (by simp)
          · exact toF32_neg_of_toF32 ht
        rw [hneg]
        simp only [Option.some_bind]
        rw [(zeroPoint_branches h1 h8 (-t)).1]
        rfl

end fastllm

namespace fastllm

theorem maxF32_add_half_le : maxF32 + 1 / 2 ≤ maxF64 := by
  unfold maxF32 maxF64; norm_num

/-- The sum of a finite `float` and `0.5` is a finite `double`. -/
theorem addF64_half {v : ℚ} (hv : |v| ≤ maxF32) :
    addF64 v (1 / 2) = some (roundTo 53 (-1074) (v + 1 / 2)) := by
  unfold addF64
  apply toF64_of_abs_le
  calc |v + 1 / 2| ≤ |v| + |(1 / 2 : ℚ)| := abs_add _ _
    _ ≤ maxF32 + 1 / 2 := by rw [abs_of_pos (by norm_num : (0 : ℚ) < 1 / 2)]; linarith
    _ ≤ maxF64 := maxF32_add_half_le

/-- For a `float` `v` with `0 < v + 1/2 < 256` the `double` sum `v + 0.5` has the
integer part of the exact sum. -/
theorem floor_round_add_half (q v : ℚ) (hq : v = roundTo 24 (-149) q)
    (h0 : 0 < v + 1 / 2) (h1 : v + 1 / 2 < 256) :
    ⌊roundTo 53 (-1074) (v + 1 / 2)⌋ = ⌊v + 1 / 2⌋ := by
  obtain ⟨m, hm, hle⟩ := roundTo_eq_int_mul 24 (-149) q
  have he := emin_le_ulpExp 24 (-149) q
  rw [← hq] at hm
  set e := ulpExp 24 (-149) q
  rcases le_or_lt (-44) e with hbig | hsmall
  · -- the sum is a `double`
    obtain ⟨j, hj⟩ := Int.eq_ofNat_of_zero_le (show 0 ≤ e + 44 by omega)
    have hsum : v + 1 / 2 = ((m * 2 ^ j + 2 ^ 43 : ℤ) : ℚ) * 2 ^ (-44 : ℤ) := by
      rw [hm]
      have he' : e = (j : ℤ) + (-44) := by omega
      rw [he', zpow_add₀ (by norm_num : (2 : ℚ) ≠ 0), zpow_natCast]
      push_cast
      norm_num
      ring
    have hM0 : 0 < ((m * 2 ^ j + 2 ^ 43 : ℤ) : ℚ) := by
      rw [hsum] at h0
      have hp : (0 : ℚ) < 2 ^ (-44 : ℤ) := two_zpow_pos _
      by_contra hcon
      push_neg at hcon
      have := mul_nonpos_of_nonpos_of_nonneg hcon hp.le
      linarith
    have hM1 : ((m * 2 ^ j + 2 ^ 43 : ℤ) : ℚ) < 2 ^ 52 := by
      rw [hsum] at h1
      have hp : (0 : ℚ) < 2 ^ (-44 : ℤ) := two_zpow_pos _
      have e44 : (2 : ℚ) ^ (-44 : ℤ) = 1 / 2 ^ 44 := by norm_num
      rw [e44] at h1
      have : ((m * 2 ^ j + 2 ^ 43 : ℤ) : ℚ) * (1 / 2 ^ 44) < 256 := h1
      have h2 : ((m * 2 ^ j + 2 ^ 43 : ℤ) : ℚ) < 256 * 2 ^ 44 := by
        rw [mul_one_div, div_lt_iff₀ (by positivity)] at this
        exact this
      calc ((m * 2 ^ j + 2 ^ 43 : ℤ) : ℚ) < 256 * 2 ^ 44 := h2
        _ = 2 ^ 52 := by norm_num
    have hMabs : |(m * 2 ^ j + 2 ^ 43 : ℤ)| < 2 ^ 53 := by
      have a1 : 0 < (m * 2 ^ j + 2 ^ 43 : ℤ) := by exact_mod_cast hM0
      have a2 : (m * 2 ^ j + 2 ^ 43 : ℤ) < 2 ^ 52 := by exact_mod_cast hM1
      rw [abs_of_pos a1]
      calc (m * 2 ^ j + 2 ^ 43 : ℤ) < 2 ^ 52 := a2
        _ < 2 ^ 53 := by norm_num
    rw [hsum, roundTo_exact 53 (-1074) _ (-44) hMabs (by norm_num)]
  · -- `v` is tiny: the sum lies between 1/4 and 3/4, and so does its rounding
    have hv : |v| ≤ 1 / 2 ^ 21 := by
      rw [hm, abs_mul, abs_of_pos (two_zpow_pos e)]
      have h2 : |(m : ℚ)| ≤ 2 ^ 24 := by
        have : |(m : ℚ)| = ((|m| : ℤ) : ℚ) := by push_cast; rfl
        rw [this]; exact_mod_cast hle
      have h3 : (2 : ℚ) ^ e ≤ 2 ^ (-45 : ℤ) := zpow_le_zpow_right₀ (by norm_num) (by omega)
      calc |(m : ℚ)| * 2 ^ e ≤ 2 ^ 24 * 2 ^ (-45 : ℤ) :=
            mul_le_mul h2 h3 (two_zpow_pos e).le (by positivity)
        _ = 1 / 2 ^ 21 := by norm_num
    rw [abs_le] at hv
    have hlo : (1 / 4 : ℚ) ≤ v + 1 / 2 := by
      have : (1 / 2 ^ 21 : ℚ) ≤ 1 / 4 := by norm_num
      linarith
    have hhi : v + 1 / 2 ≤ (3 / 4 : ℚ) := by
      have : (1 / 2 ^ 21 : ℚ) ≤ 1 / 4 := by norm_num
      linarith
    have r1 : roundTo 53 (-1074) (1 / 4) = 1 / 4 := by
      have := roundTo_exact 53 (-1074) 1 (-2) (by norm_num) (by norm_num)
      norm_num at this ⊢
      exact this
    have r3 : roundTo 53 (-1074) (3 / 4) = 3 / 4 := by
      have := roundTo_exact 53 (-1074) 3 (-2) (by norm_num) (by norm_num)
      norm_num at this ⊢
      exact this
    have w1 := roundTo_mono 53 (by norm_num) (-1074) hlo
    have w3 := roundTo_mono 53 (by norm_num) (-1074) hhi
    rw [r1] at w1
    rw [r3] at w3
    have f1 : ⌊roundTo 53 (-1074) (v + 1 / 2)⌋ = 0 := by
      rw [Int.floor_eq_iff]; constructor <;> norm_num <;> linarith
    have f2 : ⌊v + 1 / 2⌋ = 0 := by
      rw [Int.floor_eq_iff]; constructor <;> norm_num <;> linarith
    rw [f1, f2]

end fastllm

namespace fastllm

theorem toUInt8_of_floor {w : ℚ} (h0 : 0 ≤ w) (h1 : w < 256) :
    toUInt8 w = some ⌊w⌋.toNat := by
  unfold toUInt8
  rw [if_pos ⟨by linarith, h1⟩, if_pos h0]

theorem scaled_eq_some {c : LowBitConfig} {x v : ℚ} (h : c.scaled x = some v) :
    ∃ q, v = roundTo 24 (-149) q ∧ |v| ≤ maxF32 := by
  unfold LowBitConfig.scaled at h
  simp only [bind, Option.bind_eq_some] at h
  obtain ⟨t, _, ht⟩ := h
  unfold addF32 at ht
  exact ⟨_, toF32_eq_some ht⟩

theorem quantization_of_scaled {c : LowBitConfig} {x v : ℚ} (h1 : 1 ≤ c.bit) (h8 : c.bit ≤ 8)
    (h : c.scaled x = some v) (hv : |v| ≤ maxF32) :
    c.quantization x =
      toUInt8 (stdMin (qmaxOf c.bit : ℚ) (stdMax (roundTo 53 (-1074) (v + 1 / 2)) 0)) := by
  unfold LowBitConfig.scaled at h
  unfold LowBitConfig.quantization
  simp only [bind, shiftMask_of_bit h1 h8, Option.some_bind] at h ⊢
  cases hd : divF32 x c.scale with
  | none => rw [hd] at h; exact absurd h (by simp)
  | some t =>
    rw [hd] at h
    simp only [Option.some_bind] at h ⊢
    rw [h]
    simp only [Option.some_bind, addF64_half hv]

/-- The truncation idiom of `quantization`: when the `float` expression
`x / scale + zeroPoint` has the finite value `v`, the cast of
`min (qmax, max (v + 0.5, 0.0))` is `v` rounded to the nearest integer, ties
away from zero, and clamped to the codes. -/
theorem quantization_clamp_round (c : LowBitConfig) (x v : ℚ)
    (h1 : 1 ≤ c.bit) (h8 : c.bit ≤ 8) (h : c.scaled x = some v) :
    c.quantization x = some (clampCode c.bit (roundHalfAway v)) ∧
      (clampCode c.bit (roundHalfAway v) : ℤ) ≤ 2 ^ c.bit.toNat - 1 := by
  obtain ⟨hK1, hK255⟩ := qmaxOf_bounds h1 h8
  have hKq1 : (1 : ℚ) ≤ (qmaxOf c.bit : ℚ) := by exact_mod_cast hK1
  have hKq255 : (qmaxOf c.bit : ℚ) ≤ 255 := by exact_mod_cast hK255
  have hrange : (clampCode c.bit (roundHalfAway v) : ℤ) ≤ 2 ^ c.bit.toNat - 1 := by
    unfold clampCode
    rw [Int.toNat_of_nonneg (le_max_left _ _)]
    exact max_le (by unfold qmaxOf at hK1; omega) (min_le_left _ _)
  refine ⟨?_, hrange⟩
  obtain ⟨q, hq, hv⟩ := scaled_eq_some h
  rw [quantization_of_scaled h1 h8 h hv]
  set w := roundTo 53 (-1074) (v + 1 / 2) with hw
  have hKexact : roundTo 53 (-1074) ((qmaxOf c.bit : ℤ) : ℚ) = ((qmaxOf c.bit : ℤ) : ℚ) :=
    roundTo_intCast 53 (-1074) (by norm_num) _ (by rw [abs_lt]; constructor <;> omega)
  rcases le_or_lt (v + 1 / 2) 0 with hA | hpos
  · -- at or below zero
    have hw0 : w ≤ 0 := roundTo_nonpos 53 (-1074) hA
    have e1 : stdMax w 0 = 0 := by
      unfold stdMax
      split
      · rfl
      · rename_i hn; linarith [not_lt.mp hn]
    have e2 : stdMin (qmaxOf c.bit : ℚ) 0 = 0 := by
      unfold stdMin; rw [if_pos (by linarith)]
    rw [e1, e2]
    have e3 : roundHalfAway v ≤ 0 := by
      have := roundHalfAway_mono (show v ≤ 0 by linarith)
      rwa [roundHalfAway_zero] at this
    have e4 : clampCode c.bit (roundHalfAway v) = 0 := by
      unfold clampCode
      rw [min_eq_right (by omega), max_eq_left e3]
      rfl
    rw [e4]
    have := toUInt8_intCast 0 (le_refl _) (by norm_num)
    simpa using this
  · rcases le_or_lt ((qmaxOf c.bit : ℤ) : ℚ) (v + 1 / 2) with hB | hlt
    · -- at or above the largest code
      have hwK : ((qmaxOf c.bit : ℤ) : ℚ) ≤ w := by
        have := roundTo_mono 53 (by norm_num) (-1074) hB
        rwa [hKexact] at this
      have e1 : stdMax w 0 = w := by
        unfold stdMax; rw [if_neg (by linarith)]
      have e2 : stdMin (qmaxOf c.bit : ℚ) w = (qmaxOf c.bit : ℚ) := by
        unfold stdMin; rw [if_neg (by linarith)]
      rw [e1, e2, toUInt8_intCast _ (by omega) hK255]
      have hv0 : 0 ≤ v := by linarith
      have e3 : qmaxOf c.bit ≤ roundHalfAway v := by
        unfold roundHalfAway
        rw [if_pos hv0]
        exact Int.le_floor.mpr hB
      have e4 : clampCode c.bit (roundHalfAway v) = (qmaxOf c.bit).toNat := by
        unfold clampCode
        rw [min_eq_left e3, max_eq_right (by omega)]
      rw [e4]
    · -- strictly inside: the sum keeps its integer part
      have hfl : ⌊w⌋ = ⌊v + 1 / 2⌋ :=
        floor_round_add_half q v hq hpos (by linarith)
      have hn0 : 0 ≤ ⌊v + 1 / 2⌋ := Int.floor_nonneg.mpr hpos.le
      have hnK : ⌊v + 1 / 2⌋ < qmaxOf c.bit := Int.floor_lt.mpr hlt
      have hw0 : 0 ≤ w := roundTo_nonneg 53 (-1074) hpos.le
      have hwK : w < (qmaxOf c.bit : ℚ) := by
        have h2 := Int.lt_floor_add_one w
        rw [hfl] at h2
        have h3 : ((⌊v + 1 / 2⌋ : ℤ) : ℚ) + 1 ≤ (qmaxOf c.bit : ℚ) := by
          exact_mod_cast hnK
        linarith
      have e1 : stdMax w 0 = w := by
        unfold stdMax; rw [if_neg (by linarith)]
      have e2 : stdMin (qmaxOf c.bit : ℚ) w = w := by
        unfold stdMin; rw [if_pos hwK]
      rw [e1, e2, toUInt8_of_floor hw0 (by linarith), hfl]
      have e3 : roundHalfAway v = ⌊v + 1 / 2⌋ := by
        unfold roundHalfAway
        by_cases hv0 : 0 ≤ v
        · rw [if_pos hv0]
        · rw [if_neg hv0]
          push_neg at hv0
          have f1 : ⌊-v + 1 / 2⌋ = 0 := by
            rw [Int.floor_eq_iff]; constructor <;> norm_num <;> linarith
          have f2 : ⌊v + 1 / 2⌋ = 0 := by
            rw [Int.floor_eq_iff]; constructor <;> norm_num <;> linarith
          rw [f1, f2]; rfl
      have e4 : clampCode c.bit (roundHalfAway v) = ⌊v + 1 / 2⌋.toNat := by
        unfold clampCode
        rw [e3, min_eq_right (by omega), max_eq_right hn0]
      rw [e4]

end fastllm

namespace fastllm

/-- What the constructor establishes: the bit width is stored, the scale is
positive and the zero point is a code. -/
theorem Reset_invariant (min max : ℚ) (bit : ℤ) (c : LowBitConfig) (h1 : 1 ≤ bit) (h8 : bit ≤ 8)
    (hc : LowBitConfig.Reset min max bit = some c) :
    c.bit = bit ∧ 0 < c.scale ∧ (c.zeroPoint : ℤ) ≤ qmaxOf bit := by
  rw [Reset_of_bit min max h1 h8] at hc
  simp only [Option.bind_eq_some] at hc
  obtain ⟨range, hrange, scale, hscale, t, ht, izp, _, zp, hzp, hc⟩ := hc
  injection hc with hc
  subst hc
  refine ⟨rfl, ?_, ?_⟩
  · -- the scale is the rounding of a quotient that is not negative, and not zero
    have hs0 : scale ≠ 0 := by
      intro h0
      unfold divF32 at ht
      rw [if_pos h0] at ht
      exact absurd ht (by simp)
    have hr : 0 ≤ range := by
      unfold subF32 at hrange
      obtain ⟨hr, _⟩ := toF32_eq_some hrange
      rw [hr]
      apply roundTo_nonneg
      rw [stdMax_eq_max, stdMin_eq_min]
      have a1 : (0 : ℚ) ≤ Max.max max 0 := le_max_right _ _
      have a2 : Min.min min 0 ≤ (0 : ℚ) := min_le_right _ _
      linarith
    have hs : 0 ≤ scale := by
      unfold divF32 at hscale
      split at hscale
      · exact absurd hscale (by simp)
      · obtain ⟨hs, _⟩ := toF32_eq_some hscale
        rw [hs]
        apply roundTo_nonneg
        have := (qmaxOf_bounds h1 h8).1
        have : (0 : ℚ) < (qmaxOf bit : ℚ) := by exact_mod_cast (by omega : (0 : ℤ) < qmaxOf bit)
        positivity
    exact lt_of_le_of_ne hs (Ne.symm hs0)
  · have hb := zeroPoint_branches h1 h8 izp
    rw [hb.1] at hzp
    injection hzp with hzp
    rw [← hzp]
    exact hb.2

/-- Zero is a code: with a zero point that is a code, `quantization (0.0)` is the
zero point and `invQuantization (zeroPoint)` is `0.0`. -/
theorem zero_of_zeroPoint_le (c : LowBitConfig) (h1 : 1 ≤ c.bit) (h8 : c.bit ≤ 8)
    (hs : c.scale ≠ 0) (hz : (c.zeroPoint : ℤ) ≤ qmaxOf c.bit) :
    c.quantization 0 = some c.zeroPoint ∧ c.invQuantization c.zeroPoint = some 0 := by
  obtain ⟨hK1, hK255⟩ := qmaxOf_bounds h1 h8
  have hzq : ((c.zeroPoint : ℤ) : ℚ) = (c.zeroPoint : ℚ) := by push_cast; rfl
  have hzf : toF32 (c.zeroPoint : ℚ) = some (c.zeroPoint : ℚ) := by
    rw [← hzq]
    exact toF32_intCast _ (by rw [abs_lt]; constructor <;> omega)
  have hscaled : c.scaled 0 = some (c.zeroPoint : ℚ) := by
    unfold LowBitConfig.scaled divF32 addF32
    rw [if_neg hs, zero_div, toF32_zero]
    simp only [bind, Option.some_bind, zero_add]
    exact hzf
  constructor
  · rw [(quantization_clamp_round c 0 _ h1 h8 hscaled).1, ← hzq, roundHalfAway_intCast]
    unfold clampCode
    rw [min_eq_right hz, max_eq_right (by omega)]
    simp
  · unfold LowBitConfig.invQuantization subF32 mulF32
    rw [sub_self, toF32_zero]
    simp only [bind, Option.some_bind, mul_zero]
    exact toF32_zero

/-- Every LowBitConfig that the constructor builds with a bit width in `1 .. 8`
has a positive scale and represents zero exactly. -/
theorem zero_of_Reset (min max : ℚ) (bit : ℤ) (c : LowBitConfig)
    (h1 : 1 ≤ bit) (h8 : bit ≤ 8) (hc : LowBitConfig.Reset min max bit = some c) :
    0 < c.scale ∧ c.quantization 0 = some c.zeroPoint ∧
      c.invQuantization c.zeroPoint = some 0 := by
  obtain ⟨hb, hs, hz⟩ := Reset_invariant min max bit c h1 h8 hc
  have := zero_of_zeroPoint_le c (by rw [hb]; exact h1) (by rw [hb]; exact h8) hs.ne'
    (by rw [hb]; exact hz)
  exact ⟨hs, this.1, this.2⟩

/-- C8 (amended): zero is exactly representable. For every LowBitConfig with
`scale > 0`, a bit width `b` in `1 .. 8` and a zero point that is a code,
`zeroPoint ≤ 2 ^ b - 1` (every config that the constructor builds is one),
`quantization (0.0)` is the zero point and `invQuantization (zeroPoint)` is
`0.0`. -/
theorem zero_exactly_representable (c : LowBitConfig) (h1 : 1 ≤ c.bit) (h8 : c.bit ≤ 8)
    (hs : 0 < c.scale) (hz : (c.zeroPoint : ℤ) ≤ 2 ^ c.bit.toNat - 1) :
    c.quantization 0 = some c.zeroPoint ∧ c.invQuantization c.zeroPoint = some 0 :=
  zero_of_zeroPoint_le c h1 h8 hs.ne' hz

end fastllm

namespace fastllm

/-! ## Rounding error of `float` operations -/

/-- Below `2 ^ n` the rounding error of `float` is at most `2 ^ (n - 25)`. -/
theorem abs_roundTo_sub_le_of_lt (y : ℚ) (n : ℤ) (hn : -149 ≤ n - 24) (hy : |y| < 2 ^ n) :
    |roundTo 24 (-149) y - y| ≤ 2 ^ (n - 25) := by
  rcases eq_or_lt_of_le (abs_nonneg y) with h0 | h0
  · have hy0 : y = 0 := abs_eq_zero.mp h0.symm
    rw [hy0, roundTo_zero, sub_zero, abs_zero]
    exact (two_zpow_pos _).le
  have h := abs_roundTo_sub_le 24 (-149) y
  have he : ulpExp 24 (-149) y ≤ n - 24 := by
    unfold ulpExp
    apply max_le _ hn
    have := log_lt_of_lt_zpow h0 hy
    push_cast
    omega
  calc |roundTo 24 (-149) y - y| ≤ 2 ^ ulpExp 24 (-149) y / 2 := h
    _ ≤ 2 ^ (n - 24) / 2 := by
        apply div_le_div_of_nonneg_right _ (by norm_num)
        exact zpow_le_zpow_right₀ (by norm_num) he
    _ = 2 ^ (n - 25) := by
        have : n - 24 = (n - 25) + 1 := by ring
        rw [this, zpow_add₀ (by norm_num : (2 : ℚ) ≠ 0)]
        norm_num

/-- From `2 ^ -126` on the rounding error of `float` is at most `2 ^ -24` of the
value. -/
theorem abs_roundTo_sub_le_rel (y : ℚ) (hy : (2 : ℚ) ^ (-126 : ℤ) ≤ |y|) :
    |roundTo 24 (-149) y - y| ≤ |y| / 2 ^ 24 := by
  have h := abs_roundTo_sub_le 24 (-149) y
  have h0 : 0 < |y| := lt_of_lt_of_le (two_zpow_pos _) hy
  have hL : -126 ≤ Int.log 2 |y| := le_log_of_zpow_le h0 hy
  have he : ulpExp 24 (-149) y = Int.log 2 |y| - 23 := by
    unfold ulpExp
    push_cast
    rw [max_eq_left (by omega)]
    ring
  rw [he] at h
  have hz := zpow_log_le h0
  calc |roundTo 24 (-149) y - y| ≤ 2 ^ (Int.log 2 |y| - 23) / 2 := h
    _ = 2 ^ Int.log 2 |y| / 2 ^ 24 := by
        rw [zpow_sub₀ (by norm_num : (2 : ℚ) ≠ 0)]
        norm_num
        ring
    _ ≤ |y| / 2 ^ 24 := div_le_div_of_nonneg_right hz (by positivity)

theorem abs_roundHalfAway_sub_le (y : ℚ) : |(roundHalfAway y : ℚ) - y| ≤ 1 / 2 := by
  unfold roundHalfAway
  rw [abs_le]
  split
  · have h1 := Int.floor_le (y + 1 / 2)
    have h2 := Int.lt_floor_add_one (y + 1 / 2)
    constructor <;> linarith
  · have h1 := Int.floor_le (-y + 1 / 2)
    have h2 := Int.lt_floor_add_one (-y + 1 / 2)
    push_cast
    constructor <;> linarith

end fastllm

namespace fastllm

/-! ## The round trip through the codec -/

/-- The quantities `Reset` computes on the way to a config. -/
theorem Reset_facts (min max : ℚ) (bit : ℤ) (c : LowBitConfig) (h1 : 1 ≤ bit) (h8 : bit ≤ 8)
    (hc : LowBitConfig.Reset min max bit = some c) :
    c.bit = bit ∧ c.min ≤ 0 ∧ 0 ≤ c.max ∧
      c.scale = roundTo 24 (-149)
        (roundTo 24 (-149) (c.max - c.min) / (qmaxOf bit : ℚ)) ∧
      c.scale ≠ 0 ∧
      (c.zeroPoint : ℤ) = roundHalfAway
        (Max.max 0 (Min.min (qmaxOf bit : ℚ) (-roundTo 24 (-149) (c.min / c.scale)))) := by
  rw [Reset_of_bit min max h1 h8] at hc
  simp only [Option.bind_eq_some] at hc
  obtain ⟨range, hrange, scale, hscale, t, ht, izp, hizp, zp, hzp, hc⟩ := hc
  injection hc with hc
  subst hc
  have hs0 : scale ≠ 0 := by
    intro h0
    unfold divF32 at ht
    rw [if_pos h0] at ht
    exact absurd ht (by simp)
  have hK0 : ((qmaxOf bit : ℤ) : ℚ) ≠ 0 := by
    have := (qmaxOf_bounds h1 h8).1
    exact_mod_cast (by omega : qmaxOf bit ≠ 0)
  unfold subF32 at hrange hizp
  unfold divF32 at hscale ht
  rw [if_neg hK0] at hscale
  rw [if_neg hs0] at ht
  obtain ⟨hr, _⟩ := toF32_eq_some hrange
  obtain ⟨hs, _⟩ := toF32_eq_some hscale
  obtain ⟨htt, _⟩ := toF32_eq_some ht
  have hneg : toF32 (0 - t) = some (-t) := by
    rw [zero_sub]; exact toF32_neg_of_toF32 ht
  rw [hneg] at hizp
  injection hizp with hizp
  have hb := zeroPoint_branches h1 h8 izp
  rw [hb.1] at hzp
  injection hzp with hzp
  have hnn : 0 ≤ roundHalfAway (Max.max 0 (Min.min (qmaxOf bit : ℚ) izp)) := by
    have := roundHalfAway_mono (le_max_left (0 : ℚ) (Min.min (qmaxOf bit : ℚ) izp))
    rwa [roundHalfAway_zero] at this
  refine ⟨rfl, ?_, ?_, ?_, hs0, ?_⟩
  · show stdMin min 0 ≤ 0
    rw [stdMin_eq_min]; exact min_le_right _ _
  · show 0 ≤ stdMax max 0
    rw [stdMax_eq_max]; exact le_max_right _ _
  · show scale = _
    rw [hs, hr]
  · show (zp : ℤ) = _
    rw [← hzp, Int.toNat_of_nonneg hnn, ← hizp, htt]

/-- The scale times the largest code is the width of the range up to two
roundings. -/
theorem scale_mul_qmax_bounds (D K s : ℚ) (hD : (1 : ℚ) / 2 ^ 100 ≤ D) (hK1 : 1 ≤ K)
    (hK : K ≤ 255) (hs : s = roundTo 24 (-149) (roundTo 24 (-149) D / K)) :
    D * (1 - 1 / 2 ^ 23) ≤ s * K ∧ s * K ≤ D * (1 + 1 / 2 ^ 22) := by
  have hD0 : 0 < D := lt_of_lt_of_le (by positivity) hD
  have hK0 : 0 < K := by linarith
  have e126 : (2 : ℚ) ^ (-126 : ℤ) = 1 / 2 ^ 126 := by norm_num
  -- the rounded width
  have h1 : |roundTo 24 (-149) D - D| ≤ |D| / 2 ^ 24 := by
    apply abs_roundTo_sub_le_rel
    rw [abs_of_pos hD0, e126]
    have : (1 : ℚ) / 2 ^ 126 ≤ 1 / 2 ^ 100 := by norm_num
    linarith
  rw [abs_of_pos hD0, abs_le] at h1
  set R := roundTo 24 (-149) D with hR
  have hRlo : D * (1 - 1 / 2 ^ 24) ≤ R := by linarith [h1.1]
  have hRhi : R ≤ D * (1 + 1 / 2 ^ 24) := by linarith [h1.2]
  have hR0 : 0 < R := by
    have : (0 : ℚ) < D * (1 - 1 / 2 ^ 24) := by
      apply mul_pos hD0; norm_num
    linarith
  -- the rounded quotient
  have hy0 : 0 < R / K := div_pos hR0 hK0
  have hylo : (1 : ℚ) / 2 ^ 126 ≤ R / K := by
    rw [le_div_iff₀ hK0]
    have a1 : (1 : ℚ) / 2 ^ 126 * K ≤ 1 / 2 ^ 126 * 255 := by
      apply mul_le_mul_of_nonneg_left hK; positivity
    have a2 : (1 : ℚ) / 2 ^ 126 * 255 ≤ 1 / 2 ^ 100 * (1 - 1 / 2 ^ 24) := by norm_num
    have a3 : (1 : ℚ) / 2 ^ 100 * (1 - 1 / 2 ^ 24) ≤ D * (1 - 1 / 2 ^ 24) := by
      apply mul_le_mul_of_nonneg_right hD; norm_num
    linarith
  have h2 : |roundTo 24 (-149) (R / K) - R / K| ≤ |R / K| / 2 ^ 24 := by
    apply abs_roundTo_sub_le_rel
    rw [abs_of_pos hy0, e126]; exact hylo
  rw [abs_of_pos hy0, ← hs, abs_le] at h2
  have hyK : R / K * K = R := by field_simp
  have hslo : R * (1 - 1 / 2 ^ 24) ≤ s * K := by
    have : (R / K - R / K / 2 ^ 24) * K ≤ s * K := by
      apply mul_le_mul_of_nonneg_right _ hK0.le
      linarith [h2.1]
    have e : (R / K - R / K / 2 ^ 24) * K = R / K * K * (1 - 1 / 2 ^ 24) := by ring
    rw [e, hyK] at this
    exact this
  have hshi : s * K ≤ R * (1 + 1 / 2 ^ 24) := by
    have : s * K ≤ (R / K + R / K / 2 ^ 24) * K := by
      apply mul_le_mul_of_nonneg_right _ hK0.le
      linarith [h2.2]
    have e : (R / K + R / K / 2 ^ 24) * K = R / K * K * (1 + 1 / 2 ^ 24) := by ring
    rw [e, hyK] at this
    exact this
  constructor
  · have a1 : D * (1 - 1 / 2 ^ 24) * (1 - 1 / 2 ^ 24) ≤ R * (1 - 1 / 2 ^ 24) := by
      apply mul_le_mul_of_nonneg_right hRlo; norm_num
    have a2 : D * (1 - 1 / 2 ^ 23) ≤ D * (1 - 1 / 2 ^ 24) * (1 - 1 / 2 ^ 24) := by
      have : D * (1 - 1 / 2 ^ 24) * (1 - 1 / 2 ^ 24)
          = D * ((1 - 1 / 2 ^ 24) * (1 - 1 / 2 ^ 24)) := by ring
      rw [this]
      apply mul_le_mul_of_nonneg_left _ hD0.le
      norm_num
    linarith
  · have a1 : R * (1 + 1 / 2 ^ 24) ≤ D * (1 + 1 / 2 ^ 24) * (1 + 1 / 2 ^ 24) := by
      apply mul_le_mul_of_nonneg_right hRhi; norm_num
    have a2 : D * (1 + 1 / 2 ^ 24) * (1 + 1 / 2 ^ 24) ≤ D * (1 + 1 / 2 ^ 22) := by
      have : D * (1 + 1 / 2 ^ 24) * (1 + 1 / 2 ^ 24)
          = D * ((1 + 1 / 2 ^ 24) * (1 + 1 / 2 ^ 24)) := by ring
      rw [this]
      apply mul_le_mul_of_nonneg_left _ hD0.le
      norm_num
    linarith

end fastllm

namespace fastllm

theorem abs_err_8 (y : ℚ) (hy : |y| < 256) : |roundTo 24 (-149) y - y| ≤ 1 / 2 ^ 17 := by
  have := abs_roundTo_sub_le_of_lt y 8 (by norm_num) (by norm_num; exact hy)
  norm_num at this ⊢
  exact this

theorem abs_err_9 (y : ℚ) (hy : |y| < 512) : |roundTo 24 (-149) y - y| ≤ 1 / 2 ^ 16 := by
  have := abs_roundTo_sub_le_of_lt y 9 (by norm_num) (by norm_num; exact hy)
  norm_num at this ⊢
  exact this

theorem le_maxF32_of_le {y : ℚ} (h : y ≤ 2 ^ 101) : y ≤ maxF32 := by
  unfold maxF32
  have : (2 : ℚ) ^ 101 ≤ (2 ^ 24 - 1) * 2 ^ 104 := by norm_num
  linarith

theorem roundTo_neg_half : roundTo 24 (-149) (-(1 / 2)) = -(1 / 2) := by
  have := roundTo_exact 24 (-149) (-1) (-1) (by norm_num) (by norm_num)
  norm_num at this ⊢
  exact this

/-- The clamped code is within one half of the rounded argument, up to the
excess of the argument over `qmax + 1/2`. -/
theorem abs_clampCode_sub_le (bit : ℤ) (h1 : 1 ≤ bit) (h8 : bit ≤ 8) (v η : ℚ) (hη : 0 ≤ η)
    (hlo : -(1 / 2) ≤ v) (hhi : v ≤ (qmaxOf bit : ℚ) + 1 / 2 + η) :
    |((clampCode bit (roundHalfAway v) : ℕ) : ℚ) - v| ≤ 1 / 2 + η ∧
      ((clampCode bit (roundHalfAway v) : ℕ) : ℚ) ≤ (qmaxOf bit : ℚ) := by
  obtain ⟨hK1, hK255⟩ := qmaxOf_bounds h1 h8
  have hn := abs_roundHalfAway_sub_le v
  rw [abs_le] at hn
  have hcast : ((clampCode bit (roundHalfAway v) : ℕ) : ℚ)
      = ((Max.max 0 (Min.min (qmaxOf bit) (roundHalfAway v)) : ℤ) : ℚ) := by
    unfold clampCode
    have : ((Max.max 0 (Min.min (qmaxOf bit) (roundHalfAway v))).toNat : ℤ)
        = Max.max 0 (Min.min (qmaxOf bit) (roundHalfAway v)) :=
      Int.toNat_of_nonneg (le_max_left _ _)
    exact_mod_cast this
  rw [hcast]
  rcases lt_or_le (roundHalfAway v) 0 with c1 | c1
  · have e : Max.max 0 (Min.min (qmaxOf bit) (roundHalfAway v)) = 0 := by
      rw [min_eq_right (by omega), max_eq_left c1.le]
    rw [e]
    have : ((roundHalfAway v : ℤ) : ℚ) ≤ -1 := by exact_mod_cast (by omega : roundHalfAway v ≤ -1)
    have hq1 : (1 : ℚ) ≤ (qmaxOf bit : ℚ) := by exact_mod_cast hK1
    push_cast
    refine ⟨?_, by linarith⟩
    rw [abs_le]; constructor <;> linarith
  · rcases lt_or_le (qmaxOf bit) (roundHalfAway v) with c2 | c2
    · have e : Max.max 0 (Min.min (qmaxOf bit) (roundHalfAway v)) = qmaxOf bit := by
        rw [min_eq_left c2.le, max_eq_right (by omega)]
      rw [e]
      have : ((qmaxOf bit : ℤ) : ℚ) + 1 ≤ ((roundHalfAway v : ℤ) : ℚ) := by
        exact_mod_cast (by omega : qmaxOf bit + 1 ≤ roundHalfAway v)
      refine ⟨?_, le_refl _⟩
      rw [abs_le]; constructor <;> linarith
    · have e : Max.max 0 (Min.min (qmaxOf bit) (roundHalfAway v)) = roundHalfAway v := by
        rw [min_eq_right c2, max_eq_right c1]
      rw [e]
      refine ⟨?_, by exact_mod_cast c2⟩
      rw [abs_le]; constructor <;> linarith

end fastllm

namespace fastllm

set_option maxRecDepth 10000
set_option maxHeartbeats 2000000

/-- The error of a round trip through a config of 1 to 8 bits whose range has a
width between `2 ^ -100` and `2 ^ 100`: half a step, and the rounding of the
`float` operations. -/
theorem roundTrip_bound (min max : ℚ) (bit : ℤ) (c : LowBitConfig) (x : ℚ)
    (h1 : 1 ≤ bit) (h8 : bit ≤ 8) (hc : LowBitConfig.Reset min max bit = some c)
    (hlo : (1 : ℚ) / 2 ^ 100 ≤ c.max - c.min) (hhi : c.max - c.min ≤ 2 ^ 100)
    (hx1 : c.min ≤ x) (hx2 : x ≤ c.max) :
    ∃ q r, c.quantization x = some q ∧ c.invQuantization q = some r ∧
      |r - x| ≤ c.scale / 2 + c.scale / 2 ^ 12 := by
  obtain ⟨hb, hmin0, hmax0, hs, hs0, hzp⟩ := Reset_facts min max bit c h1 h8 hc
  obtain ⟨hK1z, hK255z⟩ := qmaxOf_bounds h1 h8
  set K : ℚ := (qmaxOf bit : ℚ) with hKdef
  have hK1 : (1 : ℚ) ≤ K := by rw [hKdef]; exact_mod_cast hK1z
  have hK255 : K ≤ 255 := by rw [hKdef]; exact_mod_cast hK255z
  set s := c.scale with hsdef
  set D := c.max - c.min with hDdef
  have hD0 : 0 < D := lt_of_lt_of_le (by positivity) hlo
  obtain ⟨hsK1, hsK2⟩ := scale_mul_qmax_bounds D K s hlo hK1 hK255 hs
  have hspos : 0 < s := by
    have a1 : 0 < D * (1 - 1 / 2 ^ 23) := mul_pos hD0 (by norm_num)
    have a2 : 0 < s * K := lt_of_lt_of_le a1 hsK1
    by_contra hcon
    push_neg at hcon
    have := mul_nonpos_of_nonpos_of_nonneg hcon (by linarith : (0 : ℚ) ≤ K)
    linarith
  -- the width in steps
  have hDs : D / s ≤ K + 1 / 2 ^ 14 := by
    rw [div_le_iff₀ hspos]
    have a1 : K ≤ (K + 1 / 2 ^ 14) * (1 - 1 / 2 ^ 23) := by
      have e : (K + 1 / 2 ^ 14) * (1 - 1 / 2 ^ 23)
          = K + (1 / 2 ^ 14 - 1 / 2 ^ 37 - K / 2 ^ 23) := by ring
      rw [e]
      have : K / 2 ^ 23 ≤ 255 / 2 ^ 23 := div_le_div_of_nonneg_right hK255 (by positivity)
      have : (255 : ℚ) / 2 ^ 23 ≤ 1 / 2 ^ 14 - 1 / 2 ^ 37 := by norm_num
      linarith
    have a2 : s * K ≤ s * ((K + 1 / 2 ^ 14) * (1 - 1 / 2 ^ 23)) :=
      mul_le_mul_of_nonneg_left a1 hspos.le
    have a3 : D * (1 - 1 / 2 ^ 23) ≤ (K + 1 / 2 ^ 14) * s * (1 - 1 / 2 ^ 23) := by
      calc D * (1 - 1 / 2 ^ 23) ≤ s * K := hsK1
        _ ≤ s * ((K + 1 / 2 ^ 14) * (1 - 1 / 2 ^ 23)) := a2
        _ = (K + 1 / 2 ^ 14) * s * (1 - 1 / 2 ^ 23) := by ring
    exact le_of_mul_le_mul_right a3 (by norm_num)
  have hsteps : ∀ y, c.min ≤ y → y ≤ c.max → |y / s| ≤ K + 1 / 2 ^ 14 := by
    intro y hy1 hy2
    rw [abs_div, abs_of_pos hspos]
    have : |y| ≤ D := by
      rw [abs_le]; constructor <;> linarith
    exact le_trans (div_le_div_of_nonneg_right this hspos.le) hDs
  -- the quotients
  set t := roundTo 24 (-149) (c.min / s) with htdef
  set a := roundTo 24 (-149) (x / s) with hadef
  have hmins := hsteps c.min (le_refl _) (by linarith)
  have hxs := hsteps x hx1 hx2
  have hterr : |t - c.min / s| ≤ 1 / 2 ^ 17 := abs_err_8 _ (by linarith)
  have haerr : |a - x / s| ≤ 1 / 2 ^ 17 := abs_err_8 _ (by linarith)
  rw [abs_le] at hterr haerr hmins hxs
  have ht0 : t ≤ 0 := roundTo_nonpos 24 (-149) (div_nonpos_of_nonpos_of_nonneg hmin0 hspos.le)
  have hta : t ≤ a :=
    roundTo_mono 24 (by norm_num) (-149) (div_le_div_of_nonneg_right hx1 hspos.le)
  have hdiv : divF32 x s = some a := by
    unfold divF32
    rw [if_neg hs0]
    apply toF32_of_abs_le
    apply le_maxF32_of_le
    rw [abs_le]
    have : (256 : ℚ) ≤ 2 ^ 101 := by norm_num
    constructor <;> linarith [hxs.1, hxs.2]
  -- the zero point
  set z : ℚ := (c.zeroPoint : ℚ) with hzdef
  have hzcast : z = ((roundHalfAway (Max.max 0 (Min.min K (-t))) : ℤ) : ℚ) := by
    rw [hzdef, ← hzp]; push_cast; rfl
  have hz0 : 0 ≤ z := by rw [hzdef]; positivity
  have hzK : z ≤ K := by
    have := (Reset_invariant min max bit c h1 h8 hc).2.2
    rw [hzdef, hKdef]; exact_mod_cast this
  have hZerr := abs_roundHalfAway_sub_le (Max.max 0 (Min.min K (-t)))
  rw [← hzcast, abs_le] at hZerr
  have hzhi : z ≤ -t + 1 / 2 := by
    have : Max.max 0 (Min.min K (-t)) ≤ -t :=
      max_le (by linarith) (min_le_right _ _)
    linarith [hZerr.2]
  have hzlo : -t - 1 / 2 ≤ z := by
    rcases le_total K (-t) with hc1 | hc1
    · have e : Max.max 0 (Min.min K (-t)) = K := by
        rw [min_eq_left hc1, max_eq_right (by linarith)]
      have : z = K := by
        rw [hzcast, e, hKdef, roundHalfAway_intCast]
      rw [this]
      have : (1 : ℚ) / 2 ^ 14 + 1 / 2 ^ 17 ≤ 1 / 2 := by norm_num
      linarith [hterr.1, hmins.1]
    · have e : Max.max 0 (Min.min K (-t)) = -t := by
        rw [min_eq_right hc1, max_eq_right (by linarith)]
      rw [e] at hZerr
      linarith [hZerr.1]
  -- the sum
  set v := roundTo 24 (-149) (a + z) with hvdef
  have haz : |a + z| < 512 := by
    rw [abs_lt]
    have : (1 : ℚ) / 2 ^ 14 + 1 / 2 ^ 17 < 1 := by norm_num
    constructor <;> linarith [haerr.1, haerr.2, hxs.1, hxs.2]
  have hverr : |v - (a + z)| ≤ 1 / 2 ^ 16 := abs_err_9 _ haz
  rw [abs_le] at hverr
  have hadd : addF32 a z = some v := by
    unfold addF32
    apply toF32_of_abs_le
    apply le_maxF32_of_le
    have : (512 : ℚ) ≤ 2 ^ 101 := by norm_num
    linarith
  have hscaled : c.scaled x = some v := by
    unfold LowBitConfig.scaled
    simp only [bind, ← hsdef, hdiv, Option.some_bind, ← hzdef, hadd]
  have hvlo : -(1 / 2) ≤ v := by
    have := roundTo_mono 24 (by norm_num) (-149) (show -(1 / 2) ≤ a + z by linarith)
    rwa [roundTo_neg_half] at this
  have hxmin : x / s - c.min / s ≤ K + 1 / 2 ^ 14 := by
    have : x / s - c.min / s = (x - c.min) / s := by ring
    rw [this]
    exact le_trans (div_le_div_of_nonneg_right (by linarith) hspos.le) hDs
  have hvhi : v ≤ K + 1 / 2 + (1 / 2 ^ 14 + 1 / 2 ^ 15) := by
    have : (1 : ℚ) / 2 ^ 17 + 1 / 2 ^ 17 + 1 / 2 ^ 16 = 1 / 2 ^ 15 := by norm_num
    linarith [hverr.2, haerr.2, hterr.1]
  -- the code
  have hbit1 : 1 ≤ c.bit := by rw [hb]; exact h1
  have hbit8 : c.bit ≤ 8 := by rw [hb]; exact h8
  have hquant := (quantization_clamp_round c x v hbit1 hbit8 hscaled).1
  rw [hb] at hquant
  obtain ⟨hqv, hqK⟩ := abs_clampCode_sub_le bit h1 h8 v (1 / 2 ^ 14 + 1 / 2 ^ 15)
    (by positivity) hvlo hvhi
  set q := clampCode bit (roundHalfAway v) with hqdef
  rw [abs_le] at hqv
  -- the difference of the codes is an integer of at most eight bits
  have hsubcast : ((q : ℚ) - z) = (((q : ℤ) - (c.zeroPoint : ℤ) : ℤ) : ℚ) := by
    rw [hzdef]; push_cast; rfl
  have hqz : |(q : ℚ) - z| ≤ K := by
    rw [abs_le]
    have : (0 : ℚ) ≤ (q : ℚ) := by positivity
    constructor <;> linarith
  have hsub : subF32 (q : ℚ) z = some ((q : ℚ) - z) := by
    unfold subF32
    rw [hsubcast]
    apply toF32_intCast
    have : |(((q : ℤ) - (c.zeroPoint : ℤ) : ℤ) : ℚ)| ≤ 255 := by
      rw [← hsubcast]; linarith
    have h2 : |((q : ℤ) - (c.zeroPoint : ℤ))| ≤ 255 := by exact_mod_cast this
    calc |((q : ℤ) - (c.zeroPoint : ℤ))| ≤ 255 := h2
      _ < 2 ^ 24 := by norm_num
  -- the product
  set r := roundTo 24 (-149) (s * ((q : ℚ) - z)) with hrdef
  have hprod : |s * ((q : ℚ) - z)| ≤ s * K := by
    rw [abs_mul, abs_of_pos hspos]
    exact mul_le_mul_of_nonneg_left hqz hspos.le
  have hmul : mulF32 s ((q : ℚ) - z) = some r := by
    unfold mulF32
    apply toF32_of_abs_le
    apply le_maxF32_of_le
    have a1 : D * (1 + 1 / 2 ^ 22) ≤ 2 ^ 100 * (1 + 1 / 2 ^ 22) :=
      mul_le_mul_of_nonneg_right hhi (by norm_num)
    have a2 : (2 : ℚ) ^ 100 * (1 + 1 / 2 ^ 22) ≤ 2 ^ 101 := by norm_num
    linarith
  have hinv : c.invQuantization q = some r := by
    unfold LowBitConfig.invQuantization
    simp only [bind, ← hzdef, hsub, Option.some_bind, ← hsdef, hmul]
  have hrerr : |r - s * ((q : ℚ) - z)| ≤ s / 2 ^ 16 := by
    rcases eq_or_ne ((q : ℚ) - z) 0 with h0 | hne
    · rw [hrdef, h0, mul_zero, roundTo_zero, sub_zero, abs_zero]
      positivity
    · -- a difference of codes that is not zero is at least one
      have hone : 1 ≤ |(q : ℚ) - z| := by
        have hz' : ((q : ℤ) - (c.zeroPoint : ℤ)) ≠ 0 := by
          intro h; apply hne; rw [hsubcast, h]; norm_num
        have h1' : 1 ≤ |((q : ℤ) - (c.zeroPoint : ℤ))| := Int.one_le_abs hz'
        have h2' : (1 : ℚ) ≤ |(((q : ℤ) - (c.zeroPoint : ℤ) : ℤ) : ℚ)| := by
          exact_mod_cast h1'
        rw [hsubcast]; exact h2'
      have hsge : (1 : ℚ) / 2 ^ 126 ≤ s := by
        have a1 : (1 : ℚ) / 2 ^ 100 * (1 - 1 / 2 ^ 23) ≤ D * (1 - 1 / 2 ^ 23) :=
          mul_le_mul_of_nonneg_right hlo (by norm_num)
        have a2 : s * K ≤ s * 255 := mul_le_mul_of_nonneg_left hK255 hspos.le
        have a3 : (1 : ℚ) / 2 ^ 126 * 255 ≤ 1 / 2 ^ 100 * (1 - 1 / 2 ^ 23) := by norm_num
        have a4 : (1 : ℚ) / 2 ^ 126 * 255 ≤ s * 255 := by linarith
        exact le_of_mul_le_mul_right a4 (by norm_num)
      have hbig : (2 : ℚ) ^ (-126 : ℤ) ≤ |s * ((q : ℚ) - z)| := by
        rw [abs_mul, abs_of_pos hspos]
        have e126 : (2 : ℚ) ^ (-126 : ℤ) = 1 / 2 ^ 126 := by norm_num
        rw [e126]
        calc (1 : ℚ) / 2 ^ 126 ≤ s := hsge
          _ = s * 1 := by ring
          _ ≤ s * |(q : ℚ) - z| := mul_le_mul_of_nonneg_left hone hspos.le
      have h := abs_roundTo_sub_le_rel _ hbig
      calc |r - s * ((q : ℚ) - z)| ≤ |s * ((q : ℚ) - z)| / 2 ^ 24 := h
        _ ≤ s * K / 2 ^ 24 := div_le_div_of_nonneg_right hprod (by positivity)
        _ ≤ s * 255 / 2 ^ 24 :=
            div_le_div_of_nonneg_right (mul_le_mul_of_nonneg_left hK255 hspos.le) (by positivity)
        _ ≤ s / 2 ^ 16 := by
            have : s * 255 / 2 ^ 24 = s * (255 / 2 ^ 24) := by ring
            rw [this, div_eq_mul_one_div s]
            apply mul_le_mul_of_nonneg_left _ hspos.le
            norm_num
  -- the total
  refine ⟨q, r, hquant, hinv, ?_⟩
  have hcore : |s * ((q : ℚ) - z) - x| ≤ s * (1 / 2 + (1 / 2 ^ 14 + 1 / 2 ^ 15)
      + 1 / 2 ^ 16 + 1 / 2 ^ 17) := by
    have e : s * ((q : ℚ) - z) - x = s * (((q : ℚ) - z) - x / s) := by
      field_simp
      ring
    rw [e, abs_mul, abs_of_pos hspos]
    apply mul_le_mul_of_nonneg_left _ hspos.le
    rw [abs_le]
    constructor <;> linarith [hqv.1, hqv.2, hverr.1, hverr.2, haerr.1, haerr.2]
  have htri : |r - x| ≤ |r - s * ((q : ℚ) - z)| + |s * ((q : ℚ) - z) - x| := by
    have : r - x = (r - s * ((q : ℚ) - z)) + (s * ((q : ℚ) - z) - x) := by ring
    rw [this]
    exact abs_add _ _
  have hfin : s / 2 ^ 16 + s * (1 / 2 + (1 / 2 ^ 14 + 1 / 2 ^ 15) + 1 / 2 ^ 16 + 1 / 2 ^ 17)
      ≤ s / 2 + s / 2 ^ 12 := by
    have e : s / 2 + s / 2 ^ 12
        - (s / 2 ^ 16 + s * (1 / 2 + (1 / 2 ^ 14 + 1 / 2 ^ 15) + 1 / 2 ^ 16 + 1 / 2 ^ 17))
        = s * (1 / 2 ^ 12 - 1 / 2 ^ 14 - 1 / 2 ^ 15 - 1 / 2 ^ 16 - 1 / 2 ^ 16 - 1 / 2 ^ 17) := by
      ring
    have : 0 ≤ s * (1 / 2 ^ 12 - 1 / 2 ^ 14 - 1 / 2 ^ 15 - 1 / 2 ^ 16 - 1 / 2 ^ 16 - 1 / 2 ^ 17) :=
      mul_nonneg hspos.le (by norm_num)
    linarith
  linarith

/-- C7 (amended): for every LowBitConfig built from a range whose width, after
clamping so that `min ≤ 0 ≤ max`, is between `2 ^ -100` and `2 ^ 100`, every bit
width in `1 .. 8` and every `x` with `min ≤ x ≤ max`, quantization and
invQuantization return and `|invQuantization (quantization (x)) - x|` is at most
`scale / 2 + scale / 4096`: half a step, and the rounding of the `float`
operations. -/
theorem roundTrip_error_le (min max : ℚ) (bit : ℤ) (c : LowBitConfig) (x : ℚ)
    (h1 : 1 ≤ bit) (h8 : bit ≤ 8) (hc : LowBitConfig.Reset min max bit = some c)
    (hlo : (1 : ℚ) / 2 ^ 100 ≤ c.max - c.min) (hhi : c.max - c.min ≤ 2 ^ 100)
    (hx1 : c.min ≤ x) (hx2 : x ≤ c.max) :
    ∃ q r, c.quantization x = some q ∧ c.invQuantization q = some r ∧
      |r - x| ≤ c.scale / 2 + c.scale / 2 ^ 12 :=
  roundTrip_bound min max bit c x h1 h8 hc hlo hhi hx1 hx2

end fastllm

namespace fastllm

/-! ## The codec returns -/

theorem two_pow_100_le : (2 : ℚ) ^ 100 ≤ 2 ^ 101 := by norm_num

theorem roundTo_two_pow_100 : roundTo 24 (-149) ((2 : ℚ) ^ 100) = 2 ^ 100 := by
  have := roundTo_exact 24 (-149) 1 100 (by norm_num) (by norm_num)
  norm_num at this ⊢
  exact this

/-- The expression `x / scale + zeroPoint` has a finite `float` value when the
scale is not zero and the quotient is at most `2 ^ 100` in absolute value. -/
theorem scaled_returns (c : LowBitConfig) (x : ℚ) (hs : c.scale ≠ 0)
    (hz : c.zeroPoint ≤ 255) (hx : |x / c.scale| ≤ 2 ^ 100) :
    ∃ v, c.scaled x = some v := by
  have ha := abs_roundTo_le_of_abs_le 24 (by norm_num) (-149) roundTo_two_pow_100 hx
  have hdiv : divF32 x c.scale = some (roundTo 24 (-149) (x / c.scale)) := by
    unfold divF32
    rw [if_neg hs]
    exact toF32_of_abs_le (le_maxF32_of_le (le_trans hx two_pow_100_le))
  have hzq : (c.zeroPoint : ℚ) ≤ 255 := by exact_mod_cast hz
  have hz0 : (0 : ℚ) ≤ (c.zeroPoint : ℚ) := Nat.cast_nonneg _
  unfold LowBitConfig.scaled
  simp only [bind, hdiv, Option.some_bind]
  unfold addF32
  rw [toF32_of_abs_le]
  · exact ⟨_, rfl⟩
  · apply le_maxF32_of_le
    rw [abs_le] at ha ⊢
    have : (2 : ℚ) ^ 100 + 255 ≤ 2 ^ 101 := by norm_num
    constructor <;> linarith [ha.1, ha.2]

/-- The constructor returns a config for every bit width in `1 .. 8` and every
range whose width, after clamping so that `min ≤ 0 ≤ max`, is between
`2 ^ -100` and `2 ^ 100`. -/
theorem Reset_returns (min max : ℚ) (bit : ℤ) (h1 : 1 ≤ bit) (h8 : bit ≤ 8)
    (hlo : (1 : ℚ) / 2 ^ 100 ≤ stdMax max 0 - stdMin min 0)
    (hhi : stdMax max 0 - stdMin min 0 ≤ 2 ^ 100) :
    ∃ c, LowBitConfig.Reset min max bit = some c := by
  obtain ⟨hK1z, hK255z⟩ := qmaxOf_bounds h1 h8
  set K : ℚ := ((qmaxOf bit : ℤ) : ℚ) with hKdef
  have hK1 : (1 : ℚ) ≤ K := by rw [hKdef]; exact_mod_cast hK1z
  have hK255 : K ≤ 255 := by rw [hKdef]; exact_mod_cast hK255z
  have hK0 : K ≠ 0 := by linarith
  set lo := stdMin min 0 with hlodef
  set hi := stdMax max 0 with hhidef
  set D := hi - lo with hDdef
  have hD0 : 0 < D := lt_of_lt_of_le (by positivity) hlo
  have hlo0 : lo ≤ 0 := by rw [hlodef, stdMin_eq_min]; exact min_le_right _ _
  have hhi0 : 0 ≤ hi := by rw [hhidef, stdMax_eq_max]; exact le_max_right _ _
  have hDabs : |D| ≤ 2 ^ 100 := by rw [abs_of_pos hD0]; exact hhi
  -- the width
  have hR := abs_roundTo_le_of_abs_le 24 (by norm_num) (-149) roundTo_two_pow_100 hDabs
  have hrange : subF32 hi lo = some (roundTo 24 (-149) D) := by
    unfold subF32
    exact toF32_of_abs_le (le_maxF32_of_le (le_trans hDabs two_pow_100_le))
  -- the scale
  set s := roundTo 24 (-149) (roundTo 24 (-149) D / K) with hsdef
  have hRK : |roundTo 24 (-149) D / K| ≤ 2 ^ 100 := by
    rw [abs_div, abs_of_pos (by linarith : (0 : ℚ) < K)]
    exact le_trans (div_le_self (abs_nonneg _) hK1) hR
  have hscale : divF32 (roundTo 24 (-149) D) K = some s := by
    unfold divF32
    rw [if_neg hK0]
    exact toF32_of_abs_le (le_maxF32_of_le (le_trans hRK two_pow_100_le))
  obtain ⟨hsK1, hsK2⟩ := scale_mul_qmax_bounds D K s hlo hK1 hK255 hsdef
  have hspos : 0 < s := by
    have a1 : 0 < D * (1 - 1 / 2 ^ 23) := mul_pos hD0 (by norm_num)
    have a2 : 0 < s * K := lt_of_lt_of_le a1 hsK1
    by_contra hcon
    push_neg at hcon
    have := mul_nonpos_of_nonpos_of_nonneg hcon (by linarith : (0 : ℚ) ≤ K)
    linarith
  -- the candidate
  have hlos : |lo / s| ≤ 2 ^ 100 := by
    rw [abs_div, abs_of_pos hspos, abs_of_nonpos hlo0, div_le_iff₀ hspos]
    have a1 : -lo ≤ D := by rw [hDdef]; linarith
    have a2 : D ≤ 2 * (s * K) := by
      have : D * (1 - 1 / 2 ^ 23) ≤ s * K := hsK1
      have : (0 : ℚ) ≤ D * (1 / 2 - 1 / 2 ^ 23) := mul_nonneg hD0.le (by norm_num)
      linarith
    have a3 : s * K ≤ s * 255 := mul_le_mul_of_nonneg_left hK255 hspos.le
    have a4 : (2 : ℚ) * (s * 255) ≤ 2 ^ 100 * s := by
      have : (510 : ℚ) ≤ 2 ^ 100 := by norm_num
      nlinarith
    linarith
  have ht : toF32 (lo / s) = some (roundTo 24 (-149) (lo / s)) :=
    toF32_of_abs_le (le_maxF32_of_le (le_trans hlos two_pow_100_le))
  have hdiv : divF32 lo s = some (roundTo 24 (-149) (lo / s)) := by
    unfold divF32
    rw [if_neg hspos.ne']
    exact ht
  have hneg : subF32 0 (roundTo 24 (-149) (lo / s)) = some (-roundTo 24 (-149) (lo / s)) := by
    unfold subF32
    rw [zero_sub]
    exact toF32_neg_of_toF32 ht
  rw [Reset_of_bit min max h1 h8, hrange]
  simp only [Option.some_bind, hscale, hdiv, hneg,
    (zeroPoint_branches h1 h8 (-roundTo 24 (-149) (lo / s))).1]
  exact ⟨_, rfl⟩

end fastllm

namespace fastllm

/-! ## The config of the range `[-1, 1]` at 8 bits (C9) -/

theorem ResetSpec_unitRange8 :
    LowBitConfig.ResetSpec (-1) 1 8 = some LowBitConfig.unitRange8 := by
  decide!

theorem Reset_unitRange8 : LowBitConfig.Reset (-1) 1 8 = some LowBitConfig.unitRange8 :=
  (Reset_eq_spec (-1) 1 8 (by decide) (by decide)).trans ResetSpec_unitRange8

theorem scaled_unitRange8_one : LowBitConfig.unitRange8.scaled 1 = some (509 / 2) := by
  decide!

theorem unitRange8_code_one : LowBitConfig.unitRange8.quantization 1 = some 255 := by
  rw [(quantization_clamp_round LowBitConfig.unitRange8 1 _ (by decide) (by decide)
    scaled_unitRange8_one).1]
  decide!

/-- C9: `LowBitConfig (min = -1, max = 1, bit = 8)` has as scale the `float`
nearest to `2 / 255`, which lies between 0.007843 and 0.007844, and the zero
point 127; for it `quantization (0.0)` is 127 and `invQuantization (127)` is
`0.0`. -/
theorem unitRange8_values :
    (LowBitConfig.Reset (-1) 1 8).map (fun c => (c.scale, c.zeroPoint))
      = (toF32 (2 / 255)).map (fun s => (s, 127))
    ∧ (LowBitConfig.Reset (-1) 1 8).map (fun c => decide (7843 / 1000000 < c.scale
        ∧ c.scale < 7844 / 1000000 ∧ |c.scale - 2 / 255| < 1 / 2 ^ 31)) = some true
    ∧ (LowBitConfig.Reset (-1) 1 8).bind (fun c => c.quantization 0) = some 127
    ∧ (LowBitConfig.Reset (-1) 1 8).bind (fun c => c.invQuantization 127) = some 0 := by
  rw [Reset_unitRange8]
  decide!

theorem zero_exactly_representable_witness :
    LowBitConfig.unitRange8.quantization 0 = some LowBitConfig.unitRange8.zeroPoint ∧
      LowBitConfig.unitRange8.invQuantization LowBitConfig.unitRange8.zeroPoint = some 0 :=
  zero_exactly_representable LowBitConfig.unitRange8 (by decide) (by decide)
    (by unfold LowBitConfig.unitRange8; norm_num) (by decide)

/-- C8 as stated fails for a config whose zero point is not a code of its bit
width: with `scale > 0`, `bit = 4` and `zeroPoint = 127`, `quantization (0.0)` is
`min (15, 127.5)` cast to `uint8_t`, which is 15. -/
theorem zero_point_above_codes :
    0 < LowBitConfig.unitRange8Bit4.scale
    ∧ LowBitConfig.unitRange8Bit4.bit = 4
    ∧ LowBitConfig.unitRange8Bit4.zeroPoint = 127
    ∧ LowBitConfig.unitRange8Bit4.quantization 0 = some 15 := by
  refine ⟨by unfold LowBitConfig.unitRange8Bit4 LowBitConfig.unitRange8; norm_num, rfl, rfl, ?_⟩
  decide!

theorem roundTrip_error_le_witness :
    ∃ q r, LowBitConfig.unitRange8.quantization 1 = some q ∧
      LowBitConfig.unitRange8.invQuantization q = some r ∧
      |r - 1| ≤ LowBitConfig.unitRange8.scale / 2 + LowBitConfig.unitRange8.scale / 2 ^ 12 :=
  roundTrip_error_le (-1) 1 8 LowBitConfig.unitRange8 1 (by decide) (by decide)
    Reset_unitRange8 (by unfold LowBitConfig.unitRange8; norm_num)
    (by unfold LowBitConfig.unitRange8; norm_num)
    (by unfold LowBitConfig.unitRange8; norm_num) (by unfold LowBitConfig.unitRange8; norm_num)

/-- C7 as stated fails on its own witness: for the config of `min = -1`,
`max = 1`, `bit = 8` the `float` sum `1 / scale + 127` rounds to `254.5`, so
`quantization (1.0)` is 255, `invQuantization (255)` is `8421505 / 2 ^ 23`
(about 1.0039216), and the error `32897 / 2 ^ 23` exceeds `scale / 2`, which is
`8421505 / 2 ^ 31`. -/
theorem roundTrip_exceeds_half_scale :
    LowBitConfig.Reset (-1) 1 8 = some LowBitConfig.unitRange8
    ∧ LowBitConfig.unitRange8.quantization 1 = some 255
    ∧ LowBitConfig.unitRange8.invQuantization 255 = some (8421505 / 8388608)
    ∧ ¬ (|(8421505 / 8388608 : ℚ) - 1| ≤ LowBitConfig.unitRange8.scale / 2) := by
  refine ⟨Reset_unitRange8, unitRange8_code_one, ?_, ?_⟩
  · decide!
  · unfold LowBitConfig.unitRange8; norm_num [abs_of_pos]

end fastllm

namespace fastllm

/-! ## Reading what was written -/

theorem leBytes_length (n v : Nat) : (leBytes n v).length = n := by
  induction n generalizing v with
  | zero => rfl
  | succ n ih => simp [leBytes, ih]

theorem leValue_leBytes (n v : Nat) : leValue (leBytes n v) = v % 256 ^ n := by
  induction n generalizing v with
  | zero => simp [leBytes, leValue, Nat.mod_one]
  | succ n ih =>
    simp only [leBytes, leValue, ih]
    rw [pow_succ, Nat.mul_comm (256 ^ n) 256, Nat.mod_mul, Nat.add_comm]

theorem leValue_leBytes_of_lt (n v : Nat) (h : v < 256 ^ n) : leValue (leBytes n v) = v := by
  rw [leValue_leBytes, Nat.mod_eq_of_lt h]

theorem leBytes_lt (n v : Nat) : ∀ b ∈ leBytes n v, b < 256 := by
  induction n generalizing v with
  | zero => simp [leBytes]
  | succ n ih =>
    intro b hb
    simp only [leBytes, List.mem_cons] at hb
    rcases hb with hb | hb
    · rw [hb]; exact Nat.mod_lt _ (by norm_num)
    · exact ih _ b hb

/-- The low 32 bits of an `int`, read back as `int`. -/
theorem toInt32_toU64 (v : Int) (h : IsInt32 v) : toInt32 (toU64 v % 2 ^ 32) = v := by
  unfold IsInt32 at h
  unfold toInt32 toU64
  have e : ((v % (2 ^ 64 : Int)).toNat : Int) = v % 2 ^ 64 :=
    Int.toNat_of_nonneg (Int.emod_nonneg _ (by norm_num))
  generalize (v % (2 ^ 64 : Int)).toNat = X at e ⊢
  split
  · rename_i hlt
    omega
  · rename_i hge
    omega

theorem read_append (bs rest : List Nat) (pos : Nat) :
    FileBuffer.read { rest := bs ++ rest, pos := pos } bs.length
      = .ok (bs, { rest := rest, pos := pos + bs.length }) := by
  unfold FileBuffer.read
  rw [if_pos (by simp)]
  simp

theorem read_append_of_length (bs rest : List Nat) (pos n : Nat) (h : bs.length = n) :
    FileBuffer.read { rest := bs ++ rest, pos := pos } n
      = .ok (bs, { rest := rest, pos := pos + n }) := by
  subst h
  exact read_append bs rest pos

/-- `ReadInt` reads what `WriteInt` wrote. -/
theorem ReadInt_encode (v : Int) (h : IsInt32 v) (rest : List Nat) (pos : Nat) :
    FileBuffer.ReadInt { rest := leBytes 4 (toU64 v % 2 ^ 32) ++ rest, pos := pos }
      = .ok (v, { rest := rest, pos := pos + 4 }) := by
  unfold FileBuffer.ReadInt
  rw [read_append_of_length _ _ _ 4 (leBytes_length _ _)]
  simp only [bind, Except.bind]
  rw [leValue_leBytes_of_lt 4 _ (by
    have : toU64 v % 2 ^ 32 < 2 ^ 32 := Nat.mod_lt _ (by norm_num)
    calc toU64 v % 2 ^ 32 < 2 ^ 32 := this
      _ = 256 ^ 4 := by norm_num), toInt32_toU64 v h]

theorem isInt32_natCast {n : Nat} (h : n < 2 ^ 31) : IsInt32 (n : Int) := by
  unfold IsInt32; constructor <;> omega

theorem takeWhile_ne_zero (s : List Nat) (h : ∀ c ∈ s, c ≠ 0) :
    s.takeWhile (fun c => c != 0) = s := by
  rw [List.takeWhile_eq_self_iff]
  intro c hc
  simpa using h c hc

/-- `ReadString` reads a string without a zero byte that `WriteString` wrote. -/
theorem ReadString_encode (s : List Nat) (hlen : s.length < 2 ^ 31) (h0 : ∀ c ∈ s, c ≠ 0)
    (rest : List Nat) (pos : Nat) :
    FileBuffer.ReadString
        { rest := leBytes 4 (toU64 (s.length : Int) % 2 ^ 32) ++ (s ++ rest), pos := pos }
      = .ok (s, { rest := rest, pos := pos + 4 + s.length }) := by
  unfold FileBuffer.ReadString
  rw [ReadInt_encode _ (isInt32_natCast hlen)]
  simp only [bind, Except.bind]
  rw [if_neg (by omega)]
  rw [Int.toNat_ofNat, read_append]
  simp only [takeWhile_ne_zero s h0]

theorem WriteString_ok (f s : List Nat) (hlen : s.length < 2 ^ 31) :
    WriteString f s = .ok (f ++ (leBytes 4 (toU64 (s.length : Int) % 2 ^ 32) ++ s)) := by
  unfold WriteString WriteInt
  rw [if_pos hlen, List.append_assoc]

/-! ## Loops -/

theorem ok_bind {α β : Type} (a : α) (f : α → Except Fault β) :
    ((Except.ok a : Except Fault α) >>= f) = f a := rfl

theorem error_bind {α β : Type} (e : Fault) (f : α → Except Fault β) :
    ((Except.error e : Except Fault α) >>= f) = .error e := rfl

/-- A loop keeps an invariant that every round keeps. -/
theorem forInt_inv {σ : Type} (body : Int → σ → Except Fault σ) (P : Nat → σ → Prop)
    (n : Nat) (a : Int) (s : σ) (h0 : P 0 s)
    (hstep : ∀ t, t < n → ∀ s, P t s → ∃ s', body (a + t) s = .ok s' ∧ P (t + 1) s') :
    ∃ s', forInt body n a s = .ok s' ∧ P n s' := by
  induction n generalizing a s P with
  | zero => exact ⟨s, rfl, h0⟩
  | succ n ih =>
    obtain ⟨s1, hb, hP1⟩ := hstep 0 (by omega) s h0
    rw [Nat.cast_zero, add_zero] at hb
    have := ih (fun t s => P (t + 1) s) (a + 1) s1 hP1 (by
      intro t ht s hs
      obtain ⟨s', hb', hP'⟩ := hstep (t + 1) (by omega) s hs
      refine ⟨s', ?_, hP'⟩
      rw [← hb']
      congr 1
      push_cast
      ring)
    obtain ⟨s', hf, hP⟩ := this
    refine ⟨s', ?_, hP⟩
    show (body a s >>= fun s => forInt body n (a + 1) s) = .ok s'
    rw [hb]
    exact hf

/-! ## Bytes of a buffer -/

theorem bytesFrom_eq_ok (b : Buffer) (off : Nat) (l : List Nat)
    (h : ∀ p, p < l.length → b.byte (off + p) = l[p]?) :
    b.bytesFrom off l.length = .ok l := by
  induction l generalizing off with
  | nil => rfl
  | cons v vs ih =>
    have h0 := h 0 (by simp)
    simp only [add_zero, List.getElem?_cons_zero] at h0
    have ht := ih (off + 1) (by
      intro p hp
      have := h (p + 1) (by simp; omega)
      rw [List.getElem?_cons_succ] at this
      rw [← this]
      congr 1
      omega)
    show (match b.byte off with
      | some v => do
        let vs ← b.bytesFrom (off + 1) vs.length
        .ok (v :: vs)
      | none => .error .undefined) = .ok (v :: vs)
    rw [h0]
    simp only [ht, bind, Except.bind]

theorem bytesFrom_ok_iff (b : Buffer) (off n : Nat) (l : List Nat)
    (h : b.bytesFrom off n = .ok l) :
    l.length = n ∧ ∀ p, p < n → b.byte (off + p) = l[p]? := by
  induction n generalizing off l with
  | zero =>
    have : l = [] := by
      have h' : (Except.ok [] : Except Fault (List Nat)) = .ok l := h
      injection h' with h'
      exact h'.symm
    subst this
    exact ⟨rfl, fun p hp => absurd hp (by omega)⟩
  | succ n ih =>
    have h' : (match b.byte off with
      | some v => do
        let vs ← b.bytesFrom (off + 1) n
        .ok (v :: vs)
      | none => .error .undefined) = .ok l := h
    cases hb : b.byte off with
    | none => rw [hb] at h'; exact absurd h' (by simp)
    | some v =>
      rw [hb] at h'
      cases ht : b.bytesFrom (off + 1) n with
      | error e => rw [ht] at h'; exact absurd h' (by simp [bind, Except.bind])
      | ok vs =>
        rw [ht] at h'
        simp only [bind, Except.bind] at h'
        injection h' with h'
        subst h'
        obtain ⟨hl, hv⟩ := ih (off + 1) vs ht
        refine ⟨by simp [hl], ?_⟩
        intro p hp
        cases p with
        | zero => simpa using hb
        | succ q =>
          rw [List.getElem?_cons_succ, ← hv q (by omega)]
          congr 1
          omega

theorem bytesAt_eq_ok (b : Buffer) (off : Nat) (l : List Nat) (hsize : off + l.length ≤ b.size)
    (h : ∀ p, p < l.length → b.byte (off + p) = l[p]?) :
    bytesAt (some b) off l.length = .ok l := by
  unfold bytesAt
  simp only []
  rw [if_neg (by omega)]
  exact bytesFrom_eq_ok b off l h

theorem bytesAt_ok (b : Option Buffer) (off n : Nat) (l : List Nat) (hn : 0 < n)
    (h : bytesAt b off n = .ok l) :
    ∃ buf, b = some buf ∧ off + n ≤ buf.size ∧ l.length = n ∧
      ∀ p, p < n → buf.byte (off + p) = l[p]? := by
  unfold bytesAt at h
  cases b with
  | none =>
    simp only [] at h
    rw [if_neg (by omega)] at h
    exact absurd h (by simp)
  | some buf =>
    simp only [] at h
    split at h
    · exact absurd h (by simp)
    · rename_i hs
      obtain ⟨h1, h2⟩ := bytesFrom_ok_iff buf off n l h
      exact ⟨buf, rfl, by omega, h1, h2⟩

end fastllm

namespace fastllm

/-! ## The record of an embedding (C12) -/

theorem mulInt_ok (a b : Int) (h : IsInt32 (a * b)) : mulInt a b = .ok (a * b) := by
  unfold mulInt; rw [if_pos h]

theorem addInt_ok (a b : Int) (h : IsInt32 (a + b)) : addInt a b = .ok (a + b) := by
  unfold addInt; rw [if_pos h]

theorem setAt_ok {α : Type} (xs : List α) (i : Nat) (v : α) (h : i < xs.length) :
    setAt xs (i : Int) v = .ok (xs.set i v) := by
  unfold setAt
  rw [if_pos ⟨by omega, by simpa using h⟩]
  simp

theorem leBytes_four (x : Nat) :
    leBytes 4 x = [x % 256, x / 256 % 256, x / 256 / 256 % 256, x / 256 / 256 / 256 % 256] := rfl

theorem leBytes_two (x : Nat) : leBytes 2 x = [x % 256, x / 256 % 256] := rfl

/-- The upper half of a 32-bit word in a buffer, read as a 16-bit word. -/
theorem bytesAt_upper (buffer : Option Buffer) (i x : Nat)
    (h : bytesAt buffer (4 * i) 4 = .ok (leBytes 4 x)) :
    bytesAt buffer (2 * (2 * i + 1)) 2 = .ok (leBytes 2 (x / 2 ^ 16)) := by
  obtain ⟨buf, hb, hsize, _, hv⟩ := bytesAt_ok buffer (4 * i) 4 _ (by norm_num) h
  subst hb
  have h2 := hv 2 (by norm_num)
  have h3 := hv 3 (by norm_num)
  rw [leBytes_four] at h2 h3
  simp only [List.getElem?_cons_succ, List.getElem?_cons_zero] at h2 h3
  have := bytesAt_eq_ok buf (2 * (2 * i + 1)) (leBytes 2 (x / 2 ^ 16))
    (by rw [leBytes_length]; omega) (by
      intro p hp
      rw [leBytes_length] at hp
      rw [leBytes_two]
      have hp' : p = 0 ∨ p = 1 := by omega
      rcases hp' with rfl | rfl
      · have e : 2 * (2 * i + 1) + 0 = 4 * i + 2 := by ring
        rw [e, h2]
        simp only [List.getElem?_cons_zero]
        congr 1
        omega
      · have e : 2 * (2 * i + 1) + 1 = 4 * i + 3 := by ring
        rw [e, h3]
        simp only [List.getElem?_cons_succ, List.getElem?_cons_zero]
        congr 1
        omega)
  rwa [leBytes_length] at this

/-- One round of the loop over the elements of an embedding. -/
theorem upperHalves_step (buffer : Option Buffer) (t x : Nat) (s : List Nat)
    (ht : t < 2 ^ 30) (hs : t < s.length) (hx : x < 2 ^ 32)
    (h : bytesAt buffer (4 * t) 4 = .ok (leBytes 4 x)) :
    (do
      let index ← addInt (← mulInt (0 + (t : Int)) 2) 1
      let v ← bytesAt buffer (2 * index.toNat) 2
      setAt s (0 + (t : Int)) (leValue v)) = .ok (s.set t (x / 2 ^ 16)) := by
  have e0 : (0 : Int) + (t : Int) = ((t : Nat) : Int) := zero_add _
  have h1 : mulInt ((t : Nat) : Int) 2 = .ok ((2 * t : Nat) : Int) := by
    have e : ((t : Nat) : Int) * 2 = ((2 * t : Nat) : Int) := by push_cast; ring
    have hi : IsInt32 (((t : Nat) : Int) * 2) := by
      rw [e]; exact isInt32_natCast (by omega)
    rw [mulInt_ok _ _ hi, e]
  have h2 : addInt ((2 * t : Nat) : Int) 1 = .ok ((2 * t + 1 : Nat) : Int) := by
    have e : ((2 * t : Nat) : Int) + 1 = ((2 * t + 1 : Nat) : Int) := by push_cast; ring
    have hi : IsInt32 (((2 * t : Nat) : Int) + 1) := by
      rw [e]; exact isInt32_natCast (by omega)
    rw [addInt_ok _ _ hi, e]
  have h3 := bytesAt_upper buffer t x h
  have hw : x / 2 ^ 16 < 256 ^ 2 := by
    have e : (256 : Nat) ^ 2 = 65536 := by norm_num
    have e2 : (2 : Nat) ^ 16 = 65536 := by norm_num
    have e3 : (2 : Nat) ^ 32 = 65536 * 65536 := by norm_num
    rw [e, e2]
    rw [e3] at hx
    exact Nat.div_lt_of_lt_mul hx
  rw [e0, h1, ok_bind, h2, ok_bind, Int.toNat_ofNat, h3, ok_bind,
    leValue_leBytes_of_lt 2 _ hw]
  exact setAt_ok s t _ hs

/-- The loop over the elements of an embedding collects the upper halves of
their 32-bit patterns, in element order. -/
theorem upperHalves_eq (buffer : Option Buffer) (n : Nat) (pat : Nat → Nat) (hn : n ≤ 2 ^ 30)
    (hpat : ∀ i, i < n → bytesAt buffer (4 * i) 4 = .ok (leBytes 4 (pat i)))
    (hlt : ∀ i, i < n → pat i < 2 ^ 32) :
    upperHalves buffer n = .ok ((List.range n).map (fun i => pat i / 2 ^ 16)) := by
  unfold upperHalves
  obtain ⟨s', hs', hlen, hval⟩ := forInt_inv
    (fun i (uDatas : List Nat) => do
      let index ← addInt (← mulInt i 2) 1
      let v ← bytesAt buffer (2 * index.toNat) 2
      setAt uDatas i (leValue v))
    (fun t s => s.length = n ∧ ∀ p, p < t → s[p]? = some (pat p / 2 ^ 16))
    n 0 (List.replicate n 0) ⟨List.length_replicate _ _, fun p hp => absurd hp (by omega)⟩ (by
      intro t ht s hs
      obtain ⟨hlen, hval⟩ := hs
      refine ⟨s.set t (pat t / 2 ^ 16),
        upperHalves_step buffer t (pat t) s (by omega) (by omega) (hlt t ht) (hpat t ht),
        by rw [List.length_set]; exact hlen, ?_⟩
      intro p hp
      by_cases hpt : p = t
      · subst hpt
        rw [List.getElem?_set_self (by omega)]
      · rw [List.getElem?_set_ne (fun h => hpt h.symm)]
        exact hval p (by omega))
  rw [hs']
  congr 1
  apply List.ext_getElem?
  intro p
  by_cases hp : p < n
  · rw [hval p hp, List.getElem?_map, List.getElem?_range hp]
    rfl
  · rw [List.getElem?_eq_none (by omega), List.getElem?_eq_none (by simp; omega)]

end fastllm

namespace fastllm

/-! ## The save workers -/

theorem bind_assoc_except {α β γ : Type} (x : Except Fault α) (f : α → Except Fault β)
    (g : β → Except Fault γ) : (x >>= f >>= g) = (x >>= fun a => f a >>= g) := by
  cases x <;> rfl

theorem bind_ok_self {α : Type} (x : Except Fault α) : (x >>= fun a => Except.ok a) = x := by
  cases x <;> rfl

theorem forInt_succ {σ : Type} (body : Int → σ → Except Fault σ) (n : Nat) (a : Int) (s : σ) :
    forInt body (n + 1) a s = (body a s >>= fun s => forInt body n (a + 1) s) := rfl

theorem forInt_zero {σ : Type} (body : Int → σ → Except Fault σ) (a : Int) (s : σ) :
    forInt body 0 a s = .ok s := rfl

theorem forInt_one {σ : Type} (body : Int → σ → Except Fault σ) (a : Int) (s : σ) :
    forInt body 1 a s = body a s := bind_ok_self _

/-- Two loops over adjacent ranges are one loop. -/
theorem forInt_add {σ : Type} (body : Int → σ → Except Fault σ) (n₁ n₂ : Nat) (a : Int) (s : σ) :
    forInt body (n₁ + n₂) a s
      = (forInt body n₁ a s >>= fun s => forInt body n₂ (a + n₁) s) := by
  induction n₁ generalizing a s with
  | zero =>
    rw [Nat.zero_add, forInt_zero, ok_bind, Nat.cast_zero, add_zero]
  | succ n ih =>
    have e : n + 1 + n₂ = (n + n₂) + 1 := by omega
    rw [e, forInt_succ, forInt_succ, bind_assoc_except]
    congr 1
    funext s1
    rw [ih]
    congr 1
    funext s2
    congr 1
    push_cast
    ring

theorem quantizeRows_eq (bit : Int) (buffer : Option Buffer) (k m : Int)
    (s : List Nat × List (Option LowBitConfig)) :
    quantizeRows bit buffer k m s
      = (forInt (workerRound bit buffer k m) 8 0 (0, s) >>= fun r => .ok r.2) := rfl

/-- The first `t` workers do the rows before `t * per`, one after the other. -/
theorem workers_prefix (bit : Int) (buffer : Option Buffer) (K : Nat) (m : Int)
    (s : List Nat × List (Option LowBitConfig)) (t : Nat) (ht : t ≤ 7) :
    forInt (workerRound bit buffer (K : Int) m) t 0 (0, s)
      = (forInt (quantizeRow bit buffer m) (t * (K / 8)) 0 s >>= fun s' =>
          .ok (((t * (K / 8) : Nat) : Int), s')) := by
  induction t with
  | zero =>
    rw [forInt_zero, Nat.zero_mul, forInt_zero, ok_bind]
    rfl
  | succ t ih =>
    rw [forInt_add _ t 1, ih (by omega), bind_assoc_except]
    have e : (t + 1) * (K / 8) = t * (K / 8) + K / 8 := by ring
    rw [e, forInt_add, bind_assoc_except]
    congr 1
    funext s1
    rw [ok_bind, forInt_one]
    have hi : ¬ ((0 : Int) + (t : Int) = 7) := by omega
    have hper : Int.tdiv (K : Int) 8 = ((K / 8 : Nat) : Int) := by
      rw [Int.tdiv_eq_ediv (by omega) (by norm_num)]
      rfl
    unfold workerRound
    simp only [if_neg hi, hper]
    have e1 : (((t * (K / 8) : Nat) : Int) + ((K / 8 : Nat) : Int) - ((t * (K / 8) : Nat) : Int)).toNat
        = K / 8 := by
      rw [add_sub_cancel_left]
      exact Int.toNat_ofNat _
    have e2 : (0 : Int) + ((t * (K / 8) : Nat) : Int) = ((t * (K / 8) : Nat) : Int) := zero_add _
    rw [e1, e2, Nat.cast_add]

/-- The eight workers together do the rows `0 .. k - 1` one after the other,
as a single worker does. -/
theorem quantizeRows_single (bit : Int) (buffer : Option Buffer) (K : Nat) (m : Int)
    (s : List Nat × List (Option LowBitConfig)) :
    quantizeRows bit buffer (K : Int) m s = forInt (quantizeRow bit buffer m) K 0 s := by
  rw [quantizeRows_eq, forInt_add _ 7 1, workers_prefix bit buffer K m s 7 (le_refl _),
    bind_assoc_except, bind_assoc_except]
  have hK : K = 7 * (K / 8) + (K - 7 * (K / 8)) := by omega
  conv_rhs => rw [hK, forInt_add]
  congr 1
  funext s1
  rw [ok_bind, forInt_one]
  unfold workerRound
  have hi : ((0 : Int) + ((7 : Nat) : Int) = 7) := by norm_num
  simp only [if_pos hi]
  have e1 : ((K : Int) - ((7 * (K / 8) : Nat) : Int)).toNat = K - 7 * (K / 8) := by
    omega
  have e2 : (0 : Int) + ((7 * (K / 8) : Nat) : Int) = ((7 * (K / 8) : Nat) : Int) := zero_add _
  rw [e1, e2]
  conv_rhs => rw [← bind_ok_self (forInt (quantizeRow bit buffer m) (K - 7 * (K / 8))
    (((7 * (K / 8) : Nat) : Int)) s1)]
  rw [bind_assoc_except]
  rfl

end fastllm

namespace fastllm

/-! ## One row of a save worker -/

theorem addInt_natCast (x y : Nat) (h : x + y < 2 ^ 31) :
    addInt (x : Int) (y : Int) = .ok ((x + y : Nat) : Int) := by
  have e : (x : Int) + (y : Int) = ((x + y : Nat) : Int) := by push_cast; rfl
  have hi : IsInt32 ((x : Int) + (y : Int)) := by rw [e]; exact isInt32_natCast h
  rw [addInt_ok _ _ hi, e]

/-- The flat index `i * m + j`, computed in `int`. -/
theorem flatIndex_ok {α : Type} (i M j : Nat) (h : i * M + j < 2 ^ 31)
    (f : Int → Except Fault α) :
    (mulInt (i : Int) (M : Int) >>= fun a => addInt a (0 + (j : Int)) >>= f)
      = f ((i * M + j : Nat) : Int) := by
  rw [mulInt_natCast i M (by omega), ok_bind, zero_add, addInt_natCast _ _ h, ok_bind]

theorem foldExtremes_snoc (xs : List ℚ) (x : ℚ) :
    foldExtremes (xs ++ [x]) = (stdMin (foldExtremes xs).1 x, stdMax (foldExtremes xs).2 x) := by
  unfold foldExtremes
  rw [List.foldl_append]
  rfl

theorem rowOf_take_succ (x : Nat → ℚ) (i M t : Nat) :
    (List.range (t + 1)).map (fun j => x (i * M + j))
      = (List.range t).map (fun j => x (i * M + j)) ++ [x (i * M + t)] := by
  rw [List.range_succ, List.map_append]
  rfl

/-- The first loop of a worker finds the extremes of the row. -/
theorem rowExtremes_eq (buffer : Option Buffer) (x : Nat → ℚ) (M i : Nat)
    (hlt : i * M + M < 2 ^ 31 + 1)
    (hx : ∀ j, j < M → floatAt buffer ((i * M + j : Nat) : Int) = .ok (x (i * M + j))) :
    rowExtremes buffer (M : Int) (i : Int) = .ok (foldExtremes (rowOf x M i)) := by
  unfold rowExtremes
  obtain ⟨e, he, hP⟩ := forInt_inv
    (fun j (e : ℚ × ℚ) => do
      let x ← floatAt buffer (← addInt (← mulInt (i : Int) (M : Int)) j)
      .ok (stdMin e.1 x, stdMax e.2 x))
    (fun t e => e = foldExtremes ((List.range t).map (fun j => x (i * M + j))))
    M 0 (1000000000, -1000000000) rfl (by
      intro t ht e he
      refine ⟨(stdMin e.1 (x (i * M + t)), stdMax e.2 (x (i * M + t))), ?_, ?_⟩
      · show (mulInt (i : Int) (M : Int) >>= fun a => addInt a (0 + (t : Int)) >>= fun p =>
          floatAt buffer p >>= fun x => Except.ok (stdMin e.1 x, stdMax e.2 x)) = _
        rw [flatIndex_ok i M t (by omega), hx t ht, ok_bind]
      · show (stdMin e.1 (x (i * M + t)), stdMax e.2 (x (i * M + t)))
          = foldExtremes (List.map (fun j => x (i * M + j)) (List.range (t + 1)))
        rw [rowOf_take_succ, foldExtremes_snoc, ← he])
  rw [Int.toNat_ofNat, he, hP]
  rfl

end fastllm

namespace fastllm

/-! ## Two codes in a byte -/

set_option maxRecDepth 100000

theorem tdiv_two (p : Nat) : Int.tdiv (p : Int) 2 = ((p / 2 : Nat) : Int) := by
  rw [Int.tdiv_eq_ediv (by omega) (by norm_num)]
  rfl

end fastllm

namespace fastllm

/-! ## All rows -/

theorem nibbleAt_replicate (n p : Nat) : nibbleAt (List.replicate n 0) p
    = if p / 2 < n then some 0 else none := by
  unfold nibbleAt
  by_cases h : p / 2 < n
  · rw [if_pos h, List.getElem?_replicate, if_pos h]
    simp
  · rw [if_neg h, List.getElem?_eq_none (by simp; omega)]
    rfl

end fastllm

namespace fastllm

/-! ## The record of a tensor -/

theorem WriteInt_eq (f : List Nat) (v : Int) : WriteInt f v = f ++ intBytes v := rfl

theorem foldl_WriteInt (dims : List Int) (f : List Nat) :
    dims.foldl WriteInt f = f ++ dims.flatMap intBytes := by
  induction dims generalizing f with
  | nil => simp
  | cons x xs ih =>
    rw [List.foldl_cons, ih, WriteInt_eq, List.flatMap_cons, List.append_assoc]

/-- The name and the shape of a record, as `saveWeight` writes them. -/
theorem head_written (f name : List Nat) (dims : List Int) (hname : name.length < 2 ^ 31) :
    WriteString f name = .ok (f ++ (intBytes (name.length : Int) ++ name)) ∧
      dims.foldl WriteInt (WriteInt (f ++ (intBytes (name.length : Int) ++ name))
          (dims.length : Int))
        = f ++ recordHead name dims := by
  constructor
  · exact WriteString_ok f name hname
  · rw [foldl_WriteInt, WriteInt_eq]
    unfold recordHead
    simp only [List.append_assoc]

/-- C12 (amended): for every embedding-kind tensor whose `Count (0)` is at most
`2 ^ 30` and whose host buffer holds that many 32-bit elements,
`SaveLowBitModel` writes, after the name and the shape, the tag `BFLOAT16` and
then one 16-bit word for each element, in element order: the upper 16 bits of
the 32-bit pattern of the element, not rounded. -/
theorem saveWeight_embedding (float_to_half : Nat → Nat) (bit : Int) (f name : List Nat)
    (d : WeightData) (n : Nat) (pat : Nat → Nat)
    (hw : d.weightType = .EMBEDDING) (hname : name.length < 2 ^ 31)
    (hcount : Count d.toData 0 = .ok n) (hn : n ≤ 2 ^ 30)
    (hpat : ∀ i, i < n → bytesAt d.cpuData (4 * i) 4 = .ok (leBytes 4 (pat i)))
    (hlt : ∀ i, i < n → pat i < 2 ^ 32) :
    saveWeight float_to_half bit f (name, d) = .ok
      (f ++ (recordHead name d.dims ++ intBytes DataType.BFLOAT16.toInt
        ++ (List.range n).flatMap (fun i => leBytes 2 (pat i / 2 ^ 16)))) := by
  have hlen : toInt32 n = (n : Int) := toInt32_of_lt (by omega)
  obtain ⟨hws, hhead⟩ := head_written f name d.dims hname
  unfold saveWeight
  rw [hws, ok_bind]
  simp only [hw]
  rw [hcount, ok_bind, hlen, if_neg (by omega), Int.toNat_ofNat,
    upperHalves_eq d.cpuData n pat hn hpat hlt, ok_bind, WriteInt_eq]
  simp only [WriteInt_eq] at hhead
  rw [WriteInt_eq, hhead]
  simp only [List.flatMap_map, List.append_assoc]

end fastllm

namespace fastllm

/-! ## The record of a quantized tensor -/

theorem at?_two (K M : Int) : at? [K, M] 0 = .ok K ∧ at? [K, M] 1 = .ok M := ⟨rfl, rfl⟩

end fastllm

namespace fastllm

/-! ## The bytes of a `float` -/

end fastllm

namespace fastllm

/-! ## Reading the bounds of the configs -/

theorem Reset_min_max (a b : ℚ) (bit : ℤ) (c : LowBitConfig) (h1 : 1 ≤ bit) (h8 : bit ≤ 8)
    (h : LowBitConfig.Reset a b bit = some c) :
    c.min = stdMin a 0 ∧ c.max = stdMax b 0 ∧ c.bit = bit := by
  rw [Reset_of_bit _ _ h1 h8] at h
  simp only [Option.bind_eq_some] at h
  obtain ⟨range, _, scale, _, t, _, izp, _, zp, _, hc⟩ := h
  injection hc with hc
  subst hc
  exact ⟨rfl, rfl, rfl⟩

theorem readDims_encode (ds : List Int) (hds : ∀ v ∈ ds, IsInt32 v) (acc : List Int)
    (rest : List Nat) (pos : Nat) :
    readDims ds.length acc { rest := ds.flatMap intBytes ++ rest, pos := pos }
      = .ok (acc ++ ds, { rest := rest, pos := pos + 4 * ds.length }) := by
  induction ds generalizing acc pos with
  | nil => simp [readDims]
  | cons v ds ih =>
    have e : (v :: ds).flatMap intBytes ++ rest
        = leBytes 4 (toU64 v % 2 ^ 32) ++ (ds.flatMap intBytes ++ rest) := by
      simp only [List.flatMap_cons, List.append_assoc]
      rfl
    rw [e, List.length_cons]
    unfold readDims
    rw [ReadInt_encode v (hds v (List.mem_cons_self _ _)), ok_bind]
    simp only []
    rw [ih (fun v hv => hds v (List.mem_cons_of_mem _ hv))]
    simp only [List.append_assoc, List.singleton_append]
    congr 3
    omega

/-! ## The extremes of a row -/

end fastllm

namespace fastllm

/-! ## The tensor that `LoadFromFile` builds -/

theorem ofTypeDims_eq (t : DataType) (dims : List Int) (hne : dims ≠ []) :
    Data.ofTypeDims t dims = .ok (Data.shaped t dims) := by
  obtain ⟨x, xs, rfl⟩ := List.exists_cons_of_ne_nil hne
  cases t <;> rfl

theorem bytes_formula (n : Nat) (h1 : 0 < n) (h2 : n < 2 ^ 64) :
    addU64 (subU64 (n % U64) 1 / 1) 1 = n := by
  unfold addU64 subU64 U64
  rw [Nat.div_one]
  omega

/-- `GetBytes` of a row-major tensor of a whole-byte kind with at least one
element: the number of elements times the size of one. -/
theorem GetBytes_row_major (d : Data) (P u : Nat) (hne : d.dims ≠ [])
    (hs : d.strides = strideList d.dims) (hdiv : d.unitSizeDiv = 1) (hu : d.unitSize = (u : Int))
    (hu64 : u < 2 ^ 31) (hP : prodN d.dims = P) (h1 : 0 < P * u) (h2 : P * u < 2 ^ 64) :
    GetBytes d = .ok (P * u) := by
  obtain ⟨x, xs, hd⟩ := List.exists_cons_of_ne_nil hne
  unfold GetBytes
  rw [hs, hd, strideList_cons, hdiv, toU64_one, hu, toU64_length hu64]
  have e0 : at? ((prodN xs % U64) :: strideList xs) 0 = .ok (prodN xs % U64) := by simp [at?]
  have e1 : at? (x :: xs) 0 = .ok x := by simp [at?]
  rw [e0, ok_bind, e1, ok_bind, if_neg (by norm_num)]
  have e2 : mulU64 (mulU64 (prodN xs % U64) (toU64 x)) u = (P * u) % U64 := by
    rw [← hP, hd, prodN_cons]
    unfold mulU64
    rw [Nat.mod_mul_mod, Nat.mul_assoc, Nat.mod_mul_mod]
    congr 1
    ring
  rw [e2, bytes_formula (P * u) h1 h2]

theorem Allocate_fresh (d : Data) (c : Nat) (hdev : d.dataDevice = .CPU)
    (hdiv : toU64 d.unitSizeDiv ≠ 0) (hc : Count d 0 = .ok c) (hlt : d.expansionSize < c) :
    Allocate d = .ok
      { d with
        expansionSize := c,
        expansionBytes := addU64 (subU64 (mulU64 c (toU64 d.unitSize)) 1
          / toU64 d.unitSizeDiv) 1,
        cpuData := some (Buffer.fresh (addU64 (subU64 (mulU64 c (toU64 d.unitSize)) 1
          / toU64 d.unitSizeDiv) 1)) } := by
  have hfree : FreeSpace d
      = .ok { d with expansionSize := 0, expansionBytes := 0, cpuData := none } := by
    unfold FreeSpace; simp only [hdev]
  unfold Allocate
  rw [hc, ok_bind, if_pos hlt, hfree, ok_bind, Count_capacity, hc, ok_bind]
  exact MallocSpace_ok
    { d with expansionSize := 0, expansionBytes := 0, cpuData := none } c hdev hdiv

/-- The tensor that `LoadFromFile` allocates for a record of a whole-byte kind
with `P` elements of `u` bytes. -/
theorem Allocate_row_major (d : Data) (P u : Nat) (hdev : d.dataDevice = .CPU)
    (hne : d.dims ≠ []) (hs : d.strides = strideList d.dims) (hdiv : d.unitSizeDiv = 1)
    (hu : d.unitSize = (u : Int)) (hu64 : u < 2 ^ 31) (hP : prodN d.dims = P)
    (h1 : 0 < P * u) (h2 : P * u < 2 ^ 64) (hcap : d.expansionSize = 0) :
    Allocate d = .ok
      { d with
        expansionSize := P, expansionBytes := P * u,
        cpuData := some (Buffer.fresh (P * u)) } := by
  have hP64 : P < U64 := by
    unfold U64
    have : 0 < u := Nat.pos_of_ne_zero (by rintro rfl; simp at h1)
    calc P = P * 1 := (Nat.mul_one P).symm
      _ ≤ P * u := Nat.mul_le_mul_left P this
      _ < 2 ^ 64 := h2
  have hc : Count d 0 = .ok P := by
    rw [Count_zero_row_major d hne hs, prodU64_eq, hP, Nat.mod_eq_of_lt hP64]
  have hpos : 0 < P := Nat.pos_of_ne_zero (by rintro rfl; simp at h1)
  rw [Allocate_fresh d P hdev (by rw [hdiv, toU64_one]; norm_num) hc (by omega)]
  have e : addU64 (subU64 (mulU64 P (toU64 d.unitSize)) 1 / toU64 d.unitSizeDiv) 1 = P * u := by
    rw [hdiv, toU64_one, hu, toU64_length hu64]
    exact bytes_formula (P * u) h1 h2
  rw [e]

theorem ReadBytes_fresh (codes rest : List Nat) (pos n : Nat) (h : codes.length = n) :
    FileBuffer.ReadBytes { rest := codes ++ rest, pos := pos } (some (Buffer.fresh n)) n
      = .ok (some { size := n, byte := fun p => if p < n then codes[p]? else none },
          { rest := rest, pos := pos + n }) := by
  unfold FileBuffer.ReadBytes
  simp only []
  rw [if_neg (by simp [Buffer.fresh]), read_append_of_length _ _ _ n h, ok_bind]
  rfl

end fastllm

namespace fastllm

/-! ## Loading the record of a quantized tensor -/

end fastllm

namespace fastllm

/-! ## Saving a linear tensor at 8 bits and loading it again -/

end fastllm

namespace fastllm

end fastllm

namespace fastllm

end fastllm

namespace fastllm

end fastllm

namespace fastllm

set_option maxRecDepth 10000

/-! ## The tensor `exampleLinear` at 8 bits -/

theorem ok_of_toOption {α : Type} (x : Except Fault α) (a : α) (h : x.toOption = some a) :
    x = .ok a := by
  cases x with
  | error e => exact absurd h (by simp [Except.toOption])
  | ok b =>
    simp only [Except.toOption, Option.some.injEq] at h
    rw [h]

end fastllm

namespace fastllm

end fastllm

namespace fastllm

set_option maxRecDepth 10000

/-! ## The example tensors at 4 bits and as an embedding -/

theorem exampleEmbedding_words (i : Nat) (hi : i < 2) :
    bytesAt exampleEmbedding.cpuData (4 * i) 4 = .ok (leBytes 4 (examplePatterns i)) := by
  apply ok_of_toOption
  interval_cases i <;> decide

theorem examplePatterns_lt (i : Nat) (hi : i < 2) : examplePatterns i < 2 ^ 32 := by
  interval_cases i <;> decide

theorem saveWeight_embedding_witness :
    saveWeight (fun n => n) 8 [] ([119], exampleEmbedding) = .ok
      ([] ++ (recordHead [119] exampleEmbedding.dims ++ intBytes DataType.BFLOAT16.toInt
        ++ (List.range 2).flatMap (fun i => leBytes 2 (examplePatterns i / 2 ^ 16)))) :=
  saveWeight_embedding (fun n => n) 8 [] [119] exampleEmbedding 2 examplePatterns rfl
    (by decide) rfl (by decide) exampleEmbedding_words examplePatterns_lt

/-- C12 as stated fails on an embedding tensor of shape `[32768, 65536]`, whose
host buffer holds its `2 ^ 31` elements: `Count (0)` is `2 ^ 31`, the `int`
variable `len` receives `-2 ^ 31`, and `uDatas.resize (len)` ends the call with
a `std::length_error`, so no 16-bit word is written. -/
theorem saveWeight_embedding_too_long :
    (Count (zeroTensor .EMBEDDING [32768, 65536] (2 ^ 33)).toData 0).toOption = some (2 ^ 31) ∧
    (GetBytes (zeroTensor .EMBEDDING [32768, 65536] (2 ^ 33)).toData).toOption = some (2 ^ 33) ∧
    (bytesAt (zeroTensor .EMBEDDING [32768, 65536] (2 ^ 33)).cpuData (2 ^ 33 - 4) 4).toOption
      = some [0, 0, 0, 0] ∧
    faultOf (saveWeight (fun n => n) 8 [] ([119], zeroTensor .EMBEDDING [32768, 65536] (2 ^ 33)))
      = some .fatal := by
  decide

end fastllm

namespace fastllm

set_option maxRecDepth 10000

/-! ## The file of a map whose strings have a zero byte -/

/-- C14 (defect): the map `exampleMap` has `versionId` 1 and one tensor, of no
kind, FLOAT32, with a host buffer. `SaveLowBitModel` writes its metadata value
`a\0b` whole, as the length 3 and three bytes; `LoadFromFile` into an empty map
reproduces the `versionId`, the token table, and the name, the dims, the kind
and the bytes of the tensor, but the metadata value it stores is `a`:
`ReadString` returns the `char *` buffer, and the conversion to `std::string`
stops at the first zero byte. -/
theorem LoadFromFile_truncates_strings :
    (SaveLowBitModel (fun n => n) exampleMap [109] 8).toOption = some exampleFile ∧
    (LoadFromFile WeightMap.empty false [109] exampleFile).toOption.map (fun w => w.versionId)
      = some exampleMap.versionId ∧
    (LoadFromFile WeightMap.empty false [109] exampleFile).toOption.map
        (fun w => w.tokenizer.tokenToStringDict)
      = some exampleMap.tokenizer.tokenToStringDict ∧
    (LoadFromFile WeightMap.empty false [109] exampleFile).toOption.map
        (fun w => w.weight.map (fun e => (e.1, e.2.dims)))
      = some (exampleMap.weight.map (fun e => (e.1, e.2.dims))) ∧
    (LoadFromFile WeightMap.empty false [109] exampleFile).toOption.map
        (fun w => w.weight.map (fun e => e.2.dataType))
      = some (exampleMap.weight.map (fun _ => DataType.FLOAT32)) ∧
    (LoadFromFile WeightMap.empty false [109] exampleFile).toOption.map
        (fun w => w.weight.map (fun e => (bytesAt e.2.cpuData 0 8).toOption))
      = some (exampleMap.weight.map (fun e => (bytesAt e.2.cpuData 0 8).toOption)) ∧
    exampleMap.dicts = [([107], [97, 0, 98])] ∧
    (LoadFromFile WeightMap.empty false [109] exampleFile).toOption.map (fun w => w.dicts)
      = some [([107], [97])] := by
  refine ⟨by decide, by decide, by decide, by decide, by decide, by decide, by decide,
    by decide⟩

end fastllm

namespace fastllm

/-! ## The tables of a `WeightMap` -/

theorem bytesLt_asymm (a b : List Nat) (h : bytesLt a b = true) : bytesLt b a = false := by
  induction a generalizing b with
  | nil =>
    cases b with
    | nil => simp [bytesLt] at h
    | cons y ys => simp [bytesLt]
  | cons x xs ih =>
    cases b with
    | nil => simp [bytesLt] at h
    | cons y ys =>
      unfold bytesLt at h ⊢
      by_cases h1 : x < y
      · rw [if_neg (by omega), if_pos h1]
      · rw [if_neg h1] at h
        by_cases h2 : y < x
        · rw [if_pos h2] at h
          exact absurd h (by simp)
        · rw [if_neg h2] at h
          rw [if_neg h2, if_neg h1]
          exact ih ys h

/-- An assignment under a key above every key of the map adds the entry at the
end. -/
theorem mapSet_last {V : Type} (m : List (List Nat × V)) (key : List Nat) (value : V)
    (h : ∀ e ∈ m, bytesLt e.1 key = true) : mapSet m key value = m ++ [(key, value)] := by
  induction m with
  | nil => rfl
  | cons e rest ih =>
    obtain ⟨k, v⟩ := e
    have hk : bytesLt k key = true := h (k, v) (List.mem_cons_self _ _)
    have hk' : bytesLt key k = false := bytesLt_asymm k key hk
    unfold mapSet
    rw [if_neg (by rw [hk']; simp), if_pos hk, ih (fun e he => h e (List.mem_cons_of_mem _ he))]
    rfl

/-- Assigning the entries of a map in key order to a map whose keys are all
below them adds them at the end, in that order. -/
theorem foldl_mapSet_sorted {V : Type} (ds acc : List (List Nat × V))
    (hs : ds.Pairwise (fun a b => bytesLt a.1 b.1 = true))
    (hacc : ∀ e ∈ acc, ∀ d ∈ ds, bytesLt e.1 d.1 = true) :
    ds.foldl (fun m e => mapSet m e.1 e.2) acc = acc ++ ds := by
  induction ds generalizing acc with
  | nil => simp
  | cons d ds ih =>
    rw [List.pairwise_cons] at hs
    rw [List.foldl_cons, mapSet_last acc d.1 d.2 (fun e he => hacc e he d (List.mem_cons_self _ _)),
      ih (acc ++ [(d.1, d.2)]) hs.2]
    · simp
    · intro e he x hx
      rcases List.mem_append.mp he with he | he
      · exact hacc e he x (List.mem_cons_of_mem _ hx)
      · rw [List.mem_singleton] at he
        subst he
        exact hs.1 x hx

theorem unorderedSet_new {V : Type} (m : List (Int × V)) (key : Int) (value : V)
    (h : key ∉ m.map Prod.fst) : unorderedSet m key value = (key, value) :: m := by
  unfold unorderedSet
  rw [if_neg]
  intro hany
  rw [List.any_eq_true] at hany
  obtain ⟨e, he, hek⟩ := hany
  apply h
  rw [List.mem_map]
  exact ⟨e, he, by simpa using hek⟩

/-- Inserting tokens with distinct ids, none of them in the table, puts them
before the table, the last one first. -/
theorem foldl_Insert_distinct (tb : List (Int × List Nat)) (t : Tokenizer)
    (hd : (tb.map Prod.fst).Nodup)
    (hnew : ∀ e ∈ tb, e.1 ∉ t.tokenToStringDict.map Prod.fst) :
    (tb.foldl (fun t e => t.Insert e.2 e.1) t).tokenToStringDict
      = tb.reverse ++ t.tokenToStringDict := by
  induction tb generalizing t with
  | nil => simp
  | cons e tb ih =>
    rw [List.map_cons, List.nodup_cons] at hd
    rw [List.foldl_cons, ih _ hd.2]
    · unfold Tokenizer.Insert
      simp only []
      rw [unorderedSet_new _ _ _ (hnew e (List.mem_cons_self _ _))]
      simp
    · intro x hx
      unfold Tokenizer.Insert
      simp only []
      rw [unorderedSet_new _ _ _ (hnew e (List.mem_cons_self _ _))]
      rw [List.map_cons, List.mem_cons]
      rintro (h | h)
      · apply hd.1
        rw [List.mem_map]
        exact ⟨x, hx, h⟩
      · exact hnew x (List.mem_cons_of_mem _ hx) h

end fastllm

namespace fastllm

/-! ## What `SaveLowBitModel` writes for tables and plain tensors -/

theorem writeDicts_eq (ds : List (List Nat × List Nat)) (f : List Nat)
    (h : ∀ e ∈ ds, e.1.length < 2 ^ 31 ∧ e.2.length < 2 ^ 31) :
    writeDicts ds f = .ok (f ++ ds.flatMap (fun e =>
      intBytes (e.1.length : Int) ++ (e.1 ++ (intBytes (e.2.length : Int) ++ e.2)))) := by
  induction ds generalizing f with
  | nil => simp [writeDicts]
  | cons e ds ih =>
    obtain ⟨h1, h2⟩ := h e (List.mem_cons_self _ _)
    unfold writeDicts
    rw [WriteString_ok f e.1 h1, ok_bind, WriteString_ok _ e.2 h2, ok_bind,
      ih _ (fun x hx => h x (List.mem_cons_of_mem _ hx))]
    simp only [List.flatMap_cons, List.append_assoc, intBytes]

theorem foldl_WriteChars (s : List Nat) (f : List Nat) :
    s.foldl (fun f c => WriteInt f (charToInt c)) f
      = f ++ s.flatMap (fun c => intBytes (charToInt c)) := by
  induction s generalizing f with
  | nil => simp
  | cons c s ih =>
    rw [List.foldl_cons, ih, WriteInt_eq, List.flatMap_cons, List.append_assoc]

theorem writeVocab_eq (tb : List (Int × List Nat)) (f : List Nat) :
    writeVocab tb f = f ++ tb.flatMap (fun e =>
      intBytes (e.2.length : Int) ++ (e.2.flatMap (fun c => intBytes (charToInt c))
        ++ intBytes e.1)) := by
  induction tb generalizing f with
  | nil => simp [writeVocab]
  | cons e tb ih =>
    unfold writeVocab
    simp only []
    rw [ih, foldl_WriteChars, WriteInt_eq, WriteInt_eq]
    simp only [List.flatMap_cons, List.append_assoc]

theorem prodN_pos (dims : List Int) (h : ∀ y ∈ dims, 0 < y ∧ y < 2 ^ 31) : 0 < prodN dims := by
  induction dims with
  | nil => simp [prodN]
  | cons x xs ih =>
    rw [prodN_cons]
    have hx := h x (List.mem_cons_self _ _)
    have e : toU64 x = x.toNat := toU64_of_nonneg (by omega) (by omega)
    rw [e]
    exact Nat.mul_pos (by omega) (ih (fun y hy => h y (List.mem_cons_of_mem _ hy)))

theorem PlainFloat32.getBytes {d : WeightData} (h : PlainFloat32 d) :
    GetBytes d.toData = .ok (prodN d.dims * 4) :=
  GetBytes_row_major d.toData (prodN d.dims) 4 h.shaped h.row_major h.unitDiv h.unit
    (by norm_num) rfl (Nat.mul_pos (prodN_pos _ h.extents) (by norm_num)) h.fits

theorem PlainFloat32.floatBytes_eq {d : WeightData} (h : PlainFloat32 d) :
    bytesAt d.cpuData 0 (prodN d.dims * 4) = .ok (floatBytes d) := by
  obtain ⟨l, hl⟩ := h.written
  unfold floatBytes
  rw [hl]

/-- The record of a plain tensor: the name, the shape, the tag `FLOAT32` and
the bytes of the elements. -/
theorem saveWeight_none (float_to_half : Nat → Nat) (bit : Int) (f name : List Nat)
    (d : WeightData) (hname : name.length < 2 ^ 31) (h : PlainFloat32 d) :
    saveWeight float_to_half bit f (name, d) = .ok
      (f ++ (recordHead name d.dims ++ intBytes DataType.FLOAT32.toInt ++ floatBytes d)) := by
  obtain ⟨hws, hhead⟩ := head_written f name d.dims hname
  unfold saveWeight
  rw [hws, ok_bind]
  simp only [h.kind]
  rw [h.getBytes, ok_bind]
  unfold WriteBytes
  rw [h.floatBytes_eq, ok_bind, WriteInt_eq, hhead]
  simp only [List.append_assoc]

theorem saveWeights_none (float_to_half : Nat → Nat) (bit : Int)
    (ws : List (List Nat × WeightData)) (f : List Nat)
    (h : ∀ e ∈ ws, e.1.length < 2 ^ 31 ∧ PlainFloat32 e.2) :
    saveWeights float_to_half bit ws f = .ok (f ++ ws.flatMap (fun e =>
      recordHead e.1 e.2.dims ++ intBytes DataType.FLOAT32.toInt ++ floatBytes e.2)) := by
  induction ws generalizing f with
  | nil => simp [saveWeights]
  | cons e ws ih =>
    obtain ⟨h1, h2⟩ := h e (List.mem_cons_self _ _)
    unfold saveWeights
    rw [saveWeight_none float_to_half bit f e.1 e.2 h1 h2, ok_bind,
      ih _ (fun x hx => h x (List.mem_cons_of_mem _ hx))]
    simp only [List.flatMap_cons, List.append_assoc]

end fastllm

namespace fastllm

/-! ## What `LoadFromFile` reads from tables and plain records -/

theorem readDicts_encode (ds : List (List Nat × List Nat))
    (h : ∀ e ∈ ds, PlainString e.1 ∧ PlainString e.2)
    (acc : List (List Nat × List Nat)) (rest : List Nat) (pos : Nat) :
    ∃ pos', readDicts ds.length acc
        { rest := ds.flatMap (fun e =>
            intBytes (e.1.length : Int) ++ (e.1 ++ (intBytes (e.2.length : Int) ++ e.2)))
            ++ rest, pos := pos }
      = .ok (ds.foldl (fun m e => mapSet m e.1 e.2) acc, { rest := rest, pos := pos' }) := by
  induction ds generalizing acc pos with
  | nil => exact ⟨pos, by simp [readDicts]⟩
  | cons e ds ih =>
    obtain ⟨⟨h1, h1'⟩, ⟨h2, h2'⟩⟩ := h e (List.mem_cons_self _ _)
    obtain ⟨pos', hp⟩ := ih (fun x hx => h x (List.mem_cons_of_mem _ hx))
      (mapSet acc e.1 e.2) (pos + 4 + e.1.length + 4 + e.2.length)
    refine ⟨pos', ?_⟩
    have e0 : (e :: ds).flatMap (fun e =>
          intBytes (e.1.length : Int) ++ (e.1 ++ (intBytes (e.2.length : Int) ++ e.2))) ++ rest
        = leBytes 4 (toU64 (e.1.length : Int) % 2 ^ 32) ++ (e.1 ++
          (leBytes 4 (toU64 (e.2.length : Int) % 2 ^ 32) ++ (e.2 ++
          (ds.flatMap (fun e =>
            intBytes (e.1.length : Int) ++ (e.1 ++ (intBytes (e.2.length : Int) ++ e.2)))
            ++ rest)))) := by
      simp only [List.flatMap_cons, List.append_assoc, intBytes]
    rw [e0, List.length_cons]
    unfold readDicts
    rw [ReadString_encode e.1 h1 h1', ok_bind]
    simp only []
    rw [ReadString_encode e.2 h2 h2', ok_bind]
    simp only []
    rw [List.foldl_cons]
    exact hp

theorem intToChar_charToInt (c : Nat) (h : c < 256) : intToChar (charToInt c) = c := by
  unfold intToChar charToInt
  split <;> omega

theorem isInt32_charToInt (c : Nat) (h : c < 256) : IsInt32 (charToInt c) := by
  unfold IsInt32 charToInt
  split <;> constructor <;> omega

theorem readChars_encode (s : List Nat) (h : ∀ c ∈ s, c < 256) (acc rest : List Nat)
    (pos : Nat) :
    readChars s.length acc
        { rest := s.flatMap (fun c => intBytes (charToInt c)) ++ rest, pos := pos }
      = .ok (acc ++ s, { rest := rest, pos := pos + 4 * s.length }) := by
  induction s generalizing acc pos with
  | nil => simp [readChars]
  | cons c s ih =>
    have hc := h c (List.mem_cons_self _ _)
    have e0 : (c :: s).flatMap (fun c => intBytes (charToInt c)) ++ rest
        = leBytes 4 (toU64 (charToInt c) % 2 ^ 32)
          ++ (s.flatMap (fun c => intBytes (charToInt c)) ++ rest) := by
      simp only [List.flatMap_cons, List.append_assoc, intBytes]
    rw [e0, List.length_cons]
    unfold readChars
    rw [ReadInt_encode _ (isInt32_charToInt c hc), ok_bind]
    simp only []
    rw [ih (fun x hx => h x (List.mem_cons_of_mem _ hx)), intToChar_charToInt c hc]
    simp only [List.append_assoc, List.singleton_append]
    congr 3
    omega

theorem readVocab_encode (tb : List (Int × List Nat))
    (h : ∀ e ∈ tb, IsInt32 e.1 ∧ e.2.length < 2 ^ 31 ∧ ∀ c ∈ e.2, c < 256)
    (t : Tokenizer) (rest : List Nat) (pos : Nat) :
    ∃ pos', readVocab tb.length t
        { rest := tb.flatMap (fun e =>
            intBytes (e.2.length : Int) ++ (e.2.flatMap (fun c => intBytes (charToInt c))
              ++ intBytes e.1)) ++ rest, pos := pos }
      = .ok (tb.foldl (fun t e => t.Insert e.2 e.1) t, { rest := rest, pos := pos' }) := by
  induction tb generalizing t pos with
  | nil => exact ⟨pos, by simp [readVocab]⟩
  | cons e tb ih =>
    obtain ⟨h1, h2, h3⟩ := h e (List.mem_cons_self _ _)
    obtain ⟨pos', hp⟩ := ih (fun x hx => h x (List.mem_cons_of_mem _ hx))
      (t.Insert e.2 e.1) (pos + 4 + 4 * e.2.length + 4)
    refine ⟨pos', ?_⟩
    have e0 : (e :: tb).flatMap (fun e =>
          intBytes (e.2.length : Int) ++ (e.2.flatMap (fun c => intBytes (charToInt c))
            ++ intBytes e.1)) ++ rest
        = leBytes 4 (toU64 (e.2.length : Int) % 2 ^ 32) ++
          (e.2.flatMap (fun c => intBytes (charToInt c)) ++
          (leBytes 4 (toU64 e.1 % 2 ^ 32) ++
          (tb.flatMap (fun e =>
            intBytes (e.2.length : Int) ++ (e.2.flatMap (fun c => intBytes (charToInt c))
              ++ intBytes e.1)) ++ rest))) := by
      simp only [List.flatMap_cons, List.append_assoc, intBytes]
    rw [e0, List.length_cons]
    unfold readVocab
    rw [ReadInt_encode _ (isInt32_natCast h2), ok_bind]
    simp only []
    rw [Int.toNat_ofNat, readChars_encode e.2 h3, ok_bind]
    simp only []
    rw [ReadInt_encode _ h1, ok_bind]
    simp only []
    rw [List.foldl_cons, List.nil_append]
    exact hp

end fastllm

namespace fastllm

/-! ## Loading the record of a plain tensor -/

theorem PlainFloat32.floatBytes_length {d : WeightData} (h : PlainFloat32 d) :
    (floatBytes d).length = prodN d.dims * 4 := by
  obtain ⟨_, _, _, hl, _⟩ := bytesAt_ok d.cpuData 0 (prodN d.dims * 4) (floatBytes d)
    (Nat.mul_pos (prodN_pos _ h.extents) (by norm_num)) h.floatBytes_eq
  exact hl

/-- What `LoadFromFile` makes, in normal mode, of a record with the tag
`FLOAT32`: a row-major tensor of no kind with a new buffer that holds the bytes
of the record. -/
theorem loadWeight_float32 (emb : List (List Nat)) (fileName : List Nat)
    (weight : List (List Nat × WeightData)) (name rest : List Nat) (pos : Nat)
    (dims : List Int) (l : List Nat) (hname : PlainString name) (hne : dims ≠ [])
    (hrank : dims.length < 2 ^ 31) (hext : ∀ y ∈ dims, 0 < y ∧ y < 2 ^ 31)
    (hfits : prodN dims * 4 < 2 ^ 64) (hl : l.length = prodN dims * 4) :
    ∃ pos', loadWeight false emb fileName weight
        { rest := recordHead name dims ++ intBytes DataType.FLOAT32.toInt ++ l ++ rest,
          pos := pos }
      = .ok (mapSet weight name (loadedFloat32 dims l), { rest := rest, pos := pos' }) := by
  have hpos : 0 < prodN dims * 4 := Nat.mul_pos (prodN_pos _ hext) (by norm_num)
  have e : recordHead name dims ++ intBytes DataType.FLOAT32.toInt ++ l ++ rest
      = leBytes 4 (toU64 (name.length : Int) % 2 ^ 32) ++ (name ++
        (leBytes 4 (toU64 ((dims.length : Nat) : Int) % 2 ^ 32) ++
        (dims.flatMap intBytes ++
        (leBytes 4 (toU64 DataType.FLOAT32.toInt % 2 ^ 32) ++ (l ++ rest))))) := by
    unfold recordHead intBytes
    simp only [List.append_assoc]
  have hds : ∀ v ∈ dims, IsInt32 v := by
    intro v hv
    have := hext v hv
    unfold IsInt32
    constructor <;> omega
  have hA : Allocate (Data.shaped .FLOAT32 dims) = .ok
      { Data.shaped .FLOAT32 dims with
        expansionSize := prodN dims, expansionBytes := prodN dims * 4,
        cpuData := some (Buffer.fresh (prodN dims * 4)) } :=
    Allocate_row_major (Data.shaped .FLOAT32 dims) (prodN dims) 4 rfl hne rfl rfl rfl
      (by norm_num) rfl hpos hfits rfl
  have hG : GetBytes
      { Data.shaped .FLOAT32 dims with
        expansionSize := prodN dims, expansionBytes := prodN dims * 4,
        cpuData := some (Buffer.fresh (prodN dims * 4)) } = .ok (prodN dims * 4) :=
    GetBytes_row_major _ (prodN dims) 4 hne rfl rfl rfl (by norm_num) rfl hpos hfits
  have hof : DataType.ofInt DataType.FLOAT32.toInt = .ok .FLOAT32 := rfl
  refine ⟨pos + 4 + name.length + 4 + 4 * dims.length + 4 + prodN dims * 4, ?_⟩
  unfold loadWeight
  rw [e, ReadString_encode name hname.1 hname.2, ok_bind]
  simp only []
  rw [ReadInt_encode _ (isInt32_natCast hrank), ok_bind]
  simp only []
  rw [Int.toNat_ofNat, readDims_encode _ hds, ok_bind]
  simp only []
  rw [ReadInt_encode _ (by decide), ok_bind]
  simp only []
  rw [hof, ok_bind, List.nil_append, ofTypeDims_eq _ _ hne, ok_bind, Bool.false_and,
    if_neg (by simp), hA, ok_bind, if_pos (Or.inl rfl), hG, ok_bind,
    ReadBytes_fresh l rest _ _ hl, ok_bind]
  rfl

theorem loadWeights_float32 (emb : List (List Nat)) (fileName : List Nat)
    (ws : List (List Nat × WeightData))
    (h : ∀ e ∈ ws, PlainString e.1 ∧ PlainFloat32 e.2)
    (weight : List (List Nat × WeightData)) (rest : List Nat) (pos : Nat) :
    ∃ pos', loadWeights false emb fileName ws.length weight
        { rest := ws.flatMap (fun e =>
            recordHead e.1 e.2.dims ++ intBytes DataType.FLOAT32.toInt ++ floatBytes e.2)
            ++ rest, pos := pos }
      = .ok (ws.foldl (fun m e => mapSet m e.1 (loadedFloat32 e.2.dims (floatBytes e.2))) weight,
          { rest := rest, pos := pos' }) := by
  induction ws generalizing weight pos with
  | nil => exact ⟨pos, by simp [loadWeights]⟩
  | cons e ws ih =>
    obtain ⟨h1, h2⟩ := h e (List.mem_cons_self _ _)
    obtain ⟨p1, hp1⟩ := loadWeight_float32 emb fileName weight e.1
      (ws.flatMap (fun e =>
        recordHead e.1 e.2.dims ++ intBytes DataType.FLOAT32.toInt ++ floatBytes e.2) ++ rest)
      pos e.2.dims (floatBytes e.2) h1 h2.shaped h2.rank_lt h2.extents h2.fits
      h2.floatBytes_length
    obtain ⟨pos', hp⟩ := ih (fun x hx => h x (List.mem_cons_of_mem _ hx))
      (mapSet weight e.1 (loadedFloat32 e.2.dims (floatBytes e.2))) p1
    refine ⟨pos', ?_⟩
    have e0 : (e :: ws).flatMap (fun e =>
          recordHead e.1 e.2.dims ++ intBytes DataType.FLOAT32.toInt ++ floatBytes e.2) ++ rest
        = recordHead e.1 e.2.dims ++ intBytes DataType.FLOAT32.toInt ++ floatBytes e.2 ++
          (ws.flatMap (fun e =>
            recordHead e.1 e.2.dims ++ intBytes DataType.FLOAT32.toInt ++ floatBytes e.2)
            ++ rest) := by
      simp only [List.flatMap_cons, List.append_assoc]
    rw [e0, List.length_cons]
    unfold loadWeights
    rw [hp1, ok_bind]
    simp only []
    rw [List.foldl_cons]
    exact hp

end fastllm

namespace fastllm

/-! ## The file of a map of plain tensors -/

theorem loadedFloat32_bytes (d : WeightData) (h : PlainFloat32 d) :
    (loadedFloat32 d.dims (floatBytes d)).dims = d.dims ∧
      (loadedFloat32 d.dims (floatBytes d)).dataType = .FLOAT32 ∧
      bytesAt (loadedFloat32 d.dims (floatBytes d)).cpuData 0 (prodN d.dims * 4)
        = bytesAt d.cpuData 0 (prodN d.dims * 4) := by
  refine ⟨rfl, rfl, ?_⟩
  rw [h.floatBytes_eq]
  have hl := h.floatBytes_length
  have := bytesAt_eq_ok
    { size := prodN d.dims * 4,
      byte := fun p => if p < prodN d.dims * 4 then (floatBytes d)[p]? else none } 0
    (floatBytes d) (by simp only [hl]; omega)
    (by
      intro p hp
      simp only [Nat.zero_add]
      rw [if_pos (by omega)])
  rw [hl] at this
  exact this

theorem save_plain (float_to_half : Nat → Nat) (w : WeightMap) (fileName : List Nat) (bit : Int)
    (hfile : fileName ≠ []) (hbit : bit = 4 ∨ bit = 8 ∨ bit = 16) (hv : w.versionId = 1)
    (hd : ∀ e ∈ w.dicts, PlainString e.1 ∧ PlainString e.2)
    (hw : ∀ e ∈ w.weight, PlainString e.1 ∧ PlainFloat32 e.2) :
    SaveLowBitModel float_to_half w fileName bit = .ok
      (leBytes 4 (toU64 1 % 2 ^ 32) ++
        (leBytes 4 (toU64 ((w.dicts.length : Nat) : Int) % 2 ^ 32) ++
        (w.dicts.flatMap (fun e =>
          intBytes (e.1.length : Int) ++ (e.1 ++ (intBytes (e.2.length : Int) ++ e.2))) ++
        (leBytes 4 (toU64 ((w.tokenizer.tokenToStringDict.length : Nat) : Int) % 2 ^ 32) ++
        (w.tokenizer.tokenToStringDict.flatMap (fun e =>
          intBytes (e.2.length : Int) ++ (e.2.flatMap (fun c => intBytes (charToInt c))
            ++ intBytes e.1)) ++
        (leBytes 4 (toU64 ((w.weight.length : Nat) : Int) % 2 ^ 32) ++
        (w.weight.flatMap (fun e =>
          recordHead e.1 e.2.dims ++ intBytes DataType.FLOAT32.toInt ++ floatBytes e.2)
          ++ []))))))) := by
  have h1 : AssertInFastLLM (fileName != []) = .ok () := by
    unfold AssertInFastLLM
    rw [if_pos (by simpa using hfile)]
  have h2 : AssertInFastLLM (bit == 4 || bit == 8 || bit == 16) = .ok () := by
    unfold AssertInFastLLM
    rw [if_pos (by rcases hbit with h | h | h <;> subst h <;> rfl)]
  unfold SaveLowBitModel
  rw [h1, ok_bind, h2, ok_bind, if_pos hv,
    writeDicts_eq _ _ (fun e he => ⟨(hd e he).1.1, (hd e he).2.1⟩), ok_bind]
  simp only []
  rw [writeVocab_eq, saveWeights_none _ _ _ _ (fun e he => ⟨(hw e he).1.1, (hw e he).2⟩), hv]
  simp only [WriteInt_eq, intBytes, List.append_assoc, List.nil_append, List.append_nil]

end fastllm

namespace fastllm

theorem load_plain (w : WeightMap) (loadName : List Nat)
    (hd : ∀ e ∈ w.dicts, PlainString e.1 ∧ PlainString e.2)
    (hds : w.dicts.Pairwise (fun a b => bytesLt a.1 b.1 = true))
    (hdn : w.dicts.length < 2 ^ 31)
    (ht : ∀ e ∈ w.tokenizer.tokenToStringDict,
      IsInt32 e.1 ∧ e.2.length < 2 ^ 31 ∧ ∀ c ∈ e.2, c < 256)
    (htd : (w.tokenizer.tokenToStringDict.map Prod.fst).Nodup)
    (htn : w.tokenizer.tokenToStringDict.length < 2 ^ 31)
    (hw : ∀ e ∈ w.weight, PlainString e.1 ∧ PlainFloat32 e.2)
    (hws : w.weight.Pairwise (fun a b => bytesLt a.1 b.1 = true))
    (hwn : w.weight.length < 2 ^ 31) :
    LoadFromFile WeightMap.empty false loadName
      (leBytes 4 (toU64 1 % 2 ^ 32) ++
        (leBytes 4 (toU64 ((w.dicts.length : Nat) : Int) % 2 ^ 32) ++
        (w.dicts.flatMap (fun e =>
          intBytes (e.1.length : Int) ++ (e.1 ++ (intBytes (e.2.length : Int) ++ e.2))) ++
        (leBytes 4 (toU64 ((w.tokenizer.tokenToStringDict.length : Nat) : Int) % 2 ^ 32) ++
        (w.tokenizer.tokenToStringDict.flatMap (fun e =>
          intBytes (e.2.length : Int) ++ (e.2.flatMap (fun c => intBytes (charToInt c))
            ++ intBytes e.1)) ++
        (leBytes 4 (toU64 ((w.weight.length : Nat) : Int) % 2 ^ 32) ++
        (w.weight.flatMap (fun e =>
          recordHead e.1 e.2.dims ++ intBytes DataType.FLOAT32.toInt ++ floatBytes e.2)
          ++ [])))))))
      = .ok
        { versionId := 1,
          tokenizer := { tokenToStringDict := w.tokenizer.tokenToStringDict.reverse },
          dicts := w.dicts,
          weight := w.weight.map (fun e => (e.1, loadedFloat32 e.2.dims (floatBytes e.2))),
          embeddingNames := [] } := by
  obtain ⟨p1, hp1⟩ := readDicts_encode w.dicts hd []
    (leBytes 4 (toU64 ((w.tokenizer.tokenToStringDict.length : Nat) : Int) % 2 ^ 32) ++
      (w.tokenizer.tokenToStringDict.flatMap (fun e =>
        intBytes (e.2.length : Int) ++ (e.2.flatMap (fun c => intBytes (charToInt c))
          ++ intBytes e.1)) ++
      (leBytes 4 (toU64 ((w.weight.length : Nat) : Int) % 2 ^ 32) ++
      (w.weight.flatMap (fun e =>
        recordHead e.1 e.2.dims ++ intBytes DataType.FLOAT32.toInt ++ floatBytes e.2)
        ++ [])))) (0 + 4 + 4)
  obtain ⟨p2, hp2⟩ := readVocab_encode w.tokenizer.tokenToStringDict ht
    { tokenToStringDict := [] }
    (leBytes 4 (toU64 ((w.weight.length : Nat) : Int) % 2 ^ 32) ++
      (w.weight.flatMap (fun e =>
        recordHead e.1 e.2.dims ++ intBytes DataType.FLOAT32.toInt ++ floatBytes e.2)
        ++ [])) (p1 + 4)
  obtain ⟨p3, hp3⟩ := loadWeights_float32 [] loadName w.weight hw [] [] (p2 + 4)
  have e1 : w.dicts.foldl (fun m e => mapSet m e.1 e.2) [] = w.dicts := by
    rw [foldl_mapSet_sorted w.dicts [] hds (by simp), List.nil_append]
  have e2 : (w.tokenizer.tokenToStringDict.foldl (fun (t : Tokenizer) e => t.Insert e.2 e.1)
      ({ tokenToStringDict := [] } : Tokenizer)).tokenToStringDict
        = w.tokenizer.tokenToStringDict.reverse := by
    rw [foldl_Insert_distinct _ _ htd (by simp), List.append_nil]
  have e3 : w.weight.foldl
      (fun m e => mapSet m e.1 (loadedFloat32 e.2.dims (floatBytes e.2))) []
        = w.weight.map (fun e => (e.1, loadedFloat32 e.2.dims (floatBytes e.2))) := by
    have h := foldl_mapSet_sorted
      (w.weight.map (fun e => (e.1, loadedFloat32 e.2.dims (floatBytes e.2)))) []
      (by
        rw [List.pairwise_map]
        exact hws)
      (by simp)
    rw [List.foldl_map, List.nil_append] at h
    exact h
  unfold LoadFromFile
  simp only []
  rw [ReadInt_encode 1 (by decide), ok_bind]
  simp only []
  rw [if_pos trivial, ReadInt_encode _ (isInt32_natCast hdn), ok_bind]
  simp only []
  rw [Int.toNat_ofNat]
  have hp1' : readDicts w.dicts.length WeightMap.empty.dicts _ = _ := hp1
  rw [hp1', ok_bind]
  simp only []
  rw [ReadInt_encode _ (isInt32_natCast htn), ok_bind]
  simp only []
  rw [Int.toNat_ofNat]
  have hp2' : readVocab w.tokenizer.tokenToStringDict.length WeightMap.empty.tokenizer _ = _ :=
    hp2
  rw [hp2', ok_bind]
  simp only []
  rw [ReadInt_encode _ (isInt32_natCast hwn), ok_bind]
  simp only []
  rw [Int.toNat_ofNat]
  have hp3' : loadWeights false WeightMap.empty.embeddingNames loadName w.weight.length
      WeightMap.empty.weight _ = _ := hp3
  rw [hp3', ok_bind]
  simp only []
  rw [e1, e3]
  congr 2
  cases hf : w.tokenizer.tokenToStringDict.foldl (fun (t : Tokenizer) e => t.Insert e.2 e.1)
      ({ tokenToStringDict := [] } : Tokenizer) with
  | mk tab =>
    rw [hf] at e2
    simp only [] at e2
    rw [e2]

end fastllm

namespace fastllm

/-- The file of a map of plain tensors is read back. For a `WeightMap` with
`versionId` 1 whose metadata strings and tensor names are shorter than
`2 ^ 31` bytes and have no zero byte, whose tables are in the order the
containers keep (keys ascending, token ids distinct) with fewer than `2 ^ 31`
entries, whose tokens are bytes with `int` ids, and whose tensors are all
`PlainFloat32`: `SaveLowBitModel`, for every accepted bit width, writes a file
that `LoadFromFile` reads, in normal mode, into an empty map as the same
`versionId`, the same metadata, the same tokens (here in the reverse order of
insertion), and for every tensor the same name, dims, the kind FLOAT32 and the
same bytes of the elements. -/
theorem save_load_plain (float_to_half : Nat → Nat) (w : WeightMap)
    (fileName loadName : List Nat) (bit : Int)
    (hfile : fileName ≠ []) (hbit : bit = 4 ∨ bit = 8 ∨ bit = 16) (hv : w.versionId = 1)
    (hd : ∀ e ∈ w.dicts, PlainString e.1 ∧ PlainString e.2)
    (hds : w.dicts.Pairwise (fun a b => bytesLt a.1 b.1 = true))
    (hdn : w.dicts.length < 2 ^ 31)
    (ht : ∀ e ∈ w.tokenizer.tokenToStringDict,
      IsInt32 e.1 ∧ e.2.length < 2 ^ 31 ∧ ∀ c ∈ e.2, c < 256)
    (htd : (w.tokenizer.tokenToStringDict.map Prod.fst).Nodup)
    (htn : w.tokenizer.tokenToStringDict.length < 2 ^ 31)
    (hw : ∀ e ∈ w.weight, PlainString e.1 ∧ PlainFloat32 e.2)
    (hws : w.weight.Pairwise (fun a b => bytesLt a.1 b.1 = true))
    (hwn : w.weight.length < 2 ^ 31) :
    ∃ content, SaveLowBitModel float_to_half w fileName bit = .ok content ∧
      LoadFromFile WeightMap.empty false loadName content = .ok
        { versionId := w.versionId,
          tokenizer := { tokenToStringDict := w.tokenizer.tokenToStringDict.reverse },
          dicts := w.dicts,
          weight := w.weight.map (fun e => (e.1, loadedFloat32 e.2.dims (floatBytes e.2))),
          embeddingNames := [] } ∧
      ∀ e ∈ w.weight,
        (loadedFloat32 e.2.dims (floatBytes e.2)).dims = e.2.dims ∧
        (loadedFloat32 e.2.dims (floatBytes e.2)).dataType = .FLOAT32 ∧
        bytesAt (loadedFloat32 e.2.dims (floatBytes e.2)).cpuData 0 (prodN e.2.dims * 4)
          = bytesAt e.2.cpuData 0 (prodN e.2.dims * 4) := by
  refine ⟨_, save_plain float_to_half w fileName bit hfile hbit hv hd hw, ?_,
    fun e he => loadedFloat32_bytes e.2 (hw e he).2⟩
  rw [hv]
  exact load_plain w loadName hd hds hdn ht htd htn hw hws hwn

theorem exampleNone_plain : PlainFloat32 exampleNone where
  kind := rfl
  float32 := rfl
  unit := rfl
  unitDiv := rfl
  shaped := by decide
  rank_lt := by decide
  extents := by decide
  row_major := rfl
  fits := by decide
  written := ⟨[0, 0, 128, 63, 0, 0, 128, 191], rfl⟩

theorem save_load_plain_example :
    ∃ content,
      SaveLowBitModel (fun n => n) { exampleMap with dicts := [([107], [97, 98])] } [109] 8
        = .ok content ∧
      LoadFromFile WeightMap.empty false [109] content = .ok
        { versionId := 1,
          tokenizer := { tokenToStringDict := [(5, [104, 105])] },
          dicts := [([107], [97, 98])],
          weight := [([119], loadedFloat32 [2] (floatBytes exampleNone))],
          embeddingNames := [] } ∧
      ∀ e ∈ [(([119] : List Nat), exampleNone)],
        (loadedFloat32 e.2.dims (floatBytes e.2)).dims = e.2.dims ∧
        (loadedFloat32 e.2.dims (floatBytes e.2)).dataType = .FLOAT32 ∧
        bytesAt (loadedFloat32 e.2.dims (floatBytes e.2)).cpuData 0 (prodN e.2.dims * 4)
          = bytesAt e.2.cpuData 0 (prodN e.2.dims * 4) :=
  save_load_plain (fun n => n) { exampleMap with dicts := [([107], [97, 98])] } [109] [109] 8
    (by decide) (by decide) rfl
    (by
      intro e he
      rw [List.mem_singleton] at he
      subst he
      exact ⟨⟨by decide, by decide⟩, ⟨by decide, by decide⟩⟩)
    (List.pairwise_singleton _ _) (by decide)
    (by
      intro e he
      rw [show ({ exampleMap with dicts := [([107], [97, 98])] } : WeightMap).tokenizer.tokenToStringDict
        = [(5, [104, 105])] from rfl, List.mem_singleton] at he
      subst he
      exact ⟨by decide, by decide, by decide⟩)
    (by decide) (by decide)
    (by
      intro e he
      rw [show ({ exampleMap with dicts := [([107], [97, 98])] } : WeightMap).weight
        = [([119], exampleNone)] from rfl, List.mem_singleton] at he
      subst he
      exact ⟨⟨by decide, by decide⟩, exampleNone_plain⟩)
    (List.pairwise_singleton _ _) (by decide)

end fastllm

namespace fastllm

/-! ## `Count` on every axis -/

/-- `Count (i)` on an axis after the first is the stride before it. -/
theorem Count_succ (d : Data) (j : Nat) (hj : j + 1 < d.dims.length)
    (hlen : d.dims.length < 2 ^ 31) (hstr : d.strides.length = d.dims.length) :
    Count d ((j : Int) + 1) = .ok (d.strides.getD j 0) := by
  unfold Count
  have e1 : toU64 ((j : Int) + 1) = j + 1 := by
    have := toU64_length (n := j + 1) (by omega)
    simpa using this
  have e2 : toU64 ((j : Int) + 1 - 1) = j := by
    have := toU64_length (n := j) (by omega)
    simpa using this
  rw [e1, e2, if_neg (by omega), if_pos ⟨by omega, by omega⟩]
  have hj' : j < d.strides.length := by omega
  simp [at?, List.getD, List.getElem?_eq_getElem hj']

/-- `Count (0)` is the first extent times the first stride, in `uint64_t`. -/
theorem Count_first (d : Data) (h0 : 0 < d.dims.length)
    (hstr : d.strides.length = d.dims.length) :
    Count d 0 = .ok (mulU64 (toU64 (d.dims.getD 0 0)) (d.strides.getD 0 0)) := by
  unfold Count
  rw [toU64_zero, if_neg (by omega), if_neg (by intro h; omega)]
  have h1 : 0 < d.strides.length := by omega
  simp [at?, List.getD, List.getElem?_eq_getElem h0, List.getElem?_eq_getElem h1,
    bind, Except.bind]

/-- C29 (amended). For a tensor whose strides have the rank of its shape (rank
below `2 ^ 31`) and an axis `i` of it: `Count (0)` is `dims[0] * strides[0]` in
`uint64_t`, and for `i >= 1` `Count (i)` is `strides[i - 1]`; when no
reservation is active, so that the strides are those built from the shape,
that is `dims[i] * strides[i]` for every axis. -/
theorem Count_eq (d : Data) (i : Nat) (hi : i < d.dims.length)
    (hlen : d.dims.length < 2 ^ 31) (hstr : d.strides.length = d.dims.length) :
    Count d (i : Int)
        = .ok (if i = 0 then mulU64 (toU64 (d.dims.getD 0 0)) (d.strides.getD 0 0)
               else d.strides.getD (i - 1) 0)
      ∧ (d.strides = strideList d.dims →
          Count d (i : Int) = .ok (mulU64 (toU64 (d.dims.getD i 0)) (d.strides.getD i 0))) := by
  cases i with
  | zero =>
    have h := Count_first d hi hstr
    simp only [Nat.cast_zero, if_true]
    exact ⟨h, fun _ => h⟩
  | succ j =>
    have h := Count_succ d j hi hlen hstr
    have hc : ((j + 1 : Nat) : Int) = (j : Int) + 1 := by push_cast; rfl
    rw [hc, h]
    refine ⟨by simp, fun hrow => ?_⟩
    have hs1 : j + 1 < (strideList d.dims).length := by rw [strideList_length]; exact hi
    have hstep := strideList_step d.dims j (d.dims.get ⟨j + 1, hi⟩)
      ((strideList d.dims).get ⟨j + 1, hs1⟩)
      (by simp [List.getElem?_eq_getElem hi])
      (by simp [List.getElem?_eq_getElem hs1])
    have hj : j + 1 < d.strides.length := by omega
    have hj0 : j < d.strides.length := by omega
    congr 1
    rw [List.getD_eq_getElem _ _ hj0, List.getD_eq_getElem _ _ hi, List.getD_eq_getElem _ _ hj]
    have hstep2 : d.strides[j]? = some (mulU64 (toU64 (d.dims.get ⟨j + 1, hi⟩))
        (d.strides.get ⟨j + 1, hj⟩)) := by
      have : (strideList d.dims).get ⟨j + 1, hs1⟩ = d.strides.get ⟨j + 1, hj⟩ := by
        simp only [List.get_eq_getElem]; congr 1; exact hrow.symm
      rw [← this]; rw [hrow]; exact hstep
    rw [List.getElem?_eq_getElem hj0] at hstep2
    injection hstep2

/-- C29, witness: on the tensor of shape `[2, 3, 4]`, `Count (1)` is the stride
`12 = 3 * 4`. -/
theorem Count_eq_witness :
    Count (Data.shaped .FLOAT32 [2, 3, 4]) ((1 : Nat) : Int)
        = .ok (if 1 = 0 then mulU64 (toU64 ((Data.shaped .FLOAT32 [2, 3, 4]).dims.getD 0 0))
                 ((Data.shaped .FLOAT32 [2, 3, 4]).strides.getD 0 0)
               else (Data.shaped .FLOAT32 [2, 3, 4]).strides.getD (1 - 1) 0)
      ∧ ((Data.shaped .FLOAT32 [2, 3, 4]).strides
            = strideList (Data.shaped .FLOAT32 [2, 3, 4]).dims →
          Count (Data.shaped .FLOAT32 [2, 3, 4]) ((1 : Nat) : Int)
            = .ok (mulU64 (toU64 ((Data.shaped .FLOAT32 [2, 3, 4]).dims.getD 1 0))
                ((Data.shaped .FLOAT32 [2, 3, 4]).strides.getD 1 0))) :=
  Count_eq (Data.shaped .FLOAT32 [2, 3, 4]) 1 (by decide) (by decide) (by decide)

/-- C29, counterexample: the tensor of shape `[1, 3, 4]` with the reservation
`[1, 8, 4]` has `dims[1] * strides[1] = 3 * 4 = 12`, and `Count (1)` returns
`strides[0] = 32`. -/
theorem Count_reserved_axis :
    (exampleReserved.toOption.map fun d => (d.dims, d.strides, d.expansionDims))
        = some ([1, 3, 4], [32, 4, 1], [1, 8, 4])
      ∧ (exampleReserved.toOption.bind fun d => (Count d 1).toOption) = some 32
      ∧ (exampleReserved.toOption.map fun d =>
          mulU64 (toU64 (d.dims.getD 1 0)) (d.strides.getD 1 0)) = some 12 := by
  decide

end fastllm

namespace fastllm

/-! ## `CopyFrom` and `CalcWeightSum` on examples -/

/-- C21, failing input. The destination is the INT8 tensor of shape `[2, 3]`
with its buffer of 6 bytes, the source the FLOAT32 tensor of the same shape
with 24 bytes. `CopyFrom` takes the in-place path, which assigns no
`dataType`: the destination stays INT8 with `unitSize` 1 and `GetBytes () = 6`,
and receives the first 6 of the 24 bytes of the source. When the shapes differ
(destination `[6]`, source `[1, 6]`) the kind is assigned, `Allocate` keeps the
buffer of 6 bytes because the capacity of 6 elements suffices, and the copy of
24 bytes leaves the buffer. -/
theorem CopyFrom_in_place_keeps_kind :
    (exampleFloats [2, 3]).dataType = .FLOAT32
      ∧ (GetBytes (exampleFloats [2, 3])).toOption = some 24
      ∧ ((CopyFrom exampleBytes (exampleFloats [2, 3])).toOption.map fun d =>
          (d.dataType, d.dims, d.unitSize)) = some (.INT8, [2, 3], 1)
      ∧ ((CopyFrom exampleBytes (exampleFloats [2, 3])).toOption.bind fun d =>
          (GetBytes d).toOption) = some 6
      ∧ ((CopyFrom exampleBytes (exampleFloats [2, 3])).toOption.bind fun d =>
          (bytesAt d.cpuData 0 6).toOption) = some [101, 102, 103, 104, 105, 106]
      ∧ faultOf (CopyFrom (Data.filled .INT8 [6] [1, 2, 3, 4, 5, 6]) (exampleFloats [1, 6]))
          = some .undefined := by
  decide

/-- C30, failing input. After `Data a (FLOAT32, {2, 3}); a.Allocate ();
a.CopyFrom (Data (FLOAT32))` the tensor records a capacity of 6 elements and
24 bytes and has no buffer; after `a.Resize ({2}); a.Allocate ()` it still has
none, while `GetBytes ()` is 8. -/
theorem CopyFrom_empty_keeps_capacity :
    (exampleEmptied.toOption.map fun p =>
        (p.1.dims, p.1.expansionSize, p.1.expansionBytes, p.1.cpuData.isNone))
        = some ([], 6, 24, true)
      ∧ (exampleEmptied.toOption.map fun p =>
        (p.2.dims, p.2.expansionSize, p.2.expansionBytes, p.2.cpuData.isNone))
        = some ([2], 6, 24, true)
      ∧ (exampleEmptied.toOption.bind fun p => (GetBytes p.2).toOption) = some 8 := by
  decide

/-- C22, failing input. The INT4 tensor of shape `[2, 3]` holds the codes
0, 0, 1 in row 0 and 0, 2, 0 in row 1, packed in the bytes `0x00, 0x10, 0x20`.
The sums of the codes are 1 and 2; `CalcWeightSum` sets `weightSum` to
`[1, 1]`: row 1 starts at the odd flat index 3, and the loop over pairs adds
both halves of byte 1, which are the codes 2 and 3, not the codes 3 and 4. -/
theorem CalcWeightSum_odd_row_start :
    (bytesAt exampleNibbles.cpuData 0 3).toOption = some [0, 16, 32]
      ∧ exampleNibbles.dims = [2, 3] ∧ exampleNibbles.dataType = .INT4
      ∧ exampleNibbles.weightSum = []
      ∧ (List.range 6).map (rawCode .INT4 [0, 16, 32])
          = [some 0, some 0, some 1, some 0, some 2, some 0]
      ∧ rowCodeSum .INT4 [0, 16, 32] 3 0 = 1 ∧ rowCodeSum .INT4 [0, 16, 32] 3 1 = 2
      ∧ ((CalcWeightSum exampleNibbles).toOption.map fun d => d.weightSum) = some [1, 1] := by
  decide

end fastllm

namespace fastllm

/-! ## The device round trip -/

/-- What `memcpy` from the start of one buffer to the start of another
returns. -/
theorem memcpy_zero (dst src : Buffer) (n : Nat) (hd : n ≤ dst.size) (hs : n ≤ src.size) :
    memcpy dst 0 src 0 n
      = .ok { dst with byte := fun p => if p < n then src.byte p else dst.byte p } := by
  unfold memcpy
  rw [if_pos ⟨le_refl _, by simpa using hd, le_refl _, by simpa using hs⟩]
  simp

/-- Device memory that is a buffer of bytes copies faithfully. -/
theorem cudaBuffers_faithful : CudaApi.buffers.Faithful := by
  intro n host dst hh hd
  refine ⟨_, _, memcpy_zero (Buffer.fresh n) host n (le_refl _) hh,
    memcpy_zero dst { Buffer.fresh n with
      byte := fun p => if p < n then host.byte p else (Buffer.fresh n).byte p } n hd (le_refl _),
    rfl, ?_⟩
  intro p
  by_cases hp : p < n <;> simp [hp]

/-- Device round trip. For every host tensor whose buffer, if a capacity
is recorded, holds at least `expansionBytes` bytes, in a build with or without
`USE_CUDA` and for every device whose copies are faithful: `ToDevice (CUDA)`
and then `ToDevice (CPU)` return, the tensor is on the host again with the
kind, dims, strides, reservation and capacity it had, a tensor without a
buffer has none afterwards, and the first `expansionBytes` bytes of the buffer
are those it held before. -/
theorem ToDevice_round_trip {β : Type} (useCuda : Bool) (api : CudaApi β)
    (hapi : api.Faithful) (d : DeviceData β) (hcpu : d.dataDevice = .CPU)
    (hbuf : d.expansionBytes ≠ 0 → ∃ b, d.cpuData = some b ∧ d.expansionBytes ≤ b.size) :
    ∃ d1 d2, ToDevice useCuda api d .CUDA = .ok d1 ∧ ToDevice useCuda api d1 .CPU = .ok d2
      ∧ d2.dataDevice = .CPU ∧ d2.dataType = d.dataType ∧ d2.dims = d.dims
      ∧ d2.strides = d.strides ∧ d2.expansionDims = d.expansionDims
      ∧ d2.expansionSize = d.expansionSize ∧ d2.expansionBytes = d.expansionBytes
      ∧ (d.cpuData = none → d2.cpuData = none)
      ∧ (∀ b, d.cpuData = some b → ∃ b2, d2.cpuData = some b2
          ∧ ∀ p, p < d.expansionBytes → b2.byte p = b.byte p) := by
  by_cases hk : d.dataType = .INT32PARAM
  · refine ⟨d, d, by simp [ToDevice, hk], by simp [ToDevice, hk], hcpu, rfl, rfl, rfl, rfl, rfl,
      rfl, fun h => h, fun b hb => ⟨b, hb, fun _ _ => rfl⟩⟩
  by_cases hu : useCuda = false
  · refine ⟨d, d, by simp [ToDevice, hk, hu], by simp [ToDevice, hk, hu], hcpu, rfl, rfl, rfl,
      rfl, rfl, rfl, fun h => h, fun b hb => ⟨b, hb, fun _ _ => rfl⟩⟩
  by_cases he : d.expansionBytes ≠ 0
  · obtain ⟨b, hb, hsz⟩ := hbuf he
    obtain ⟨dev, out, h1, h2, -, h4⟩ :=
      hapi d.expansionBytes b (Buffer.fresh d.expansionBytes) hsz (le_refl _)
    refine ⟨{ d with cpuData := none, cudaData := some dev, dataDevice := .CUDA },
      { d with cpuData := some out, cudaData := none, dataDevice := .CPU }, ?_, ?_, rfl, rfl,
      rfl, rfl, rfl, rfl, rfl, ?_, ?_⟩
    · unfold ToDevice
      rw [if_neg hk, if_neg hu, if_neg (by rw [hcpu]; decide), if_pos he, hcpu]
      simp only [hb, h1, ok_bind]
    · unfold ToDevice
      rw [if_neg hk, if_neg hu, if_neg (by simp), if_pos he]
      simp only [h2, ok_bind]
    · intro h; rw [hb] at h; cases h
    · intro b0 hb0
      rw [hb] at hb0
      injection hb0 with hb0
      subst hb0
      refine ⟨out, rfl, fun p hp => ?_⟩
      rw [h4 p, if_pos hp]
  · refine ⟨{ d with dataDevice := .CUDA }, { d with dataDevice := .CPU }, ?_, ?_, rfl, rfl,
      rfl, rfl, rfl, rfl, rfl, fun h => h, fun b hb => ⟨b, hb, fun _ _ => rfl⟩⟩
    · unfold ToDevice
      rw [if_neg hk, if_neg hu, if_neg (by rw [hcpu]; decide), if_neg he]
    · unfold ToDevice
      rw [if_neg hk, if_neg hu, if_neg (by simp), if_neg he]

/-- The round trip of the INT8 tensor of shape `[2, 3]` with its 6 bytes, in a build
with `USE_CUDA`, the device memory being buffers of bytes. -/
theorem ToDevice_round_trip_witness :
    ∃ d1 d2, ToDevice true CudaApi.buffers exampleHost .CUDA = .ok d1
      ∧ ToDevice true CudaApi.buffers d1 .CPU = .ok d2
      ∧ d2.dataDevice = .CPU ∧ d2.dataType = exampleHost.dataType ∧ d2.dims = exampleHost.dims
      ∧ d2.strides = exampleHost.strides ∧ d2.expansionDims = exampleHost.expansionDims
      ∧ d2.expansionSize = exampleHost.expansionSize
      ∧ d2.expansionBytes = exampleHost.expansionBytes
      ∧ (exampleHost.cpuData = none → d2.cpuData = none)
      ∧ (∀ b, exampleHost.cpuData = some b → ∃ b2, d2.cpuData = some b2
          ∧ ∀ p, p < exampleHost.expansionBytes → b2.byte p = b.byte p) :=
  ToDevice_round_trip true CudaApi.buffers cudaBuffers_faithful exampleHost rfl
    (fun _ => ⟨_, rfl, by decide⟩)

end fastllm

namespace fastllm

set_option maxRecDepth 10000

/-! ## The payload of a tensor record -/

/-- C25, failing input. The file holds one record with the tag of INT16,
INT2, BIT or INT32PARAM. In normal mode `LoadFromFile` returns a `WeightMap`:
the tensor has its kind and a buffer that was never written, and the payload
is not read. Only in low-memory mode, for a name in `embeddingNames`, does the
call end in `ErrorInFastLLM`. -/
theorem LoadFromFile_accepts_other_kinds :
    (∀ tag ∈ [2, 5, 6, 100],
        faultOf (LoadFromFile WeightMap.empty false [102] (exampleTaggedFile tag)) = none)
      ∧ ((LoadFromFile WeightMap.empty false [102] (exampleTaggedFile 2)).toOption.map
          fun w => w.weight.map fun e => (e.1, e.2.dataType, e.2.dims)) = some [([97], .INT16, [2])]
      ∧ ((LoadFromFile WeightMap.empty false [102] (exampleTaggedFile 2)).toOption.map
          fun w => w.weight.map fun e => e.2.cpuData.map fun b => (List.range b.size).map b.byte)
        = some [some [none, none, none, none]]
      ∧ (∀ tag ∈ [2, 5, 6, 100],
        faultOf (LoadFromFile exampleFlagged true [102] (exampleTaggedFile tag)) = some .fatal) := by
  refine ⟨by decide, by decide, by decide, by decide⟩

end fastllm

namespace fastllm

/-! ## Readers on a file that ends early -/

theorem truncating_ok {α : Type} (a : α) :
    Truncating (fun f => (.ok (a, f) : Except Fault (α × FileBuffer))) := by
  intro f b f1 h
  injection h with h
  injection h with h1 h2
  subst h1 h2
  refine ⟨0, Nat.zero_le _, by simp, fun L => ⟨fun _ => ?_, fun hL => absurd hL (Nat.not_lt_zero _)⟩⟩
  simp [FileBuffer.cut]

theorem truncating_fail {α : Type} (e : Fault) :
    Truncating (fun _ => (.error e : Except Fault (α × FileBuffer))) := by
  intro f b f1 h
  cases h

theorem truncating_bind {α β : Type} {R : FileBuffer → Except Fault (α × FileBuffer)}
    {S : α × FileBuffer → Except Fault (β × FileBuffer)} (hR : Truncating R)
    (hS : ∀ a, Truncating (fun f => S (a, f))) : Truncating (fun f => R f >>= S) := by
  intro f b f2 h
  simp only [] at h
  cases hr : R f with
  | error e => rw [hr] at h; cases h
  | ok r =>
    obtain ⟨a, f1⟩ := r
    rw [hr, ok_bind] at h
    obtain ⟨c1, hc1, hf1, hL1⟩ := hR f a f1 hr
    obtain ⟨c2, hc2, hf2, hL2⟩ := hS a f1 b f2 h
    have hlen : f1.rest.length + c1 = f.rest.length := by
      rw [hf1]
      simp only [List.length_drop]
      omega
    refine ⟨c1 + c2, by omega, ?_, fun L => ⟨fun hL => ?_, fun hL => ?_⟩⟩
    · rw [hf2, hf1]
      simp only [List.drop_drop, FileBuffer.mk.injEq]
      refine ⟨?_, ?_⟩ <;> first | trivial | omega
    · simp only []
      rw [(hL1 L).1 (by omega), ok_bind]
      have := (hL2 (L - c1)).1 (by omega)
      simp only [] at this
      rw [this, Nat.sub_sub]
    · simp only []
      by_cases h1 : L < c1
      · rw [(hL1 L).2 h1, error_bind]
      · rw [(hL1 L).1 (by omega), ok_bind]
        have := (hL2 (L - c1)).2 (by omega)
        simp only [] at this
        exact this

theorem truncating_lift {α γ : Type} (e : Except Fault γ)
    {S : γ → FileBuffer → Except Fault (α × FileBuffer)} (hS : ∀ x, Truncating (S x)) :
    Truncating (fun f => e >>= fun x => S x f) := by
  cases e with
  | error e => exact truncating_fail e
  | ok x => exact hS x

theorem truncating_ite {α : Type} (c : Prop) [Decidable c]
    {A B : FileBuffer → Except Fault (α × FileBuffer)} (hA : Truncating A) (hB : Truncating B) :
    Truncating (fun f => if c then A f else B f) := by
  by_cases h : c
  · simpa [h] using hA
  · simpa [h] using hB

theorem truncating_read (n : Nat) : Truncating (fun f => f.read n) := by
  intro f v f1 h
  change f.read n = _ at h
  unfold FileBuffer.read at h
  by_cases hn : n ≤ f.rest.length
  · rw [if_pos hn] at h
    injection h with h
    injection h with h1 h2
    subst h1 h2
    refine ⟨n, hn, rfl, fun L => ⟨fun hL => ?_, fun hL => ?_⟩⟩
    · change (f.cut L).read n = _
      unfold FileBuffer.read FileBuffer.cut
      simp only []
      rw [if_pos (by rw [List.length_take]; omega)]
      rw [List.take_take, List.drop_take, Nat.min_eq_left hL]
    · change (f.cut L).read n = _
      unfold FileBuffer.read FileBuffer.cut
      simp only []
      rw [if_neg (by rw [List.length_take]; omega)]
      rfl
  · rw [if_neg hn] at h
    cases h

theorem truncating_ReadInt : Truncating FileBuffer.ReadInt := by
  show Truncating (fun f => f.ReadInt)
  unfold FileBuffer.ReadInt
  exact truncating_bind (truncating_read 4) (fun v => truncating_ok _)

theorem truncating_ReadFloat : Truncating FileBuffer.ReadFloat := by
  show Truncating (fun f => f.ReadFloat)
  unfold FileBuffer.ReadFloat
  refine truncating_bind (truncating_read 4) (fun v => ?_)
  simp only []
  cases decodeF32 (leValue v) with
  | none => exact truncating_fail _
  | some q => exact truncating_ok _

theorem truncating_ReadString : Truncating FileBuffer.ReadString := by
  show Truncating (fun f => f.ReadString)
  unfold FileBuffer.ReadString
  refine truncating_bind truncating_ReadInt (fun len => ?_)
  simp only []
  refine truncating_ite _ (truncating_fail _) ?_
  refine truncating_bind (truncating_read _) (fun v => ?_)
  simp only []
  exact truncating_ok _

theorem truncating_ReadBytes (buffer : Option Buffer) (bytes : Nat) :
    Truncating (fun f => f.ReadBytes buffer bytes) := by
  unfold FileBuffer.ReadBytes
  cases buffer with
  | none =>
    simp only []
    exact truncating_ite _ (truncating_ok _) (truncating_fail _)
  | some b =>
    simp only []
    refine truncating_ite _ (truncating_fail _) ?_
    refine truncating_bind (truncating_read _) (fun v => ?_)
    simp only []
    exact truncating_ok _

theorem truncating_readDicts (n : Nat) (dicts : List (List Nat × List Nat)) :
    Truncating (readDicts n dicts) := by
  induction n generalizing dicts with
  | zero => exact truncating_ok dicts
  | succ n ih =>
    show Truncating (fun f => fastllm.readDicts (n + 1) dicts f)
    simp only [fastllm.readDicts]
    refine truncating_bind truncating_ReadString (fun key => ?_)
    simp only []
    refine truncating_bind truncating_ReadString (fun value => ?_)
    simp only []
    exact ih _

theorem truncating_readChars (n : Nat) (x : List Nat) : Truncating (readChars n x) := by
  induction n generalizing x with
  | zero => exact truncating_ok x
  | succ n ih =>
    show Truncating (fun f => fastllm.readChars (n + 1) x f)
    simp only [fastllm.readChars]
    refine truncating_bind truncating_ReadInt (fun c => ?_)
    simp only []
    exact ih _

theorem truncating_readVocab (n : Nat) (t : Tokenizer) : Truncating (readVocab n t) := by
  induction n generalizing t with
  | zero => exact truncating_ok t
  | succ n ih =>
    show Truncating (fun f => fastllm.readVocab (n + 1) t f)
    simp only [fastllm.readVocab]
    refine truncating_bind truncating_ReadInt (fun len => ?_)
    simp only []
    refine truncating_bind (truncating_readChars _ _) (fun x => ?_)
    simp only []
    refine truncating_bind truncating_ReadInt (fun id => ?_)
    simp only []
    exact ih _

theorem truncating_readDims (n : Nat) (dims : List Int) : Truncating (readDims n dims) := by
  induction n generalizing dims with
  | zero => exact truncating_ok dims
  | succ n ih =>
    show Truncating (fun f => fastllm.readDims (n + 1) dims f)
    simp only [fastllm.readDims]
    refine truncating_bind truncating_ReadInt (fun x => ?_)
    simp only []
    exact ih _

theorem truncating_readConfigs (bit : Int) (n : Nat) (configs : List LowBitConfig) :
    Truncating (readConfigs bit n configs) := by
  induction n generalizing configs with
  | zero => exact truncating_ok configs
  | succ n ih =>
    show Truncating (fun f => fastllm.readConfigs bit (n + 1) configs f)
    simp only [fastllm.readConfigs]
    refine truncating_bind truncating_ReadFloat (fun lo => ?_)
    simp only []
    refine truncating_bind truncating_ReadFloat (fun hi => ?_)
    simp only []
    exact truncating_lift _ (fun c => ih _)

end fastllm

namespace fastllm

/-! ## `LoadFromFile` on a file that ends early -/

theorem truncating_loadWeight (emb : List (List Nat)) (fileName : List Nat)
    (weight : List (List Nat × WeightData)) :
    Truncating (loadWeight false emb fileName weight) := by
  show Truncating (fun f => fastllm.loadWeight false emb fileName weight f)
  unfold fastllm.loadWeight
  refine truncating_bind truncating_ReadString (fun name => ?_)
  simp only []
  refine truncating_bind truncating_ReadInt (fun dimsSize => ?_)
  simp only []
  refine truncating_bind (truncating_readDims _ _) (fun dims => ?_)
  simp only []
  refine truncating_bind truncating_ReadInt (fun tag => ?_)
  simp only []
  refine truncating_lift _ (fun dataType => ?_)
  refine truncating_lift _ (fun d => ?_)
  simp only [Bool.false_and, Bool.false_eq_true, if_false]
  refine truncating_lift _ (fun d1 => ?_)
  refine truncating_ite _ ?_ (truncating_ite _ ?_ (truncating_ok _))
  · refine truncating_lift _ (fun bytes => ?_)
    refine truncating_bind (truncating_ReadBytes _ _) (fun buf => ?_)
    simp only []
    exact truncating_ok _
  · refine truncating_bind truncating_ReadInt (fun axis => ?_)
    simp only []
    have hrest : ∀ k : Int, Truncating (fun (f : FileBuffer) =>
        if k < 0 then (ErrorInFastLLM : Except Fault (List (List Nat × WeightData) × FileBuffer))
        else do
          let (configs, f) ← fastllm.readConfigs (if dataType = .INT4 then 4 else 8) k.toNat [] f
          let bytes ← GetBytes d1
          let (buf, f) ← f.ReadBytes d1.cpuData bytes
          .ok (mapSet weight name
            { toData := { d1 with cpuData := buf }, perChannelAxis := axis,
              perChannelsConfigs := configs,
              zeros := configs.map (fun c => (c.zeroPoint : Int)),
              scales := configs.map (fun c => c.scale) }, f)) := by
      intro k
      refine truncating_ite _ (truncating_fail _) ?_
      refine truncating_bind (truncating_readConfigs _ _ _) (fun configs => ?_)
      simp only []
      refine truncating_lift _ (fun bytes => ?_)
      refine truncating_bind (truncating_ReadBytes _ _) (fun buf => ?_)
      simp only []
      exact truncating_ok _
    refine truncating_ite _ ?_ ?_
    · exact truncating_lift _ (fun k => hrest k)
    · exact truncating_lift _ (fun k => hrest k)

theorem truncating_loadWeights (emb : List (List Nat)) (fileName : List Nat) (n : Nat)
    (weight : List (List Nat × WeightData)) :
    Truncating (loadWeights false emb fileName n weight) := by
  induction n generalizing weight with
  | zero => exact truncating_ok weight
  | succ n ih =>
    show Truncating (fun f => fastllm.loadWeights false emb fileName (n + 1) weight f)
    simp only [fastllm.loadWeights]
    refine truncating_bind (truncating_loadWeight emb fileName weight) (fun weight1 => ?_)
    simp only []
    exact ih _

theorem truncating_loadFile (w : WeightMap) (fileName : List Nat) :
    Truncating (loadFile w false fileName) := by
  show Truncating (fun f => fastllm.loadFile w false fileName f)
  unfold fastllm.loadFile
  refine truncating_bind truncating_ReadInt (fun versionId => ?_)
  simp only []
  refine truncating_ite _ ?_ ?_
  · refine truncating_bind truncating_ReadInt (fun keyValueLen => ?_)
    simp only []
    refine truncating_bind (truncating_readDicts _ _) (fun dicts => ?_)
    simp only []
    refine truncating_bind truncating_ReadInt (fun vocabLen => ?_)
    simp only []
    refine truncating_bind (truncating_readVocab _ _) (fun tokenizer => ?_)
    simp only []
    refine truncating_bind truncating_ReadInt (fun len => ?_)
    simp only []
    refine truncating_bind (truncating_loadWeights _ _ _ _) (fun weight => ?_)
    simp only []
    exact truncating_ok _
  · refine truncating_bind (truncating_ok _) (fun dicts => ?_)
    simp only []
    refine truncating_bind truncating_ReadInt (fun vocabLen => ?_)
    simp only []
    refine truncating_bind (truncating_readVocab _ _) (fun tokenizer => ?_)
    simp only []
    refine truncating_bind truncating_ReadInt (fun len => ?_)
    simp only []
    refine truncating_bind (truncating_loadWeights _ _ _ _) (fun weight => ?_)
    simp only []
    exact truncating_ok _

/-- `LoadFromFile` is the body on the file opened at its start. -/
theorem LoadFromFile_eq_loadFile (w : WeightMap) (lowMemMode : Bool)
    (fileName content : List Nat) :
    LoadFromFile w lowMemMode fileName content
      = (loadFile w lowMemMode fileName { rest := content, pos := 0 }) >>= fun r => .ok r.1 := by
  unfold LoadFromFile loadFile
  simp only []
  cases h1 : FileBuffer.ReadInt { rest := content, pos := 0 } with
  | error e => rfl
  | ok r =>
    obtain ⟨versionId, f⟩ := r
    simp only [ok_bind]
    by_cases hv : versionId = 1
    · simp only [if_pos hv, bind_assoc, ok_bind]
    · simp only [if_neg hv, bind_assoc, ok_bind]

end fastllm

namespace fastllm

/-! ## Truncation is fatal -/

/-- Reads on a file that ends early. `ReadInt` and `ReadFloat` end in `ErrorInFastLLM`
when fewer than 4 bytes remain, `ReadString` when fewer bytes remain than the
length it has read (a length that is not negative), `ReadBytes` into a buffer
that holds the request when fewer bytes remain than requested. In normal mode,
when `LoadFromFile` returns on a file, the position `c` that it has reached is
within the file; on the file cut after `c` bytes or later it returns the same
`WeightMap`, and on the file cut anywhere before `c` it ends in
`ErrorInFastLLM`. -/
theorem LoadFromFile_truncation (w : WeightMap) (fileName content : List Nat) :
    (∀ f : FileBuffer, f.rest.length < 4 → f.ReadInt = .error .fatal)
      ∧ (∀ f : FileBuffer, f.rest.length < 4 → f.ReadFloat = .error .fatal)
      ∧ (∀ (f f1 : FileBuffer) (len : Int), f.ReadInt = .ok (len, f1) → 0 ≤ len →
          f1.rest.length < len.toNat → f.ReadString = .error .fatal)
      ∧ (∀ (f : FileBuffer) (b : Buffer) (bytes : Nat), bytes ≤ b.size →
          f.rest.length < bytes → f.ReadBytes (some b) bytes = .error .fatal)
      ∧ (faultOf (LoadFromFile w false fileName content) = none →
          ∃ w1 f1, loadFile w false fileName { rest := content, pos := 0 } = .ok (w1, f1)
            ∧ LoadFromFile w false fileName content = .ok w1
            ∧ f1.pos ≤ content.length
            ∧ ∀ L, (f1.pos ≤ L → LoadFromFile w false fileName (content.take L) = .ok w1)
              ∧ (L < f1.pos → LoadFromFile w false fileName (content.take L) = .error .fatal)) := by
  have hread : ∀ (f : FileBuffer) (n : Nat), f.rest.length < n → f.read n = .error .fatal := by
    intro f n h
    unfold FileBuffer.read
    rw [if_neg (by omega)]
    rfl
  refine ⟨?_, ?_, ?_, ?_, ?_⟩
  · intro f h
    unfold FileBuffer.ReadInt
    rw [hread f 4 h, error_bind]
  · intro f h
    unfold FileBuffer.ReadFloat
    rw [hread f 4 h, error_bind]
  · intro f f1 len h hlen hshort
    unfold FileBuffer.ReadString
    rw [h, ok_bind]
    simp only []
    rw [if_neg (by omega), hread f1 _ hshort, error_bind]
  · intro f b bytes hb hshort
    unfold FileBuffer.ReadBytes
    simp only []
    rw [if_neg (by omega), hread f _ hshort, error_bind]
  · intro h
    rw [LoadFromFile_eq_loadFile] at h
    cases hr : loadFile w false fileName { rest := content, pos := 0 } with
    | error e => rw [hr] at h; cases h
    | ok r =>
      obtain ⟨w1, f1⟩ := r
      obtain ⟨c, hc, hf1, hL⟩ := truncating_loadFile w fileName _ w1 f1 hr
      have hpos : f1.pos = c := by rw [hf1]; simp
      refine ⟨w1, f1, rfl, ?_, ?_, fun L => ⟨fun h1 => ?_, fun h1 => ?_⟩⟩
      · rw [LoadFromFile_eq_loadFile, hr, ok_bind]
      · rw [hpos]; exact hc
      · have := (hL L).1 (by omega)
        rw [LoadFromFile_eq_loadFile]
        simp only [FileBuffer.cut] at this
        rw [this, ok_bind]
      · have := (hL L).2 (by omega)
        rw [LoadFromFile_eq_loadFile]
        simp only [FileBuffer.cut] at this
        rw [this, error_bind]

/-- Examples: reads on files of 3, 3, 6 and 1 bytes that request 4, 4, 5
and 2 bytes; and the file of 37 bytes with one FLOAT32 record of 8 bytes of
payload, which `LoadFromFile` reads in normal mode. -/
theorem LoadFromFile_truncation_witness :
    FileBuffer.ReadInt { rest := [1, 2, 3], pos := 0 } = .error .fatal
      ∧ FileBuffer.ReadFloat { rest := [1, 2, 3], pos := 0 } = .error .fatal
      ∧ FileBuffer.ReadString { rest := [5, 0, 0, 0, 1, 2], pos := 0 } = .error .fatal
      ∧ FileBuffer.ReadBytes { rest := [1], pos := 0 } (some (Buffer.fresh 2)) 2 = .error .fatal
      ∧ ∃ w1 f1, loadFile WeightMap.empty false [102] { rest := exampleTaggedFile 0, pos := 0 }
          = .ok (w1, f1)
        ∧ LoadFromFile WeightMap.empty false [102] (exampleTaggedFile 0) = .ok w1
        ∧ f1.pos ≤ (exampleTaggedFile 0).length
        ∧ ∀ L, (f1.pos ≤ L →
              LoadFromFile WeightMap.empty false [102] ((exampleTaggedFile 0).take L) = .ok w1)
          ∧ (L < f1.pos →
              LoadFromFile WeightMap.empty false [102] ((exampleTaggedFile 0).take L)
                = .error .fatal) :=
  ⟨(LoadFromFile_truncation WeightMap.empty [102] (exampleTaggedFile 0)).1
      { rest := [1, 2, 3], pos := 0 } (by decide),
    (LoadFromFile_truncation WeightMap.empty [102] (exampleTaggedFile 0)).2.1
      { rest := [1, 2, 3], pos := 0 } (by decide),
    (LoadFromFile_truncation WeightMap.empty [102] (exampleTaggedFile 0)).2.2.1
      { rest := [5, 0, 0, 0, 1, 2], pos := 0 } { rest := [1, 2], pos := 4 } 5 rfl (by decide)
      (by decide),
    (LoadFromFile_truncation WeightMap.empty [102] (exampleTaggedFile 0)).2.2.2.1
      { rest := [1], pos := 0 } (Buffer.fresh 2) 2 (by decide) (by decide),
    (LoadFromFile_truncation WeightMap.empty [102] (exampleTaggedFile 0)).2.2.2.2 (by decide)⟩

end fastllm

namespace fastllm

/-! ## The save workers on a tensor of eight rows of one element -/

/-- The eight workers at 4 bits on `exampleOnes`: worker `i` has row `i`,
whose element has the code 15, and assigns byte `i / 2`. -/
theorem exampleWorkers_eq :
    exampleWorkers = .ok
      [{ todo := [{ id := 0, keep := 0xF, bits := 240 }] },
       { todo := [{ id := 0, keep := 0xF0, bits := 15 }] },
       { todo := [{ id := 1, keep := 0xF, bits := 240 }] },
       { todo := [{ id := 1, keep := 0xF0, bits := 15 }] },
       { todo := [{ id := 2, keep := 0xF, bits := 240 }] },
       { todo := [{ id := 2, keep := 0xF0, bits := 15 }] },
       { todo := [{ id := 3, keep := 0xF, bits := 240 }] },
       { todo := [{ id := 3, keep := 0xF0, bits := 15 }] }] :=
  ok_of_toOption _ _ (by decide!)

/-- The rows of `exampleOnes` quantised at 4 bits by the eight workers, one
after the other. -/
theorem exampleOnes_in_order :
    ((quantizeRows 4 exampleOnes.cpuData 8 1 ([0, 0, 0, 0], List.replicate 8 none)).toOption.map
        fun r => r.1) = some [255, 255, 255, 255] := by
  decide!

/-- C27, failing input. The tensor has 8 rows of one element `1.0`, saved at 4
bits: every code is 15, and rows `2 i` and `2 i + 1` share byte `i`. Each of
the eight workers has one row. Run one after the other, as a single worker
does the rows, they leave the bytes `0xFF, 0xFF, 0xFF, 0xFF`, and so does the
schedule in which each worker loads and stores before the next one starts.
Under the schedule in which workers 0 and 1 both load byte 0 before either
stores, every worker finishes and byte 0 is `0x0F`: the store of worker 0 is
lost. -/
theorem save_depends_on_schedule :
    ((quantizeRows 4 exampleOnes.cpuData 8 1 ([0, 0, 0, 0], List.replicate 8 none)).toOption.map
        fun r => r.1) = some [255, 255, 255, 255]
      ∧ ((forInt (quantizeRow 4 exampleOnes.cpuData 1) 8 0
          ([0, 0, 0, 0], List.replicate 8 none)).toOption.map fun r => r.1)
        = some [255, 255, 255, 255]
      ∧ (exampleWorkers.toOption.map fun ws => ws.map fun t => t.todo.map fun op => op.id)
        = some [[0], [0], [1], [1], [2], [2], [3], [3]]
      ∧ ((exampleWorkers.bind fun ws => runSchedule inTurn ws [0, 0, 0, 0]).toOption.map
          fun r => (r.1.map fun t => t.todo.length, r.2))
        = some ([0, 0, 0, 0, 0, 0, 0, 0], [255, 255, 255, 255])
      ∧ ((exampleWorkers.bind fun ws => runSchedule overlapped ws [0, 0, 0, 0]).toOption.map
          fun r => (r.1.map fun t => t.todo.length, r.2))
        = some ([0, 0, 0, 0, 0, 0, 0, 0], [15, 255, 255, 255]) := by
  have hsingle := quantizeRows_single 4 exampleOnes.cpuData 8 1
    ([0, 0, 0, 0], List.replicate 8 none)
  rw [Nat.cast_ofNat] at hsingle
  refine ⟨exampleOnes_in_order, ?_, ?_, ?_, ?_⟩
  · rw [← hsingle]
    exact exampleOnes_in_order
  · rw [exampleWorkers_eq]
    decide
  · rw [exampleWorkers_eq]
    decide
  · rw [exampleWorkers_eq]
    decide

/-- C28, failing input. For a tensor of shape `[8, 1]` at 4 bits, worker 0 has
row 0 and worker 1 has row 1, and both assign `u8[0]`: on the bytes
`0, 0, 0, 0`, worker 0 alone leaves byte 0 as `0xF0`, worker 1 alone leaves it
as `0x0F`. At 8 bits the two workers assign `u8[0]` and `u8[1]`. -/
theorem workers_share_byte :
    workerRows 8 0 = [0] ∧ workerRows 8 1 = [1]
      ∧ workerWrites 4 8 1 0 = [0] ∧ workerWrites 4 8 1 1 = [0]
      ∧ workerWrites 8 8 1 0 = [0] ∧ workerWrites 8 8 1 1 = [1]
      ∧ ((workerRound 4 exampleOnes.cpuData 8 1 0
          (0, [0, 0, 0, 0], List.replicate 8 none)).toOption.map fun r => (r.1, r.2.1))
        = some (1, [240, 0, 0, 0])
      ∧ ((workerRound 4 exampleOnes.cpuData 8 1 1
          (1, [0, 0, 0, 0], List.replicate 8 none)).toOption.map fun r => (r.1, r.2.1))
        = some (2, [15, 0, 0, 0]) := by
  refine ⟨by decide, by decide, by decide, by decide, by decide, by decide, by decide!,
    by decide!⟩

end fastllm

namespace fastllm

/-! ## `CopyFrom` into a new destination -/

theorem UpdateUnitSize_unit_congr (a b : Data) (h : a.dataType = b.dataType) :
    (UpdateUnitSize a).unitSize = (UpdateUnitSize b).unitSize
      ∧ (UpdateUnitSize a).unitSizeDiv = (UpdateUnitSize b).unitSizeDiv := by
  unfold UpdateUnitSize
  rw [h]
  cases b.dataType <;> exact ⟨rfl, rfl⟩

theorem UpdateUnitSize_dataType (d : Data) : (UpdateUnitSize d).dataType = d.dataType := by
  unfold UpdateUnitSize; cases d.dataType <;> rfl

theorem UpdateUnitSize_dataDevice (d : Data) : (UpdateUnitSize d).dataDevice = d.dataDevice := by
  unfold UpdateUnitSize; cases d.dataType <;> rfl

theorem UpdateUnitSize_expansionSize (d : Data) :
    (UpdateUnitSize d).expansionSize = d.expansionSize := by
  unfold UpdateUnitSize; cases d.dataType <;> rfl

theorem UpdateUnitSize_div_ne (d : Data) : toU64 (UpdateUnitSize d).unitSizeDiv ≠ 0 := by
  unfold UpdateUnitSize
  cases d.dataType <;> (simp only []; decide)

/-- `GetBytes` reads the shape, the strides and the unit size only. -/
theorem GetBytes_congr (d d1 : Data) (h1 : d1.dims = d.dims) (h2 : d1.strides = d.strides)
    (h3 : d1.unitSize = d.unitSize) (h4 : d1.unitSizeDiv = d.unitSizeDiv) :
    GetBytes d1 = GetBytes d := by
  unfold GetBytes
  rw [h1, h2, h3, h4]

/-- The bytes that `MallocSpace` allots for `Count (0)` elements are those that
`GetBytes` reports. -/
theorem GetBytes_of_Count (d : Data) (c bytes : Nat) (hc : Count d 0 = .ok c)
    (hb : GetBytes d = .ok bytes) (hne : d.dims ≠ []) :
    addU64 (subU64 (mulU64 c (toU64 d.unitSize)) 1 / toU64 d.unitSizeDiv) 1 = bytes := by
  obtain ⟨x, xs, hd⟩ := List.exists_cons_of_ne_nil hne
  unfold Count at hc
  unfold GetBytes at hb
  rw [hd, toU64_zero, if_neg (by simp), if_neg (by intro h; omega)] at hc
  rw [hd] at hb
  cases hs : d.strides with
  | nil => rw [hs] at hb; simp [at?, bind, Except.bind] at hb
  | cons s ss =>
    rw [hs] at hb hc
    simp only [at?, List.getElem?_cons_zero, bind, Except.bind] at hb hc
    replace hc := Except.ok.inj hc
    by_cases hz : toU64 d.unitSizeDiv = 0
    · rw [if_pos hz] at hb; cases hb
    · rw [if_neg hz] at hb
      have hb1 := Except.ok.inj hb
      have hcs : c = mulU64 s (toU64 x) := by
        rw [← hc]; unfold mulU64; rw [Nat.mul_comm]
      subst hcs
      exact hb1

/-- `CopyFrom` into a destination on the host that has no buffer, no capacity
and no reservation, from a source with a shape whose unit size is that of its
kind and whose buffer holds `GetBytes ()` bytes, at least one element: the
destination takes the kind, the shape and the strides of the source and a new
buffer of `GetBytes ()` bytes, which are those of the source. -/
theorem CopyFrom_fresh (d ori : Data) (src : Buffer) (c bytes : Nat)
    (hdev : d.dataDevice = .CPU) (hbuf : d.cpuData = none) (hcap : d.expansionSize = 0)
    (hres : d.expansionDims = []) (hne : ori.dims ≠ []) (hsrc : ori.cpuData = some src)
    (hkind : UpdateUnitSize ori = ori) (hrow : ori.strides = strideList ori.dims)
    (hc : Count ori 0 = .ok c) (hpos : 0 < c) (hb : GetBytes ori = .ok bytes)
    (hfit : bytes ≤ src.size) :
    ∃ d1 b, CopyFrom d ori = .ok d1 ∧ d1.dataType = ori.dataType ∧ d1.dims = ori.dims
      ∧ d1.strides = ori.strides ∧ GetBytes d1 = .ok bytes ∧ d1.cpuData = some b
      ∧ b.size = bytes ∧ ∀ p, p < bytes → b.byte p = src.byte p := by
  obtain ⟨d1, hR, hdims, hstr, hunit, hdiv, hty, hdev1, hcap1, hdne⟩ :
      ∃ d1, Resize { d with dataType := ori.dataType } ori.dims = .ok d1 ∧ d1.dims = ori.dims
        ∧ d1.strides = ori.strides ∧ d1.unitSize = ori.unitSize
        ∧ d1.unitSizeDiv = ori.unitSizeDiv ∧ d1.dataType = ori.dataType
        ∧ d1.dataDevice = .CPU ∧ d1.expansionSize = 0 ∧ toU64 d1.unitSizeDiv ≠ 0 := by
    have hu := UpdateUnitSize_unit_congr { d with dataType := ori.dataType, dims := ori.dims }
      ori rfl
    rw [hkind] at hu
    refine ⟨_, Resize_ok_of_no_reservation { d with dataType := ori.dataType } ori.dims hres hne,
      UpdateUnitSize_dims _, hrow.symm, hu.1, hu.2, UpdateUnitSize_dataType _, ?_, ?_,
      UpdateUnitSize_div_ne _⟩
    · rw [← hdev]; exact UpdateUnitSize_dataDevice _
    · rw [← hcap]; exact UpdateUnitSize_expansionSize _
  have hc1 : Count d1 0 = .ok c := by
    rw [← hc]
    exact Count_congr _ _ 0 hdims hstr
  have hb1 : GetBytes d1 = .ok bytes := by
    rw [← hb]
    exact GetBytes_congr _ _ hdims hstr hunit hdiv
  have hA := Allocate_fresh d1 c hdev1 hdne hc1 (by omega)
  rw [GetBytes_of_Count d1 c bytes hc1 hb1 (by rw [hdims]; exact hne)] at hA
  have hb2 : GetBytes
      { d1 with
        expansionSize := c, expansionBytes := bytes,
        cpuData := some (Buffer.fresh bytes) } = .ok bytes := by
    rw [← hb1]
    exact GetBytes_congr _ _ rfl rfl rfl rfl
  have hcopy : CopyFrom d ori = .ok
      { d1 with
        expansionSize := c, expansionBytes := bytes,
        cpuData := some { Buffer.fresh bytes with
          byte := fun p => if p < bytes then src.byte p else (Buffer.fresh bytes).byte p } } := by
    unfold CopyFrom
    rw [if_pos (Or.inr (by rw [hbuf]; rfl)), if_neg (by
      intro h; exact hne (List.length_eq_zero.mp h)), hR, ok_bind, hA, ok_bind]
    unfold copyContent
    rw [hb2, ok_bind]
    unfold copyHost
    simp only [hsrc]
    rw [memcpy_zero (Buffer.fresh bytes) src bytes (le_refl _) hfit, ok_bind, ok_bind]
  refine ⟨_, _, hcopy, hty, hdims, hstr, ?_, rfl, rfl, ?_⟩
  · rw [← hb1]
    exact GetBytes_congr _ _ rfl rfl rfl rfl
  · intro p hp
    simp only [if_pos hp]

/-- `CopyFrom` of the FLOAT32 tensor of shape `[2, 3]` into `Data (INT8)`: the
destination becomes FLOAT32 of shape `[2, 3]` with the 24 bytes of the source. -/
theorem CopyFrom_fresh_example :
    ∃ d1 b, CopyFrom (Data.ofType .INT8) (exampleFloats [2, 3]) = .ok d1
      ∧ d1.dataType = (exampleFloats [2, 3]).dataType ∧ d1.dims = (exampleFloats [2, 3]).dims
      ∧ d1.strides = (exampleFloats [2, 3]).strides ∧ GetBytes d1 = .ok 24
      ∧ d1.cpuData = some b ∧ b.size = 24
      ∧ ∀ p, p < 24 → b.byte p = (Buffer.ofList ((List.range 24).map fun (p : Nat) => 101 + p)).byte p :=
  CopyFrom_fresh (Data.ofType .INT8) (exampleFloats [2, 3])
    (Buffer.ofList ((List.range 24).map fun (p : Nat) => 101 + p)) 6 24 rfl rfl rfl rfl (by decide) rfl
    rfl (by decide) rfl (by decide) rfl (by decide)

end fastllm

namespace fastllm

/-! ## The rows and the bytes of the save workers -/

/-- A row of worker `a` lies between the start and the end of the worker. -/
theorem mem_workerRows (K : Nat) (a r : Int) (h : r ∈ workerRows (K : Int) a) :
    a * ((K / 8 : Nat) : Int) ≤ r
      ∧ r < (if a = 7 then (K : Int) else a * ((K / 8 : Nat) : Int) + ((K / 8 : Nat) : Int)) := by
  have hper : Int.tdiv (K : Int) 8 = ((K / 8 : Nat) : Int) := by
    rw [Int.tdiv_eq_ediv (Int.ofNat_nonneg K) (by norm_num)]
    norm_cast
  unfold workerRows at h
  rw [hper, List.mem_map] at h
  obtain ⟨t, ht, rfl⟩ := h
  rw [List.mem_range] at ht
  by_cases h7 : a = 7
  · rw [if_pos h7] at ht ⊢
    omega
  · rw [if_neg h7] at ht ⊢
    omega

/-- The rows of an earlier worker come before the rows of a later one. -/
theorem workerRows_lt (K a b : Nat) (hab : a < b) (hb : b < 8) (r s : Int)
    (hr : r ∈ workerRows (K : Int) (a : Int)) (hs : s ∈ workerRows (K : Int) (b : Int)) :
    r < s := by
  obtain ⟨-, h2⟩ := mem_workerRows K a r hr
  obtain ⟨h3, -⟩ := mem_workerRows K b s hs
  rw [if_neg (by omega)] at h2
  have h4 : ((a : Int) + 1) * ((K / 8 : Nat) : Int) ≤ (b : Int) * ((K / 8 : Nat) : Int) :=
    mul_le_mul_of_nonneg_right (by omega) (by omega)
  have h5 : ((a : Int) + 1) * ((K / 8 : Nat) : Int)
      = (a : Int) * ((K / 8 : Nat) : Int) + ((K / 8 : Nat) : Int) := by ring
  omega

/-- The rows of two workers are distinct. -/
theorem workerRows_disjoint (K a b : Nat) (hab : a ≠ b) (ha : a < 8) (hb : b < 8) (r : Int)
    (hr : r ∈ workerRows (K : Int) (a : Int)) : r ∉ workerRows (K : Int) (b : Int) := by
  intro hs
  rcases Nat.lt_or_gt_of_ne hab with h | h
  · exact absurd (workerRows_lt K a b h hb r r hr hs) (lt_irrefl _)
  · exact absurd (workerRows_lt K b a h ha r r hs hr) (lt_irrefl _)

/-- At 8 bits a byte index that a worker assigns for a row tells the row. -/
theorem rowWrites_eight_inj (M : Nat) (r s x : Int) (hr : x ∈ rowWrites 8 (M : Int) r)
    (hs : x ∈ rowWrites 8 (M : Int) s) : r = s := by
  unfold rowWrites at hr hs
  rw [List.mem_map] at hr hs
  obtain ⟨j, hj, hjx⟩ := hr
  obtain ⟨i, hi, hix⟩ := hs
  rw [List.mem_range, Int.toNat_ofNat] at hj hi
  rw [if_pos rfl] at hjx hix
  by_contra hne
  rcases lt_or_gt_of_ne hne with h | h
  · have h1 : (r + 1) * (M : Int) ≤ s * (M : Int) :=
      mul_le_mul_of_nonneg_right (by omega) (by omega)
    have h2 : (r + 1) * (M : Int) = r * (M : Int) + (M : Int) := by ring
    omega
  · have h1 : (s + 1) * (M : Int) ≤ r * (M : Int) :=
      mul_le_mul_of_nonneg_right (by omega) (by omega)
    have h2 : (s + 1) * (M : Int) = s * (M : Int) + (M : Int) := by ring
    omega

/-- At 8 bits the bytes that two workers assign are distinct, for every
shape `[K, M]`. -/
theorem workerWrites_eight_disjoint (K M a b : Nat) (hab : a ≠ b) (ha : a < 8) (hb : b < 8)
    (x : Int) (hx : x ∈ workerWrites 8 (K : Int) (M : Int) (a : Int)) :
    x ∉ workerWrites 8 (K : Int) (M : Int) (b : Int) := by
  intro hy
  unfold workerWrites at hx hy
  rw [List.mem_flatMap] at hx hy
  obtain ⟨r, hr, hxr⟩ := hx
  obtain ⟨s, hs, hxs⟩ := hy
  have := rowWrites_eight_inj M r s x hxr hxs
  subst this
  exact workerRows_disjoint K a b hab ha hb r hr hs

/-- At 4 bits and with rows of an even number of elements a byte index that a
worker assigns for a row tells the row. -/
theorem rowWrites_four_even_inj (H : Nat) (r s x : Int) (hr0 : 0 ≤ r) (hs0 : 0 ≤ s)
    (hr : x ∈ rowWrites 4 ((2 * H : Nat) : Int) r)
    (hs : x ∈ rowWrites 4 ((2 * H : Nat) : Int) s) : r = s := by
  unfold rowWrites at hr hs
  rw [List.mem_map] at hr hs
  obtain ⟨j, hj, hjx⟩ := hr
  obtain ⟨i, hi, hix⟩ := hs
  rw [List.mem_range, Int.toNat_ofNat] at hj hi
  rw [if_neg (by decide)] at hjx hix
  have er : r * ((2 * H : Nat) : Int) = 2 * (r * (H : Int)) := by push_cast; ring
  have es : s * ((2 * H : Nat) : Int) = 2 * (s * (H : Int)) := by push_cast; ring
  have hrH : 0 ≤ r * (H : Int) := mul_nonneg hr0 (by omega)
  have hsH : 0 ≤ s * (H : Int) := mul_nonneg hs0 (by omega)
  rw [er, Int.tdiv_eq_ediv (by omega) (by norm_num)] at hjx
  rw [es, Int.tdiv_eq_ediv (by omega) (by norm_num)] at hix
  by_contra hne
  rcases lt_or_gt_of_ne hne with h | h
  · have h1 : (r + 1) * (H : Int) ≤ s * (H : Int) :=
      mul_le_mul_of_nonneg_right (by omega) (by omega)
    have h2 : (r + 1) * (H : Int) = r * (H : Int) + (H : Int) := by ring
    omega
  · have h1 : (s + 1) * (H : Int) ≤ r * (H : Int) :=
      mul_le_mul_of_nonneg_right (by omega) (by omega)
    have h2 : (s + 1) * (H : Int) = s * (H : Int) + (H : Int) := by ring
    omega

/-- At 4 bits the bytes that two workers assign are distinct when the rows
have an even number of elements. -/
theorem workerWrites_four_even_disjoint (K H a b : Nat) (hab : a ≠ b) (ha : a < 8) (hb : b < 8)
    (x : Int) (hx : x ∈ workerWrites 4 (K : Int) ((2 * H : Nat) : Int) (a : Int)) :
    x ∉ workerWrites 4 (K : Int) ((2 * H : Nat) : Int) (b : Int) := by
  intro hy
  unfold workerWrites at hx hy
  rw [List.mem_flatMap] at hx hy
  obtain ⟨r, hr, hxr⟩ := hx
  obtain ⟨s, hs, hxs⟩ := hy
  have hr0 : 0 ≤ r := le_trans (mul_nonneg (by omega) (by omega)) (mem_workerRows K a r hr).1
  have hs0 : 0 ≤ s := le_trans (mul_nonneg (by omega) (by omega)) (mem_workerRows K b s hs).1
  have := rowWrites_four_even_inj H r s x hr0 hs0 hxr hxs
  subst this
  exact workerRows_disjoint K a b hab ha hb r hr hs

/-- The rows of the eight workers, in the order of the workers, are the rows
`0 .. K - 1`, each once. -/
theorem workerRows_cover (K : Nat) :
    (List.range 8).flatMap (fun (a : Nat) => workerRows (K : Int) (a : Int))
      = (List.range K).map fun (t : Nat) => (t : Int) := by
  have hper : Int.tdiv (K : Int) 8 = ((K / 8 : Nat) : Int) := by
    rw [Int.tdiv_eq_ediv (Int.ofNat_nonneg K) (by norm_num)]
    norm_cast
  have hrows : ∀ a : Nat, workerRows (K : Int) (a : Int)
      = (List.range' (a * (K / 8)) (if a = 7 then K - 7 * (K / 8) else K / 8)).map
          fun (t : Nat) => (t : Int) := by
    intro a
    unfold workerRows
    rw [hper, List.range'_eq_map_range, List.map_map]
    have hn : (((if (a : Int) = 7 then (K : Int)
        else (a : Int) * ((K / 8 : Nat) : Int) + ((K / 8 : Nat) : Int))
          - (a : Int) * ((K / 8 : Nat) : Int)).toNat)
        = (if a = 7 then K - 7 * (K / 8) else K / 8) := by
      by_cases h7 : a = 7
      · subst h7
        simp only [if_true, Nat.cast_ofNat]
        omega
      · have h7i : ¬ (a : Int) = 7 := by omega
        rw [if_neg h7, if_neg h7i]
        omega
    simp only []
    rw [hn]
    apply List.map_congr_left
    intro t _
    simp only [Function.comp]
    push_cast
    ring
  have h8 : List.range 8 = [0, 1, 2, 3, 4, 5, 6, 7] := by decide
  rw [h8]
  simp only [List.flatMap_cons, List.flatMap_nil, List.append_nil, hrows]
  simp only [← List.map_append]
  congr 1
  have key : ∀ s m n, List.range' s m ++ List.range' (s + m) n = List.range' s (m + n) := by
    intro s m n
    rw [List.range'_append_1, Nat.add_comm]
  have hq : K = 7 * (K / 8) + (K - 7 * (K / 8)) := by omega
  generalize K - 7 * (K / 8) = q at hq ⊢
  generalize K / 8 = p at hq ⊢
  simp only [if_true, if_neg (show ¬ (0 = 7) by decide), if_neg (show ¬ (1 = 7) by decide),
    if_neg (show ¬ (2 = 7) by decide), if_neg (show ¬ (3 = 7) by decide),
    if_neg (show ¬ (4 = 7) by decide), if_neg (show ¬ (5 = 7) by decide),
    if_neg (show ¬ (6 = 7) by decide)]
  rw [show 7 * p = 6 * p + p by ring, key, show 6 * p = 5 * p + p by ring, key,
    show 5 * p = 4 * p + p by ring, key, show 4 * p = 3 * p + p by ring, key,
    show 3 * p = 2 * p + p by ring, key, show 2 * p = 1 * p + p by ring, key,
    show 1 * p = 0 * p + p by ring, key, List.range_eq_range']
  congr 1
  · ring
  · omega

end fastllm

namespace fastllm

/-! ## The invariant of the capacity -/

theorem Backed_ofType (t : DataType) : Backed (Data.ofType t) := by
  intro h
  have : (Data.ofType t).expansionSize = 0 := UpdateUnitSize_expansionSize _
  omega

theorem UpdateUnitSize_expansionBytes (d : Data) :
    (UpdateUnitSize d).expansionBytes = d.expansionBytes := by
  unfold UpdateUnitSize; cases d.dataType <;> rfl

theorem Backed_congr (d d1 : Data) (h1 : d1.expansionSize = d.expansionSize)
    (h2 : d1.expansionBytes = d.expansionBytes) (h3 : d1.cpuData = d.cpuData) (h : Backed d) :
    Backed d1 := by
  intro hp
  rw [h1] at hp
  obtain ⟨b, hb, hs⟩ := h hp
  exact ⟨b, by rw [h3, hb], by rw [h2, hs]⟩

theorem Backed_Resize (d d1 : Data) (dims : List Int) (hr : Resize d dims = .ok d1)
    (h : Backed d) : Backed d1 := by
  have e1 : (UpdateUnitSize { d with dims := dims }).expansionSize = d.expansionSize :=
    UpdateUnitSize_expansionSize _
  have e2 : (UpdateUnitSize { d with dims := dims }).expansionBytes = d.expansionBytes :=
    UpdateUnitSize_expansionBytes _
  have e3 : (UpdateUnitSize { d with dims := dims }).cpuData = d.cpuData :=
    UpdateUnitSize_cpuData _
  unfold Resize at hr
  simp only [] at hr
  split at hr
  · split at hr
    · cases hr
    · have := Except.ok.inj hr
      subst this
      exact Backed_congr d _ e1 e2 e3 h
  · have := Except.ok.inj hr
    subst this
    exact Backed_congr d _ e1 e2 e3 h

theorem Backed_MallocSpace (d d1 : Data) (size : Nat) (hm : MallocSpace d size = .ok d1) :
    Backed d1 := by
  rw [MallocSpace_fields d d1 size hm]
  intro _
  exact ⟨_, rfl, rfl⟩

theorem Backed_Allocate (d d1 : Data) (ha : Allocate d = .ok d1) (h : Backed d) : Backed d1 := by
  unfold Allocate at ha
  cases hc : Count d 0 with
  | error e => rw [hc] at ha; cases ha
  | ok c =>
    rw [hc, ok_bind] at ha
    by_cases hlt : c > d.expansionSize
    · rw [if_pos hlt] at ha
      cases hf : FreeSpace d with
      | error e => rw [hf] at ha; cases ha
      | ok d2 =>
        rw [hf, ok_bind] at ha
        cases hc2 : Count d2 0 with
        | error e => rw [hc2] at ha; cases ha
        | ok c2 =>
          rw [hc2, ok_bind] at ha
          exact Backed_MallocSpace d2 d1 c2 ha
    · rw [if_neg hlt] at ha
      have := Except.ok.inj ha
      subst this
      exact h

theorem memcpy_size (dst src out : Buffer) (dOff sOff : Int) (n : Nat)
    (h : memcpy dst dOff src sOff n = .ok out) : out.size = dst.size := by
  unfold memcpy at h
  split at h
  · have := Except.ok.inj h
    subst this
    rfl
  · cases h

theorem Backed_copyContent (d ori d1 : Data) (hc : copyContent d ori = .ok d1) (h : Backed d) :
    Backed d1 := by
  unfold copyContent at hc
  cases hg : GetBytes d with
  | error e => rw [hg] at hc; cases hc
  | ok n =>
    rw [hg, ok_bind] at hc
    unfold copyHost at hc
    cases hd : d.cpuData with
    | none => rw [hd] at hc; cases hc
    | some b =>
      cases ho : ori.cpuData with
      | none => rw [hd, ho] at hc; cases hc
      | some s =>
        rw [hd, ho] at hc
        simp only [] at hc
        cases hm : memcpy b 0 s 0 n with
        | error e => rw [hm] at hc; cases hc
        | ok out =>
          rw [hm, ok_bind, ok_bind] at hc
          have := Except.ok.inj hc
          subst this
          intro hp
          obtain ⟨b1, hb1, hs1⟩ := h hp
          rw [hd] at hb1
          have := Option.some.inj hb1
          subst this
          exact ⟨out, rfl, by rw [memcpy_size _ _ _ _ _ _ hm]; exact hs1⟩

/-- The invariant of the capacity holds for a new tensor and is kept by
`Resize`, by `Allocate`, and by `CopyFrom` from a source that has a shape. -/
theorem Backed_kept (d : Data) (h : Backed d) :
    (∀ t, Backed (Data.ofType t))
      ∧ (∀ dims d1, Resize d dims = .ok d1 → Backed d1)
      ∧ (∀ d1, Allocate d = .ok d1 → Backed d1)
      ∧ (∀ ori d1, ori.dims ≠ [] → CopyFrom d ori = .ok d1 → Backed d1) := by
  refine ⟨Backed_ofType, fun dims d1 hr => Backed_Resize d d1 dims hr h,
    fun d1 ha => Backed_Allocate d d1 ha h, ?_⟩
  intro ori d1 hne hc
  unfold CopyFrom at hc
  by_cases hcond : ori.dims ≠ d.dims ∨ d.cpuData.isNone = true
  · rw [if_pos hcond, if_neg (by intro hz; exact hne (List.length_eq_zero.mp hz))] at hc
    cases hr : Resize { d with dataType := ori.dataType } ori.dims with
    | error e => rw [hr] at hc; cases hc
    | ok d2 =>
      rw [hr, ok_bind] at hc
      cases ha : Allocate d2 with
      | error e => rw [ha] at hc; cases hc
      | ok d3 =>
        rw [ha, ok_bind] at hc
        have h2 : Backed d2 :=
          Backed_Resize _ d2 ori.dims hr (Backed_congr d _ rfl rfl rfl h)
        exact Backed_copyContent d3 ori d1 hc (Backed_Allocate d2 d3 ha h2)
  · rw [if_neg hcond] at hc
    exact Backed_copyContent d ori d1 hc h

end fastllm

namespace fastllm

/-! ## `CalcWeightSum` on INT8 tensors -/

/-- A byte of the buffer that holds the codes. -/
theorem byteAt_some (b : Buffer) (u8 : List Nat) (N p : Nat) (hsz : N ≤ b.size)
    (hbyte : ∀ q, q < N → b.byte q = u8[q]?) (hlen : u8.length = N) (hp : p < N) :
    byteAt (some b) (p : Int) = .ok (u8.getD p 0) := by
  unfold byteAt
  simp only [Int.toNat_ofNat]
  rw [if_pos ⟨by omega, by omega⟩, hbyte p hp]
  have hp2 : p < u8.length := by omega
  rw [List.getD_eq_getElem _ _ hp2, List.getElem?_eq_getElem hp2]

/-- The loop over `j` for row `i` of an INT8 tensor adds the codes of the row
to `weightSum[i]` and leaves the other sums. -/
theorem sumRow8_eq (b : Buffer) (u8 : List Nat) (n m i : Nat) (ws : List Int)
    (hsz : n * m ≤ b.size) (hbyte : ∀ q, q < n * m → b.byte q = u8[q]?)
    (hlen : u8.length = n * m) (hlt : ∀ v ∈ u8, v < 256) (hnm : n * m < 2 ^ 31)
    (hm : 255 * m < 2 ^ 31) (hi : i < n) (hws : ws.length = n) (h0 : ws[i]? = some 0) :
    ∃ ws1, sumRow8 (some b) (m : Int) (i : Int) ws = .ok ws1 ∧ ws1.length = n
      ∧ ws1[i]? = some (rowCodeSum .INT8 u8 m i) ∧ ∀ k, k ≠ i → ws1[k]? = ws[k]? := by
  have him : i * m + m ≤ n * m := by
    calc i * m + m = (i + 1) * m := by ring
      _ ≤ n * m := Nat.mul_le_mul_right m (by omega)
  obtain ⟨ws1, hrun, hl, hv, hb, hk⟩ := forInt_inv
    (fun j (ws : List Int) => do
      let b ← byteAt (some b) (← addInt (← mulInt (i : Int) (m : Int)) j)
      addAt ws (i : Int) b)
    (fun t ws1 => ws1.length = n
      ∧ ws1[i]? = some (((List.range t).map
          fun (j : Nat) => (((rawCode .INT8 u8 (i * m + j)).getD 0 : Nat) : Int)).sum)
      ∧ ((List.range t).map
          fun (j : Nat) => (((rawCode .INT8 u8 (i * m + j)).getD 0 : Nat) : Int)).sum
          ≤ 255 * (t : Int)
      ∧ ∀ k, k ≠ i → ws1[k]? = ws[k]?)
    m 0 ws ⟨hws, by simpa using h0, by simp, fun _ _ => rfl⟩ (by
      intro t ht s ⟨hsl, hsv, hsb, hsk⟩
      have hp : i * m + t < n * m := by omega
      have e1 : mulInt (i : Int) (m : Int) = .ok ((i * m : Nat) : Int) := by
        unfold mulInt
        rw [if_pos (by unfold IsInt32; constructor <;> push_cast <;> nlinarith)]
        push_cast
        rfl
      have e2 : addInt ((i * m : Nat) : Int) (0 + (t : Int)) = .ok ((i * m + t : Nat) : Int) := by
        unfold addInt
        rw [if_pos (by unfold IsInt32; constructor <;> push_cast <;> omega)]
        push_cast
        rw [zero_add]
      have hv256 : u8.getD (i * m + t) 0 < 256 := by
        have hp2 : i * m + t < u8.length := by omega
        rw [List.getD_eq_getElem _ _ hp2]
        exact hlt _ (List.getElem_mem _)
      have hsum0 : 0 ≤ ((List.range t).map
          fun (j : Nat) => (((rawCode .INT8 u8 (i * m + j)).getD 0 : Nat) : Int)).sum := by
        apply List.sum_nonneg
        intro x hx
        rw [List.mem_map] at hx
        obtain ⟨j, -, rfl⟩ := hx
        exact Int.ofNat_nonneg _
      have hget : s.getD i 0 = ((List.range t).map
          fun (j : Nat) => (((rawCode .INT8 u8 (i * m + j)).getD 0 : Nat) : Int)).sum := by
        rw [List.getD_eq_getElem?_getD, hsv]
        rfl
      have hraw : (rawCode .INT8 u8 (i * m + t)).getD 0 = u8.getD (i * m + t) 0 := by
        unfold rawCode
        rw [if_neg (by decide), List.getD_eq_getElem?_getD]
      refine ⟨s.set i (s.getD i 0 + ((u8.getD (i * m + t) 0 : Nat) : Int)), ?_, ?_, ?_, ?_, ?_⟩
      · simp only []
        rw [e1, ok_bind, e2, ok_bind, byteAt_some b u8 (n * m) _ hsz hbyte hlen hp, ok_bind]
        unfold addAt
        simp only [Int.toNat_ofNat]
        rw [if_pos ⟨by omega, by omega⟩]
        unfold addInt
        rw [if_pos (by
          unfold IsInt32
          rw [hget]
          constructor <;> omega), ok_bind]
      · rw [List.length_set]; exact hsl
      · rw [List.getElem?_set_self (by omega), List.range_succ, List.map_append, List.sum_append,
          hget]
        simp only [List.map_cons, List.map_nil, List.sum_cons, List.sum_nil, add_zero, hraw]
      · rw [List.range_succ, List.map_append, List.sum_append]
        simp only [List.map_cons, List.map_nil, List.sum_cons, List.sum_nil, add_zero, hraw]
        push_cast
        omega
      · intro k hk
        rw [List.getElem?_set_ne (by omega)]
        exact hsk k hk)
  exact ⟨ws1, hrun, hl, hv, hk⟩

/-- `CalcWeightSum` on an INT8 tensor of shape `[n, m]` with an empty
`weightSum`, whose buffer holds the `n * m` codes `u8` (fewer than `2 ^ 31`,
and `255 * m` below `2 ^ 31`): `weightSum[i]` becomes the sum of the codes of
row `i`, for every row. -/
theorem CalcWeightSum_int8 (d : WeightData) (b : Buffer) (u8 : List Nat) (n m : Nat)
    (hk : d.dataType = .INT8) (hd : d.dims = [(n : Int), (m : Int)]) (hw : d.weightSum = [])
    (hb : d.cpuData = some b) (hsz : n * m ≤ b.size)
    (hbyte : ∀ q, q < n * m → b.byte q = u8[q]?) (hlen : u8.length = n * m)
    (hlt : ∀ v ∈ u8, v < 256) (hnm : n * m < 2 ^ 31) (hm : 255 * m < 2 ^ 31) :
    CalcWeightSum d
      = .ok { d with weightSum := (List.range n).map (rowCodeSum .INT8 u8 m) } := by
  obtain ⟨ws, hrun, hl, hv⟩ := forInt_inv (sumRow8 (some b) (m : Int))
    (fun t (ws : List Int) => ws.length = n
      ∧ ∀ k, k < n → ws[k]? = some (if k < t then rowCodeSum .INT8 u8 m k else 0))
    n 0 (List.replicate n 0)
    ⟨List.length_replicate _ _, fun k hk => by
      rw [List.getElem?_replicate, if_pos hk]
      simp⟩
    (by
      intro t ht s ⟨hsl, hsv⟩
      have h0 : s[t]? = some 0 := by
        rw [hsv t ht, if_neg (lt_irrefl _)]
      obtain ⟨ws1, hrun, hl1, hv1, hk1⟩ :=
        sumRow8_eq b u8 n m t s hsz hbyte hlen hlt hnm hm ht hsl h0
      refine ⟨ws1, by rw [zero_add]; exact hrun, hl1, fun k hk => ?_⟩
      by_cases hkt : k = t
      · subst hkt
        rw [hv1, if_pos (by omega)]
      · rw [hk1 k hkt, hsv k hk]
        by_cases hlt2 : k < t
        · rw [if_pos hlt2, if_pos (by omega)]
        · rw [if_neg hlt2, if_neg (by omega)])
  have hws : ws = (List.range n).map (rowCodeSum .INT8 u8 m) := by
    apply List.ext_getElem?
    intro k
    by_cases hk2 : k < n
    · rw [hv k hk2, if_pos hk2, List.getElem?_map, List.getElem?_range hk2]
      rfl
    · rw [List.getElem?_eq_none (by omega), List.getElem?_eq_none (by simp; omega)]
  unfold CalcWeightSum
  rw [if_neg (by rw [hw]; simp), hd]
  have e0 : at? [(n : Int), (m : Int)] 0 = .ok (n : Int) := by simp [at?]
  have e1 : at? [(n : Int), (m : Int)] 1 = .ok (m : Int) := by simp [at?]
  rw [e0, ok_bind, e1, ok_bind, if_pos hk, if_neg (by omega), Int.toNat_ofNat, hb, hrun, ok_bind,
    hws]

/-- `CalcWeightSum` on the INT8 tensor of shape `[2, 3]` with the bytes 1 to 6:
the sums are those of the rows `1, 2, 3` and `4, 5, 6`. -/
theorem CalcWeightSum_int8_example :
    CalcWeightSum { toData := exampleBytes }
        = .ok { toData := exampleBytes,
                weightSum := (List.range 2).map (rowCodeSum .INT8 [1, 2, 3, 4, 5, 6] 3) }
      ∧ (List.range 2).map (rowCodeSum .INT8 [1, 2, 3, 4, 5, 6] 3) = [6, 15] :=
  ⟨CalcWeightSum_int8 { toData := exampleBytes } (Buffer.ofList [1, 2, 3, 4, 5, 6])
      [1, 2, 3, 4, 5, 6] 2 3 rfl rfl rfl rfl (by decide) (fun _ _ => rfl) rfl (by decide)
      (by decide) (by decide), by decide⟩

end fastllm

namespace fastllm

/-! ## The axis that `Expansion` selects -/

/-- The search loop returns `-1` or a position of the shape. -/
theorem expansionAxis_cases (cs rs : List Int) (i : Int) :
    expansionAxis cs rs i = -1
      ∨ (i ≤ expansionAxis cs rs i ∧ expansionAxis cs rs i < i + cs.length) := by
  induction cs generalizing rs i with
  | nil => left; rfl
  | cons c cs ih =>
    cases rs with
    | nil => left; rfl
    | cons r rs =>
      rw [expansionAxis]
      by_cases h : c < r
      · rw [if_pos h]
        right
        simp only [List.length_cons, Nat.cast_add, Nat.cast_one]
        omega
      · rw [if_neg h]
        rcases ih rs (i + 1) with h1 | h1
        · left; exact h1
        · right
          simp only [List.length_cons, Nat.cast_add, Nat.cast_one]
          omega

/-- When some extent grows, the search loop from position 0 on returns a
position of the shape. -/
theorem expansionAxis_growth (cs rs : List Int) (i : Int) (hi : 0 ≤ i) (k : Nat) (c r : Int)
    (hc : cs[k]? = some c) (hr : rs[k]? = some r) (hlt : c < r) :
    i ≤ expansionAxis cs rs i ∧ expansionAxis cs rs i < i + cs.length := by
  induction cs generalizing rs i k with
  | nil => simp at hc
  | cons c0 cs ih =>
    cases rs with
    | nil => simp at hr
    | cons r0 rs =>
      rw [expansionAxis]
      by_cases h : c0 < r0
      · rw [if_pos h]
        simp only [List.length_cons, Nat.cast_add, Nat.cast_one]
        omega
      · rw [if_neg h]
        cases k with
        | zero =>
          simp only [List.getElem?_cons_zero] at hc hr
          rw [Option.some.inj hc, Option.some.inj hr] at h
          exact absurd hlt h
        | succ j =>
          rw [List.getElem?_cons_succ] at hc hr
          have := ih rs (i + 1) (by omega) j hc hr
          simp only [List.length_cons, Nat.cast_add, Nat.cast_one]
          omega

theorem toU64_neg_one : toU64 (-1) = 2 ^ 64 - 1 := by decide

theorem Count_neg_one (d : Data) (h : d.dims.length < 2 ^ 64 - 1) : Count d (-1) = .ok 1 := by
  unfold Count
  rw [toU64_neg_one, if_pos (by omega)]

set_option maxRecDepth 10000

/-- `Expansion` of a materialized host tensor with a request that raises no
axis: the request passes the assertions, the search loop leaves `axis` at `-1`,
`Count (-1)` is 1, and the copy step reads `strides[-1]`. -/
theorem Expansion_unchanged (d : Data) (cs : List Nat) (rs : List Int) (g : Nat)
    (hd : d.dims = castDims cs) (hne : cs ≠ []) (h : List.Forall₂ Unchanged rs cs)
    (hmat : d.expansionBytes ≠ 0) (hdev : d.dataDevice = .CPU)
    (hdiv : toU64 d.unitSizeDiv ≠ 0) (hgb : GetBytes d = .ok g)
    (hlen : cs.length < 2 ^ 64 - 1) :
    expansionValidate d rs = .ok () ∧ expansionAxis d.dims rs 0 = -1
      ∧ Expansion d rs = .error .undefined := by
  have hrl : rs.length = cs.length := h.length_eq
  have hdl : d.dims.length = cs.length := by rw [hd, castDims_length]
  have hcheck : expansionCheck rs d.dims = .ok () := by
    have := expansionCheck_unchanged rs cs [] [] h
    rw [List.append_nil, List.append_nil] at this
    rw [hd, this]
    rfl
  have haxis : expansionAxis d.dims rs 0 = -1 := by
    have := expansionAxis_unchanged rs cs [] [] 0 h
    rw [List.append_nil, List.append_nil] at this
    rw [hd, this]
    rfl
  have hl : (rs.length == d.dims.length) = true := by simp [hrl, hdl]
  obtain ⟨c, cs1, hcs⟩ := List.exists_cons_of_ne_nil hne
  obtain ⟨r, rs1, hrs⟩ : ∃ r rs1, rs = r :: rs1 := by
    cases rs with
    | nil => rw [hcs] at hrl; simp at hrl
    | cons r rs1 => exact ⟨r, rs1, rfl⟩
  have hmaxdims : List.zipWith max d.dims rs = d.dims := by
    rw [hd]; exact zipWith_max_unchanged rs cs h
  have hsl : (strideList d.dims).length = cs.length := by rw [strideList_length, hdl]
  obtain ⟨s0, ss, hss⟩ : ∃ s0 ss, strideList d.dims = s0 :: ss := by
    cases hx : strideList d.dims with
    | nil => rw [hx, hcs] at hsl; simp at hsl
    | cons s0 ss => exact ⟨s0, ss, rfl⟩
  have hs0 : at? (strideList (List.zipWith max d.dims rs)) 0 = .ok s0 := by
    rw [hmaxdims, hss]; exact at?_eq_ok _ 0 _ (by simp)
  have hc0 : at? d.dims 0 = .ok (c : Int) := by
    rw [hd, hcs, castDims_cons]; exact at?_eq_ok _ 0 _ (by simp)
  have hr0 : at? rs 0 = .ok r := by rw [hrs]; exact at?_eq_ok _ 0 _ (by simp)
  have hm := MallocSpace_ok
    { d with strides := strideList (List.zipWith max d.dims rs), expansionDims := rs }
    (mulU64 s0 (toU64 (max (c : Int) r))) hdev hdiv
  have hcnt0 : ∃ cnt0, Count { d with
      strides := strideList (List.zipWith max d.dims rs), expansionDims := rs,
      expansionSize := mulU64 s0 (toU64 (max (c : Int) r)),
      expansionBytes := addU64 (subU64 (mulU64 (mulU64 s0 (toU64 (max (c : Int) r)))
        (toU64 d.unitSize)) 1 / toU64 d.unitSizeDiv) 1,
      cpuData := some (Buffer.fresh (addU64 (subU64 (mulU64 (mulU64 s0 (toU64 (max (c : Int) r)))
        (toU64 d.unitSize)) 1 / toU64 d.unitSizeDiv) 1)) } 0 = .ok cnt0 := by
    unfold Count
    simp only []
    rw [toU64_zero, if_neg (by rw [hdl, hcs]; simp), if_neg (by intro h; omega), hc0, ok_bind,
      hs0, ok_bind]
    exact ⟨_, rfl⟩
  obtain ⟨cnt0, hcnt0⟩ := hcnt0
  have hcntAxis : Count { d with
      strides := strideList (List.zipWith max d.dims rs), expansionDims := rs,
      expansionSize := mulU64 s0 (toU64 (max (c : Int) r)),
      expansionBytes := addU64 (subU64 (mulU64 (mulU64 s0 (toU64 (max (c : Int) r)))
        (toU64 d.unitSize)) 1 / toU64 d.unitSizeDiv) 1,
      cpuData := some (Buffer.fresh (addU64 (subU64 (mulU64 (mulU64 s0 (toU64 (max (c : Int) r)))
        (toU64 d.unitSize)) 1 / toU64 d.unitSizeDiv) 1)) } (-1) = .ok 1 :=
    Count_neg_one _ (by show d.dims.length < _; omega)
  have hinner : at? (strideList (List.zipWith max d.dims rs)) (toU64 (-1))
      = .error .undefined := by
    unfold at?
    rw [hmaxdims, toU64_neg_one, List.getElem?_eq_none (by omega)]
  have hv : expansionValidate d rs = .ok () := by
    unfold expansionValidate
    simp only [hl, AssertInFastLLM, if_true, bind, Except.bind, hcheck]
  refine ⟨hv, haxis, ?_⟩
  unfold Expansion
  rw [if_neg (by rw [hdl, hcs]; simp)]
  simp only [hl, AssertInFastLLM, if_true, bind, Except.bind, hcheck, haxis, hgb,
    Count_neg_one d (by omega), hs0, hc0, hr0]
  rw [if_pos hmat]
  simp only [hdev] at hm hcnt0 hcntAxis
  simp only [hdev, hm, hcnt0, hcntAxis, bind, Except.bind]
  rw [if_neg (by decide)]
  simp only [hinner]

/-- C31 fails on the code: the FLOAT32 tensor of shape `[2, 3]` with its 24
bytes is a materialized host tensor; the requests `[-1, -1]` and `[2, 3]` pass
the rank and extent checks and raise no extent, so the search loop leaves
`axis` at `-1`, `Count (-1)` is 1 and the copy step reads `strides[-1]` and
`dims[-1]`, outside the vectors: the call is undefined. A request that raises
an extent, `[2, 4]`, selects the valid axis 1 and returns. -/
theorem Expansion_no_growth_axis :
    (exampleFloats [2, 3]).expansionBytes = 24
      ∧ (exampleFloats [2, 3]).dataDevice = .CPU
      ∧ faultOf (expansionValidate (exampleFloats [2, 3]) [-1, -1]) = none
      ∧ faultOf (expansionValidate (exampleFloats [2, 3]) [2, 3]) = none
      ∧ expansionAxis (exampleFloats [2, 3]).dims [-1, -1] 0 = -1
      ∧ expansionAxis (exampleFloats [2, 3]).dims [2, 3] 0 = -1
      ∧ (Count (exampleFloats [2, 3]) (-1)).toOption = some 1
      ∧ faultOf (at? (exampleFloats [2, 3]).strides (toU64 (-1))) = some .undefined
      ∧ faultOf (at? (exampleFloats [2, 3]).dims (toU64 (-1))) = some .undefined
      ∧ faultOf (Expansion (exampleFloats [2, 3]) [-1, -1]) = some .undefined
      ∧ faultOf (Expansion (exampleFloats [2, 3]) [2, 3]) = some .undefined
      ∧ expansionAxis (exampleFloats [2, 3]).dims [2, 4] 0 = 1
      ∧ faultOf (Expansion (exampleFloats [2, 3]) [2, 4]) = none := by
  decide

end fastllm

namespace fastllm

/-! ## A range of width zero -/

/-- A range that clamps to `(0, 0)` has the scale 0, and the constructor
divides by it: no config is built. -/
theorem Reset_zero_width (min max : ℚ) (bit : ℤ) (h1 : 1 ≤ bit) (h8 : bit ≤ 8)
    (hmin : 0 ≤ min) (hmax : max ≤ 0) : LowBitConfig.Reset min max bit = none := by
  have e1 : stdMin min 0 = 0 := by
    unfold stdMin
    by_cases h : (0 : ℚ) < min
    · rw [if_pos h]
    · rw [if_neg h]; linarith
  have e2 : stdMax max 0 = 0 := by
    unfold stdMax
    by_cases h : max < 0
    · rw [if_pos h]
    · rw [if_neg h]; linarith
  have hq : ((qmaxOf bit : ℤ) : ℚ) ≠ 0 := by
    have := (qmaxOf_bounds h1 h8).1
    have h0 : (1 : ℚ) ≤ ((qmaxOf bit : ℤ) : ℚ) := by exact_mod_cast this
    linarith
  have hr : subF32 0 0 = some 0 := by unfold subF32; rw [sub_zero]; exact toF32_zero
  have hs : divF32 0 ((qmaxOf bit : ℤ) : ℚ) = some 0 := by
    unfold divF32; rw [if_neg hq, zero_div]; exact toF32_zero
  have ht : divF32 0 0 = none := by unfold divF32; rw [if_pos rfl]
  rw [Reset_of_bit min max h1 h8, e1, e2, hr, Option.some_bind, hs, Option.some_bind, ht]
  rfl

theorem foldl_extremes_zero (xs : List ℚ) (e : ℚ × ℚ) (he : 0 ≤ e.1 ∧ e.2 ≤ 0)
    (h : ∀ x ∈ xs, x = 0) :
    0 ≤ (xs.foldl (fun e x => (stdMin e.1 x, stdMax e.2 x)) e).1
      ∧ (xs.foldl (fun e x => (stdMin e.1 x, stdMax e.2 x)) e).2 ≤ 0 := by
  induction xs generalizing e with
  | nil => exact he
  | cons x xs ih =>
    rw [List.foldl_cons]
    apply ih
    · rw [h x (List.mem_cons_self _ _)]
      constructor
      · show 0 ≤ stdMin e.1 0
        unfold stdMin
        by_cases h0 : (0 : ℚ) < e.1
        · rw [if_pos h0]
        · rw [if_neg h0]; exact he.1
      · show stdMax e.2 0 ≤ 0
        unfold stdMax
        by_cases h0 : e.2 < 0
        · rw [if_pos h0]
        · rw [if_neg h0]; exact he.2
    · intro y hy
      exact h y (List.mem_cons_of_mem _ hy)

/-- The extremes that a save worker finds for a row of zeros, or for a row
without elements, clamp to `(0, 0)`. -/
theorem foldExtremes_zero (xs : List ℚ) (h : ∀ x ∈ xs, x = 0) :
    0 ≤ (foldExtremes xs).1 ∧ (foldExtremes xs).2 ≤ 0 :=
  foldl_extremes_zero xs _ ⟨by norm_num, by norm_num⟩ h

/-- No config is built for a range that clamps to `(0, 0)`. -/
theorem make_zero_width (min max : ℚ) (bit : ℤ) (h1 : 1 ≤ bit) (h8 : bit ≤ 8)
    (hmin : 0 ≤ min) (hmax : max ≤ 0) : LowBitConfig.make min max bit = .error .nonfinite := by
  unfold LowBitConfig.make
  rw [Reset_zero_width min max bit h1 h8 hmin hmax]

/-- The round of a save worker on a row that holds only zeros ends in the
division by the scale 0. -/
theorem quantizeRow_zero_row (bit : Int) (hbit : bit = 8 ∨ bit = 4) (buffer : Option Buffer)
    (x : Nat → ℚ) (M i : Nat) (hlt : i * M + M < 2 ^ 31 + 1)
    (hx : ∀ j, j < M → floatAt buffer ((i * M + j : Nat) : Int) = .ok (x (i * M + j)))
    (hz : ∀ j, j < M → x (i * M + j) = 0) (s : List Nat × List (Option LowBitConfig)) :
    quantizeRow bit buffer (M : Int) (i : Int) s = .error .nonfinite := by
  obtain ⟨h1, h2⟩ := foldExtremes_zero (rowOf x M i) (by
    intro y hy
    unfold rowOf at hy
    obtain ⟨j, hj, rfl⟩ := List.mem_map.mp hy
    exact hz j (List.mem_range.mp hj))
  unfold quantizeRow
  rw [rowExtremes_eq buffer x M i hlt hx, ok_bind]
  simp only []
  rcases hbit with h | h
  · rw [if_pos h, make_zero_width _ _ 8 (by decide) (by decide) h1 h2, error_bind]
  · rw [if_neg (by rw [h]; decide), make_zero_width _ _ 4 (by decide) (by decide) h1 h2,
      error_bind]

/-- A loop with a round that fails in every state does not return. -/
theorem forInt_fails {σ : Type} (body : Int → σ → Except Fault σ) (n : Nat) (i : Nat)
    (hi : i < n) :
    ∀ (a : Int) (s : σ), (∀ s1, ∃ e, body (a + i) s1 = .error e) →
      ∃ e, forInt body n a s = .error e := by
  induction n generalizing i with
  | zero => omega
  | succ n ih =>
    intro a s hfail
    rw [forInt_succ]
    cases i with
    | zero =>
      obtain ⟨e, he⟩ := hfail s
      rw [Nat.cast_zero, add_zero] at he
      rw [he]
      exact ⟨e, rfl⟩
    | succ j =>
      cases hb : body a s with
      | error e => exact ⟨e, rfl⟩
      | ok s1 =>
        rw [ok_bind]
        apply ih j (by omega) (a + 1) s1
        intro s2
        have := hfail s2
        rw [Nat.cast_succ] at this
        rw [show a + 1 + (j : Int) = a + ((j : Int) + 1) by ring]
        exact this

/-- The head of `saveWeight` for a linear tensor of shape `[K, M]` at 8 or at
4 bits: an error of the workers is the error of the call. -/
theorem saveWeight_rows_error (float_to_half : Nat → Nat) (bit : Int) (f name : List Nat)
    (d : WeightData) (K M : Nat) (hbit : bit = 8 ∨ bit = 4) (hw : d.weightType = .LINEAR)
    (hname : name.length < 2 ^ 31) (hdims : d.dims = [(K : Int), (M : Int)])
    (hlt : K * M + 1 < 2 ^ 31) :
    ∃ s, ∀ e, quantizeRows bit d.cpuData (K : Int) (M : Int) s = .error e →
      saveWeight float_to_half bit f (name, d) = .error e := by
  obtain ⟨hws, _⟩ := head_written f name d.dims hname
  obtain ⟨h0, h1⟩ := at?_two (K : Int) (M : Int)
  rcases hbit with h | h <;> subst h
  · refine ⟨(List.replicate (K * M) 0, List.replicate K none), fun e he => ?_⟩
    unfold saveWeight
    rw [hws, ok_bind]
    simp only [hw]
    rw [if_neg (by decide), hdims, h0, ok_bind, h1, ok_bind, if_neg (by omega),
      mulInt_natCast K M (by omega), ok_bind, if_neg (by decide), ok_bind, if_neg (by omega),
      Int.toNat_ofNat, Int.toNat_ofNat, he, error_bind]
  · refine ⟨(List.replicate ((K * M + 1) / 2) 0, List.replicate K none), fun e he => ?_⟩
    have hb : Int.tdiv (((K * M + 1 : Nat) : Int)) 2 = (((K * M + 1) / 2 : Nat) : Int) :=
      tdiv_two _
    have ha : addInt ((K * M : Nat) : Int) 1 = .ok ((K * M + 1 : Nat) : Int) :=
      addInt_natCast (K * M) 1 hlt
    unfold saveWeight
    rw [hws, ok_bind]
    simp only [hw]
    rw [if_neg (by decide), hdims, h0, ok_bind, h1, ok_bind, if_neg (by omega),
      mulInt_natCast K M (by omega), ok_bind, if_pos trivial, ok_bind,
      ha, ok_bind, ok_bind, hb, if_neg (by omega),
      Int.toNat_ofNat, Int.toNat_ofNat, he, error_bind]

/-- A linear tensor with a row that holds only zeros is not saved at 8 or at
4 bits: the call ends with an error or in an undefined operation, at the
latest in the division by the scale 0 of that row. -/
theorem saveWeight_zero_row (float_to_half : Nat → Nat) (bit : Int) (f name : List Nat)
    (d : WeightData) (K M i : Nat) (x : Nat → ℚ) (hbit : bit = 8 ∨ bit = 4)
    (hw : d.weightType = .LINEAR) (hname : name.length < 2 ^ 31)
    (hdims : d.dims = [(K : Int), (M : Int)]) (hlt : K * M + 1 < 2 ^ 31) (hi : i < K)
    (hx : ∀ p, p < K * M → floatAt d.cpuData ((p : Nat) : Int) = .ok (x p))
    (hz : ∀ j, j < M → x (i * M + j) = 0) :
    ∃ e, saveWeight float_to_half bit f (name, d) = .error e := by
  have hrow : i * M + M ≤ K * M := by
    have : (i + 1) * M ≤ K * M := Nat.mul_le_mul_right M (by omega)
    rw [Nat.add_mul, Nat.one_mul] at this
    exact this
  obtain ⟨s, hs⟩ := saveWeight_rows_error float_to_half bit f name d K M hbit hw hname hdims hlt
  obtain ⟨e, he⟩ := forInt_fails (quantizeRow bit d.cpuData (M : Int)) K i hi 0 s (by
    intro s1
    refine ⟨.nonfinite, ?_⟩
    rw [zero_add]
    exact quantizeRow_zero_row bit hbit d.cpuData x M i (by omega)
      (fun j hj => hx (i * M + j) (by omega)) hz s1)
  refine ⟨e, hs e ?_⟩
  rw [quantizeRows_single]
  exact he

set_option maxRecDepth 10000

theorem zeroTensor_floatAt (p : Nat) (hp : p < 1 * 2) :
    floatAt (zeroTensor .LINEAR [1, 2] 8).cpuData ((p : Nat) : Int) = .ok ((fun _ => (0 : ℚ)) p) := by
  apply ok_of_toOption
  interval_cases p <;> decide!

/-- Saving the linear tensor of shape `[1, 2]` that holds zeros, at 8 or at 4
bits, ends in the division by the scale 0. -/
theorem zeroTensor_not_saved (bit : Int) (hbit : bit = 8 ∨ bit = 4) :
    saveWeight (fun n => n) bit [] ([119], zeroTensor .LINEAR [1, 2] 8) = .error .nonfinite := by
  obtain ⟨s, hs⟩ := saveWeight_rows_error (fun n => n) bit [] [119] (zeroTensor .LINEAR [1, 2] 8)
    1 2 hbit rfl (by decide) rfl (by decide)
  apply hs
  rw [quantizeRows_single, forInt_one]
  exact quantizeRow_zero_row bit hbit _ (fun _ => 0) 2 0 (by decide)
    (fun j hj => zeroTensor_floatAt (0 * 2 + j) (by omega)) (fun _ _ => rfl) s

/-- C32 fails on the code: the range `(0, 0)` is finite, and the constructor
computes the scale `(0 - 0) / qmax = 0` and then `-min / scale = 0 / 0`, at 8
and at 4 bits: no config with a positive scale is built. The save path reaches
this: the row of the linear tensor of shape `[1, 2]` that holds zeros has the
extremes `(0, 0)`, and saving the tensor at 8 or at 4 bits ends in that
division, not in a file. -/
theorem Reset_zero_row :
    (rowExtremes (zeroTensor .LINEAR [1, 2] 8).cpuData 2 0).toOption = some (0, 0)
      ∧ subF32 (stdMax 0 0) (stdMin 0 0) = some 0
      ∧ divF32 0 255 = some 0
      ∧ divF32 (stdMin 0 0) 0 = none
      ∧ LowBitConfig.Reset 0 0 8 = none
      ∧ LowBitConfig.Reset 0 0 4 = none
      ∧ faultOf (saveWeight (fun n => n) 8 [] ([119], zeroTensor .LINEAR [1, 2] 8))
          = some .nonfinite
      ∧ faultOf (saveWeight (fun n => n) 4 [] ([119], zeroTensor .LINEAR [1, 2] 8))
          = some .nonfinite := by
  refine ⟨by decide!, by decide!, by decide!, by decide!,
    Reset_zero_width 0 0 8 (by decide) (by decide) (le_refl _) (le_refl _),
    Reset_zero_width 0 0 4 (by decide) (by decide) (le_refl _) (le_refl _), ?_, ?_⟩
  · rw [zeroTensor_not_saved 8 (Or.inl rfl)]; rfl
  · rw [zeroTensor_not_saved 4 (Or.inr rfl)]; rfl

end fastllm

namespace fastllm

/-! ## The penalty window: one call of `InsertToken` -/

/-- The last `N` elements of a list after one more element. -/
theorem window_snoc (ts : List Int) (tok : Int) (N : Nat) (hN : 1 ≤ N) :
    (ts ++ [tok]).drop ((ts ++ [tok]).length - N)
      = (if N ≤ (ts.drop (ts.length - N)).length then (ts.drop (ts.length - N)).tail
          else ts.drop (ts.length - N)) ++ [tok] := by
  rw [List.length_append, List.length_singleton, List.length_drop]
  by_cases h : N ≤ ts.length
  · rw [if_pos (by omega), List.tail_drop, List.drop_append_of_le_length (by omega)]
    congr 2
    omega
  · rw [if_neg (by omega)]
    have e1 : ts.length + 1 - N = 0 := by omega
    have e2 : ts.length - N = 0 := by omega
    rw [e1, e2, List.drop_zero, List.drop_zero]

theorem storeFloat_ok (b : Buffer) (n bits : Nat) (h : 4 * n + 4 ≤ b.size) :
    storeFloat (some b) (n : Int) bits = .ok (some { b with
      byte := fun p =>
        if 4 * n ≤ p ∧ p < 4 * n + 4 then (leBytes 4 bits)[p - 4 * n]? else b.byte p }) := by
  unfold storeFloat
  simp only [Int.toNat_ofNat]
  rw [if_pos ⟨Int.ofNat_nonneg n, h⟩]

theorem Usable_store (d : Data) (b b1 : Buffer) (h : Usable d) (hb : d.cpuData = some b)
    (hs : b1.size = b.size) : Usable { d with cpuData := some b1 } := by
  obtain ⟨h1, h2, h3⟩ := h
  refine ⟨h1, h2, ?_⟩
  rcases h3 with ⟨hn, _⟩ | ⟨n, b0, k1, k2, k3, k4, k5, k6, k7, k8, k9⟩
  · rw [hb] at hn; cases hn
  · rw [hb] at k8
    have e := Option.some.inj k8
    subst e
    exact Or.inr ⟨n, b1, k1, k2, k3, k4, k5, k6, k7, rfl, by rw [hs]; exact k9⟩

theorem mapGet_of_counts (cnt : Int → Option Int) (q : List Int) (t : Int)
    (h : cnt t = if q.count t = 0 then none else some (q.count t : Int)) :
    mapGet cnt t = (q.count t : Int) := by
  unfold mapGet
  rw [h]
  by_cases h0 : q.count t = 0
  · rw [if_pos h0, h0]; rfl
  · rw [if_neg h0]; rfl

/-- The first statement of `InsertToken` on a window: a full queue loses its
front token, and the window is kept. -/
theorem evict_window (V N v : Nat) (m : TokenPenaltyManager) (hN : 1 ≤ N) (hN2 : N < 2 ^ 31)
    (h : PenaltyWindow V N v m) :
    ∃ m1, m.evict = .ok m1 ∧ PenaltyWindow V N v m1 ∧ m1.q.length < N
      ∧ m1.q = if N ≤ m.q.length then m.q.tail else m.q := by
  obtain ⟨hl, hv, hs, ht, hc, hu, b, hb, hsize, hbytes⟩ := h
  have hlen : toU64 m.lastN = N := by rw [hl]; exact toU64_length hN2
  unfold TokenPenaltyManager.evict
  rw [hlen]
  by_cases hfull : N ≤ m.q.length
  · rw [if_pos hfull]
    cases hq : m.q with
    | nil => rw [hq] at hfull; simp at hfull; omega
    | cons now rest =>
      rw [hq] at hs ht hc hbytes hfull
      simp only [List.length_cons] at hs
      have hnow := ht now (List.mem_cons_self _ _)
      obtain ⟨n, rfl⟩ := Int.eq_ofNat_of_zero_le hnow.1
      have hnV : n < V := by omega
      have hcount : ∀ t : Int, (List.count t ((n : Int) :: rest) : Nat)
          = rest.count t + if (n : Int) = t then 1 else 0 := by
        intro t
        rw [List.count_cons]
        simp only [beq_iff_eq]
      have hle : rest.count (n : Int) ≤ rest.length := List.count_le_length _ _
      simp only []
      rw [mapGet_of_counts m.cnt _ _ (hc (n : Int)), hcount, if_pos rfl,
        addInt_ok _ _ (by unfold IsInt32; push_cast; constructor <;> omega), ok_bind]
      have hsub : ((rest.count (n : Int) + 1 : Nat) : Int) + -1 = (rest.count (n : Int) : Int) := by
        push_cast; omega
      rw [hsub]
      by_cases hz : rest.count (n : Int) = 0
      · rw [if_pos (by rw [hz]; rfl), hb, storeFloat_ok b n oneF32 (by omega), ok_bind]
        refine ⟨_, rfl, ⟨hl, hv, by simp only []; omega,
          fun t htm => ht t (List.mem_cons_of_mem _ htm), ?_, Usable_store _ b _ hu hb rfl, ?_⟩,
          by simp only []; omega, by rw [if_pos hfull]; rfl⟩
        · intro t
          show mapErase m.cnt (n : Int) t = _
          unfold mapErase
          by_cases htn : t = (n : Int)
          · rw [if_pos htn, htn, if_pos hz]
          · rw [if_neg htn, hc t, hcount, if_neg (show ¬ ((n : Int) = t) from fun e => htn e.symm), Nat.add_zero]
        · refine ⟨_, rfl, hsize, ?_⟩
          intro t htV k hk
          simp only []
          by_cases htn : t = n
          · subst htn
            rw [if_pos (by omega), if_pos hz]
            congr 1
            omega
          · rw [if_neg (by omega), hbytes t htV k hk, hcount,
              if_neg (show ¬ ((n : Int) = (t : Int)) from fun e => htn (Int.ofNat.inj e).symm), Nat.add_zero]
      · rw [if_neg (by intro e; exact hz (Int.ofNat_eq_zero.mp e))]
        refine ⟨_, rfl, ⟨hl, hv, by simp only []; omega,
          fun t htm => ht t (List.mem_cons_of_mem _ htm), ?_, hu, ?_⟩, by simp only []; omega,
          by rw [if_pos hfull]; rfl⟩
        · intro t
          show mapPut m.cnt (n : Int) _ t = _
          unfold mapPut
          by_cases htn : t = (n : Int)
          · rw [if_pos htn, htn, if_neg hz]
          · rw [if_neg htn, hc t, hcount, if_neg (show ¬ ((n : Int) = t) from fun e => htn e.symm), Nat.add_zero]
        · refine ⟨b, hb, hsize, ?_⟩
          intro t htV k hk
          simp only []
          rw [hbytes t htV k hk, hcount]
          by_cases htn : (n : Int) = (t : Int)
          · rw [if_pos htn, ← htn, if_neg (by omega), if_neg hz]
          · rw [if_neg htn, Nat.add_zero]
  · rw [if_neg hfull]
    exact ⟨m, rfl, ⟨hl, hv, hs, ht, hc, hu, b, hb, hsize, hbytes⟩, by omega, by rw [if_neg hfull]⟩

/-- One call of `InsertToken` on a window with a token below `V`: the call
returns, the window is kept, and the queue is the old one without its front
token if it was full, followed by the new token. -/
theorem InsertToken_window (V N v : Nat) (m : TokenPenaltyManager) (token : Int) (hN : 1 ≤ N)
    (hN2 : N < 2 ^ 31) (h : PenaltyWindow V N v m) (h0 : 0 ≤ token) (hV : token < (V : Int)) :
    ∃ m2, m.InsertToken token = .ok m2 ∧ PenaltyWindow V N v m2
      ∧ m2.q = (if N ≤ m.q.length then m.q.tail else m.q) ++ [token] := by
  obtain ⟨m1, he, ⟨hl, hv, hs, ht, hc, hu, b, hb, hsize, hbytes⟩, hlt, hq⟩ :=
    evict_window V N v m hN hN2 h
  obtain ⟨n, rfl⟩ := Int.eq_ofNat_of_zero_le h0
  have hnV : n < V := by omega
  have hcount : ∀ t : Int, (List.count t (m1.q ++ [(n : Int)]) : Nat)
      = m1.q.count t + if (n : Int) = t then 1 else 0 := by
    intro t
    rw [List.count_append, List.count_singleton]
    simp only [beq_iff_eq]
  have hle : m1.q.count (n : Int) ≤ m1.q.length := List.count_le_length _ _
  have hsum : ((m1.q.count (n : Int) : Nat) : Int) + 1 = ((m1.q.count (n : Int) + 1 : Nat) : Int) := by
    push_cast; rfl
  have hcnt : ∀ t : Int, mapPut m1.cnt (n : Int) ((m1.q.count (n : Int) + 1 : Nat) : Int) t
      = if (m1.q ++ [(n : Int)]).count t = 0 then none
        else some ((m1.q ++ [(n : Int)]).count t : Int) := by
    intro t
    unfold mapPut
    rw [hcount]
    by_cases htn : t = (n : Int)
    · rw [if_pos htn, htn, if_pos rfl, if_neg (by omega)]
    · rw [if_neg htn, hc t, if_neg (show ¬ ((n : Int) = t) from fun e => htn e.symm),
        Nat.add_zero]
  unfold TokenPenaltyManager.InsertToken
  rw [he, ok_bind, mapGet_of_counts m1.cnt _ _ (hc (n : Int)),
    addInt_ok _ _ (by rw [hsum]; exact isInt32_natCast (by omega)), ok_bind, hsum]
  simp only []
  by_cases hz : m1.q.count (n : Int) = 0
  · rw [if_pos (by rw [hz]; rfl), hb, hv, storeFloat_ok b n v (by omega), ok_bind]
    refine ⟨_, rfl, ⟨hl, rfl, by simp only [List.length_append, List.length_singleton]; omega,
      ?_, hcnt, Usable_store _ b _ hu hb rfl, ?_⟩, by simp only []; rw [hq]⟩
    · intro t htm
      rcases List.mem_append.mp htm with h1 | h1
      · exact ht t h1
      · rw [List.mem_singleton.mp h1]; exact ⟨h0, hV⟩
    · refine ⟨_, rfl, hsize, ?_⟩
      intro t htV k hk
      simp only []
      rw [hcount]
      by_cases htn : t = n
      · subst htn
        rw [if_pos (by omega), if_pos rfl, if_neg (by omega)]
        congr 1
        omega
      · rw [if_neg (by omega), hbytes t htV k hk,
          if_neg (show ¬ ((n : Int) = (t : Int)) from fun e => htn (Int.ofNat.inj e).symm),
          Nat.add_zero]
  · rw [if_neg (by
      intro e
      have e1 : ((m1.q.count (n : Int) + 1 : Nat) : Int) = ((1 : Nat) : Int) := e
      have := Int.ofNat.inj e1
      omega)]
    refine ⟨_, rfl, ⟨hl, hv, by simp only [List.length_append, List.length_singleton]; omega,
      ?_, hcnt, hu, ?_⟩, by simp only []; rw [hq]⟩
    · intro t htm
      rcases List.mem_append.mp htm with h1 | h1
      · exact ht t h1
      · rw [List.mem_singleton.mp h1]; exact ⟨h0, hV⟩
    · refine ⟨b, hb, hsize, ?_⟩
      intro t htV k hk
      simp only []
      rw [hbytes t htV k hk, hcount]
      by_cases htn : (n : Int) = (t : Int)
      · rw [if_pos htn, ← htn, if_neg hz, if_neg (by omega)]
      · rw [if_neg htn, Nat.add_zero]

/-- A sequence of calls of `InsertToken` on a window with tokens below `V`: the
calls return, the window is kept, and if the queue held the last `N` tokens of
a history, it holds the last `N` tokens of the longer history. -/
theorem insertAll_window (V N v : Nat) (hN : 1 ≤ N) (hN2 : N < 2 ^ 31) (ts : List Int) :
    ∀ (m : TokenPenaltyManager) (hist : List Int), PenaltyWindow V N v m →
      (∀ t ∈ ts, 0 ≤ t ∧ t < (V : Int)) → m.q = hist.drop (hist.length - N) →
      ∃ m2, m.insertAll ts = .ok m2 ∧ PenaltyWindow V N v m2
        ∧ m2.q = (hist ++ ts).drop ((hist ++ ts).length - N) := by
  induction ts with
  | nil =>
    intro m hist h _ hq
    exact ⟨m, rfl, h, by rw [List.append_nil]; exact hq⟩
  | cons t ts ih =>
    intro m hist h hts hq
    obtain ⟨m1, h1, hw, hq1⟩ := InsertToken_window V N v m t hN hN2 h
      (hts t (List.mem_cons_self _ _)).1 (hts t (List.mem_cons_self _ _)).2
    obtain ⟨m2, h2, hw2, hq2⟩ := ih m1 (hist ++ [t]) hw
      (fun x hx => hts x (List.mem_cons_of_mem _ hx)) (by
        rw [hq1, hq]
        exact (window_snoc hist t N hN).symm)
    refine ⟨m2, ?_, hw2, ?_⟩
    · unfold TokenPenaltyManager.insertAll
      rw [h1, ok_bind]
      exact h2
    · rw [hq2, List.append_assoc]
      rfl

end fastllm

namespace fastllm

/-! ## The penalty window: `Init` -/

theorem toU64_four : toU64 4 = 4 := by decide

theorem strideList_row (n : Nat) (h : n < 2 ^ 31) : strideList [1, 1, (n : Int)] = [n, n, 1] := by
  have hn : mulU64 n 1 = n := by rw [mulU64_of_lt (by unfold U64; omega), Nat.mul_one]
  have h1 : mulU64 1 n = n := by rw [mulU64_of_lt (by unfold U64; omega), Nat.one_mul]
  simp only [strideList, List.headD, toU64_length h, toU64_one, hn, h1]

theorem bytes_row (n : Nat) (h1 : 1 ≤ n) (h2 : n < 2 ^ 31) :
    addU64 (subU64 (mulU64 n (toU64 4)) 1 / toU64 1) 1 = 4 * n := by
  rw [toU64_four, toU64_one, mulU64_of_lt (by unfold U64; omega),
    bytes_idiom_of_pos (n * 4) 1 (by omega) (by unfold U64; omega), Nat.div_one]
  omega

theorem Count_row (d : Data) (n : Nat) (hd : d.dims = [1, 1, (n : Int)])
    (hs : d.strides = [n, n, 1]) (h2 : n < 2 ^ 31) : Count d 0 = .ok n := by
  unfold Count
  rw [hd, hs, toU64_zero, if_neg (by simp), if_neg (by intro h; omega)]
  simp only [at?, List.getElem?_cons_zero, ok_bind, toU64_one]
  rw [mulU64_of_lt (by unfold U64; omega), Nat.one_mul]

theorem GetBytes_row (d : Data) (n : Nat) (hd : d.dims = [1, 1, (n : Int)])
    (hs : d.strides = [n, n, 1]) (hu : d.unitSize = 4) (hv : d.unitSizeDiv = 1) (h1 : 1 ≤ n)
    (h2 : n < 2 ^ 31) : GetBytes d = .ok (4 * n) := by
  unfold GetBytes
  rw [hd, hs, hu, hv]
  simp only [at?, List.getElem?_cons_zero, ok_bind]
  rw [if_neg (by rw [toU64_one]; decide)]
  have e : mulU64 n (toU64 1) = n := by
    rw [toU64_one, mulU64_of_lt (by unfold U64; omega), Nat.mul_one]
  rw [e, bytes_row n h1 h2]

theorem copyContent_row (d ori : Data) (b src : Buffer) (n : Nat)
    (hd : d.dims = [1, 1, (n : Int)]) (hs : d.strides = [n, n, 1]) (hu : d.unitSize = 4)
    (hv : d.unitSizeDiv = 1) (h1 : 1 ≤ n) (h2 : n < 2 ^ 31) (hb : d.cpuData = some b)
    (hsrc : ori.cpuData = some src) (hfit : 4 * n ≤ b.size) (hsz : 4 * n ≤ src.size) :
    copyContent d ori = .ok { d with
      cpuData := some { b with byte := fun p => if p < 4 * n then src.byte p else b.byte p } } := by
  unfold copyContent
  rw [GetBytes_row d n hd hs hu hv h1 h2, ok_bind, hb, hsrc]
  unfold copyHost
  simp only []
  rw [memcpy_zero b src (4 * n) hfit hsz, ok_bind, ok_bind]

/-- `Resize` of a tensor without a reserved shape to FLOAT32 of shape
`[1, 1, n]`. -/
theorem Resize_row (d : Data) (n : Nat) (hres : d.expansionDims = []) (h2 : n < 2 ^ 31) :
    ∃ d1, Resize { d with dataType := .FLOAT32 } [1, 1, (n : Int)] = .ok d1
      ∧ d1.dataType = .FLOAT32 ∧ d1.unitSize = 4 ∧ d1.unitSizeDiv = 1
      ∧ d1.dims = [1, 1, (n : Int)] ∧ d1.strides = [n, n, 1]
      ∧ d1.expansionSize = d.expansionSize ∧ d1.expansionDims = d.expansionDims
      ∧ d1.cpuData = d.cpuData ∧ d1.dataDevice = d.dataDevice :=
  ⟨_, Resize_ok_of_no_reservation { d with dataType := .FLOAT32 } [1, 1, (n : Int)] hres
    (by simp), rfl, rfl, rfl, rfl, strideList_row n h2, rfl, rfl, rfl, rfl⟩

/-- `Allocate` and the copy of `4 * n` bytes on a FLOAT32 tensor of shape
`[1, 1, n]` on the host whose buffer, if its capacity is `n` elements or more,
has four bytes for each element of the capacity. -/
theorem Allocate_copy_row (d1 ori : Data) (src : Buffer) (n : Nat) (h1 : 1 ≤ n)
    (h2 : n < 2 ^ 31) (hty : d1.dataType = .FLOAT32) (hu : d1.unitSize = 4)
    (hv : d1.unitSizeDiv = 1) (hd : d1.dims = [1, 1, (n : Int)]) (hs : d1.strides = [n, n, 1])
    (hres : d1.expansionDims = []) (hdev : d1.dataDevice = .CPU)
    (hcap : n ≤ d1.expansionSize →
      d1.expansionSize < 2 ^ 31 ∧ ∃ b, d1.cpuData = some b ∧ b.size = 4 * d1.expansionSize)
    (hsrc : ori.cpuData = some src) (hsz : 4 * n ≤ src.size) :
    ∃ d3 b, (Allocate d1).bind (fun d2 => copyContent d2 ori) = .ok d3 ∧ Usable d3
      ∧ d3.cpuData = some b ∧ 4 * n ≤ b.size ∧ ∀ p, p < 4 * n → b.byte p = src.byte p := by
  have hc := Count_row d1 n hd hs h2
  by_cases hlt : d1.expansionSize < n
  · have hA := Allocate_fresh d1 n hdev (by rw [hv, toU64_one]; decide) hc hlt
    have hbytes : addU64 (subU64 (mulU64 n (toU64 d1.unitSize)) 1 / toU64 d1.unitSizeDiv) 1
        = 4 * n := by
      rw [hu, hv]; exact bytes_row n h1 h2
    rw [hbytes] at hA
    rw [hA]
    show ∃ d3 b, copyContent _ ori = .ok d3 ∧ _
    rw [copyContent_row
      { d1 with
        expansionSize := n, expansionBytes := 4 * n, cpuData := some (Buffer.fresh (4 * n)) }
      ori (Buffer.fresh (4 * n)) src n hd hs hu hv h1 h2 rfl hsrc (le_refl _) hsz]
    refine ⟨_, _, rfl, ⟨hdev, hres, Or.inr ⟨n, _, hty, hu, hv, hd, hs, le_refl _, h2, rfl, rfl⟩⟩,
      rfl, le_refl _, ?_⟩
    intro p hp
    simp only [if_pos hp]
  · obtain ⟨hlt2, b, hb, hsize⟩ := hcap (by omega)
    have hA : Allocate d1 = .ok d1 := by
      unfold Allocate
      rw [hc, ok_bind, if_neg (by omega)]
    rw [hA]
    show ∃ d3 b, copyContent _ ori = .ok d3 ∧ _
    rw [copyContent_row d1 ori b src n hd hs hu hv h1 h2 hb hsrc (by omega) hsz]
    refine ⟨_, _, rfl, ⟨hdev, hres, Or.inr ⟨n, _, hty, hu, hv, hd, hs, by
      show n ≤ d1.expansionSize
      omega, hlt2, rfl, hsize⟩⟩, rfl, by
        show 4 * n ≤ b.size
        omega, ?_⟩
    intro p hp
    simp only [if_pos hp]

/-- `CopyFrom` into the penalty tensor from a FLOAT32 source of shape
`[1, 1, n]` with a buffer of `4 * n` bytes or more: the call returns, the
tensor stays usable and the first `4 * n` bytes of its buffer are those of the
source. -/
theorem CopyFrom_usable (d ori : Data) (src : Buffer) (n : Nat) (hu : Usable d) (h1 : 1 ≤ n)
    (h2 : n < 2 ^ 31) (hty : ori.dataType = .FLOAT32) (hdims : ori.dims = [1, 1, (n : Int)])
    (hsrc : ori.cpuData = some src) (hsz : 4 * n ≤ src.size) :
    ∃ d3 b, CopyFrom d ori = .ok d3 ∧ Usable d3 ∧ d3.cpuData = some b ∧ 4 * n ≤ b.size
      ∧ ∀ p, p < 4 * n → b.byte p = src.byte p := by
  obtain ⟨hdev, hres, hstate⟩ := hu
  obtain ⟨d1, hR, r1, r2, r3, r4, r5, r6, r7, r8, r9⟩ := Resize_row d n hres h2
  have hne : ¬ ori.dims.length = 0 := by rw [hdims]; simp
  unfold CopyFrom
  rcases hstate with ⟨hnone, hzero⟩ | ⟨n0, b0, k1, k2, k3, k4, k5, k6, k7, k8, k9⟩
  · rw [if_pos (Or.inr (by rw [hnone]; rfl)), if_neg hne, hty, hdims, hR, ok_bind]
    exact Allocate_copy_row d1 ori src n h1 h2 r1 r2 r3 r4 r5 (by rw [r7]; exact hres)
      (by rw [r9]; exact hdev) (by intro h; rw [r6, hzero] at h; omega) hsrc hsz
  · by_cases hsame : ori.dims = d.dims
    · rw [if_neg (by
        intro h
        rcases h with h | h
        · exact h hsame
        · rw [k8] at h; cases h)]
      have hd : d.dims = [1, 1, (n : Int)] := by rw [← hsame]; exact hdims
      have hn : n0 = n := by
        rw [k4] at hd
        have := (List.cons.inj (List.cons.inj (List.cons.inj hd).2).2).1
        exact Int.ofNat.inj this
      subst hn
      rw [copyContent_row d ori b0 src n0 k4 k5 k2 k3 h1 h2 k8 hsrc (by omega) hsz]
      refine ⟨_, _, rfl, ⟨hdev, hres, Or.inr ⟨n0, _, k1, k2, k3, k4, k5, k6, k7, rfl, k9⟩⟩,
        rfl, by
          show 4 * n0 ≤ b0.size
          omega, ?_⟩
      intro p hp
      simp only [if_pos hp]
    · rw [if_pos (Or.inl hsame), if_neg hne, hty, hdims, hR, ok_bind]
      exact Allocate_copy_row d1 ori src n h1 h2 r1 r2 r3 r4 r5 (by rw [r7]; exact hres)
        (by rw [r9]; exact hdev) (by
          intro _
          rw [r6, r8]
          exact ⟨k7, b0, k8, k9⟩) hsrc hsz

/-- The tensor `Data (FLOAT32, {1, 1, n}, std::vector <float> (n, x))`. -/
theorem ofTypeDimsData_row (n bits : Nat) (h1 : 1 ≤ n) (h2 : n < 2 ^ 31) :
    ∃ ori src, Data.ofTypeDimsData .FLOAT32 [1, 1, (n : Int)] (floatVector n bits) = .ok ori
      ∧ ori.dataType = .FLOAT32 ∧ ori.dims = [1, 1, (n : Int)] ∧ ori.cpuData = some src
      ∧ 4 * n ≤ src.size ∧ ∀ p, p < 4 * n → src.byte p = (leBytes 4 bits)[p % 4]? := by
  obtain ⟨d1, hR, r1, r2, r3, r4, r5, r6, r7, r8, r9⟩ := Resize_row Data.init n rfl h2
  have hc := Count_row d1 n r4 r5 h2
  have hA := Allocate_fresh d1 n r9 (by rw [r3, toU64_one]; decide) hc (by rw [r6]; exact h1)
  have hbytes : addU64 (subU64 (mulU64 n (toU64 d1.unitSize)) 1 / toU64 d1.unitSizeDiv) 1
      = 4 * n := by
    rw [r2, r3]; exact bytes_row n h1 h2
  rw [hbytes] at hA
  have hG : GetBytes { d1 with
      expansionSize := n, expansionBytes := 4 * n,
      cpuData := some (Buffer.fresh (4 * n)) } = .ok (4 * n) :=
    GetBytes_row _ n r4 r5 r2 r3 h1 h2
  unfold Data.ofTypeDimsData Data.ofTypeDims
  rw [hR, ok_bind, hA, ok_bind, if_pos rfl, hG, ok_bind]
  unfold copyHost
  simp only []
  rw [memcpy_zero (Buffer.fresh (4 * n)) (floatVector n bits) (4 * n) (le_refl _) (le_refl _),
    ok_bind, ok_bind]
  refine ⟨_, _, rfl, r1, r4, rfl, le_refl _, ?_⟩
  intro p hp
  show (if p < 4 * n then (floatVector n bits).byte p else _) = _
  rw [if_pos hp]
  show (if p < 4 * n then _ else _) = _
  rw [if_pos hp]

/-- `Init (V, N, v)` on a manager whose penalty tensor is usable: the call
returns a window with an empty queue. -/
theorem Init_window (m0 : TokenPenaltyManager) (V N v : Nat) (hu : Usable m0.penalty)
    (h1 : 1 ≤ V) (h2 : V < 2 ^ 31) :
    ∃ m, m0.Init (V : Int) (N : Int) v = .ok m ∧ PenaltyWindow V N v m ∧ m.q = [] := by
  obtain ⟨ori, src, ho, hty, hdims, hsrc, hsz, hbytes⟩ := ofTypeDimsData_row V oneF32 h1 h2
  obtain ⟨d3, b, hC, hu3, hb, hsize, hcopy⟩ :=
    CopyFrom_usable m0.penalty ori src V hu h1 h2 hty hdims hsrc hsz
  unfold TokenPenaltyManager.Init TokenPenaltyManager.Clear
  simp only []
  rw [if_neg (by omega), Int.toNat_ofNat, ho, ok_bind, hC, ok_bind]
  refine ⟨_, rfl, ⟨rfl, rfl, Nat.zero_le _, fun t ht => absurd ht (List.not_mem_nil t),
    fun t => rfl, hu3, b, hb, hsize, ?_⟩, rfl⟩
  intro t ht k hk
  show b.byte (4 * t + k) = (leBytes 4 oneF32)[k]?
  rw [hcopy (4 * t + k) (by omega), hbytes (4 * t + k) (by omega)]
  congr 1
  omega

theorem Usable_init : Usable Data.init := ⟨rfl, rfl, Or.inl ⟨rfl, rfl⟩⟩

end fastllm

namespace fastllm

/-! ## The penalty window: the invariant -/

theorem decodeF32_oneF32 : decodeF32 oneF32 = some 1 := by decide!

/-- The four bytes of the element of a token in the buffer of a window. -/
theorem window_bytes (V N v : Nat) (m : TokenPenaltyManager) (h : PenaltyWindow V N v m)
    (t : Nat) (ht : t < V) :
    bytesAt m.penalty.cpuData (4 * t) 4
      = .ok (leBytes 4 (if (t : Int) ∈ m.q then v else oneF32)) := by
  obtain ⟨b, hb, hsize, hbytes⟩ := h.buffer
  have hcount : (if m.q.count (t : Int) = 0 then oneF32 else v)
      = if (t : Int) ∈ m.q then v else oneF32 := by
    by_cases hm : (t : Int) ∈ m.q
    · rw [if_pos hm, if_neg (by
        have := List.count_pos_iff.mpr hm
        omega)]
    · rw [if_neg hm, if_pos (List.count_eq_zero.mpr hm)]
  rw [hb, ← hcount]
  have hl := leBytes_length 4 (if m.q.count (t : Int) = 0 then oneF32 else v)
  have := bytesAt_eq_ok b (4 * t) (leBytes 4 (if m.q.count (t : Int) = 0 then oneF32 else v))
    (by rw [hl]; omega) (fun p hp => hbytes t ht p (by rw [hl] at hp; exact hp))
  rw [hl] at this
  exact this

/-- The element of a token in the buffer of a window, read as a `float`. -/
theorem window_float (V N v : Nat) (m : TokenPenaltyManager) (h : PenaltyWindow V N v m)
    (hv : v < 2 ^ 32) (x : ℚ) (hx : decodeF32 v = some x) (t : Nat) (ht : t < V) :
    floatAt m.penalty.cpuData (t : Int) = .ok (if (t : Int) ∈ m.q then x else 1) := by
  unfold floatAt
  rw [if_neg (by omega), Int.toNat_ofNat, window_bytes V N v m h t ht, ok_bind]
  by_cases hm : (t : Int) ∈ m.q
  · rw [if_pos hm, if_pos hm, leValue_leBytes_of_lt 4 v (by omega), hx]
  · rw [if_neg hm, if_neg hm, leValue_leBytes_of_lt 4 oneF32 (by decide), decodeF32_oneF32]

/-- The penalty window after `Init (V, N, v)` and the calls of `InsertToken`
for a list of tokens below `V`. -/
theorem run_window (m0 : TokenPenaltyManager) (V N v : Nat) (ts : List Int)
    (hu : Usable m0.penalty) (hV : 1 ≤ V) (hV2 : V < 2 ^ 31) (hN : 1 ≤ N) (hN2 : N < 2 ^ 31)
    (hts : ∀ t ∈ ts, 0 ≤ t ∧ t < (V : Int)) :
    ∃ m, m0.run (V : Int) (N : Int) v ts = .ok m ∧ PenaltyWindow V N v m
      ∧ m.q = ts.drop (ts.length - N) := by
  obtain ⟨m1, h1, hw1, hq1⟩ := Init_window m0 V N v hu hV hV2
  obtain ⟨m2, h2, hw2, hq2⟩ := insertAll_window V N v hN hN2 ts m1 [] hw1 hts (by rw [hq1, List.drop_nil])
  refine ⟨m2, ?_, hw2, by rw [hq2, List.nil_append]⟩
  unfold TokenPenaltyManager.run
  rw [h1, ok_bind]
  exact h2

/-- C33: on a manager as constructed, or used before, `Init (vocabSize, lastN,
value)` with `vocabSize` and `lastN` at least 1 and then `InsertToken` for any
`n` tokens in `[0, vocabSize)` return, and afterwards the queue holds the last
`min (n, lastN)` inserted tokens in order, `cnt` maps each token of the queue
to the number of its occurrences in the queue and holds no other key, and for
every token `t` in `[0, vocabSize)` the element `penalty[t]` holds the pattern
of `value` if `t` occurs in the queue and that of `1.0f` otherwise, which read
as a `float` is `value`, if finite, or `1.0`; the penalty tensor can be used
by another `Init`. -/
theorem penalty_window_invariant (m0 : TokenPenaltyManager) (vocabSize lastN : Int)
    (value : Nat) (ts : List Int) (hu : Usable m0.penalty)
    (hV : 1 ≤ vocabSize) (hV2 : vocabSize < 2 ^ 31) (hN : 1 ≤ lastN) (hN2 : lastN < 2 ^ 31)
    (hv : value < 2 ^ 32) (hts : ∀ t ∈ ts, 0 ≤ t ∧ t < vocabSize) :
    ∃ m, m0.run vocabSize lastN value ts = .ok m
      ∧ m.q = ts.drop (ts.length - min ts.length lastN.toNat)
      ∧ (∀ t, m.cnt t = if m.q.count t = 0 then none else some (m.q.count t : Int))
      ∧ (∀ t, 0 ≤ t → t < vocabSize →
          bytesAt m.penalty.cpuData (4 * t.toNat) 4
            = .ok (leBytes 4 (if t ∈ m.q then value else oneF32)))
      ∧ (∀ t x, 0 ≤ t → t < vocabSize → decodeF32 value = some x →
          floatAt m.penalty.cpuData t = .ok (if t ∈ m.q then x else 1))
      ∧ Usable m.penalty := by
  obtain ⟨V, rfl⟩ := Int.eq_ofNat_of_zero_le (by omega : 0 ≤ vocabSize)
  obtain ⟨N, rfl⟩ := Int.eq_ofNat_of_zero_le (by omega : 0 ≤ lastN)
  obtain ⟨m, hm, hw, hq⟩ := run_window m0 V N value ts hu (by omega) (by omega) (by omega)
    (by omega) hts
  have hsub : ts.length - min ts.length N = ts.length - N := by
    rcases Nat.le_total ts.length N with h | h
    · rw [Nat.min_eq_left h]; omega
    · rw [Nat.min_eq_right h]
  refine ⟨m, hm, by rw [Int.toNat_ofNat, hsub]; exact hq, hw.counts, ?_, ?_, hw.tensor⟩
  · intro t h0 hlt
    obtain ⟨n, rfl⟩ := Int.eq_ofNat_of_zero_le h0
    rw [Int.toNat_ofNat]
    exact window_bytes V N value m hw n (by omega)
  · intro t x h0 hlt hx
    obtain ⟨n, rfl⟩ := Int.eq_ofNat_of_zero_le h0
    exact window_float V N value m hw hv x hx n (by omega)

/-- The window of the calls `Init (3, 2, 2.0f)` and `InsertToken` of 0, 1, 0,
0, 2 on a new manager, and what the conditions of the invariant exclude:
with `lastN = 0` the first `InsertToken` reads the front of an empty queue, and
a token outside `[0, vocabSize)` is written outside the buffer. -/
theorem penalty_window_example :
    ((TokenPenaltyManager.new.run 3 2 1073741824 [0, 1, 0, 0, 2]).toOption.map
        fun m => (m.q, m.cnt 0, m.cnt 1, m.cnt 2)) = some ([0, 2], some 1, none, some 1)
      ∧ ((TokenPenaltyManager.new.run 3 2 1073741824 [0, 1, 0, 0, 2]).toOption.bind
          fun m => (bytesAt m.penalty.cpuData 0 12).toOption)
        = some [0, 0, 0, 64, 0, 0, 128, 63, 0, 0, 0, 64]
      ∧ faultOf (TokenPenaltyManager.new.run 3 0 1073741824 [0]) = some .undefined
      ∧ faultOf (TokenPenaltyManager.new.run 3 2 1073741824 [3]) = some .undefined
      ∧ faultOf (TokenPenaltyManager.new.run 3 2 1073741824 [-1]) = some .undefined := by
  decide

/-- C33, witness: a new manager, `Init (3, 2, 2.0f)` and the tokens 0, 1, 0:
the queue holds 1, 0. -/
theorem penalty_window_invariant_witness :
    ∃ m, TokenPenaltyManager.new.run 3 2 1073741824 [0, 1, 0] = .ok m
      ∧ m.q = [1, 0]
      ∧ (∀ t, m.cnt t = if m.q.count t = 0 then none else some (m.q.count t : Int))
      ∧ (∀ t, 0 ≤ t → t < 3 →
          bytesAt m.penalty.cpuData (4 * t.toNat) 4
            = .ok (leBytes 4 (if t ∈ m.q then 1073741824 else oneF32)))
      ∧ (∀ t x, 0 ≤ t → t < 3 → decodeF32 1073741824 = some x →
          floatAt m.penalty.cpuData t = .ok (if t ∈ m.q then x else 1))
      ∧ Usable m.penalty :=
  penalty_window_invariant TokenPenaltyManager.new 3 2 1073741824 [0, 1, 0] Usable_init
    (by decide) (by decide) (by decide) (by decide) (by decide) (by decide)

end fastllm

namespace fastllm

/-! ## The codec in `float` arithmetic -/

/-- The `float` value of `x / scale + zeroPoint`: the quotient rounded to
`float`, and the sum rounded to `float`. -/
theorem scaled_value (c : LowBitConfig) (x v : ℚ) (h : c.scaled x = some v) :
    v = roundTo 24 (-149) (roundTo 24 (-149) (x / c.scale) + c.zeroPoint) := by
  unfold LowBitConfig.scaled at h
  simp only [bind, Option.bind_eq_some] at h
  obtain ⟨t, ht, hv⟩ := h
  unfold divF32 at ht
  split at ht
  · cases ht
  · unfold addF32 at hv
    rw [(toF32_eq_some hv).1, (toF32_eq_some ht).1]

/-- C6 (amended): for every LowBitConfig with a scale other than zero, a zero
point of at most 255 and a bit width `b` in `1 .. 8`, and every `x` with
`|x / scale| ≤ 2 ^ 100`, the `float` expression `x / scale + zeroPoint` (the
quotient rounded to `float`, then the sum rounded to `float`) has a finite value
`v`, and `quantization (x)` returns `clamp (round (v), 0, 2 ^ b - 1)` with
`round` the nearest integer, ties away from zero; the code lies in
`[0, 2 ^ b - 1]`. -/
theorem quantization_eq_clamp_round (c : LowBitConfig) (x : ℚ)
    (h1 : 1 ≤ c.bit) (h8 : c.bit ≤ 8) (hs : c.scale ≠ 0) (hz : c.zeroPoint ≤ 255)
    (hx : |x / c.scale| ≤ 2 ^ 100) :
    ∃ v, c.scaled x = some v
      ∧ v = roundTo 24 (-149) (roundTo 24 (-149) (x / c.scale) + c.zeroPoint)
      ∧ c.quantization x = some (clampCode c.bit (roundHalfAway v))
      ∧ (clampCode c.bit (roundHalfAway v) : ℤ) ≤ 2 ^ c.bit.toNat - 1 := by
  obtain ⟨v, hv⟩ := scaled_returns c x hs hz hx
  obtain ⟨hq, hr⟩ := quantization_clamp_round c x v h1 h8 hv
  exact ⟨v, hv, scaled_value c x v hv, hq, hr⟩

/-- C6 (amended), witness: the config of `min = -1`, `max = 1`, `bit = 8` and
`x = 1`. -/
theorem quantization_eq_clamp_round_witness :
    ∃ v, LowBitConfig.unitRange8.scaled 1 = some v
      ∧ v = roundTo 24 (-149) (roundTo 24 (-149) (1 / LowBitConfig.unitRange8.scale)
        + LowBitConfig.unitRange8.zeroPoint)
      ∧ LowBitConfig.unitRange8.quantization 1
        = some (clampCode LowBitConfig.unitRange8.bit (roundHalfAway v))
      ∧ (clampCode LowBitConfig.unitRange8.bit (roundHalfAway v) : ℤ)
        ≤ 2 ^ LowBitConfig.unitRange8.bit.toNat - 1 :=
  quantization_eq_clamp_round LowBitConfig.unitRange8 1 (by decide) (by decide)
    (by unfold LowBitConfig.unitRange8; norm_num) (by decide)
    (by unfold LowBitConfig.unitRange8; norm_num [abs_of_pos])

/-- C6 as stated fails on the config of `min = -1`, `max = 1`, `bit = 8` at
`x = 1`: the scale is `8421505 / 2 ^ 30`, above `2 / 255`, so in real numbers
`x / scale + zeroPoint` is `2143272959 / 8421505`, below `254.5`, and the
formula of the claim gives the code 254; the `float` quotient is `127.5`, the
`float` sum `254.5`, and `quantization` returns 255. -/
theorem quantization_real_formula_differs :
    LowBitConfig.Reset (-1) 1 8 = some LowBitConfig.unitRange8
      ∧ (1 : ℚ) / LowBitConfig.unitRange8.scale + LowBitConfig.unitRange8.zeroPoint
        = 2143272959 / 8421505
      ∧ clampCode 8 (roundHalfAway
          ((1 : ℚ) / LowBitConfig.unitRange8.scale + LowBitConfig.unitRange8.zeroPoint)) = 254
      ∧ LowBitConfig.unitRange8.scaled 1 = some (509 / 2)
      ∧ LowBitConfig.unitRange8.quantization 1 = some 255 := by
  refine ⟨Reset_unitRange8, ?_, ?_, scaled_unitRange8_one, unitRange8_code_one⟩
  · decide!
  · decide!

/-- C10 (amended): for every range whose width, after clamping so that
`min ≤ 0 ≤ max`, is between `2 ^ -100` and `2 ^ 100`, and every bit width `b` in
`1 .. 8`, the constructor (`Reset`) returns a config, which is the config of
the specification: its range is the clamped one, `qmax = 2 ^ b - 1`, the scale
is `(max - min) / qmax`, the subtraction and the division rounded to `float`,
and is positive, and the zero point is the candidate `-min / scale`, the
quotient rounded to `float`, clamped to `[0, qmax]` and rounded to the nearest
integer, ties away from zero. -/
theorem Reset_eq_ResetSpec (min max : ℚ) (bit : ℤ) (h1 : 1 ≤ bit) (h8 : bit ≤ 8)
    (hlo : (1 : ℚ) / 2 ^ 100 ≤ Max.max max 0 - Min.min min 0)
    (hhi : Max.max max 0 - Min.min min 0 ≤ 2 ^ 100) :
    ∃ c, LowBitConfig.Reset min max bit = some c
      ∧ LowBitConfig.ResetSpec min max bit = some c
      ∧ c.bit = bit ∧ c.min = Min.min min 0 ∧ c.max = Max.max max 0
      ∧ c.scale = roundTo 24 (-149) (roundTo 24 (-149) (c.max - c.min) / (qmaxOf bit : ℚ))
      ∧ 0 < c.scale
      ∧ (c.zeroPoint : ℤ) = roundHalfAway
          (Max.max 0 (Min.min (qmaxOf bit : ℚ) (-roundTo 24 (-149) (c.min / c.scale)))) := by
  rw [← stdMin_eq_min, ← stdMax_eq_max] at hlo hhi
  obtain ⟨c, hc⟩ := Reset_returns min max bit h1 h8 hlo hhi
  obtain ⟨e1, e2, e3⟩ := Reset_min_max min max bit c h1 h8 hc
  obtain ⟨_, hpos, _⟩ := Reset_invariant min max bit c h1 h8 hc
  obtain ⟨_, _, _, hscale, _, hzp⟩ := Reset_facts min max bit c h1 h8 hc
  refine ⟨c, hc, ?_, e3, ?_, ?_, hscale, hpos, hzp⟩
  · rw [← Reset_eq_spec min max bit h1 h8]; exact hc
  · rw [e1, stdMin_eq_min]
  · rw [e2, stdMax_eq_max]

/-- C10 (amended), witness: the range `(-1, 1)` at 8 bits. -/
theorem Reset_eq_ResetSpec_witness :
    ∃ c, LowBitConfig.Reset (-1) 1 8 = some c
      ∧ LowBitConfig.ResetSpec (-1) 1 8 = some c
      ∧ c.bit = 8 ∧ c.min = Min.min (-1) 0 ∧ c.max = Max.max 1 0
      ∧ c.scale = roundTo 24 (-149) (roundTo 24 (-149) (c.max - c.min) / (qmaxOf 8 : ℚ))
      ∧ 0 < c.scale
      ∧ (c.zeroPoint : ℤ) = roundHalfAway
          (Max.max 0 (Min.min (qmaxOf 8 : ℚ) (-roundTo 24 (-149) (c.min / c.scale)))) :=
  Reset_eq_ResetSpec (-1) 1 8 (by decide) (by decide) (by norm_num) (by norm_num)

/-- C10 as stated fails on the range `(0, 0)`, which is its own clamped range:
the scale `(0 - 0) / qmax` is 0 and the candidate `-min / scale` is `0 / 0`,
no number, so the recipe gives no zero point; neither the recipe nor the model
of the constructor yields a config. -/
theorem ResetSpec_zero_range :
    Min.min (0 : ℚ) 0 = 0 ∧ Max.max (0 : ℚ) 0 = 0
      ∧ divF32 (Max.max (0 : ℚ) 0 - Min.min (0 : ℚ) 0) (qmaxOf 8 : ℚ) = some 0
      ∧ divF32 (Min.min (0 : ℚ) 0) 0 = none
      ∧ LowBitConfig.ResetSpec 0 0 8 = none
      ∧ LowBitConfig.Reset 0 0 8 = none := by
  have h := Reset_zero_width 0 0 8 (by decide) (by decide) (le_refl _) (le_refl _)
  refine ⟨by decide!, by decide!, by decide!, by decide!, ?_, h⟩
  rw [← Reset_eq_spec 0 0 8 (by decide) (by decide)]
  exact h

end fastllm

namespace fastllm

/-! ## Products that wrap, a missing host buffer and a record cut short -/

/-- C15 as stated fails on the shape `[4194304, 2097152, 2097152]`: `Resize`
on `Data (FLOAT32)`, which has no reservation, stores the shape and the strides
`[2 ^ 42, 2 ^ 21, 1]`, and `Count (0)`, which is `dims[0] * strides[0]` in
`uint64_t`, is 0, while the product of the extents is `2 ^ 64`. -/
theorem Resize_count_wraps :
    (Data.ofType .FLOAT32).expansionDims = []
      ∧ ((Resize (Data.ofType .FLOAT32) [4194304, 2097152, 2097152]).toOption.map
          fun d => (d.dims, d.strides))
        = some ([4194304, 2097152, 2097152], [4398046511104, 2097152, 1])
      ∧ ((Resize (Data.ofType .FLOAT32) [4194304, 2097152, 2097152]).bind
          fun d => Count d 0).toOption = some 0
      ∧ (([4194304, 2097152, 2097152] : List Int).map Int.toNat).prod = 2 ^ 64 := by
  decide

/-- C23 fails on the code: after `Data a (FLOAT32, {2, 3}); a.Allocate ();
a.CopyFrom (Data (FLOAT32))` the tensor is on the host with `expansionBytes`
24 and no buffer. In a build with `USE_CUDA`, `ToDevice (CUDA)` then copies 24
bytes from the null pointer `cpuData`: the call is undefined and the round
trip has no bytes of the original to return. In a build without `USE_CUDA`
the call returns at once. -/
theorem ToDevice_null_host :
    (exampleEmptied.toOption.map
        fun p => (p.1.dataDevice, p.1.expansionBytes, p.1.cpuData.isNone)) = some (.CPU, 24, true)
      ∧ faultOf (exampleEmptied.bind
          fun p => ToDevice true CudaApi.buffers { toData := p.1 } .CUDA) = some .undefined
      ∧ faultOf (exampleEmptied.bind
          fun p => ToDevice false CudaApi.buffers { toData := p.1 } .CUDA) = none := by
  decide

/-- C26 fails on the code: the file of 37 bytes with one INT16 record of shape
`[2]`, cut after the tag at 29 bytes, ends before the 4 bytes of the payload
that the shape and the kind of the record require, and `LoadFromFile` returns
in normal mode without an error, with the tensor of that kind and shape. Cut
anywhere before the end of the tag the file is refused, and so is the file of
a FLOAT32 record cut at the same place. -/
theorem LoadFromFile_accepts_cut_record :
    (exampleTaggedFile 2).length = 37
      ∧ ((exampleTaggedFile 2).take 29).length = 29
      ∧ faultOf (LoadFromFile WeightMap.empty false [102] ((exampleTaggedFile 2).take 29)) = none
      ∧ ((LoadFromFile WeightMap.empty false [102] ((exampleTaggedFile 2).take 29)).toOption.map
          fun w => w.weight.map fun e => (e.1, e.2.dataType, e.2.dims, (GetBytes e.2.toData).toOption))
        = some [([97], .INT16, [2], some 4)]
      ∧ (∀ L ∈ List.range 29,
          faultOf (LoadFromFile WeightMap.empty false [102] ((exampleTaggedFile 2).take L))
            = some .fatal)
      ∧ faultOf (LoadFromFile WeightMap.empty false [102] ((exampleTaggedFile 0).take 29))
          = some .fatal := by
  refine ⟨by decide, by decide, by decide, by decide, by decide, by decide⟩

end fastllm
